import Mathlib

/-! # Verification of the global resource ledger (package `reserve`)

A shallow embedding of `pkg/reserve`: the resource-vector arithmetic of
`utils.go`, the pod encoding of `podres.go`, the node ledger of `noderes.go`
and the global ledger of `globalreserve.go`.

Modelling conventions.

* A Go `map[K]V` with string keys is an association list `GoMap V`.  The order
  of the list stands for the (unspecified) iteration order of the map.  A lookup
  returns the first binding, an assignment replaces the binding in place or
  appends a new one, `delete` removes the binding.  A value reached through a
  pointer stored in a map (`*NodeResInfo`, `*PodResInfo`) is mutated by
  re-assigning the key, which keeps its position.
* A Go program may walk one map in a different order at every `range`
  statement.  The functions of the embedding walk a request map in the order of
  `podRequests`; the variants named `.walk` take the order of each walk as an
  argument.
* A slice `[]int64` is a `List Int`; every slice of the package is built by
  `make([]int64, n)` and never re-sliced, so `len` and `cap` coincide and both
  are `List.length`.  `QuantityToInt` returns the `int64` that the library
  returns, a scaled value outside the range being reduced modulo `2^64`; the
  additions and subtractions on vectors are exact: the development describes
  the executions in which no vector operation overflows.
* A run-time fault (index out of range, access through a nil pointer) is the
  result `none`; every function that can fault returns an `Option`.
* Logging and the HTTP wiring are not part of the embedding.  An argument of
  a log call is still evaluated, so `GetAvailable` inside
  `klog.V(4).Infof(..., nr.GetAvailable())` is kept because it can fault.
* The functions above describe one operation run on its own.  The lock `mu` is
  described apart, by the sequence of lock operations and field accesses that
  each operation makes (section "The lock `mu`").
* The two listers are fields of the ledger that hold what their `List` call
  returns at present.  No operation of the package assigns them; `relist`
  changes them from outside, and `runLive` is a run in which they hold
  arbitrary content at every operation, while `runEvents` is a run in which
  they never change.
-/

namespace reserve

/-! ## Go maps -/

/-- A Go map with string keys, as an association list. -/
abbrev GoMap (V : Type) := List (String × V)

/-- Lookup `m[k]` with the `ok` flag: the first binding of `k`. -/
def mapGet {V : Type} : GoMap V → String → Option V
  | [], _ => none
  | (k', v) :: rest, k => if k' = k then some v else mapGet rest k

/-- The `ok` result of `_, ok := m[k]`. -/
def mapHas {V : Type} (m : GoMap V) (k : String) : Bool := (mapGet m k).isSome

/-- Assignment `m[k] = v`: overwrite in place, or add a new binding. -/
def mapSet {V : Type} (m : GoMap V) (k : String) (v : V) : GoMap V :=
  if mapHas m k then m.map (fun e => if e.1 = k then (k, v) else e) else m ++ [(k, v)]

/-- The builtin `delete(m, k)`. -/
def mapDel {V : Type} (m : GoMap V) (k : String) : GoMap V :=
  m.filter (fun e => !decide (e.1 = k))

/-! ## Kubernetes API objects (the fields the package reads) -/

abbrev ResourceName := String
abbrev UID := String
abbrev PodPhase := String

def ResourceCPU : ResourceName := "cpu"
def ResourceMemory : ResourceName := "memory"
def ResourcePods : ResourceName := "pods"

def PodPending : PodPhase := "Pending"
def PodRunning : PodPhase := "Running"
def PodSucceeded : PodPhase := "Succeeded"
def PodFailed : PodPhase := "Failed"

/-- Modelled from the spec: the type `resource.Quantity` of the Kubernetes API
machinery, which is not part of this repository; a quantity is an exact number
of nano-units, the finest scale the library keeps. -/
structure Quantity where
  nano : Int
deriving DecidableEq, Repr

/-- The `int64` that a two's-complement computation leaves when its exact
result is `x`: the representative of `x` modulo `2^64` in `-2^63 .. 2^63-1`. -/
def wrapInt64 (x : Int) : Int :=
  (x + 9223372036854775808) % 18446744073709551616 - 9223372036854775808

/-- The quotient of `x` by the positive `d`, rounded away from zero. -/
def roundAway (x d : Int) : Int :=
  if 0 ≤ x then (x + (d - 1)) / d else -((-x + (d - 1)) / d)

/-- Modelled from the spec: `Quantity.MilliValue` of the Kubernetes API
machinery, the quantity expressed in milli-units (value × 1000), rounded away
from zero to a whole number; the result is an `int64`, and a scaled value
outside its range is reduced modulo `2^64` (the library multiplies in `int64`
and drops the overflow flag). -/
def Quantity.MilliValue (q : Quantity) : Int := wrapInt64 (roundAway q.nano 1000000)

/-- Modelled from the spec: `Quantity.Value` of the Kubernetes API machinery,
the quantity at native integer granularity, rounded away from zero; the result
is an `int64`, reduced modulo `2^64` outside its range. -/
def Quantity.Value (q : Quantity) : Int := wrapInt64 (roundAway q.nano 1000000000)

/-- Modelled from the spec: `Quantity.Add` of the Kubernetes API machinery, the
exact sum of two quantities. -/
def Quantity.Add (q r : Quantity) : Quantity := ⟨q.nano + r.nano⟩

/-- `resource.NewQuantity(v, DecimalSI)`, also `MustParse` of an integer text. -/
def NewQuantity (v : Int) : Quantity := ⟨v * 1000000000⟩

/-- `resource.MustParse` of a text with the suffix `m`. -/
def NewMilliQuantity (v : Int) : Quantity := ⟨v * 1000000⟩

/-- `resource.MustParse` of a text with the suffix `n`. -/
def NewNanoQuantity (v : Int) : Quantity := ⟨v⟩

/-- A `v1.ResourceList`: a map from resource name to quantity. -/
abbrev ResourceList := GoMap Quantity

structure Container where
  Requests : ResourceList
deriving DecidableEq, Repr

structure Pod where
  Name : String
  UID : UID
  NodeName : String
  SchedulerName : String
  Containers : List Container
  Phase : PodPhase
deriving DecidableEq, Repr

structure Node where
  Name : String
  Allocatable : ResourceList
deriving DecidableEq, Repr

/-! ## utils.go -/

def ResourceTypeBuffer : Nat := 3

def ReserveSchedulerName : String := "schedulername_is_empty"

abbrev resVector := List Int

structure PodReserveResult where
  FailedPods : List String
  Error : String
deriving DecidableEq, Repr

/-- Whether `pat` occurs in `s` as a contiguous block. -/
def hasBlock (pat : List Char) : List Char → Bool
  | [] => pat.isEmpty
  | c :: s => pat.isPrefixOf (c :: s) || hasBlock pat s

/-- Modelled from the spec: the helper `v1helper.IsExtendedResourceName` of
Kubernetes, which is not part of this repository: a name is extended when it is domain-qualified outside the
`kubernetes.io/` namespace and does not start with `requests.`; the syntax check
of the qualified name, which can only turn the answer to `false`, is left out. -/
def IsExtendedResourceName (name : ResourceName) : Bool :=
  let isNative := !(hasBlock ['/'] name.data) || hasBlock "kubernetes.io/".data name.data
  !(isNative || "requests.".data.isPrefixOf name.data)

def QuantityToInt (name : ResourceName) (res : Quantity) : Int :=
  if !IsExtendedResourceName name then
    if name = ResourceCPU then res.MilliValue else res.Value
  else res.Value

def assignedPod (pod : Pod) : Bool := pod.NodeName.length != 0

/-- The loop `for i, v := range b` of `VectorCompare`, run after the length
test, so that `a[i]` exists for every index of `b`. -/
def VectorCompare (a b : resVector) : Bool :=
  if a.length < b.length then false
  else (List.zip a b).all (fun e => !(decide (e.2 > e.1)))

/-- In-place `a[i] = a[i] - v` for every index of `b`; the result is the new
content of `a`, and `none` when `b` is longer than `a` (index out of range). -/
def VectorMinus : resVector → resVector → Option resVector
  | a, [] => some a
  | [], _ :: _ => none
  | x :: a, v :: b => (VectorMinus a b).map (fun r => (x - v) :: r)

/-- The assignment `vec[i] = x`, faulting when `i` is out of range. -/
def vecSet (vec : resVector) (i : Nat) (x : Int) : Option resVector :=
  if i < vec.length then some (vec.set i x) else none

/-- The read `resIDMap[name]` without `ok`: a missing name yields the zero value. -/
def regIndex (resIDMap : GoMap Nat) (name : ResourceName) : Nat :=
  (mapGet resIDMap name).getD 0

/-! ## podres.go -/

structure PodResInfo where
  Name : String
  Status : PodPhase
  Resources : resVector
  Source : String
deriving DecidableEq, Repr

def addResourceList (list new : ResourceList) : ResourceList :=
  new.foldl (fun list e =>
    match mapGet list e.1 with
    | none => mapSet list e.1 e.2
    | some value => mapSet list e.1 (value.Add e.2)) list

/-- The loop `for resName, resValue := range reqs` of `GetPodReq`; the same
loop fills the capacity vector in `NewNodeResInfo`. -/
def writeResources (resIDMap : GoMap Nat) : ResourceList → resVector → Option resVector
  | [], resVec => some resVec
  | (resName, resValue) :: rest, resVec =>
    (vecSet resVec (regIndex resIDMap resName) (QuantityToInt resName resValue)).bind
      (writeResources resIDMap rest)

/-- The summed requests of all containers of the pod (`reqs` in `GetPodReq`). -/
def podRequests (pod : Pod) : ResourceList :=
  pod.Containers.foldl (fun reqs container => addResourceList reqs container.Requests) []

/-- The function `GetPodReq`; the result is the final content of the out-parameter `resVec`. -/
def GetPodReq (pod : Pod) (resIDMap : GoMap Nat) (resVec : resVector) : Option resVector :=
  (writeResources resIDMap (podRequests pod) resVec).bind
    (fun resVec => vecSet resVec (regIndex resIDMap ResourcePods) 1)

/-- The struct literal returned by `NewPodInfo`, given the encoded vector. -/
def NewPodInfo.result (pod : Pod) (resources : resVector) : PodResInfo :=
  { Name := pod.Name
    Status := pod.Phase
    Resources := resources
    Source := if pod.SchedulerName.length < 1 then ReserveSchedulerName else pod.SchedulerName }

def NewPodInfo (pod : Pod) (resIDMap : GoMap Nat) (resVecLen : Nat) : Option PodResInfo :=
  (GetPodReq pod resIDMap (List.replicate resVecLen 0)).map (NewPodInfo.result pod)

/-! ## noderes.go -/

structure NodeResInfo where
  Name : String
  Capa : resVector
  Pods : GoMap PodResInfo
deriving DecidableEq, Repr

def NewNodeResInfo (node : Node) (resIDMap : GoMap Nat) (resVecLen : Nat) : Option NodeResInfo :=
  (writeResources resIDMap node.Allocatable (List.replicate resVecLen 0)).map (fun resources =>
    { Name := node.Name, Capa := resources, Pods := [] })

/-- Whether `GetAvailable` counts the pod: its status is neither Succeeded nor Failed. -/
def counted (pod : PodResInfo) : Bool :=
  decide (pod.Status ≠ PodSucceeded) && decide (pod.Status ≠ PodFailed)

/-- The loop `for _, pod := range nr.Pods` of `GetAvailable`; the inner loop
`avaiRes[i] -= v` over `pod.Resources` is the loop of `VectorMinus`. -/
def subtractPods : GoMap PodResInfo → resVector → Option resVector
  | [], avaiRes => some avaiRes
  | (_, pod) :: rest, avaiRes =>
    if counted pod then (VectorMinus avaiRes pod.Resources).bind (subtractPods rest)
    else subtractPods rest avaiRes

def GetAvailable (nr : NodeResInfo) : Option resVector :=
  subtractPods nr.Pods nr.Capa

def AddPodToCache (nr : NodeResInfo) (pod : Pod) (resIDMap : GoMap Nat) : Option NodeResInfo :=
  (NewPodInfo pod resIDMap nr.Capa.length).bind (fun info =>
    let nr1 : NodeResInfo := { nr with Pods := mapSet nr.Pods pod.UID info }
    (GetAvailable nr1).map (fun _ => nr1))

def UpdatePod (nr : NodeResInfo) (pod : Pod) : Option NodeResInfo :=
  let nr1 : NodeResInfo :=
    match mapGet nr.Pods pod.UID with
    | some podInfo => { nr with Pods := mapSet nr.Pods pod.UID { podInfo with Status := pod.Phase } }
    | none => nr
  (GetAvailable nr1).map (fun _ => nr1)

def DeletePod (nr : NodeResInfo) (pod : Pod) : Option NodeResInfo :=
  let nr1 : NodeResInfo :=
    if mapHas nr.Pods pod.UID then { nr with Pods := mapDel nr.Pods pod.UID } else nr
  (GetAvailable nr1).map (fun _ => nr1)

def CheckPod (nr : NodeResInfo) (pod : Pod) (resIDMap : GoMap Nat) : Option Bool :=
  (GetAvailable nr).bind (fun nodeAvailable =>
    (GetPodReq pod resIDMap (List.replicate nr.Capa.length 0)).map (fun podReq =>
      VectorCompare nodeAvailable podReq))

/-! ## globalreserve.go -/

/-- The ledger.  `NodeLister` and `PodLister` hold what the lister's `List`
call returns: the snapshot, or `none` when the call reports an error. -/
structure GloalReserve where
  ResTypeToID : GoMap Nat
  ResTypeMaxKind : Nat
  NextResourceID : Nat
  NodeCache : GoMap NodeResInfo
  PodToNode : GoMap String
  NodeLister : Option (List Node)
  PodLister : Option (List Pod)
deriving DecidableEq, Repr

/-- The inner loop `for resName := range node.Status.Allocatable` of the type
collection: an unknown name takes the next index. -/
def CollectFromLister.registerTypes : ResourceList → GoMap Nat × Nat → GoMap Nat × Nat
  | [], st => st
  | (resName, _) :: rest, st =>
    if mapHas st.1 resName then CollectFromLister.registerTypes rest st
    else CollectFromLister.registerTypes rest (mapSet st.1 resName st.2, st.2 + 1)

/-- The loop `for _, nodeInfo := range nodes` that collects the resource types. -/
def CollectFromLister.collectTypes : List Node → GoMap Nat × Nat → GoMap Nat × Nat
  | [], st => st
  | node :: rest, st =>
    CollectFromLister.collectTypes rest (CollectFromLister.registerTypes node.Allocatable st)

/-- The loop that builds one node ledger per listed node. -/
def CollectFromLister.collectNodes (resIDMap : GoMap Nat) (maxKind : Nat) :
    List Node → GoMap NodeResInfo → Option (GoMap NodeResInfo)
  | [], cache => some cache
  | node :: rest, cache =>
    (NewNodeResInfo node resIDMap maxKind).bind (fun nr =>
      CollectFromLister.collectNodes resIDMap maxKind rest (mapSet cache node.Name nr))

/-- The loop that adds every listed pod with an assigned, cached node. -/
def CollectFromLister.collectPods : List Pod → GloalReserve → Option GloalReserve
  | [], gr => some gr
  | pod :: rest, gr =>
    if pod.NodeName.length > 0 then
      match mapGet gr.NodeCache pod.NodeName with
      | some podsOnHost =>
        (AddPodToCache podsOnHost pod gr.ResTypeToID).bind (fun nr =>
          CollectFromLister.collectPods rest
            { gr with
              NodeCache := mapSet gr.NodeCache pod.NodeName nr
              PodToNode := mapSet gr.PodToNode pod.UID pod.NodeName })
      | none => CollectFromLister.collectPods rest gr
    else CollectFromLister.collectPods rest gr

/-- The method `CollectFromLister`: the flag is `true` when it returns an error. -/
def CollectFromLister (gr : GloalReserve) : Option (Bool × GloalReserve) :=
  match gr.NodeLister with
  | none => some (true, gr)
  | some nodes =>
    let st := CollectFromLister.collectTypes nodes (gr.ResTypeToID, gr.NextResourceID)
    let maxKind := st.2 + ResourceTypeBuffer
    (CollectFromLister.collectNodes st.1 maxKind nodes gr.NodeCache).bind (fun cache =>
      let gr1 : GloalReserve :=
        { gr with
          ResTypeToID := st.1
          NextResourceID := st.2
          ResTypeMaxKind := maxKind
          NodeCache := cache }
      match gr.PodLister with
      | none => some (true, gr1)
      | some pods => (CollectFromLister.collectPods pods gr1).map (fun gr2 => (false, gr2)))

/-- The guard `if gr.NextResourceID == 0 { gr.CollectFromLister() }`; the
error result is dropped by the caller. -/
def lazyCollect (gr : GloalReserve) : Option GloalReserve :=
  if gr.NextResourceID = 0 then (CollectFromLister gr).map Prod.snd else some gr

def Reserve (gr : GloalReserve) (pod : Pod) (nodeName : String) : Option (String × GloalReserve) :=
  (lazyCollect gr).bind (fun gr =>
    match mapGet gr.NodeCache nodeName with
    | some nodeInfo =>
      (CheckPod nodeInfo pod gr.ResTypeToID).bind (fun checkResult =>
        if checkResult then
          (AddPodToCache nodeInfo pod gr.ResTypeToID).map (fun nodeInfo1 =>
            ("", { gr with
                   NodeCache := mapSet gr.NodeCache nodeName nodeInfo1
                   PodToNode := mapSet gr.PodToNode pod.UID nodeName }))
        else some ("Resource is not enough.", gr))
    | none => some ("NodeName does not exist", gr))

def Unreserve (gr : GloalReserve) (pod : Pod) (nodeName : String) : Option GloalReserve :=
  let gr1 : GloalReserve := { gr with PodToNode := mapDel gr.PodToNode pod.UID }
  match mapGet gr1.NodeCache nodeName with
  | some nodeInfo =>
    (DeletePod nodeInfo pod).map (fun nodeInfo1 =>
      { gr1 with NodeCache := mapSet gr1.NodeCache nodeName nodeInfo1 })
  | none => some gr1

/-- The pairs `(pods[i], nodeNames[i])` visited by the loops of `ReservePods`;
`none` when `nodeNames` is shorter than `pods` (index out of range). -/
def ReservePods.pairs (pods : List Pod) (nodeNames : List String) : Option (List (Pod × String)) :=
  if nodeNames.length < pods.length then none else some (List.zip pods nodeNames)

/-- The loop of `ReservePods` that checks that every target node is cached and
takes one availability snapshot per node. -/
def ReservePods.checkNodes (cache : GoMap NodeResInfo) :
    List (Pod × String) → List String → String → GoMap resVector →
      Option (List String × String × GoMap resVector)
  | [], failed, errorReason, hostToAvailabel => some (failed, errorReason, hostToAvailabel)
  | (p, nodeName) :: rest, failed, errorReason, hostToAvailabel =>
    match mapGet cache nodeName with
    | none =>
      ReservePods.checkNodes cache rest (failed ++ [p.Name]) "Node does not exist" hostToAvailabel
    | some nodeInfo =>
      if mapHas hostToAvailabel nodeName then
        ReservePods.checkNodes cache rest failed errorReason hostToAvailabel
      else
        (GetAvailable nodeInfo).bind (fun avail =>
          ReservePods.checkNodes cache rest failed errorReason
            (mapSet hostToAvailabel nodeName avail))

/-- The loop of `ReservePods` that checks the pods one by one against the
staged availability.  `hostToAvailabel[nodeName]` of a missing key is the nil
slice; `VectorMinus` writes through the slice stored in the map. -/
def ReservePods.checkPods (resIDMap : GoMap Nat) (maxKind : Nat) :
    List (Pod × String) → List String → String → GoMap resVector →
      Option (List String × String × GoMap resVector)
  | [], failed, errorReason, hostToAvailabel => some (failed, errorReason, hostToAvailabel)
  | (p, nodeName) :: rest, failed, errorReason, hostToAvailabel =>
    (GetPodReq p resIDMap (List.replicate maxKind 0)).bind (fun podReq =>
      let avail := (mapGet hostToAvailabel nodeName).getD []
      if VectorCompare avail podReq then
        (VectorMinus avail podReq).bind (fun avail1 =>
          ReservePods.checkPods resIDMap maxKind rest failed errorReason
            (if mapHas hostToAvailabel nodeName then mapSet hostToAvailabel nodeName avail1
             else hostToAvailabel))
      else
        ReservePods.checkPods resIDMap maxKind rest (failed ++ [p.Name])
          "Node does not have enough resource" hostToAvailabel)

/-- The last loop of `ReservePods`: add every pod to its node and to the reverse index. -/
def ReservePods.commit : List (Pod × String) → GloalReserve → Option GloalReserve
  | [], gr => some gr
  | (p, nodeName) :: rest, gr =>
    match mapGet gr.NodeCache nodeName with
    | none => none
    | some nodeInfo =>
      (AddPodToCache nodeInfo p gr.ResTypeToID).bind (fun nodeInfo1 =>
        ReservePods.commit rest
          { gr with
            NodeCache := mapSet gr.NodeCache nodeName nodeInfo1
            PodToNode := mapSet gr.PodToNode p.UID nodeName })

def ReservePods (gr : GloalReserve) (pods : List Pod) (nodeNames : List String) :
    Option (PodReserveResult × GloalReserve) :=
  (lazyCollect gr).bind (fun gr =>
    (ReservePods.pairs pods nodeNames).bind (fun prs =>
      (ReservePods.checkNodes gr.NodeCache prs [] "" []).bind (fun r1 =>
        if r1.2.1.length > 0 then some ({ FailedPods := r1.1, Error := r1.2.1 }, gr)
        else
          (ReservePods.checkPods gr.ResTypeToID gr.ResTypeMaxKind prs r1.1 r1.2.1 r1.2.2).bind
            (fun r2 =>
              if r2.2.1.length > 0 then some ({ FailedPods := r2.1, Error := r2.2.1 }, gr)
              else
                (ReservePods.commit prs gr).map (fun gr1 =>
                  ({ FailedPods := r2.1, Error := "" }, gr1))))))

def UnreservePods : GloalReserve → List Pod → List String → Option GloalReserve
  | gr, [], _ => some gr
  | _, _ :: _, [] => none
  | gr, pod :: pods, nodeName :: nodeNames =>
    (Unreserve gr pod nodeName).bind (fun gr1 => UnreservePods gr1 pods nodeNames)

/-! ## eventhandlers.go

The handlers receive the node or pod of the event: the type assertion on the
object and the unwrapping of a `DeletedFinalStateUnknown` marker happen before
the ledger is touched. -/

/-- The loop `for resName := range node.Status.Allocatable` of `AddNode`: an
unknown name takes the next index unless the registry is full, in which case it
is skipped. -/
def GloalReserve.AddNode.registerTypes (maxKind : Nat) :
    ResourceList → GoMap Nat × Nat → GoMap Nat × Nat
  | [], st => st
  | (resName, _) :: rest, st =>
    if mapHas st.1 resName then GloalReserve.AddNode.registerTypes maxKind rest st
    else if st.2 ≥ maxKind then GloalReserve.AddNode.registerTypes maxKind rest st
    else GloalReserve.AddNode.registerTypes maxKind rest (mapSet st.1 resName st.2, st.2 + 1)

def GloalReserve.AddNode (gr : GloalReserve) (node : Node) : Option GloalReserve :=
  if gr.NextResourceID = 0 then some gr
  else if mapHas gr.NodeCache node.Name then some gr
  else
    let st := GloalReserve.AddNode.registerTypes gr.ResTypeMaxKind node.Allocatable
      (gr.ResTypeToID, gr.NextResourceID)
    (NewNodeResInfo node st.1 gr.ResTypeMaxKind).map (fun nr =>
      { gr with
        ResTypeToID := st.1
        NextResourceID := st.2
        NodeCache := mapSet gr.NodeCache node.Name nr })

def GloalReserve.UpdateNode (gr : GloalReserve) (_oldObj _newObj : Node) : GloalReserve := gr

/-- The loop `for podUID := range nodeInfo.Pods` of `DeleteNode`. -/
def GloalReserve.DeleteNode.dropPods : GoMap PodResInfo → GoMap String → GoMap String
  | [], podToNode => podToNode
  | (podUID, _) :: rest, podToNode =>
    GloalReserve.DeleteNode.dropPods rest (mapDel podToNode podUID)

def GloalReserve.DeleteNode (gr : GloalReserve) (node : Node) : GloalReserve :=
  match mapGet gr.NodeCache node.Name with
  | some nodeInfo =>
    { gr with
      PodToNode := GloalReserve.DeleteNode.dropPods nodeInfo.Pods gr.PodToNode
      NodeCache := mapDel gr.NodeCache node.Name }
  | none => gr

def GloalReserve.AddPod (gr : GloalReserve) (pod : Pod) : Option GloalReserve :=
  if gr.NextResourceID = 0 then some gr
  else if pod.NodeName.length > 0 then
    match mapGet gr.NodeCache pod.NodeName with
    | none => some gr
    | some nodeInfo =>
      if mapHas nodeInfo.Pods pod.UID then some gr
      else
        (AddPodToCache nodeInfo pod gr.ResTypeToID).map (fun nodeInfo1 =>
          { gr with NodeCache := mapSet gr.NodeCache pod.NodeName nodeInfo1 })
  else some gr

/-- The first half of `UpdatePod`: the reverse-index lookup that computes
`addFlag`.  In the branch of a changed host name the ledger of the old host is
read without a check, and the access faults when that host is not cached. -/
def GloalReserve.UpdatePod.locate (gr : GloalReserve) (newPod : Pod) :
    Option (Bool × GloalReserve) :=
  match mapGet gr.PodToNode newPod.UID with
  | none =>
    some (true, { gr with PodToNode := mapSet gr.PodToNode newPod.UID newPod.NodeName })
  | some oldHostName =>
    if oldHostName ≠ newPod.NodeName then
      match mapGet gr.NodeCache oldHostName with
      | none => none
      | some oldNode =>
        some (true,
          { gr with
            NodeCache := mapSet gr.NodeCache oldHostName
              { oldNode with Pods := mapDel oldNode.Pods newPod.UID } })
    else some (false, gr)

def GloalReserve.UpdatePod (gr : GloalReserve) (_oldObj : Option Pod) (newPod : Pod) :
    Option GloalReserve :=
  if newPod.NodeName.length > 0 then
    (GloalReserve.UpdatePod.locate gr newPod).bind (fun r =>
      match mapGet r.2.NodeCache newPod.NodeName with
      | some nodeCache =>
        if r.1 then
          (AddPodToCache nodeCache newPod r.2.ResTypeToID).map (fun nodeCache1 =>
            { r.2 with NodeCache := mapSet r.2.NodeCache newPod.NodeName nodeCache1 })
        else
          (reserve.UpdatePod nodeCache newPod).map (fun nodeCache1 =>
            { r.2 with NodeCache := mapSet r.2.NodeCache newPod.NodeName nodeCache1 })
      | none => some r.2)
  else some gr

def GloalReserve.DeletePod (gr : GloalReserve) (pod : Pod) : Option GloalReserve :=
  let gr1 : GloalReserve := { gr with PodToNode := mapDel gr.PodToNode pod.UID }
  if pod.NodeName.length > 0 then
    match mapGet gr1.NodeCache pod.NodeName with
    | some nodecache =>
      (reserve.DeletePod nodecache pod).map (fun nodecache1 =>
        { gr1 with NodeCache := mapSet gr1.NodeCache pod.NodeName nodecache1 })
    | none => some gr1
  else some gr1

/-! ## stub.go: the fixtures of the unit tests -/

def InitGR (nodes : List Node) (pods : List Pod) (collected : Bool) : Option GloalReserve :=
  let gr : GloalReserve :=
    { ResTypeToID := []
      ResTypeMaxKind := 0
      NextResourceID := 0
      NodeCache := []
      PodToNode := []
      NodeLister := some nodes
      PodLister := some pods }
  if collected then (CollectFromLister gr).map Prod.snd else some gr

def GetResIDMap : GoMap Nat :=
  [(ResourceCPU, 0), (ResourceMemory, 1), (ResourcePods, 2),
   ("ExtendedResType0", 3), ("ExtendedResType1", 4)]

def GetNode0 : Node :=
  { Name := "node0"
    Allocatable :=
      [(ResourceCPU, NewQuantity 2), (ResourceMemory, NewQuantity 5000),
       (ResourcePods, NewQuantity 10)] }

def GetNode1 : Node :=
  { Name := "node1"
    Allocatable :=
      [(ResourceCPU, NewQuantity 2), (ResourceMemory, NewQuantity 5000),
       (ResourcePods, NewQuantity 10), ("ExtendedResType0", NewQuantity 10)] }

def GetNode2 : Node :=
  { Name := "node2"
    Allocatable :=
      [(ResourceCPU, NewQuantity 2), (ResourceMemory, NewQuantity 5000),
       (ResourcePods, NewQuantity 10), ("ExtendedResType1", NewQuantity 10)] }

/-- The fixture `GetPod`, with the cpu request given in milli-units. -/
def GetPod (name : String) (cpuMilli : Int) (mem : Int) (nodename : String) (sta : PodPhase) : Pod :=
  { Name := name
    UID := "NS1-" ++ name
    NodeName := nodename
    SchedulerName := ""
    Containers :=
      [{ Requests := [(ResourceCPU, NewMilliQuantity cpuMilli), (ResourceMemory, NewQuantity mem)] }]
    Phase := sta }

end reserve

namespace reserve

/-! ## Well-formed ledgers and reference definitions -/

/-- Slot `i` of a vector, `0` beyond its end. -/
def vget (v : resVector) (i : Nat) : Int := v.getD i 0

/-- A node ledger is well formed for vector length `n`: the capacity and every
tracked pod vector have length `n`, and the pod set has one binding per UID. -/
def NodeWF (n : Nat) (nr : NodeResInfo) : Prop :=
  nr.Capa.length = n ∧ (∀ e ∈ nr.Pods, e.2.Resources.length = n) ∧ (nr.Pods.map Prod.fst).Nodup

instance (n : Nat) (nr : NodeResInfo) : Decidable (NodeWF n nr) := by
  unfold NodeWF; infer_instance

/-- A ledger is well formed: the vector length is positive, every registered
index is a slot of the vectors, the maps have one binding per key and every
cached node is well formed for `ResTypeMaxKind`. -/
def WellFormed (gr : GloalReserve) : Prop :=
  0 < gr.ResTypeMaxKind ∧ (∀ e ∈ gr.ResTypeToID, e.2 < gr.ResTypeMaxKind) ∧
  (gr.NodeCache.map Prod.fst).Nodup ∧ (gr.PodToNode.map Prod.fst).Nodup ∧
  (∀ e ∈ gr.NodeCache, NodeWF gr.ResTypeMaxKind e.2)

instance (gr : GloalReserve) : Decidable (WellFormed gr) := by
  unfold WellFormed; infer_instance

/-- A bootstrapped ledger: at least one resource type is registered (so that no
call triggers the lazy bootstrap) and the ledger is well formed. -/
def Bootstrapped (gr : GloalReserve) : Prop :=
  gr.NextResourceID ≠ 0 ∧ WellFormed gr

instance (gr : GloalReserve) : Decidable (Bootstrapped gr) := by
  unfold Bootstrapped; infer_instance

/-- What a pod entry consumes of slot `i`: its vector when its status is
neither Succeeded nor Failed, nothing otherwise. -/
def contrib (pod : PodResInfo) (i : Nat) : Int :=
  if counted pod then vget pod.Resources i else 0

/-- The amount of slot `i` consumed on a node: the sum over the tracked pods. -/
def usedAt (pods : GoMap PodResInfo) (i : Nat) : Int :=
  (pods.map (fun e => contrib e.2 i)).sum

/-- What the binding of `k`, if any, consumes of slot `i`. -/
def oldContrib (pods : GoMap PodResInfo) (k : UID) (i : Nat) : Int :=
  ((mapGet pods k).map (fun p => contrib p i)).getD 0

/-- The reference definition of availability, following the specification:
capacity minus the sum of the resource vectors of every tracked pod whose status
is not a terminal state (Succeeded, Failed), slot by slot. -/
def AvailableSpec (nr : NodeResInfo) : resVector :=
  (List.range nr.Capa.length).map (fun i =>
    vget nr.Capa i -
      ((nr.Pods.filter (fun e =>
          decide (e.2.Status ≠ PodSucceeded ∧ e.2.Status ≠ PodFailed))).map
        (fun e => vget e.2.Resources i)).sum)

/-- The availability of the node cached under `nodeName`. -/
def AvailableOf (gr : GloalReserve) (nodeName : String) : Option resVector :=
  (mapGet gr.NodeCache nodeName).bind GetAvailable

/-- The ledger after `pod`, encoded as `req`, was added to the node ledger `nr`
cached under `nodeName`: the success branch of `Reserve` and one step of the
last loop of `ReservePods`. -/
def reserved (gr : GloalReserve) (pod : Pod) (nodeName : String) (nr : NodeResInfo)
    (req : resVector) : GloalReserve :=
  { gr with
    NodeCache := mapSet gr.NodeCache nodeName
      { nr with Pods := mapSet nr.Pods pod.UID (NewPodInfo.result pod req) }
    PodToNode := mapSet gr.PodToNode pod.UID nodeName }

/-- The encoded resource vector of a pod in a ledger (the nil slice when the
encoding faults). -/
def encode (gr : GloalReserve) (pod : Pod) : resVector :=
  (GetPodReq pod gr.ResTypeToID (List.replicate gr.ResTypeMaxKind 0)).getD []

/-- The availability of a node at the time of a call (the nil slice when the
node is not cached). -/
def availableAt (gr : GloalReserve) (nodeName : String) : resVector :=
  (AvailableOf gr nodeName).getD []

/-- The names, in request order, of the pods whose target node is not cached. -/
def missingNames (cache : GoMap NodeResInfo) (prs : List (Pod × String)) : List String :=
  (prs.filter (fun e => !mapHas cache e.2)).map (fun e => e.1.Name)

/-- The reference definition of the admission phase, following the
specification: iterate the pairs in request order; test the pod's vector against
the staged availability of its node; on success subtract it from the staged
availability, on failure record the pod name and leave the staging as it is. -/
def stagedFailures (enc : Pod → resVector) :
    (String → resVector) → List (Pod × String) → List String
  | _, [] => []
  | staged, (p, n) :: rest =>
    if VectorCompare (staged n) (enc p) then
      stagedFailures enc
        (fun m => if m = n then List.zipWith (fun x y => x - y) (staged n) (enc p) else staged m)
        rest
    else p.Name :: stagedFailures enc staged rest

/-- The amount of slot `i` that the pairs of a batch aimed at node `m` ask for. -/
def demand (enc : Pod → resVector) (prs : List (Pod × String)) (m : String) (i : Nat) : Int :=
  ((prs.filter (fun e => decide (e.2 = m))).map (fun e => vget (enc e.1) i)).sum

/-- Every summed resource request of the pod is encoded as a non-negative
number: the quantity is non-negative and its scaled value fits an `int64`. -/
def PodNonneg (pod : Pod) : Prop :=
  ∀ e ∈ podRequests pod, 0 ≤ QuantityToInt e.1 e.2

instance (pod : Pod) : Decidable (PodNonneg pod) := by
  unfold PodNonneg; infer_instance

/-- An availability exists (the computation did not fault) and all its slots
are non-negative. -/
def slotsNonneg : Option resVector → Prop
  | some a => ∀ x ∈ a, (0 : Int) ≤ x
  | none => False

instance : (o : Option resVector) → Decidable (slotsNonneg o)
  | some a => by unfold slotsNonneg; infer_instance
  | none => by unfold slotsNonneg; infer_instance

/-- No cached node is overcommitted: the availability of every cached node is
non-negative in every slot. -/
def AvailableNonneg (gr : GloalReserve) : Prop :=
  ∀ e ∈ gr.NodeCache, slotsNonneg (GetAvailable e.2)

instance (gr : GloalReserve) : Decidable (AvailableNonneg gr) := by
  unfold AvailableNonneg; infer_instance

/-- Every tracked pod vector is non-negative in every slot. -/
def TrackedNonneg (gr : GloalReserve) : Prop :=
  ∀ e ∈ gr.NodeCache, ∀ pe ∈ e.2.Pods, ∀ x ∈ pe.2.Resources, (0 : Int) ≤ x

instance (gr : GloalReserve) : Decidable (TrackedNonneg gr) := by
  unfold TrackedNonneg; infer_instance

/-- A reservation call on the ledger. -/
inductive Op where
  | reserve (pod : Pod) (nodeName : String)
  | reservePods (pods : List Pod) (nodeNames : List String)
  | unreserve (pod : Pod) (nodeName : String)

/-- The calls considered: pods with non-negative requests, batch lists of equal length. -/
def Op.valid : Op → Prop
  | Op.reserve pod _ => PodNonneg pod
  | Op.reservePods pods nodeNames =>
    pods.length = nodeNames.length ∧ ∀ p ∈ pods, PodNonneg p
  | Op.unreserve _ _ => True

instance (op : Op) : Decidable op.valid := by
  cases op <;> unfold Op.valid <;> infer_instance

/-- The ledger after one call, whatever the call returns. -/
def applyOp (gr : GloalReserve) : Op → Option GloalReserve
  | Op.reserve pod nodeName => (Reserve gr pod nodeName).map Prod.snd
  | Op.reservePods pods nodeNames => (ReservePods gr pods nodeNames).map Prod.snd
  | Op.unreserve pod nodeName => Unreserve gr pod nodeName

/-- The ledger after a sequence of calls. -/
def runOps : GloalReserve → List Op → Option GloalReserve
  | gr, [] => some gr
  | gr, op :: ops => (applyOp gr op).bind (fun gr1 => runOps gr1 ops)

/-- An operation on the ledger: bootstrap, a node or pod event, or a
reservation call. -/
inductive Event where
  | collect
  | addNode (node : Node)
  | updateNode (oldNode newNode : Node)
  | deleteNode (node : Node)
  | addPod (pod : Pod)
  | updatePod (oldPod : Option Pod) (newPod : Pod)
  | deletePod (pod : Pod)
  | reserve (pod : Pod) (nodeName : String)
  | reservePods (pods : List Pod) (nodeNames : List String)
  | unreserve (pod : Pod) (nodeName : String)
  | unreservePods (pods : List Pod) (nodeNames : List String)

/-- The ledger after one operation, whatever the operation returns. -/
def applyEvent (gr : GloalReserve) : Event → Option GloalReserve
  | Event.collect => (CollectFromLister gr).map Prod.snd
  | Event.addNode node => gr.AddNode node
  | Event.updateNode oldNode newNode => some (gr.UpdateNode oldNode newNode)
  | Event.deleteNode node => some (gr.DeleteNode node)
  | Event.addPod pod => gr.AddPod pod
  | Event.updatePod oldPod newPod => gr.UpdatePod oldPod newPod
  | Event.deletePod pod => gr.DeletePod pod
  | Event.reserve pod nodeName => (Reserve gr pod nodeName).map Prod.snd
  | Event.reservePods pods nodeNames => (ReservePods gr pods nodeNames).map Prod.snd
  | Event.unreserve pod nodeName => Unreserve gr pod nodeName
  | Event.unreservePods pods nodeNames => UnreservePods gr pods nodeNames

/-- The ledger after a sequence of operations. -/
def runEvents : GloalReserve → List Event → Option GloalReserve
  | gr, [] => some gr
  | gr, ev :: evs => (applyEvent gr ev).bind (fun gr1 => runEvents gr1 evs)

/-- Whether the node `n` is cached and its pod set has an entry under `p`. -/
def podOn (gr : GloalReserve) (p : UID) (n : String) : Bool :=
  match mapGet gr.NodeCache n with
  | some nr => mapHas nr.Pods p
  | none => false

/-- The reverse index and the node pod sets are in lock-step: a UID is mapped
to a node name exactly when that node is cached and tracks the UID. -/
def LockStep (gr : GloalReserve) : Prop :=
  ∀ p n, mapGet gr.PodToNode p = some n ↔ podOn gr p n = true

/-- Lock-step stated on the bindings of the two maps, which can be evaluated. -/
def LockStepCheck (gr : GloalReserve) : Prop :=
  (∀ e ∈ gr.PodToNode, podOn gr e.1 e.2 = true) ∧
  (∀ ne ∈ gr.NodeCache, ∀ pe ∈ ne.2.Pods, mapGet gr.PodToNode pe.1 = some ne.1)

instance (gr : GloalReserve) : Decidable (LockStepCheck gr) := by
  unfold LockStepCheck; infer_instance

/-- The reverse index records the UID on no node other than `nodeName`. -/
def recordedOnly (gr : GloalReserve) (uid : UID) (nodeName : String) : Prop :=
  mapGet gr.PodToNode uid = none ∨ mapGet gr.PodToNode uid = some nodeName

instance (gr : GloalReserve) (uid : UID) (nodeName : String) :
    Decidable (recordedOnly gr uid nodeName) := by
  unfold recordedOnly; infer_instance

/-- The operations that keep the two structures in lock-step.  A reservation
call names the node on which the pod is recorded, if it is recorded; a pod-add
event finds nothing to insert; a pod-update event is in place or the first
sighting of a pod on a cached node; a pod-delete event is for the recorded
node; bootstrap is not repeated. -/
def Event.admissible (gr : GloalReserve) : Event → Prop
  | Event.collect => False
  | Event.addNode _ => True
  | Event.updateNode _ _ => True
  | Event.deleteNode _ => True
  | Event.addPod pod =>
    pod.NodeName.length = 0 ∨ mapHas gr.NodeCache pod.NodeName = false ∨
      podOn gr pod.UID pod.NodeName = true
  | Event.updatePod _ newPod =>
    newPod.NodeName.length = 0 ∨ mapGet gr.PodToNode newPod.UID = some newPod.NodeName ∨
      (mapGet gr.PodToNode newPod.UID = none ∧ mapHas gr.NodeCache newPod.NodeName = true)
  | Event.deletePod pod =>
    mapGet gr.PodToNode pod.UID = none ∨
      (pod.NodeName.length > 0 ∧ mapGet gr.PodToNode pod.UID = some pod.NodeName)
  | Event.reserve pod nodeName => recordedOnly gr pod.UID nodeName
  | Event.reservePods pods nodeNames =>
    pods.length = nodeNames.length ∧
    (∀ e ∈ List.zip pods nodeNames, recordedOnly gr e.1.UID e.2) ∧
    (∀ e1 ∈ List.zip pods nodeNames, ∀ e2 ∈ List.zip pods nodeNames,
      e1.1.UID = e2.1.UID → e1.2 = e2.2)
  | Event.unreserve pod nodeName => recordedOnly gr pod.UID nodeName
  | Event.unreservePods pods nodeNames =>
    pods.length = nodeNames.length ∧
    ∀ e ∈ List.zip pods nodeNames, recordedOnly gr e.1.UID e.2

instance (gr : GloalReserve) (ev : Event) : Decidable (ev.admissible gr) := by
  cases ev <;> unfold Event.admissible <;> infer_instance

/-- Every operation of the sequence is admissible in the state in which it is applied. -/
def admissibleRun : GloalReserve → List Event → Prop
  | _, [] => True
  | gr, ev :: evs =>
    ev.admissible gr ∧
      match applyEvent gr ev with
      | some gr1 => admissibleRun gr1 evs
      | none => True

instance admissibleRun.decide : (gr : GloalReserve) → (evs : List Event) →
    Decidable (admissibleRun gr evs)
  | _, [] => by unfold admissibleRun; infer_instance
  | gr, ev :: evs =>
    match h : applyEvent gr ev with
    | some gr1 =>
      have : Decidable (admissibleRun gr1 evs) := admissibleRun.decide gr1 evs
      decidable_of_iff (ev.admissible gr ∧ admissibleRun gr1 evs) (by
        rw [admissibleRun, h])
    | none =>
      decidable_of_iff (ev.admissible gr) (by
        rw [admissibleRun, h]; simp)

/-- A sequence of admissible operations on the ledger bootstrapped from `node0`
and `node1` with `pod0` listed on `node0`. -/
def testEvents : List Event :=
  [Event.addNode GetNode2,
   Event.updatePod none (GetPod "pod0" 1000 1000 "node0" PodRunning),
   Event.updatePod none (GetPod "pod3" 100 500 "node1" PodPending),
   Event.reserve (GetPod "pod1" 1000 1000 "node0" PodPending) "node0",
   Event.reservePods
     [GetPod "pod4" 100 100 "node1" PodPending, GetPod "pod5" 100 100 "node2" PodPending]
     ["node1", "node2"],
   Event.unreserve (GetPod "pod1" 1000 1000 "node0" PodPending) "node0",
   Event.deletePod (GetPod "pod0" 1000 1000 "node0" PodRunning),
   Event.unreservePods
     [GetPod "pod4" 100 100 "node1" PodPending, GetPod "pod5" 100 100 "node2" PodPending]
     ["node1", "node2"],
   Event.deleteNode GetNode1,
   Event.addPod (GetPod "pod3" 100 500 "node1" PodPending)]

/-- A sequence of calls on `testLedger`: `pod0` reserved twice, a batch that
names `pod1` twice, a request that does not fit, and an unreservation. -/
def testOps : List Op :=
  [Op.reserve (GetPod "pod0" 1000 1000 "node0" PodPending) "node0",
   Op.reserve (GetPod "pod0" 1000 1000 "node0" PodPending) "node0",
   Op.reservePods
     [GetPod "pod1" 500 1000 "node0" PodPending, GetPod "pod1" 500 1000 "node0" PodPending]
     ["node0", "node0"],
   Op.reserve (GetPod "pod2" 2000 1000 "node0" PodPending) "node0",
   Op.unreserve (GetPod "pod0" 1000 1000 "node0" PodPending) "node0"]

/-- The ledger of the unit tests after bootstrap from the single node `node0`. -/
def testLedger : GloalReserve :=
  { ResTypeToID := [(ResourceCPU, 0), (ResourceMemory, 1), (ResourcePods, 2)]
    ResTypeMaxKind := 6
    NextResourceID := 3
    NodeCache := [("node0", { Name := "node0", Capa := [2000, 5000, 10, 0, 0, 0], Pods := [] })]
    PodToNode := []
    NodeLister := some [GetNode0]
    PodLister := some [] }

/-- The node ledger of `TestGetAvailable` after its two `AddPodToCache` calls:
`node1` with the pending `pod0` and the succeeded `pod1`. -/
def testNode1 : NodeResInfo :=
  { Name := "node1"
    Capa := [2000, 5000, 10, 10, 0, 0, 0, 0]
    Pods :=
      [("NS1-pod0",
        { Name := "pod0", Status := PodPending, Resources := [1000, 1000, 1, 0, 0, 0, 0, 0],
          Source := ReserveSchedulerName }),
       ("NS1-pod1",
        { Name := "pod1", Status := PodSucceeded, Resources := [1000, 1000, 1, 0, 0, 0, 0, 0],
          Source := ReserveSchedulerName })] }

/-- The pod `pod0` of `TestReserve`: cpu "1", memory "1000". -/
def testPod0 : Pod := GetPod "pod0" 1000 1000 "node0" PodPending

/-- The pods `pod1`, `pod2` and `pod3` of `TestHttpReserve`. -/
def testPod1 : Pod := GetPod "pod1" 1000 1000 "node0" PodPending

def testPod2 : Pod := GetPod "pod2" 1000 1000 "node0" PodPending

def testPod3 : Pod := GetPod "pod3" 100 500 "node1" PodPending

/-- The ledger `testLedger` after the batch `pod0`, `pod1` was reserved on `node0`. -/
def testLedgerBatch : GloalReserve :=
  { testLedger with
    NodeCache :=
      [("node0",
        { Name := "node0"
          Capa := [2000, 5000, 10, 0, 0, 0]
          Pods :=
            [("NS1-pod0", NewPodInfo.result testPod0 [1000, 1000, 1, 0, 0, 0]),
             ("NS1-pod1", NewPodInfo.result testPod1 [1000, 1000, 1, 0, 0, 0])] })]
    PodToNode := [("NS1-pod0", "node0"), ("NS1-pod1", "node0")] }

/-- The ledger `testLedger` after the node-add event of `node1`, which brings
the resource type `ExtendedResType0`. -/
def testLedgerTwoNodes : GloalReserve :=
  { testLedger with
    ResTypeToID :=
      [(ResourceCPU, 0), (ResourceMemory, 1), (ResourcePods, 2), ("ExtendedResType0", 3)]
    NextResourceID := 4
    NodeCache :=
      [("node0", { Name := "node0", Capa := [2000, 5000, 10, 0, 0, 0], Pods := [] }),
       ("node1", { Name := "node1", Capa := [2000, 5000, 10, 10, 0, 0], Pods := [] })] }

/-- A ledger whose registry is full: `testLedger` after three nodes, each with
one new extended resource type, were added and deleted again. -/
def testLedgerFull : GloalReserve :=
  { testLedger with
    ResTypeToID :=
      [(ResourceCPU, 0), (ResourceMemory, 1), (ResourcePods, 2),
       ("ExtendedResType0", 3), ("ExtendedResType1", 4), ("ExtendedResType2", 5)]
    NextResourceID := 6 }

/-- A node whose only allocatable resource is an extended type. -/
def testNodeExt (name : String) (resName : ResourceName) (v : Int) : Node :=
  { Name := name, Allocatable := [(resName, NewQuantity v)] }

/-- A pod with one container and the given requests. -/
def testPodWith (name : String) (requests : ResourceList) : Pod :=
  { Name := name
    UID := "NS1-" ++ name
    NodeName := "node0"
    SchedulerName := ""
    Containers := [{ Requests := requests }]
    Phase := PodPending }

/-- The pod `pod1` of `TestUnreserve`: cpu "2", memory "1000". -/
def testPodBig : Pod := GetPod "pod1" 2000 1000 "node0" PodPending

/-- The ledger of `TestUnreserve`: bootstrap from `node0` with `pod0` and `pod1`
listed on it. -/
def testLedgerTwoPods : GloalReserve :=
  { testLedger with
    NodeCache :=
      [("node0",
        { Name := "node0"
          Capa := [2000, 5000, 10, 0, 0, 0]
          Pods :=
            [("NS1-pod0", NewPodInfo.result testPod0 [1000, 1000, 1, 0, 0, 0]),
             ("NS1-pod1", NewPodInfo.result testPodBig [2000, 1000, 1, 0, 0, 0])] })]
    PodToNode := [("NS1-pod0", "node0"), ("NS1-pod1", "node0")]
    PodLister := some [testPod0, testPodBig] }

/-- The ledger `testLedger` after `pod0` was reserved on `node0`. -/
def testLedgerPod0 : GloalReserve :=
  { testLedger with
    NodeCache :=
      [("node0",
        { Name := "node0"
          Capa := [2000, 5000, 10, 0, 0, 0]
          Pods := [("NS1-pod0", NewPodInfo.result testPod0 [1000, 1000, 1, 0, 0, 0])] })]
    PodToNode := [("NS1-pod0", "node0")] }

/-- The loop `for i, v := range b` of `VectorCompare` with the read `a[i]` made
explicit: an index outside `a` is a fault. -/
def VectorCompare.scan (a : resVector) : Nat → resVector → Option Bool
  | _, [] => some true
  | i, v :: rest =>
    match a[i]? with
    | none => none
    | some x => if v > x then some false else VectorCompare.scan a (i + 1) rest

/-- The function `VectorCompare` with its index reads made explicit. -/
def VectorCompare.checked (a b : resVector) : Option Bool :=
  if a.length < b.length then some false else VectorCompare.scan a 0 b

/-- The capacity vector of the node cached under `nodeName`. -/
def capaOf (gr : GloalReserve) (nodeName : String) : Option resVector :=
  (mapGet gr.NodeCache nodeName).map (fun nr => nr.Capa)

/-- The registry maps its names one-to-one onto the indices `0 .. next-1`: no
name is bound twice and the indices, in the order of registration, are
`0, 1, .., next-1`. -/
def RegistryDense (reg : GoMap Nat) (next : Nat) : Prop :=
  (reg.map Prod.fst).Nodup ∧ reg.map Prod.snd = List.range next

instance (reg : GoMap Nat) (next : Nat) : Decidable (RegistryDense reg next) := by
  unfold RegistryDense; infer_instance

/-- The distinct allocatable resource names of the listed nodes. -/
def allocatableNames (nodes : List Node) : List ResourceName :=
  (nodes.flatMap (fun node => node.Allocatable.map Prod.fst)).dedup

/-- The allocatable names of a resource list that are absent from the
registry, in the order in which they are visited. -/
def newNames (reg : GoMap Nat) (rl : ResourceList) : List ResourceName :=
  (rl.map Prod.fst).filter (fun name => !mapHas reg name)

/-- A sequence of assignments `m[k] = v`, in order. -/
def mapSetAll {V : Type} (kvs : List (String × V)) (m : GoMap V) : GoMap V :=
  kvs.foldl (fun m e => mapSet m e.1 e.2) m

/-- What a sequence of assignments makes of one binding of a map. -/
def overwrite {V : Type} (kvs : List (String × V)) (e : String × V) : String × V :=
  kvs.foldl (fun e kv => if e.1 = kv.1 then kv else e) e

/-- Every counted pod vector of the pod set has at most `n` slots: the
condition under which `GetAvailable` of a node with capacity length `n` does
not fault. -/
def Fits (n : Nat) (pods : GoMap PodResInfo) : Prop :=
  ∀ e ∈ pods, counted e.2 = true → e.2.Resources.length ≤ n

/-- The assignments that the pod loop of bootstrap makes in the pod set of the
node `nodeName`, whose vectors have length `len`. -/
def podEntries (resIDMap : GoMap Nat) (nodeName : String) (len : Nat) (pods : List Pod) :
    List (String × PodResInfo) :=
  (pods.filter (fun pod => decide (pod.NodeName.length > 0) && decide (pod.NodeName = nodeName))).map
    (fun pod =>
      (pod.UID, NewPodInfo.result pod ((GetPodReq pod resIDMap (List.replicate len 0)).getD [])))

/-- The assignments that the pod loop of bootstrap makes in the reverse index. -/
def podRecords (cache : GoMap NodeResInfo) (pods : List Pod) : List (String × String) :=
  (pods.filter (fun pod => decide (pod.NodeName.length > 0) && mapHas cache pod.NodeName)).map
    (fun pod => (pod.UID, pod.NodeName))

/-- The assignments that the node loop of bootstrap makes in the node map. -/
def nodeEntries (resIDMap : GoMap Nat) (maxKind : Nat) (nodes : List Node) :
    List (String × NodeResInfo) :=
  nodes.filterMap (fun node =>
    (NewNodeResInfo node resIDMap maxKind).map (fun nr => (node.Name, nr)))

/-- What the pod loop of bootstrap makes of one binding of the node map. -/
def loadPods (resIDMap : GoMap Nat) (pods : List Pod) (e : String × NodeResInfo) :
    String × NodeResInfo :=
  (e.1, { e.2 with
    Pods := mapSetAll (podEntries resIDMap e.1 e.2.Capa.length pods) e.2.Pods })

/-- The ledger built by `NewLocalReserve` before bootstrap, with listers that
return `node0` and no pod. -/
def testLedgerEmpty : GloalReserve :=
  { ResTypeToID := []
    ResTypeMaxKind := 0
    NextResourceID := 0
    NodeCache := []
    PodToNode := []
    NodeLister := some [GetNode0]
    PodLister := some [] }

/-- An empty ledger whose listers return a node without allocatable resources
and a pod assigned to it, so that bootstrap registers no resource type. -/
def testLedgerBare : GloalReserve :=
  { testLedgerEmpty with
    NodeLister := some [{ Name := "node0", Allocatable := [] }]
    PodLister := some [testPod0] }

/-! ## The lock `mu`

The accesses that an operation makes to the lock and to the fields of the
ledger, in program order.  A statement that reaches a node ledger through the
pointer stored in `NodeCache` counts as an access to `NodeCache`.  A loop is
listed with the accesses that one iteration can make.  The deferred
`gr.mu.Unlock()` is the last access of an operation. -/

/-- The fields of the ledger that the lock `mu` protects. -/
inductive Field where
  | ResTypeToID
  | ResTypeMaxKind
  | NextResourceID
  | NodeCache
  | PodToNode
deriving DecidableEq, Repr

/-- A read or a write of a field of the ledger. -/
inductive Touch where
  | read (f : Field)
  | write (f : Field)
deriving DecidableEq, Repr

/-- One step of an operation: `gr.mu.Lock()`, `gr.mu.Unlock()`, or an access to
a field. -/
inductive Access where
  | lock
  | unlock
  | touch (t : Touch)
deriving DecidableEq, Repr

/-- The region from `gr.mu.Lock()` to the deferred `gr.mu.Unlock()`. -/
def locked (ts : List Touch) : List Access :=
  [Access.lock] ++ ts.map Access.touch ++ [Access.unlock]

/-- The accesses of `nodeInfo.CheckPod(pod, gr.ResTypeToID)`. -/
def CheckPod.touches : List Touch :=
  [Touch.read Field.ResTypeToID, Touch.read Field.NodeCache]

/-- The accesses of `nodeInfo.AddPodToCache(pod, gr.ResTypeToID)`. -/
def AddPodToCache.touches : List Touch :=
  [Touch.read Field.ResTypeToID, Touch.write Field.NodeCache, Touch.read Field.NodeCache]

/-- The accesses of `nodeCache.UpdatePod(newPod, gr.ResTypeToID)`. -/
def UpdatePod.touches : List Touch :=
  [Touch.read Field.ResTypeToID, Touch.read Field.NodeCache, Touch.write Field.NodeCache,
   Touch.read Field.NodeCache]

/-- The accesses of `nodeInfo.DeletePod(pod)`. -/
def DeletePod.touches : List Touch :=
  [Touch.read Field.NodeCache, Touch.write Field.NodeCache, Touch.read Field.NodeCache]

/-- The accesses of `CollectFromLister`, which takes no lock itself: the loop
over the resource names of every node, the assignment of `ResTypeMaxKind`, the
loop that builds the node ledgers and the loop over the pods. -/
def CollectFromLister.touches (gr : GloalReserve) : List Touch :=
  match gr.NodeLister with
  | none => []
  | some nodes =>
    nodes.flatMap (fun node => node.Allocatable.flatMap (fun _ =>
      [Touch.read Field.ResTypeToID, Touch.read Field.NextResourceID,
       Touch.write Field.ResTypeToID, Touch.read Field.NextResourceID,
       Touch.write Field.NextResourceID])) ++
    [Touch.read Field.NextResourceID, Touch.write Field.ResTypeMaxKind] ++
    nodes.flatMap (fun _ =>
      [Touch.read Field.ResTypeToID, Touch.read Field.ResTypeMaxKind,
       Touch.write Field.NodeCache]) ++
    match gr.PodLister with
    | none => []
    | some pods =>
      pods.flatMap (fun pod =>
        if pod.NodeName.length > 0 then
          Touch.read Field.NodeCache :: (AddPodToCache.touches ++ [Touch.write Field.PodToNode])
        else [])

/-- The accesses of the guard `if gr.NextResourceID == 0 { gr.CollectFromLister() }`. -/
def lazyCollect.touches (gr : GloalReserve) : List Touch :=
  Touch.read Field.NextResourceID ::
    (if gr.NextResourceID = 0 then CollectFromLister.touches gr else [])

/-- The accesses of `Reserve`: the lock is taken first and released last. -/
def Reserve.trace (gr : GloalReserve) (pod : Pod) (nodeName : String) : List Access :=
  locked
    (lazyCollect.touches gr ++
      match lazyCollect gr with
      | none => []
      | some gr0 =>
        Touch.read Field.NodeCache ::
          match mapGet gr0.NodeCache nodeName with
          | some nodeInfo =>
            CheckPod.touches ++
              (if CheckPod nodeInfo pod gr0.ResTypeToID = some true then
                AddPodToCache.touches ++ [Touch.write Field.PodToNode]
              else [])
          | none => [])

/-- The accesses of `Unreserve`: the lock is taken first and released last. -/
def Unreserve.trace (gr : GloalReserve) (_pod : Pod) (nodeName : String) : List Access :=
  locked
    ([Touch.write Field.PodToNode, Touch.read Field.NodeCache] ++
      (if mapHas gr.NodeCache nodeName then DeletePod.touches else []))

/-- The accesses of `ReservePods`: the lock is taken before the first access to
the ledger and released last; the three loops run over the pairs. -/
def ReservePods.trace (gr : GloalReserve) (pods : List Pod) (nodeNames : List String) :
    List Access :=
  locked
    (lazyCollect.touches gr ++
      (List.zip pods nodeNames).flatMap (fun _ =>
        [Touch.read Field.NodeCache, Touch.read Field.NodeCache]) ++
      match ReservePods gr pods nodeNames with
      | none => []
      | some r =>
        if r.1.Error = "Node does not exist" then []
        else
          (List.zip pods nodeNames).flatMap (fun _ =>
            [Touch.read Field.ResTypeMaxKind, Touch.read Field.ResTypeToID]) ++
          (if r.1.Error = "" then
            (List.zip pods nodeNames).flatMap (fun _ =>
              Touch.read Field.NodeCache :: (AddPodToCache.touches ++ [Touch.write Field.PodToNode]))
          else []))

/-- The accesses of `UnreservePods`: one `Unreserve` per pair. -/
def UnreservePods.trace : GloalReserve → List Pod → List String → List Access
  | _, [], _ => []
  | _, _ :: _, [] => []
  | gr, pod :: pods, nodeName :: nodeNames =>
    Unreserve.trace gr pod nodeName ++
      match Unreserve gr pod nodeName with
      | some gr1 => UnreservePods.trace gr1 pods nodeNames
      | none => []

/-- The accesses of the handler `AddNode`: `gr.NextResourceID` and
`gr.NodeCache` are read before `gr.mu.Lock()`. -/
def GloalReserve.AddNode.trace (gr : GloalReserve) (node : Node) : List Access :=
  Access.touch (Touch.read Field.NextResourceID) ::
    (if gr.NextResourceID = 0 then []
    else
      Access.touch (Touch.read Field.NodeCache) ::
        (if mapHas gr.NodeCache node.Name then []
        else
          locked
            (node.Allocatable.flatMap (fun _ =>
              [Touch.read Field.ResTypeToID, Touch.read Field.NextResourceID,
               Touch.read Field.ResTypeMaxKind, Touch.write Field.ResTypeToID,
               Touch.read Field.NextResourceID, Touch.write Field.NextResourceID]) ++
            [Touch.read Field.ResTypeToID, Touch.read Field.ResTypeMaxKind,
             Touch.write Field.NodeCache])))

/-- The handler `UpdateNode` makes no access. -/
def GloalReserve.UpdateNode.trace : List Access := []

/-- The accesses of the handler `DeleteNode`: the lock is taken first. -/
def GloalReserve.DeleteNode.trace (gr : GloalReserve) (node : Node) : List Access :=
  locked
    (Touch.read Field.NodeCache ::
      match mapGet gr.NodeCache node.Name with
      | some nodeInfo =>
        nodeInfo.Pods.flatMap (fun _ =>
          [Touch.read Field.NodeCache, Touch.write Field.PodToNode]) ++
        [Touch.write Field.NodeCache]
      | none => [])

/-- The accesses of the handler `AddPod`: `gr.NextResourceID` is read before
`gr.mu.Lock()`. -/
def GloalReserve.AddPod.trace (gr : GloalReserve) (pod : Pod) : List Access :=
  Access.touch (Touch.read Field.NextResourceID) ::
    (if gr.NextResourceID = 0 then []
    else if pod.NodeName.length > 0 then
      locked
        (Touch.read Field.NodeCache ::
          match mapGet gr.NodeCache pod.NodeName with
          | none => []
          | some nodeInfo =>
            Touch.read Field.NodeCache ::
              (if mapHas nodeInfo.Pods pod.UID then [] else AddPodToCache.touches))
    else [])

/-- The accesses of the handler `UpdatePod`: the lock is taken before the
first access. -/
def GloalReserve.UpdatePod.trace (gr : GloalReserve) (newPod : Pod) : List Access :=
  if newPod.NodeName.length > 0 then
    locked
      (Touch.read Field.PodToNode ::
        ((match mapGet gr.PodToNode newPod.UID with
          | none => [Touch.write Field.PodToNode]
          | some oldHostName =>
            if oldHostName ≠ newPod.NodeName then
              [Touch.read Field.NodeCache, Touch.write Field.NodeCache]
            else []) ++
         Touch.read Field.NodeCache ::
          (if mapHas gr.NodeCache newPod.NodeName then
            (if mapGet gr.PodToNode newPod.UID = some newPod.NodeName then UpdatePod.touches
             else AddPodToCache.touches)
          else [])))
  else []

/-- The accesses of the handler `DeletePod`: `delete(gr.PodToNode, pod.UID)`
comes before `gr.mu.Lock()`. -/
def GloalReserve.DeletePod.trace (gr : GloalReserve) (pod : Pod) : List Access :=
  Access.touch (Touch.write Field.PodToNode) ::
    (if pod.NodeName.length > 0 then
      locked
        (Touch.read Field.NodeCache ::
          (if mapHas gr.NodeCache pod.NodeName then DeletePod.touches else []))
    else [])

/-- Whether every access to a field is made while the operation holds the lock;
`held` says whether it holds the lock at the start.  The lock is acquired only
when it is not held, released only when it is held, and not held at the end. -/
def guardedFrom : Bool → List Access → Bool
  | held, [] => !held
  | held, Access.lock :: rest => !held && guardedFrom true rest
  | held, Access.unlock :: rest => held && guardedFrom false rest
  | held, Access.touch _ :: rest => held && guardedFrom held rest

/-- Every access of the operation to a field of the ledger happens between an
acquisition of the lock and the release that follows it. -/
def guarded (t : List Access) : Bool := guardedFrom false t

/-- The holder of the lock after the operation `th` makes the access `a`;
`none` when the access is not possible: `Lock()` while the lock is held,
`Unlock()` by an operation that does not hold it. -/
def stepHolder (th : Bool) : Access → Option Bool → Option (Option Bool)
  | Access.lock, none => some (some th)
  | Access.lock, some _ => none
  | Access.unlock, holder => if holder = some th then some none else none
  | Access.touch _, holder => some holder

/-- A run of two operations on one ledger.  The schedule names, step by step,
the operation (`false`: the first, `true`: the second) that makes its next
access.  The result lists the accesses in the order of the run, each with the
operation that makes it; it is `none` when the schedule asks for a step that is
not possible. -/
def interleave : List Bool → List Access → List Access → Option Bool →
    Option (List (Bool × Access))
  | [], _, _, _ => some []
  | false :: _, [], _, _ => none
  | false :: sched, a :: t1, t2, holder =>
    (stepHolder false a holder).bind (fun holder1 =>
      (interleave sched t1 t2 holder1).map (fun run => (false, a) :: run))
  | true :: _, _, [], _ => none
  | true :: sched, t1, a :: t2, holder =>
    (stepHolder true a holder).bind (fun holder1 =>
      (interleave sched t1 t2 holder1).map (fun run => (true, a) :: run))

/-- Whether, in a run, every access to a field is made by the operation that
holds the lock at that moment. -/
def exclusive : Option Bool → List (Bool × Access) → Bool
  | _, [] => true
  | _, (th, Access.lock) :: run => exclusive (some th) run
  | _, (_, Access.unlock) :: run => exclusive none run
  | holder, (th, Access.touch _) :: run => decide (holder = some th) && exclusive holder run

/-! ## The shape of a node ledger -/

/-- The shape that every operation of the package gives a node ledger and
keeps: the vector of every tracked pod has the length of the capacity vector
and the pod set has one binding per UID. -/
def NodeShaped (nr : NodeResInfo) : Prop := NodeWF nr.Capa.length nr

instance (nr : NodeResInfo) : Decidable (NodeShaped nr) := by
  unfold NodeShaped; infer_instance

/-- Every cached node ledger has the shape `NodeShaped`. -/
def Shaped (gr : GloalReserve) : Prop := ∀ e ∈ gr.NodeCache, NodeShaped e.2

instance (gr : GloalReserve) : Decidable (Shaped gr) := by
  unfold Shaped; infer_instance

/-- Every index that `GetPodReq` writes for the pod lies inside a vector of
length `len`: the index of each requested name (0 for a name that is not
registered) and the index of the pod-count type. -/
def Encodable (resIDMap : GoMap Nat) (pod : Pod) (len : Nat) : Prop :=
  (∀ e ∈ podRequests pod, regIndex resIDMap e.1 < len) ∧ regIndex resIDMap ResourcePods < len

instance (resIDMap : GoMap Nat) (pod : Pod) (len : Nat) :
    Decidable (Encodable resIDMap pod len) := by
  unfold Encodable; infer_instance

/-! ## Pod events: entries and fixtures -/

/-- The pod entry stored under `uid` in the pod set of the node `m`, if the
node is cached and tracks the UID. -/
def podEntryAt (gr : GloalReserve) (m : String) (uid : UID) : Option PodResInfo :=
  (mapGet gr.NodeCache m).bind (fun nr => mapGet nr.Pods uid)

/-- The ledger `testLedgerTwoNodes` after `pod0` was reserved on `node0`. -/
def testLedgerMove : GloalReserve :=
  { testLedgerTwoNodes with
    NodeCache :=
      [("node0",
        { Name := "node0"
          Capa := [2000, 5000, 10, 0, 0, 0]
          Pods := [("NS1-pod0", NewPodInfo.result testPod0 [1000, 1000, 1, 0, 0, 0])] }),
       ("node1", { Name := "node1", Capa := [2000, 5000, 10, 10, 0, 0], Pods := [] })]
    PodToNode := [("NS1-pod0", "node0")] }
/-- The pod `pod0` after it was bound to `node1`. -/
def testPod0Moved : Pod := GetPod "pod0" 1000 1000 "node1" PodPending

/-- The pod `pod3` after it was bound to `node0`. -/
def testPod3Moved : Pod := GetPod "pod3" 100 500 "node0" PodPending

/-! ## The invariant of the registry and of the vectors

The ledger of `NewLocalReserve`, the invariant that every run from it keeps,
and the runs themselves. -/

/-- The ledger that `NewLocalReserve` builds, given what the node lister and the
pod lister of the framework handle return. -/
def NewLocalReserve (nodeLister : Option (List Node)) (podLister : Option (List Pod)) :
    GloalReserve :=
  { ResTypeToID := []
    ResTypeMaxKind := 0
    NextResourceID := 0
    NodeCache := []
    PodToNode := []
    NodeLister := nodeLister
    PodLister := podLister }

/-- The well-formedness of the registry and of the vectors: the registry maps
its names one-to-one onto `0 .. NextResourceID-1`; `NextResourceID` is at most
`ResTypeMaxKind`; the maps have one binding per key; the capacity and every pod
vector of every cached node have length `ResTypeMaxKind`; and as long as no
resource type is registered, either nothing is cached and the vector length is
still zero, or bootstrap ran on listed nodes without any allocatable resource
and the vector length is the buffer. -/
def Sound (gr : GloalReserve) : Prop :=
  RegistryDense gr.ResTypeToID gr.NextResourceID ∧
  gr.NextResourceID ≤ gr.ResTypeMaxKind ∧
  (gr.NodeCache.map Prod.fst).Nodup ∧
  (gr.PodToNode.map Prod.fst).Nodup ∧
  (∀ e ∈ gr.NodeCache, NodeWF gr.ResTypeMaxKind e.2) ∧
  (gr.NextResourceID = 0 →
    (gr.ResTypeMaxKind = 0 ∧ gr.NodeCache = []) ∨
    (gr.ResTypeMaxKind = ResourceTypeBuffer ∧
      ∀ nodes, gr.NodeLister = some nodes →
        CollectFromLister.collectTypes nodes ([], 0) = ([], 0)))

/-- The step from `gr` to `gr1` leaves the registry, the vector length and the
listers alone and keeps the shape of the two maps: one binding per key, every
node ledger well formed for the length for which the node ledgers of `gr` are,
no cached node where `gr` has none, and every node ledger shaped when those of
`gr` are. -/
def Kept (gr gr1 : GloalReserve) : Prop :=
  gr1.ResTypeToID = gr.ResTypeToID ∧ gr1.NextResourceID = gr.NextResourceID ∧
  gr1.ResTypeMaxKind = gr.ResTypeMaxKind ∧ gr1.NodeLister = gr.NodeLister ∧
  gr1.PodLister = gr.PodLister ∧
  ((gr.NodeCache.map Prod.fst).Nodup → (gr1.NodeCache.map Prod.fst).Nodup) ∧
  ((gr.PodToNode.map Prod.fst).Nodup → (gr1.PodToNode.map Prod.fst).Nodup) ∧
  (∀ n, (∀ e ∈ gr.NodeCache, NodeWF n e.2) → ∀ e ∈ gr1.NodeCache, NodeWF n e.2) ∧
  (gr.NodeCache = [] → gr1.NodeCache = []) ∧
  (Shaped gr → Shaped gr1)

/-- The operations of a run from the ledger of `NewLocalReserve`: bootstrap is
explicit only while no resource type is registered, which is also the guard of
the lazy bootstrap; every other operation is free. -/
def Event.permitted (gr : GloalReserve) : Event → Prop
  | Event.collect => gr.NextResourceID = 0
  | _ => True

instance (gr : GloalReserve) (ev : Event) : Decidable (ev.permitted gr) := by
  cases ev <;> unfold Event.permitted <;> infer_instance

/-- Every operation of the sequence is permitted in the state in which it is applied. -/
def permittedRun : GloalReserve → List Event → Prop
  | _, [] => True
  | gr, ev :: evs =>
    ev.permitted gr ∧
      match applyEvent gr ev with
      | some gr1 => permittedRun gr1 evs
      | none => True

instance permittedRun.decide : (gr : GloalReserve) → (evs : List Event) →
    Decidable (permittedRun gr evs)
  | _, [] => by unfold permittedRun; infer_instance
  | gr, ev :: evs =>
    match h : applyEvent gr ev with
    | some gr1 =>
      have : Decidable (permittedRun gr1 evs) := permittedRun.decide gr1 evs
      decidable_of_iff (ev.permitted gr ∧ permittedRun gr1 evs) (by
        rw [permittedRun, h])
    | none =>
      decidable_of_iff (ev.permitted gr) (by
        rw [permittedRun, h]; simp)

/-- The listers return new content: the informer caches behind `NodeLister`
and `PodLister` changed since the last `List` call. -/
def relist (gr : GloalReserve) (nodeLister : Option (List Node))
    (podLister : Option (List Pod)) : GloalReserve :=
  { gr with NodeLister := nodeLister, PodLister := podLister }

/-- A run in which the listers hold arbitrary content at every operation: each
step gives what the two `List` calls would return during the operation, and
the operation. -/
def runLive : GloalReserve →
    List ((Option (List Node) × Option (List Pod)) × Event) → Option GloalReserve
  | gr, [] => some gr
  | gr, (l, ev) :: rest =>
    (applyEvent (relist gr l.1 l.2) ev).bind (fun gr1 => runLive gr1 rest)

/-- A pod that requests, next to cpu, a resource name that no node advertises. -/
def testPodExt : Pod :=
  testPodWith "pod9" [(ResourceCPU, NewMilliQuantity 500), ("example.com/gpu", NewQuantity 1)]

/-- A run from the ledger of `NewLocalReserve`: a first reservation, which
bootstraps the ledger lazily, node and pod events, a batch and unreservations. -/
def testRun : List Event :=
  [Event.reserve testPodExt "node0",
   Event.addNode GetNode1,
   Event.updatePod none testPod3,
   Event.reservePods
     [GetPod "pod4" 100 100 "node0" PodPending, GetPod "pod5" 100 100 "node1" PodPending]
     ["node0", "node1"],
   Event.unreserve (GetPod "pod4" 100 100 "node0" PodPending) "node0",
   Event.deletePod testPod0,
   Event.unreservePods [GetPod "pod5" 100 100 "node1" PodPending] ["node1"],
   Event.deleteNode GetNode0]

/-- The ledger at the end of `testRun`: `node1` with `pod3`. -/
def testLedgerRun : GloalReserve :=
  { ResTypeToID :=
      [(ResourceCPU, 0), (ResourceMemory, 1), (ResourcePods, 2), ("ExtendedResType0", 3)]
    ResTypeMaxKind := 6
    NextResourceID := 4
    NodeCache :=
      [("node1",
        { Name := "node1"
          Capa := [2000, 5000, 10, 10, 0, 0]
          Pods := [("NS1-pod3", NewPodInfo.result testPod3 [100, 500, 1, 0, 0, 0])] })]
    PodToNode := [("NS1-pod3", "node1")]
    NodeLister := some [GetNode0]
    PodLister := some [testPod0] }

/-- A node that advertises no allocatable resource. -/
def testNodeBare : Node := { Name := "nodeA", Allocatable := [] }

/-- A pod that requests cpu and the extended type `ExtendedResType0`. -/
def testPodType0 : Pod :=
  testPodWith "pod8" [(ResourceCPU, NewMilliQuantity 100), ("ExtendedResType0", NewQuantity 1)]

/-- A run in which the node lister first returns a node without allocatable
resources and then `node1` with its four resource types: two reservations,
each of which bootstraps the ledger. -/
def testRunLive : List ((Option (List Node) × Option (List Pod)) × Event) :=
  [((some [testNodeBare], some []), Event.reserve testPod0 "nodeA"),
   ((some [GetNode1], some []), Event.reserve testPod0 "node1")]

/-- The ledger at the end of `testRunLive`. -/
def testLedgerLive : GloalReserve :=
  { ResTypeToID :=
      [(ResourceCPU, 0), (ResourceMemory, 1), (ResourcePods, 2), ("ExtendedResType0", 3)]
    ResTypeMaxKind := 7
    NextResourceID := 4
    NodeCache :=
      [("nodeA", { Name := "nodeA", Capa := [0, 0, 0], Pods := [] }),
       ("node1",
        { Name := "node1"
          Capa := [2000, 5000, 10, 10, 0, 0, 0]
          Pods := [("NS1-pod0", NewPodInfo.result testPod0 [1000, 1000, 1, 0, 0, 0, 0])] })]
    PodToNode := [("NS1-pod0", "node1")]
    NodeLister := some [GetNode1]
    PodLister := some [] }

/-! ## The order of the walk over the request map

`GetPodReq` ranges over a Go map, whose iteration order is chosen afresh at
every `range` statement.  The functions below are `GetPodReq` and its callers
with the order of each walk given: `order` is the list of bindings of the
request map in the order in which the walk visits them.  With the order of
`podRequests` for every walk they are the functions of the embedding above. -/

/-- The function `GetPodReq` when the walk over the request map visits the bindings in `order`. -/
def GetPodReq.walk (order : ResourceList) (resIDMap : GoMap Nat) (resVec : resVector) :
    Option resVector :=
  (writeResources resIDMap order resVec).bind
    (fun resVec => vecSet resVec (regIndex resIDMap ResourcePods) 1)

/-- The method `CheckPod` when its call of `GetPodReq` walks in `order`. -/
def CheckPod.walk (nr : NodeResInfo) (order : ResourceList) (resIDMap : GoMap Nat) :
    Option Bool :=
  (GetAvailable nr).bind (fun nodeAvailable =>
    (GetPodReq.walk order resIDMap (List.replicate nr.Capa.length 0)).map (fun podReq =>
      VectorCompare nodeAvailable podReq))

/-- The method `AddPodToCache` when the call of `GetPodReq` inside `NewPodInfo`
walks in `order`. -/
def AddPodToCache.walk (nr : NodeResInfo) (pod : Pod) (order : ResourceList)
    (resIDMap : GoMap Nat) : Option NodeResInfo :=
  ((GetPodReq.walk order resIDMap (List.replicate nr.Capa.length 0)).map
      (NewPodInfo.result pod)).bind (fun info =>
    let nr1 : NodeResInfo := { nr with Pods := mapSet nr.Pods pod.UID info }
    (GetAvailable nr1).map (fun _ => nr1))

/-- The method `Reserve` when the walk of the check is `checkOrder` and the walk
of the insertion is `storeOrder`. -/
def Reserve.walk (gr : GloalReserve) (pod : Pod) (nodeName : String)
    (checkOrder storeOrder : ResourceList) : Option (String × GloalReserve) :=
  (lazyCollect gr).bind (fun gr =>
    match mapGet gr.NodeCache nodeName with
    | some nodeInfo =>
      (CheckPod.walk nodeInfo checkOrder gr.ResTypeToID).bind (fun checkResult =>
        if checkResult then
          (AddPodToCache.walk nodeInfo pod storeOrder gr.ResTypeToID).map (fun nodeInfo1 =>
            ("", { gr with
                   NodeCache := mapSet gr.NodeCache nodeName nodeInfo1
                   PodToNode := mapSet gr.PodToNode pod.UID nodeName }))
        else some ("Resource is not enough.", gr))
    | none => some ("NodeName does not exist", gr))

/-- The admission loop of `ReservePods` when the walk for each pair is given with the pair. -/
def ReservePods.checkPods.walk (resIDMap : GoMap Nat) (maxKind : Nat) :
    List ((Pod × String) × ResourceList) → List String → String → GoMap resVector →
      Option (List String × String × GoMap resVector)
  | [], failed, errorReason, hostToAvailabel => some (failed, errorReason, hostToAvailabel)
  | ((p, nodeName), order) :: rest, failed, errorReason, hostToAvailabel =>
    (GetPodReq.walk order resIDMap (List.replicate maxKind 0)).bind (fun podReq =>
      let avail := (mapGet hostToAvailabel nodeName).getD []
      if VectorCompare avail podReq then
        (VectorMinus avail podReq).bind (fun avail1 =>
          ReservePods.checkPods.walk resIDMap maxKind rest failed errorReason
            (if mapHas hostToAvailabel nodeName then mapSet hostToAvailabel nodeName avail1
             else hostToAvailabel))
      else
        ReservePods.checkPods.walk resIDMap maxKind rest (failed ++ [p.Name])
          "Node does not have enough resource" hostToAvailabel)

/-- The last loop of `ReservePods` when the walk for each pair is given with the pair. -/
def ReservePods.commit.walk : List ((Pod × String) × ResourceList) → GloalReserve →
    Option GloalReserve
  | [], gr => some gr
  | ((p, nodeName), order) :: rest, gr =>
    match mapGet gr.NodeCache nodeName with
    | none => none
    | some nodeInfo =>
      (AddPodToCache.walk nodeInfo p order gr.ResTypeToID).bind (fun nodeInfo1 =>
        ReservePods.commit.walk rest
          { gr with
            NodeCache := mapSet gr.NodeCache nodeName nodeInfo1
            PodToNode := mapSet gr.PodToNode p.UID nodeName })

/-- The method `ReservePods` when the walks of the admission loop are
`checkOrders` and the walks of the last loop are `storeOrders`, one per pod. -/
def ReservePods.walk (gr : GloalReserve) (pods : List Pod) (nodeNames : List String)
    (checkOrders storeOrders : List ResourceList) :
    Option (PodReserveResult × GloalReserve) :=
  (lazyCollect gr).bind (fun gr =>
    (ReservePods.pairs pods nodeNames).bind (fun prs =>
      (ReservePods.checkNodes gr.NodeCache prs [] "" []).bind (fun r1 =>
        if r1.2.1.length > 0 then some ({ FailedPods := r1.1, Error := r1.2.1 }, gr)
        else
          (ReservePods.checkPods.walk gr.ResTypeToID gr.ResTypeMaxKind
              (List.zip prs checkOrders) r1.1 r1.2.1 r1.2.2).bind
            (fun r2 =>
              if r2.2.1.length > 0 then some ({ FailedPods := r2.1, Error := r2.2.1 }, gr)
              else
                (ReservePods.commit.walk (List.zip prs storeOrders) gr).map (fun gr1 =>
                  ({ FailedPods := r2.1, Error := "" }, gr1))))))

/-- A pod that requests 2 cpu and 5 units of a resource name that is not registered. -/
def testPodTwo : Pod :=
  testPodWith "podA" [(ResourceCPU, NewQuantity 2), ("example.com/foo", NewQuantity 5)]

/-- A pod that requests 1 cpu and 5000 units of a resource name that is not registered. -/
def testPodFoo : Pod :=
  testPodWith "podB" [(ResourceCPU, NewQuantity 1), ("example.com/foo", NewQuantity 5000)]

/-- A pod that requests `2^63 - 1` cpu. -/
def testPodHuge : Pod :=
  testPodWith "podC" [(ResourceCPU, NewQuantity 9223372036854775807)]

/-! # Theorems -/

/-! ## Maps -/

theorem mapGet_mem {V : Type} (m : GoMap V) (k : String) (v : V) (h : mapGet m k = some v) :
    (k, v) ∈ m := by
  induction m with
  | nil => simp [mapGet] at h
  | cons e rest ih =>
    obtain ⟨k1, v1⟩ := e
    by_cases hk : k1 = k
    · simp [mapGet, hk] at h
      simp [hk, h]
    · simp [mapGet, hk] at h
      exact List.mem_cons_of_mem _ (ih h)

theorem mapGet_none_iff {V : Type} (m : GoMap V) (k : String) :
    mapGet m k = none ↔ ∀ e ∈ m, e.1 ≠ k := by
  induction m with
  | nil => simp [mapGet]
  | cons e rest ih =>
    obtain ⟨k1, v1⟩ := e
    by_cases hk : k1 = k
    · simp [mapGet, hk]
    · simp [mapGet, hk, ih]

theorem mapGet_of_mem_nodup {V : Type} (m : GoMap V) (k : String) (v : V)
    (hnd : (m.map Prod.fst).Nodup) (h : (k, v) ∈ m) : mapGet m k = some v := by
  induction m with
  | nil => simp at h
  | cons e rest ih =>
    obtain ⟨k1, v1⟩ := e
    simp only [List.map_cons, List.nodup_cons, List.mem_map, not_exists, not_and] at hnd
    rcases List.mem_cons.mp h with heq | hmem
    · simp only [Prod.mk.injEq] at heq
      simp [mapGet, heq.1, heq.2]
    · have hne : k1 ≠ k := fun hk => hnd.1 (k, v) hmem (by simp [hk])
      simp only [mapGet, hne, if_false]
      exact ih hnd.2 hmem

theorem mapHas_eq_false_iff {V : Type} (m : GoMap V) (k : String) :
    mapHas m k = false ↔ mapGet m k = none := by
  unfold mapHas; cases mapGet m k <;> simp

theorem mapHas_eq_true_iff {V : Type} (m : GoMap V) (k : String) :
    mapHas m k = true ↔ ∃ v, mapGet m k = some v := by
  unfold mapHas; cases mapGet m k <;> simp

theorem mapGet_map_replace {V : Type} (m : GoMap V) (k k1 : String) (v : V) :
    mapGet (m.map (fun e => if e.1 = k then (k, v) else e)) k1 =
      if k1 = k then (mapGet m k).map (fun _ => v) else mapGet m k1 := by
  induction m with
  | nil => simp [mapGet]
  | cons e rest ih =>
    obtain ⟨k2, v2⟩ := e
    rw [List.map_cons]
    by_cases h2 : k2 = k
    · subst h2
      rw [if_pos rfl]
      by_cases h1 : k1 = k2
      · subst h1
        simp [mapGet]
      · have h3 : ¬ k2 = k1 := fun h => h1 h.symm
        rw [if_neg h1] at ih ⊢
        simp only [mapGet, if_neg h3]
        exact ih
    · rw [if_neg h2]
      by_cases h1 : k1 = k
      · subst h1
        rw [if_pos rfl] at ih ⊢
        simp only [mapGet, if_neg h2]
        exact ih
      · rw [if_neg h1] at ih ⊢
        by_cases h3 : k2 = k1
        · simp only [mapGet, if_pos h3]
        · simp only [mapGet, if_neg h3]
          exact ih

theorem mapGet_append {V : Type} (m m1 : GoMap V) (k : String) :
    mapGet (m ++ m1) k = (mapGet m k).orElse (fun _ => mapGet m1 k) := by
  induction m with
  | nil => simp [mapGet]
  | cons e rest ih =>
    obtain ⟨k2, v2⟩ := e
    by_cases h2 : k2 = k
    · simp [mapGet, h2]
    · simp [mapGet, h2, ih]

theorem mapGet_mapSet_self {V : Type} (m : GoMap V) (k : String) (v : V) :
    mapGet (mapSet m k v) k = some v := by
  unfold mapSet
  cases h : mapHas m k
  · rw [mapHas_eq_false_iff] at h
    simp [mapGet_append, h, mapGet]
  · obtain ⟨w, hw⟩ := (mapHas_eq_true_iff m k).mp h
    simp [mapGet_map_replace, hw]

theorem mapGet_mapSet_ne {V : Type} (m : GoMap V) (k k1 : String) (v : V) (hne : k1 ≠ k) :
    mapGet (mapSet m k v) k1 = mapGet m k1 := by
  unfold mapSet
  have hne1 : ¬ k = k1 := fun h => hne h.symm
  cases h : mapHas m k
  · cases h1 : mapGet m k1 <;> simp [mapGet_append, mapGet, hne1, h1]
  · simp [mapGet_map_replace, hne]

theorem mapGet_mapDel_self {V : Type} (m : GoMap V) (k : String) :
    mapGet (mapDel m k) k = none := by
  rw [mapGet_none_iff]
  intro e he
  simp [mapDel, List.mem_filter] at he
  exact he.2

theorem mapGet_mapDel_ne {V : Type} (m : GoMap V) (k k1 : String) (hne : k1 ≠ k) :
    mapGet (mapDel m k) k1 = mapGet m k1 := by
  induction m with
  | nil => simp [mapDel, mapGet]
  | cons e rest ih =>
    obtain ⟨k2, v2⟩ := e
    unfold mapDel at ih ⊢
    by_cases h2 : k2 = k
    · subst h2
      have h3 : ¬ k2 = k1 := fun h => hne h.symm
      rw [List.filter_cons_of_neg (by simp)]
      simp only [mapGet, if_neg h3]
      exact ih
    · rw [List.filter_cons_of_pos (by simp [h2])]
      by_cases h3 : k2 = k1
      · simp only [mapGet, if_pos h3]
      · simp only [mapGet, if_neg h3]
        exact ih

theorem keys_map_replace {V : Type} (m : GoMap V) (k : String) (v : V) :
    (m.map (fun e => if e.1 = k then (k, v) else e)).map Prod.fst = m.map Prod.fst := by
  induction m with
  | nil => rfl
  | cons e rest ih =>
    rw [List.map_cons, List.map_cons, List.map_cons, ih]
    by_cases h : e.1 = k
    · rw [if_pos h, h]
    · rw [if_neg h]

theorem keys_mapSet_nodup {V : Type} (m : GoMap V) (k : String) (v : V)
    (hnd : (m.map Prod.fst).Nodup) : ((mapSet m k v).map Prod.fst).Nodup := by
  unfold mapSet
  cases h : mapHas m k
  · rw [mapHas_eq_false_iff, mapGet_none_iff] at h
    simp only [Bool.false_eq_true, if_false, List.map_append, List.map_cons, List.map_nil]
    rw [List.nodup_append]
    refine ⟨hnd, by simp, ?_⟩
    intro a ha hb
    simp only [List.mem_singleton] at hb
    obtain ⟨e, he, rfl⟩ := List.mem_map.mp ha
    exact h e he hb
  · simp only [if_true, keys_map_replace]
    exact hnd

theorem keys_mapDel_nodup {V : Type} (m : GoMap V) (k : String)
    (hnd : (m.map Prod.fst).Nodup) : ((mapDel m k).map Prod.fst).Nodup := by
  unfold mapDel
  exact List.Nodup.sublist (List.Sublist.map _ (List.filter_sublist _)) hnd

theorem mem_mapSet {V : Type} (m : GoMap V) (k : String) (v : V) (e : String × V)
    (he : e ∈ mapSet m k v) : e = (k, v) ∨ (e ∈ m ∧ e.1 ≠ k) := by
  unfold mapSet at he
  cases h : mapHas m k
  · rw [h] at he
    rw [mapHas_eq_false_iff, mapGet_none_iff] at h
    simp only [Bool.false_eq_true, if_false, List.mem_append, List.mem_singleton] at he
    rcases he with he | he
    · exact Or.inr ⟨he, h e he⟩
    · exact Or.inl he
  · rw [h] at he
    simp only [if_true, List.mem_map] at he
    obtain ⟨e1, he1, rfl⟩ := he
    by_cases h1 : e1.1 = k
    · rw [if_pos h1]; exact Or.inl rfl
    · rw [if_neg h1]; exact Or.inr ⟨he1, h1⟩

theorem mem_mapDel {V : Type} (m : GoMap V) (k : String) (e : String × V) :
    e ∈ mapDel m k ↔ e ∈ m ∧ e.1 ≠ k := by
  simp [mapDel, List.mem_filter]

/-! ## Vectors -/

theorem vget_nil (i : Nat) : vget [] i = 0 := by
  simp [vget]

theorem vget_cons_zero (x : Int) (a : resVector) : vget (x :: a) 0 = x := by
  simp [vget]

theorem vget_cons_succ (x : Int) (a : resVector) (i : Nat) : vget (x :: a) (i + 1) = vget a i := by
  simp [vget]

theorem vget_of_le (a : resVector) (i : Nat) (h : a.length ≤ i) : vget a i = 0 := by
  induction a generalizing i with
  | nil => exact vget_nil i
  | cons x a ih =>
    cases i with
    | zero => simp at h
    | succ j =>
      rw [vget_cons_succ]
      exact ih j (by simpa using h)

theorem vget_replicate (n i : Nat) : vget (List.replicate n 0) i = 0 := by
  induction n generalizing i with
  | zero => exact vget_nil i
  | succ n ih =>
    rw [List.replicate_succ]
    cases i with
    | zero => exact vget_cons_zero _ _
    | succ j => rw [vget_cons_succ]; exact ih j

theorem vec_ext (a b : resVector) (hlen : a.length = b.length)
    (h : ∀ i, vget a i = vget b i) : a = b := by
  induction a generalizing b with
  | nil =>
    cases b with
    | nil => rfl
    | cons y b => simp at hlen
  | cons x a ih =>
    cases b with
    | nil => simp at hlen
    | cons y b =>
      have h0 := h 0
      rw [vget_cons_zero, vget_cons_zero] at h0
      have ht : a = b := ih b (by simpa using hlen) (fun i => by
        have := h (i + 1)
        rwa [vget_cons_succ, vget_cons_succ] at this)
      rw [h0, ht]

theorem vget_set (a : resVector) (i j : Nat) (x : Int) (hi : i < a.length) :
    vget (a.set i x) j = if j = i then x else vget a j := by
  induction a generalizing i j with
  | nil => simp at hi
  | cons y a ih =>
    cases i with
    | zero =>
      cases j with
      | zero => simp [vget_cons_zero]
      | succ j => simp [vget_cons_succ]
    | succ i =>
      cases j with
      | zero => simp [vget_cons_zero]
      | succ j =>
        rw [List.set_cons_succ, vget_cons_succ, vget_cons_succ, ih i j (by simpa using hi)]
        simp

theorem VectorMinus_ok (a b : resVector) (h : b.length ≤ a.length) :
    ∃ r, VectorMinus a b = some r ∧ r.length = a.length ∧
      ∀ i, vget r i = vget a i - vget b i := by
  induction b generalizing a with
  | nil =>
    refine ⟨a, ?_, rfl, ?_⟩
    · cases a <;> rfl
    · intro i; simp [vget_nil]
  | cons v b ih =>
    cases a with
    | nil => simp at h
    | cons x a =>
      obtain ⟨r, hr, hlen, hget⟩ := ih a (by simpa using h)
      refine ⟨(x - v) :: r, ?_, ?_, ?_⟩
      · simp [VectorMinus, hr]
      · simp [hlen]
      · intro i
        cases i with
        | zero => simp [vget_cons_zero]
        | succ j => simp [vget_cons_succ, hget j]

theorem zip_all_iff (a b : resVector) (hle : b.length ≤ a.length) :
    (List.zip a b).all (fun e => !(decide (e.2 > e.1))) = true ↔
      ∀ i, i < b.length → vget b i ≤ vget a i := by
  induction b generalizing a with
  | nil => simp
  | cons v b ih =>
    cases a with
    | nil => simp at hle
    | cons x a =>
      have ih1 := ih a (by simpa using hle)
      rw [List.zip_cons_cons, List.all_cons, Bool.and_eq_true, ih1]
      constructor
      · rintro ⟨h0, hrest⟩ i hi
        cases i with
        | zero => simpa [vget_cons_zero] using h0
        | succ j =>
          rw [vget_cons_succ, vget_cons_succ]
          exact hrest j (by simpa using hi)
      · intro hall
        refine ⟨?_, ?_⟩
        · simpa [vget_cons_zero] using hall 0 (by simp)
        · intro i hi
          have := hall (i + 1) (by simpa using hi)
          rwa [vget_cons_succ, vget_cons_succ] at this

theorem VectorCompare_iff (a b : resVector) :
    VectorCompare a b = true ↔ b.length ≤ a.length ∧ ∀ i, i < b.length → vget b i ≤ vget a i := by
  unfold VectorCompare
  by_cases hlen : a.length < b.length
  · simp only [hlen, if_true, Bool.false_eq_true, false_iff, not_and]
    intro h; omega
  · simp only [hlen, if_false]
    have hle : b.length ≤ a.length := by omega
    rw [zip_all_iff a b hle]
    exact ⟨fun h => ⟨hle, h⟩, fun h => h.2⟩

theorem VectorCompare_eq_len (a b : resVector) (hlen : a.length = b.length) :
    VectorCompare a b = true ↔ ∀ i, vget b i ≤ vget a i := by
  rw [VectorCompare_iff]
  constructor
  · rintro ⟨_, h⟩ i
    by_cases hi : i < b.length
    · exact h i hi
    · rw [vget_of_le b i (by omega), vget_of_le a i (by omega)]
  · intro h
    exact ⟨by omega, fun i _ => h i⟩

theorem vecSet_ok (vec : resVector) (i : Nat) (x : Int) (hi : i < vec.length) :
    vecSet vec i x = some (vec.set i x) := by
  simp [vecSet, hi]

theorem regIndex_lt (resIDMap : GoMap Nat) (n : Nat) (hpos : 0 < n)
    (hreg : ∀ e ∈ resIDMap, e.2 < n) (name : ResourceName) : regIndex resIDMap name < n := by
  unfold regIndex
  cases h : mapGet resIDMap name with
  | none => simpa using hpos
  | some v => simpa using hreg (name, v) (mapGet_mem _ _ _ h)

/-! ## Pod encoding -/

theorem wrapInt64_of_range (x : Int) (hlo : -9223372036854775808 ≤ x)
    (hhi : x ≤ 9223372036854775807) : wrapInt64 x = x := by
  unfold wrapInt64
  rw [Int.emod_eq_of_lt (by omega) (by omega)]
  omega

theorem roundAway_nonneg (x d : Int) (hx : 0 ≤ x) (hd : 0 < d) : 0 ≤ roundAway x d := by
  unfold roundAway
  rw [if_pos hx]
  exact Int.ediv_nonneg (by omega) (by omega)

theorem roundAway_mul (v d : Int) (hd : 0 < d) : roundAway (v * d) d = v := by
  unfold roundAway
  by_cases hv : 0 ≤ v
  · rw [if_pos (Int.mul_nonneg hv (by omega))]
    have h1 : v * d + (d - 1) = (d - 1) + d * v := by ring
    rw [h1, Int.add_mul_ediv_left _ _ (by omega), Int.ediv_eq_zero_of_lt (by omega) (by omega)]
    omega
  · have hneg : ¬ 0 ≤ v * d := by
      intro h
      have : v * d < 0 := Int.mul_neg_of_neg_of_pos (by omega) hd
      omega
    rw [if_neg hneg]
    have h1 : -(v * d) + (d - 1) = (d - 1) + d * (-v) := by ring
    rw [h1, Int.add_mul_ediv_left _ _ (by omega), Int.ediv_eq_zero_of_lt (by omega) (by omega)]
    omega

/-- A non-negative quantity whose milli-value fits an `int64` is encoded as a
non-negative number. -/
theorem QuantityToInt_nonneg (name : ResourceName) (q : Quantity) (h : 0 ≤ q.nano)
    (hfit : q.nano ≤ 9223372036854775807000000) : 0 ≤ QuantityToInt name q := by
  have h1 : 0 ≤ roundAway q.nano 1000000 := roundAway_nonneg _ _ h (by norm_num)
  have h2 : 0 ≤ roundAway q.nano 1000000000 := roundAway_nonneg _ _ h (by norm_num)
  have h3 : roundAway q.nano 1000000 ≤ 9223372036854775807 := by
    unfold roundAway
    rw [if_pos h]
    omega
  have h4 : roundAway q.nano 1000000000 ≤ 9223372036854775807 := by
    unfold roundAway
    rw [if_pos h]
    omega
  have hm : 0 ≤ q.MilliValue := by
    unfold Quantity.MilliValue
    rw [wrapInt64_of_range _ (by omega) h3]
    exact h1
  have hv : 0 ≤ q.Value := by
    unfold Quantity.Value
    rw [wrapInt64_of_range _ (by omega) h4]
    exact h2
  unfold QuantityToInt
  split
  · split
    · exact hm
    · exact hv
  · exact hv

theorem podRequests_nonneg (pod : Pod) (h : PodNonneg pod) :
    ∀ e ∈ podRequests pod, 0 ≤ QuantityToInt e.1 e.2 := h

theorem writeResources_ok (resIDMap : GoMap Nat) (n : Nat) (hpos : 0 < n)
    (hreg : ∀ e ∈ resIDMap, e.2 < n) (rl : ResourceList) (vec : resVector)
    (hlen : vec.length = n) :
    ∃ r, writeResources resIDMap rl vec = some r ∧ r.length = n ∧
      ((∀ i, 0 ≤ vget vec i) → (∀ e ∈ rl, 0 ≤ QuantityToInt e.1 e.2) →
        ∀ i, 0 ≤ vget r i) := by
  induction rl generalizing vec with
  | nil => exact ⟨vec, rfl, hlen, fun h _ => h⟩
  | cons e rl ih =>
    obtain ⟨resName, resValue⟩ := e
    have hidx : regIndex resIDMap resName < vec.length := by
      rw [hlen]; exact regIndex_lt resIDMap n hpos hreg resName
    obtain ⟨r, hr, hrlen, hrnn⟩ :=
      ih (vec.set (regIndex resIDMap resName) (QuantityToInt resName resValue))
        (by simpa using hlen)
    refine ⟨r, ?_, hrlen, ?_⟩
    · simp [writeResources, vecSet_ok _ _ _ hidx, hr]
    · intro hv hq
      apply hrnn
      · intro i
        rw [vget_set _ _ _ _ hidx]
        split
        · exact hq (resName, resValue) (by simp)
        · exact hv i
      · intro e he
        exact hq e (List.mem_cons_of_mem _ he)

theorem GetPodReq_ok (resIDMap : GoMap Nat) (n : Nat) (hpos : 0 < n)
    (hreg : ∀ e ∈ resIDMap, e.2 < n) (pod : Pod) :
    ∃ v, GetPodReq pod resIDMap (List.replicate n 0) = some v ∧ v.length = n ∧
      (PodNonneg pod → ∀ i, 0 ≤ vget v i) := by
  obtain ⟨r, hr, hrlen, hrnn⟩ :=
    writeResources_ok resIDMap n hpos hreg (podRequests pod) (List.replicate n 0) (by simp)
  have hidx : regIndex resIDMap ResourcePods < r.length := by
    rw [hrlen]; exact regIndex_lt resIDMap n hpos hreg _
  refine ⟨r.set (regIndex resIDMap ResourcePods) 1, ?_, by simpa using hrlen, ?_⟩
  · simp [GetPodReq, hr, vecSet_ok _ _ _ hidx]
  · intro hnn i
    rw [vget_set _ _ _ _ hidx]
    split
    · norm_num
    · exact hrnn (fun j => by rw [vget_replicate]) (podRequests_nonneg pod hnn) i

/-! ## Node ledger -/

theorem usedAt_nil (i : Nat) : usedAt [] i = 0 := rfl

theorem usedAt_cons (e : String × PodResInfo) (rest : GoMap PodResInfo) (i : Nat) :
    usedAt (e :: rest) i = contrib e.2 i + usedAt rest i := by
  simp [usedAt]

theorem usedAt_append (m m1 : GoMap PodResInfo) (i : Nat) :
    usedAt (m ++ m1) i = usedAt m i + usedAt m1 i := by
  simp [usedAt]

theorem subtractPods_ok (pods : GoMap PodResInfo) (a : resVector)
    (h : ∀ e ∈ pods, counted e.2 = true → e.2.Resources.length ≤ a.length) :
    ∃ r, subtractPods pods a = some r ∧ r.length = a.length ∧
      ∀ i, vget r i = vget a i - usedAt pods i := by
  induction pods generalizing a with
  | nil => exact ⟨a, rfl, rfl, fun i => by simp [usedAt_nil]⟩
  | cons e rest ih =>
    obtain ⟨k, pod⟩ := e
    cases hc : counted pod
    · obtain ⟨r, hr, hlen, hget⟩ := ih a (fun e he => h e (List.mem_cons_of_mem _ he))
      refine ⟨r, ?_, hlen, ?_⟩
      · simp [subtractPods, hc, hr]
      · intro i
        rw [hget i, usedAt_cons]
        simp [contrib, hc]
    · obtain ⟨r1, hr1, hlen1, hget1⟩ :=
        VectorMinus_ok a pod.Resources (h (k, pod) (by simp) hc)
      obtain ⟨r, hr, hlen, hget⟩ := ih r1 (fun e he hce => by
        rw [hlen1]; exact h e (List.mem_cons_of_mem _ he) hce)
      refine ⟨r, ?_, by rw [hlen, hlen1], ?_⟩
      · simp [subtractPods, hc, hr1, hr]
      · intro i
        rw [hget i, hget1 i, usedAt_cons]
        simp only [contrib, hc, if_true]
        omega

theorem GetAvailable_ok (n : Nat) (nr : NodeResInfo) (h : NodeWF n nr) :
    ∃ a, GetAvailable nr = some a ∧ a.length = n ∧
      ∀ i, vget a i = vget nr.Capa i - usedAt nr.Pods i := by
  obtain ⟨hcap, hpods, _⟩ := h
  obtain ⟨r, hr, hlen, hget⟩ := subtractPods_ok nr.Pods nr.Capa (fun e he _ => by
    rw [hpods e he, hcap])
  exact ⟨r, hr, by rw [hlen, hcap], hget⟩

theorem map_replace_of_absent {V : Type} (m : GoMap V) (k : String) (v : V)
    (h : ∀ e ∈ m, e.1 ≠ k) : m.map (fun e => if e.1 = k then (k, v) else e) = m := by
  induction m with
  | nil => rfl
  | cons e rest ih =>
    rw [List.map_cons, if_neg (h e (by simp)), ih (fun e he => h e (List.mem_cons_of_mem _ he))]

theorem mapDel_of_absent {V : Type} (m : GoMap V) (k : String)
    (h : mapGet m k = none) : mapDel m k = m := by
  rw [mapGet_none_iff] at h
  unfold mapDel
  rw [List.filter_eq_self]
  intro e he
  simp [h e he]

theorem oldContrib_cons_self (k : String) (v : PodResInfo) (rest : GoMap PodResInfo) (i : Nat) :
    oldContrib ((k, v) :: rest) k i = contrib v i := by
  simp [oldContrib, mapGet]

theorem oldContrib_cons_ne (k k1 : String) (v : PodResInfo) (rest : GoMap PodResInfo) (i : Nat)
    (h : k1 ≠ k) : oldContrib ((k1, v) :: rest) k i = oldContrib rest k i := by
  simp [oldContrib, mapGet, h]

theorem oldContrib_of_absent (m : GoMap PodResInfo) (k : String) (i : Nat)
    (h : mapGet m k = none) : oldContrib m k i = 0 := by
  simp [oldContrib, h]

theorem usedAt_replace (m : GoMap PodResInfo) (k : String) (v : PodResInfo) (i : Nat)
    (hnd : (m.map Prod.fst).Nodup) :
    usedAt (m.map (fun e => if e.1 = k then (k, v) else e)) i =
      usedAt m i - oldContrib m k i + (if mapHas m k then contrib v i else 0) := by
  induction m with
  | nil => simp [usedAt_nil, oldContrib, mapGet, mapHas]
  | cons e rest ih =>
    obtain ⟨k2, v2⟩ := e
    simp only [List.map_cons, List.nodup_cons, List.mem_map, not_exists, not_and] at hnd
    by_cases h2 : k2 = k
    · subst h2
      have habs : ∀ e ∈ rest, e.1 ≠ k2 := fun e he hk => hnd.1 e he hk
      rw [List.map_cons, map_replace_of_absent rest k2 v habs, if_pos rfl, usedAt_cons,
        usedAt_cons, oldContrib_cons_self]
      have : mapHas ((k2, v2) :: rest) k2 = true := by simp [mapHas, mapGet]
      rw [this]
      simp only [if_true]
      omega
    · rw [List.map_cons, if_neg h2, usedAt_cons, usedAt_cons, ih hnd.2,
        oldContrib_cons_ne _ _ _ _ _ h2]
      have : mapHas ((k2, v2) :: rest) k = mapHas rest k := by simp [mapHas, mapGet, h2]
      rw [this]
      omega

theorem usedAt_mapSet (m : GoMap PodResInfo) (k : String) (v : PodResInfo) (i : Nat)
    (hnd : (m.map Prod.fst).Nodup) :
    usedAt (mapSet m k v) i = usedAt m i - oldContrib m k i + contrib v i := by
  unfold mapSet
  cases h : mapHas m k
  · simp only [Bool.false_eq_true, if_false]
    rw [usedAt_append, usedAt_cons, usedAt_nil,
      oldContrib_of_absent m k i ((mapHas_eq_false_iff m k).mp h)]
    simp only []
    omega
  · simp only [if_true]
    rw [usedAt_replace m k v i hnd, h]
    simp

theorem usedAt_mapDel (m : GoMap PodResInfo) (k : String) (i : Nat)
    (hnd : (m.map Prod.fst).Nodup) :
    usedAt (mapDel m k) i = usedAt m i - oldContrib m k i := by
  induction m with
  | nil => simp [mapDel, usedAt_nil, oldContrib, mapGet]
  | cons e rest ih =>
    obtain ⟨k2, v2⟩ := e
    simp only [List.map_cons, List.nodup_cons, List.mem_map, not_exists, not_and] at hnd
    by_cases h2 : k2 = k
    · subst h2
      have habs : mapGet rest k2 = none := by
        rw [mapGet_none_iff]; exact fun e he hk => hnd.1 e he hk
      have hd : mapDel ((k2, v2) :: rest) k2 = mapDel rest k2 := by
        unfold mapDel
        rw [List.filter_cons_of_neg (by simp)]
      rw [hd, mapDel_of_absent rest k2 habs, usedAt_cons, oldContrib_cons_self]
      simp only []
      omega
    · have hd : mapDel ((k2, v2) :: rest) k = (k2, v2) :: mapDel rest k := by
        unfold mapDel
        rw [List.filter_cons_of_pos (by simp [h2])]
      rw [hd, usedAt_cons, usedAt_cons, ih hnd.2, oldContrib_cons_ne _ _ _ _ _ h2]
      omega

theorem NodeWF_mapSet (n : Nat) (nr : NodeResInfo) (k : UID) (info : PodResInfo)
    (h : NodeWF n nr) (hlen : info.Resources.length = n) :
    NodeWF n { nr with Pods := mapSet nr.Pods k info } := by
  obtain ⟨hcap, hpods, hnd⟩ := h
  refine ⟨hcap, ?_, keys_mapSet_nodup _ _ _ hnd⟩
  intro e he
  rcases mem_mapSet _ _ _ _ he with h1 | h1
  · rw [h1]; exact hlen
  · exact hpods e h1.1

theorem NodeWF_mapDel (n : Nat) (nr : NodeResInfo) (k : UID) (h : NodeWF n nr) :
    NodeWF n { nr with Pods := mapDel nr.Pods k } := by
  obtain ⟨hcap, hpods, hnd⟩ := h
  refine ⟨hcap, ?_, keys_mapDel_nodup _ _ hnd⟩
  intro e he
  exact hpods e ((mem_mapDel _ _ _).mp he).1

theorem AddPodToCache_ok (n : Nat) (hpos : 0 < n) (resIDMap : GoMap Nat)
    (hreg : ∀ e ∈ resIDMap, e.2 < n) (nr : NodeResInfo) (h : NodeWF n nr) (pod : Pod) :
    ∃ req, GetPodReq pod resIDMap (List.replicate n 0) = some req ∧ req.length = n ∧
      (PodNonneg pod → ∀ i, 0 ≤ vget req i) ∧
      AddPodToCache nr pod resIDMap =
        some { nr with Pods := mapSet nr.Pods pod.UID (NewPodInfo.result pod req) } ∧
      NodeWF n { nr with Pods := mapSet nr.Pods pod.UID (NewPodInfo.result pod req) } := by
  obtain ⟨req, hreq, hlen, hnn⟩ := GetPodReq_ok resIDMap n hpos hreg pod
  have hwf : NodeWF n { nr with Pods := mapSet nr.Pods pod.UID (NewPodInfo.result pod req) } :=
    NodeWF_mapSet n nr pod.UID _ h hlen
  obtain ⟨a, ha, _, _⟩ := GetAvailable_ok n _ hwf
  refine ⟨req, hreq, hlen, hnn, ?_, hwf⟩
  simp [AddPodToCache, NewPodInfo, h.1, hreq, ha]

theorem DeletePod_ok (n : Nat) (nr : NodeResInfo) (h : NodeWF n nr) (pod : Pod) :
    DeletePod nr pod = some { nr with Pods := mapDel nr.Pods pod.UID } ∧
      NodeWF n { nr with Pods := mapDel nr.Pods pod.UID } := by
  have hwf := NodeWF_mapDel n nr pod.UID h
  obtain ⟨a, ha, _, _⟩ := GetAvailable_ok n _ hwf
  refine ⟨?_, hwf⟩
  unfold DeletePod
  cases hh : mapHas nr.Pods pod.UID
  · rw [mapHas_eq_false_iff] at hh
    have hd := mapDel_of_absent nr.Pods pod.UID hh
    rw [hd] at ha
    simp [hd, ha]
  · simp [ha]

theorem CheckPod_ok (n : Nat) (hpos : 0 < n) (resIDMap : GoMap Nat)
    (hreg : ∀ e ∈ resIDMap, e.2 < n) (nr : NodeResInfo) (h : NodeWF n nr) (pod : Pod) :
    ∃ a req, GetAvailable nr = some a ∧ a.length = n ∧
      GetPodReq pod resIDMap (List.replicate n 0) = some req ∧ req.length = n ∧
      CheckPod nr pod resIDMap = some (VectorCompare a req) := by
  obtain ⟨req, hreq, hlen, _⟩ := GetPodReq_ok resIDMap n hpos hreg pod
  obtain ⟨a, ha, halen, _⟩ := GetAvailable_ok n nr h
  refine ⟨a, req, ha, halen, hreq, hlen, ?_⟩
  simp [CheckPod, ha, h.1, hreq]

/-! ## Global ledger: single reservation -/

theorem testLedger_is_bootstrap : InitGR [GetNode0] [] true = some testLedger := by decide

theorem testLedgerPod0_is_reserve :
    Reserve testLedger testPod0 "node0" = some ("", testLedgerPod0) := by decide

theorem lazyCollect_of_bootstrapped (gr : GloalReserve) (h : gr.NextResourceID ≠ 0) :
    lazyCollect gr = some gr := by
  simp [lazyCollect, h]

theorem WellFormed_update (gr : GloalReserve) (h : WellFormed gr) (nodeName : String)
    (nr : NodeResInfo) (hnr : NodeWF gr.ResTypeMaxKind nr) (p2n : GoMap String)
    (hp : (p2n.map Prod.fst).Nodup) :
    WellFormed { gr with NodeCache := mapSet gr.NodeCache nodeName nr, PodToNode := p2n } := by
  obtain ⟨hpos, hreg, hnd, _, hnodes⟩ := h
  refine ⟨hpos, hreg, keys_mapSet_nodup _ _ _ hnd, hp, ?_⟩
  intro e he
  rcases mem_mapSet _ _ _ _ he with h1 | h1
  · rw [h1]; exact hnr
  · exact hnodes e h1.1

theorem WellFormed_node (gr : GloalReserve) (h : WellFormed gr) (nodeName : String)
    (nr : NodeResInfo) (hn : mapGet gr.NodeCache nodeName = some nr) :
    NodeWF gr.ResTypeMaxKind nr :=
  h.2.2.2.2 (nodeName, nr) (mapGet_mem _ _ _ hn)

/-- The three outcomes of `Reserve` on a bootstrapped ledger, with the values
computed on the way. -/
theorem Reserve_cases (gr : GloalReserve) (pod : Pod) (nodeName : String) (h : Bootstrapped gr) :
    (mapGet gr.NodeCache nodeName = none ∧
      Reserve gr pod nodeName = some ("NodeName does not exist", gr)) ∨
    (∃ nr a req, mapGet gr.NodeCache nodeName = some nr ∧ NodeWF gr.ResTypeMaxKind nr ∧
      GetAvailable nr = some a ∧ a.length = gr.ResTypeMaxKind ∧
      GetPodReq pod gr.ResTypeToID (List.replicate gr.ResTypeMaxKind 0) = some req ∧
      req.length = gr.ResTypeMaxKind ∧ (PodNonneg pod → ∀ i, 0 ≤ vget req i) ∧
      CheckPod nr pod gr.ResTypeToID = some (VectorCompare a req) ∧
      ((VectorCompare a req = false ∧
          Reserve gr pod nodeName = some ("Resource is not enough.", gr)) ∨
        (VectorCompare a req = true ∧
          Reserve gr pod nodeName =
            some ("", { gr with
              NodeCache := mapSet gr.NodeCache nodeName
                { nr with Pods := mapSet nr.Pods pod.UID (NewPodInfo.result pod req) }
              PodToNode := mapSet gr.PodToNode pod.UID nodeName })))) := by
  obtain ⟨hboot, hwf⟩ := h
  have hlazy := lazyCollect_of_bootstrapped gr hboot
  cases hn : mapGet gr.NodeCache nodeName with
  | none =>
    left
    refine ⟨rfl, ?_⟩
    simp [Reserve, hlazy, hn]
  | some nr =>
    right
    have hnr := WellFormed_node gr hwf nodeName nr hn
    obtain ⟨a, req, ha, halen, hreq, hlen, hchk⟩ :=
      CheckPod_ok gr.ResTypeMaxKind hwf.1 gr.ResTypeToID hwf.2.1 nr hnr pod
    obtain ⟨req1, hreq1, _, hnn, hadd, _⟩ :=
      AddPodToCache_ok gr.ResTypeMaxKind hwf.1 gr.ResTypeToID hwf.2.1 nr hnr pod
    have heq : req1 = req := by
      rw [hreq] at hreq1; exact (Option.some.inj hreq1).symm
    subst heq
    refine ⟨nr, a, req1, rfl, hnr, ha, halen, hreq, hlen, hnn, hchk, ?_⟩
    cases hc : VectorCompare a req1
    · left
      refine ⟨rfl, ?_⟩
      simp [Reserve, hlazy, hn, hchk, hc]
    · right
      refine ⟨rfl, ?_⟩
      simp [Reserve, hlazy, hn, hchk, hc, hadd]

/-- C2: on a bootstrapped ledger `Reserve` returns, and decides by exactly three
cases: the node-not-found text iff the node is not cached, the
insufficient-resources text iff the node is cached and `CheckPod` is false, the
empty string iff the node is cached and `CheckPod` is true; after a success the
node holds an entry under the pod's UID and the reverse index maps the UID to
the node. -/
theorem Reserve_three_cases (gr : GloalReserve) (pod : Pod) (nodeName : String)
    (h : Bootstrapped gr) :
    ∃ ret gr1, Reserve gr pod nodeName = some (ret, gr1) ∧
      (ret = "NodeName does not exist" ↔ mapGet gr.NodeCache nodeName = none) ∧
      (ret = "Resource is not enough." ↔
        ∃ nr, mapGet gr.NodeCache nodeName = some nr ∧
          CheckPod nr pod gr.ResTypeToID = some false) ∧
      (ret = "" ↔
        ∃ nr, mapGet gr.NodeCache nodeName = some nr ∧
          CheckPod nr pod gr.ResTypeToID = some true) ∧
      (ret = "" →
        (∃ nr1, mapGet gr1.NodeCache nodeName = some nr1 ∧ mapHas nr1.Pods pod.UID = true) ∧
          mapGet gr1.PodToNode pod.UID = some nodeName) := by
  rcases Reserve_cases gr pod nodeName h with ⟨hn, hres⟩ | ⟨nr, a, req, hn, _, _, _, _, _, _, hchk, hcase⟩
  · refine ⟨_, _, hres, ?_, ?_, ?_, ?_⟩
    · simp [hn]
    · simp [hn]
    · simp [hn]
    · intro hc; exact absurd hc (by decide)
  · rcases hcase with ⟨hc, hres⟩ | ⟨hc, hres⟩
    · refine ⟨_, _, hres, ?_, ?_, ?_, ?_⟩
      · simp [hn]
      · simp [hn, hchk, hc]
      · simp [hn, hchk, hc]
      · intro hc1; exact absurd hc1 (by decide)
    · refine ⟨_, _, hres, ?_, ?_, ?_, ?_⟩
      · simp [hn]
      · simp [hn, hchk, hc]
      · simp [hn, hchk, hc]
      · intro _
        refine ⟨⟨_, mapGet_mapSet_self _ _ _, ?_⟩, mapGet_mapSet_self _ _ _⟩
        rw [mapHas_eq_true_iff]
        exact ⟨_, mapGet_mapSet_self _ _ _⟩

theorem Reserve_three_cases_witness :
    Bootstrapped testLedger ∧
    ∃ ret gr1, Reserve testLedger testPod0 "node0" = some (ret, gr1) ∧
      (ret = "NodeName does not exist" ↔ mapGet testLedger.NodeCache "node0" = none) ∧
      (ret = "Resource is not enough." ↔
        ∃ nr, mapGet testLedger.NodeCache "node0" = some nr ∧
          CheckPod nr testPod0 testLedger.ResTypeToID = some false) ∧
      (ret = "" ↔
        ∃ nr, mapGet testLedger.NodeCache "node0" = some nr ∧
          CheckPod nr testPod0 testLedger.ResTypeToID = some true) ∧
      (ret = "" →
        (∃ nr1, mapGet gr1.NodeCache "node0" = some nr1 ∧
            mapHas nr1.Pods testPod0.UID = true) ∧
          mapGet gr1.PodToNode testPod0.UID = some "node0") :=
  ⟨by decide, Reserve_three_cases testLedger testPod0 "node0" (by decide)⟩

/-- C3: on a bootstrapped ledger a `Reserve` that returns a non-empty text
leaves the whole ledger as it was, so the availability of every node is
unchanged. -/
theorem Reserve_failure_unchanged (gr : GloalReserve) (pod : Pod) (nodeName : String)
    (h : Bootstrapped gr) :
    ∃ ret gr1, Reserve gr pod nodeName = some (ret, gr1) ∧
      (ret ≠ "" →
        gr1 = gr ∧ gr1.NodeCache = gr.NodeCache ∧ gr1.PodToNode = gr.PodToNode ∧
          ∀ n, AvailableOf gr1 n = AvailableOf gr n) := by
  rcases Reserve_cases gr pod nodeName h with ⟨_, hres⟩ | ⟨nr, a, req, _, _, _, _, _, _, _, _, hcase⟩
  · exact ⟨_, _, hres, fun _ => ⟨rfl, rfl, rfl, fun _ => rfl⟩⟩
  · rcases hcase with ⟨_, hres⟩ | ⟨_, hres⟩
    · exact ⟨_, _, hres, fun _ => ⟨rfl, rfl, rfl, fun _ => rfl⟩⟩
    · exact ⟨_, _, hres, fun hne => absurd rfl hne⟩

theorem Reserve_failure_unchanged_witness :
    Bootstrapped testLedgerPod0 ∧
    ∃ ret gr1,
      Reserve testLedgerPod0 (GetPod "pod1" 2000 1000 "node0" PodPending) "node0" =
        some (ret, gr1) ∧
      (ret ≠ "" →
        gr1 = testLedgerPod0 ∧ gr1.NodeCache = testLedgerPod0.NodeCache ∧
          gr1.PodToNode = testLedgerPod0.PodToNode ∧
          ∀ n, AvailableOf gr1 n = AvailableOf testLedgerPod0 n) :=
  ⟨by decide,
    Reserve_failure_unchanged testLedgerPod0 (GetPod "pod1" 2000 1000 "node0" PodPending)
      "node0" (by decide)⟩

theorem counted_result (pod : Pod) (req : resVector) :
    counted (NewPodInfo.result pod req) =
      (decide (pod.Phase ≠ PodSucceeded) && decide (pod.Phase ≠ PodFailed)) := rfl

theorem AvailableOf_update (gr : GloalReserve) (nodeName : String) (nr : NodeResInfo)
    (p2n : GoMap String) :
    AvailableOf { gr with NodeCache := mapSet gr.NodeCache nodeName nr, PodToNode := p2n }
      nodeName = GetAvailable nr := by
  simp [AvailableOf, mapGet_mapSet_self]

theorem AvailableOf_update_ne (gr : GloalReserve) (nodeName n : String) (nr : NodeResInfo)
    (p2n : GoMap String) (hne : n ≠ nodeName) :
    AvailableOf { gr with NodeCache := mapSet gr.NodeCache nodeName nr, PodToNode := p2n } n =
      AvailableOf gr n := by
  simp [AvailableOf, mapGet_mapSet_ne _ _ _ _ hne]

/-- C4 (as stated, refuted): a successful `Reserve` does not always lower the
availability by the pod's vector.  Reserving again a pod whose UID is already
tracked on the node overwrites its entry and leaves the availability as it was;
and a pod whose phase is Succeeded is stored but not counted, even under a
fresh UID. -/
theorem Reserve_success_counterexample :
    (¬ ∀ (gr gr1 : GloalReserve) (pod : Pod) (n : String) (a a1 req : resVector),
        Bootstrapped gr → Reserve gr pod n = some ("", gr1) →
        AvailableOf gr n = some a → AvailableOf gr1 n = some a1 →
        GetPodReq pod gr.ResTypeToID (List.replicate gr.ResTypeMaxKind 0) = some req →
        ∀ i, vget a1 i = vget a i - vget req i) ∧
    (¬ ∀ (gr gr1 : GloalReserve) (pod : Pod) (n : String) (nr : NodeResInfo)
        (a a1 req : resVector),
        Bootstrapped gr → mapGet gr.NodeCache n = some nr → mapGet nr.Pods pod.UID = none →
        Reserve gr pod n = some ("", gr1) →
        AvailableOf gr n = some a → AvailableOf gr1 n = some a1 →
        GetPodReq pod gr.ResTypeToID (List.replicate gr.ResTypeMaxKind 0) = some req →
        ∀ i, vget a1 i = vget a i - vget req i) := by
  constructor
  · intro hall
    have h := hall testLedgerPod0 testLedgerPod0 testPod0 "node0"
      [1000, 4000, 9, 0, 0, 0] [1000, 4000, 9, 0, 0, 0] [1000, 1000, 1, 0, 0, 0]
      (by decide) (by decide) (by decide) (by decide) (by decide) 0
    revert h
    decide
  · intro hall
    have h := hall testLedger
      { testLedger with
        NodeCache :=
          [("node0",
            { Name := "node0"
              Capa := [2000, 5000, 10, 0, 0, 0]
              Pods :=
                [("NS1-pod0",
                  NewPodInfo.result (GetPod "pod0" 1000 1000 "node0" PodSucceeded)
                    [1000, 1000, 1, 0, 0, 0])] })]
        PodToNode := [("NS1-pod0", "node0")] }
      (GetPod "pod0" 1000 1000 "node0" PodSucceeded) "node0"
      { Name := "node0", Capa := [2000, 5000, 10, 0, 0, 0], Pods := [] }
      [2000, 5000, 10, 0, 0, 0] [2000, 5000, 10, 0, 0, 0] [1000, 1000, 1, 0, 0, 0]
      (by decide) (by decide) (by decide) (by decide) (by decide) (by decide) (by decide) 0
    revert h
    decide

/-- C4 (amended): on a bootstrapped ledger, when `Reserve(pod, n)` returns the
empty string for a pod whose phase is neither Succeeded nor Failed and whose
UID had no entry in the pod set of `n`, the availability of `n` after the call
is the availability before the call minus the pod's encoded vector, slot by
slot. -/
theorem Reserve_success_consumes (gr gr1 : GloalReserve) (pod : Pod) (nodeName : String)
    (nr : NodeResInfo) (h : Bootstrapped gr) (hn : mapGet gr.NodeCache nodeName = some nr)
    (hfresh : mapGet nr.Pods pod.UID = none)
    (hphase : pod.Phase ≠ PodSucceeded ∧ pod.Phase ≠ PodFailed)
    (hres : Reserve gr pod nodeName = some ("", gr1)) :
    ∃ a a1 req, AvailableOf gr nodeName = some a ∧ AvailableOf gr1 nodeName = some a1 ∧
      GetPodReq pod gr.ResTypeToID (List.replicate gr.ResTypeMaxKind 0) = some req ∧
      VectorMinus a req = some a1 ∧ ∀ i, vget a1 i = vget a i - vget req i := by
  rcases Reserve_cases gr pod nodeName h with ⟨_, hres1⟩ | ⟨nr0, a, req, hn0, hnr, ha, halen, hreq, hlen, _, _, hcase⟩
  · rw [hres1] at hres
    have h1 : "NodeName does not exist" = "" := congrArg Prod.fst (Option.some.inj hres)
    exact absurd h1 (by decide)
  · rw [hn] at hn0
    obtain rfl := Option.some.inj hn0
    rcases hcase with ⟨_, hres1⟩ | ⟨_, hres1⟩
    · rw [hres1] at hres
      have h1 : "Resource is not enough." = "" := congrArg Prod.fst (Option.some.inj hres)
      exact absurd h1 (by decide)
    · rw [hres1] at hres
      have hgr1 := congrArg Prod.snd (Option.some.inj hres)
      simp only at hgr1
      have hwf1 := NodeWF_mapSet gr.ResTypeMaxKind nr pod.UID (NewPodInfo.result pod req) hnr hlen
      obtain ⟨a1, ha1, ha1len, ha1get⟩ := GetAvailable_ok _ _ hwf1
      obtain ⟨_, _, hagets⟩ := GetAvailable_ok _ _ hnr
      obtain ⟨a0, ha0, _, haget⟩ := GetAvailable_ok _ _ hnr
      rw [ha] at ha0
      obtain rfl := Option.some.inj ha0
      have hget : ∀ i, vget a1 i = vget a i - vget req i := by
        intro i
        rw [ha1get i, haget i]
        simp only
        rw [usedAt_mapSet _ _ _ _ hnr.2.2, oldContrib_of_absent _ _ _ hfresh]
        simp only [contrib, counted_result, hphase.1, hphase.2, ne_eq, not_false_eq_true,
          decide_True, Bool.and_self, if_true]
        simp only [NewPodInfo.result]
        omega
      obtain ⟨r, hr, hrlen, hrget⟩ := VectorMinus_ok a req (by omega)
      have hra : r = a1 := vec_ext r a1 (by omega) (fun i => by rw [hrget i, hget i])
      refine ⟨a, a1, req, ?_, ?_, hreq, by rw [hr, hra], hget⟩
      · simp [AvailableOf, hn, ha]
      · rw [← hgr1, AvailableOf_update]
        exact ha1

theorem Reserve_success_consumes_witness :
    (Bootstrapped testLedger ∧
      mapGet testLedger.NodeCache "node0" =
        some { Name := "node0", Capa := [2000, 5000, 10, 0, 0, 0], Pods := [] } ∧
      Reserve testLedger testPod0 "node0" = some ("", testLedgerPod0)) ∧
    AvailableOf testLedgerPod0 "node0" = some [1000, 4000, 9, 0, 0, 0] ∧
    ∃ a a1 req, AvailableOf testLedger "node0" = some a ∧
      AvailableOf testLedgerPod0 "node0" = some a1 ∧
      GetPodReq testPod0 testLedger.ResTypeToID (List.replicate testLedger.ResTypeMaxKind 0) =
        some req ∧
      VectorMinus a req = some a1 ∧ ∀ i, vget a1 i = vget a i - vget req i :=
  ⟨⟨by decide, by decide, by decide⟩, by decide,
    Reserve_success_consumes testLedger testLedgerPod0 testPod0 "node0"
      { Name := "node0", Capa := [2000, 5000, 10, 0, 0, 0], Pods := [] }
      (by decide) (by decide) (by decide) (by decide) (by decide)⟩

/-! ## Availability against its reference definition -/

theorem filter_sum_eq_usedAt (pods : GoMap PodResInfo) (i : Nat) :
    ((pods.filter (fun e =>
        decide (e.2.Status ≠ PodSucceeded ∧ e.2.Status ≠ PodFailed))).map
      (fun e => vget e.2.Resources i)).sum = usedAt pods i := by
  induction pods with
  | nil => rfl
  | cons e rest ih =>
    rw [usedAt_cons, ← ih]
    by_cases h : e.2.Status ≠ PodSucceeded ∧ e.2.Status ≠ PodFailed
    · rw [List.filter_cons_of_pos (by simpa using h)]
      simp [contrib, counted, h.1, h.2]
    · rw [List.filter_cons_of_neg (by simpa using h)]
      have hc : counted e.2 = false := by
        simp only [counted, Bool.and_eq_false_imp, decide_eq_true_eq, decide_eq_false_iff_not]
        intro h1 h2
        exact h ⟨h1, h2⟩
      simp [contrib, hc]

theorem vget_map_range (n : Nat) (f : Nat → Int) (i : Nat) :
    vget ((List.range n).map f) i = if i < n then f i else 0 := by
  unfold vget
  by_cases h : i < n
  · simp [List.getD_eq_getElem?_getD, h]
  · have hnone : (List.range n)[i]? = none := List.getElem?_eq_none (by simp; omega)
    simp [List.getD_eq_getElem?_getD, h, hnone]

theorem vget_nonneg_of_all (v : resVector) (h : ∀ x ∈ v, (0 : Int) ≤ x) (j : Nat) :
    0 ≤ vget v j := by
  induction v generalizing j with
  | nil => rw [vget_nil]
  | cons x v ih =>
    cases j with
    | zero => rw [vget_cons_zero]; exact h x (by simp)
    | succ j => rw [vget_cons_succ]; exact ih (fun y hy => h y (List.mem_cons_of_mem _ hy)) j

/-- C5: `GetAvailable` returns the reference vector: in every slot the node's
capacity minus the sum of the vectors of the tracked pods whose status is
neither Succeeded nor Failed; pods with a terminal status contribute nothing.
The node ledger is one in which no counted pod vector is longer than the
capacity vector, as in every ledger the package builds. -/
theorem GetAvailable_eq_spec (nr : NodeResInfo)
    (h : ∀ e ∈ nr.Pods, counted e.2 = true → e.2.Resources.length ≤ nr.Capa.length) :
    GetAvailable nr = some (AvailableSpec nr) := by
  obtain ⟨r, hr, hlen, hget⟩ := subtractPods_ok nr.Pods nr.Capa h
  have : r = AvailableSpec nr := by
    apply vec_ext
    · simp [AvailableSpec, hlen]
    · intro i
      unfold AvailableSpec
      rw [vget_map_range, filter_sum_eq_usedAt]
      by_cases hi : i < nr.Capa.length
      · rw [if_pos hi]; exact hget i
      · rw [if_neg hi]; exact vget_of_le r i (by omega)
  rw [← this]
  exact hr

theorem GetAvailable_eq_spec_witness :
    (∀ e ∈ testNode1.Pods, counted e.2 = true → e.2.Resources.length ≤ testNode1.Capa.length) ∧
    AvailableSpec testNode1 = [1000, 4000, 9, 10, 0, 0, 0, 0] ∧
    GetAvailable testNode1 = some (AvailableSpec testNode1) :=
  ⟨by decide, by decide, GetAvailable_eq_spec testNode1 (by decide)⟩

theorem oldContrib_nonneg (pods : GoMap PodResInfo) (k : UID) (i : Nat)
    (hnn : ∀ e ∈ pods, ∀ j, 0 ≤ vget e.2.Resources j) : 0 ≤ oldContrib pods k i := by
  unfold oldContrib
  cases hg : mapGet pods k with
  | none => simp
  | some p =>
    simp only [Option.map_some', Option.getD_some, contrib]
    split
    · exact hnn (k, p) (mapGet_mem _ _ _ hg) i
    · exact le_refl 0

theorem VectorMinus_eq_zipWith (a b : resVector) (h : a.length = b.length) :
    VectorMinus a b = some (List.zipWith (fun x y => x - y) a b) := by
  induction b generalizing a with
  | nil =>
    cases a with
    | nil => rfl
    | cons x a => simp at h
  | cons v b ih =>
    cases a with
    | nil => simp at h
    | cons x a => simp [VectorMinus, ih a (by simpa using h)]

theorem vget_zipWith_sub (a b : resVector) (h : a.length = b.length) (i : Nat) :
    vget (List.zipWith (fun x y => x - y) a b) i = vget a i - vget b i := by
  obtain ⟨r, hr, _, hget⟩ := VectorMinus_ok a b (by omega)
  rw [VectorMinus_eq_zipWith a b h] at hr
  rw [Option.some.inj hr]
  exact hget i

theorem missingNames_cons_missing (cache : GoMap NodeResInfo) (p : Pod) (n : String)
    (rest : List (Pod × String)) (h : mapGet cache n = none) :
    missingNames cache ((p, n) :: rest) = p.Name :: missingNames cache rest := by
  simp [missingNames, mapHas, h]

theorem missingNames_cons_cached (cache : GoMap NodeResInfo) (p : Pod) (n : String)
    (rest : List (Pod × String)) (nr : NodeResInfo) (h : mapGet cache n = some nr) :
    missingNames cache ((p, n) :: rest) = missingNames cache rest := by
  simp [missingNames, mapHas, h]

theorem missingNames_eq_nil_iff (cache : GoMap NodeResInfo) (prs : List (Pod × String)) :
    missingNames cache prs = [] ↔ ∀ e ∈ prs, mapHas cache e.2 = true := by
  simp [missingNames, List.filter_eq_nil_iff]

/-- The first loop of `ReservePods`: it returns, lists the pods whose node is
missing, and stages the availability of every cached target node. -/
theorem checkNodes_spec (n : Nat) (cache : GoMap NodeResInfo)
    (hwf : ∀ e ∈ cache, NodeWF n e.2) (prs : List (Pod × String)) (failed : List String)
    (err : String) (host : GoMap resVector)
    (hinv : ∀ m a, mapGet host m = some a → (mapGet cache m).bind GetAvailable = some a) :
    ∃ host1,
      ReservePods.checkNodes cache prs failed err host =
        some (failed ++ missingNames cache prs,
          if missingNames cache prs = [] then err else "Node does not exist", host1) ∧
      (∀ m a, mapGet host1 m = some a → (mapGet cache m).bind GetAvailable = some a) ∧
      (∀ e ∈ prs, mapHas cache e.2 = true → mapHas host1 e.2 = true) ∧
      (∀ m, mapHas host m = true → mapHas host1 m = true) := by
  induction prs generalizing failed err host with
  | nil =>
    refine ⟨host, ?_, hinv, ?_, fun m hm => hm⟩
    · simp [ReservePods.checkNodes, missingNames]
    · intro e he; simp at he
  | cons e rest ih =>
    obtain ⟨p, nodeName⟩ := e
    cases hn : mapGet cache nodeName with
    | none =>
      obtain ⟨host1, hres, h1, h2, h3⟩ := ih (failed ++ [p.Name]) "Node does not exist" host hinv
      refine ⟨host1, ?_, h1, ?_, h3⟩
      · rw [missingNames_cons_missing _ _ _ _ hn]
        simp only [ReservePods.checkNodes, hn, hres]
        simp
      · intro e he hc
        rcases List.mem_cons.mp he with heq | hmem
        · rw [heq] at hc
          simp [mapHas, hn] at hc
        · exact h2 e hmem hc
    | some nodeInfo =>
      rw [missingNames_cons_cached _ _ _ _ _ hn]
      cases hh : mapHas host nodeName
      · have hnwf : NodeWF n nodeInfo := hwf (nodeName, nodeInfo) (mapGet_mem _ _ _ hn)
        obtain ⟨a, ha, _, _⟩ := GetAvailable_ok n nodeInfo hnwf
        have hinv1 : ∀ m b, mapGet (mapSet host nodeName a) m = some b →
            (mapGet cache m).bind GetAvailable = some b := by
          intro m b hm
          by_cases hmn : m = nodeName
          · subst hmn
            rw [mapGet_mapSet_self] at hm
            rw [hn, ← Option.some.inj hm]
            exact ha
          · rw [mapGet_mapSet_ne _ _ _ _ hmn] at hm
            exact hinv m b hm
        obtain ⟨host1, hres, h1, h2, h3⟩ := ih failed err (mapSet host nodeName a) hinv1
        refine ⟨host1, ?_, h1, ?_, ?_⟩
        · simp [ReservePods.checkNodes, hn, hh, ha, hres]
        · intro e he hc
          rcases List.mem_cons.mp he with heq | hmem
          · rw [heq]
            apply h3
            rw [mapHas_eq_true_iff]
            exact ⟨a, mapGet_mapSet_self _ _ _⟩
          · exact h2 e hmem hc
        · intro m hm
          apply h3
          rw [mapHas_eq_true_iff] at hm ⊢
          obtain ⟨v, hv⟩ := hm
          by_cases hmn : m = nodeName
          · subst hmn
            exact ⟨a, mapGet_mapSet_self _ _ _⟩
          · exact ⟨v, by rw [mapGet_mapSet_ne _ _ _ _ hmn]; exact hv⟩
      · obtain ⟨host1, hres, h1, h2, h3⟩ := ih failed err host hinv
        refine ⟨host1, ?_, h1, ?_, h3⟩
        · simp only [ReservePods.checkNodes, hn, hh, hres]
          simp
        · intro e he hc
          rcases List.mem_cons.mp he with heq | hmem
          · rw [heq]
            exact h3 _ hh
          · exact h2 e hmem hc

/-- The second loop of `ReservePods`: it returns, and the pods it lists are
those of the reference admission run on the staged availability. -/
theorem checkPods_spec (n : Nat) (hpos : 0 < n) (resIDMap : GoMap Nat)
    (hreg : ∀ e ∈ resIDMap, e.2 < n) (prs : List (Pod × String)) (failed : List String)
    (err : String) (host : GoMap resVector) (staged : String → resVector)
    (hinv : ∀ e ∈ prs, mapGet host e.2 = some (staged e.2) ∧ (staged e.2).length = n) :
    ∃ host1,
      ReservePods.checkPods resIDMap n prs failed err host =
        some (failed ++
            stagedFailures (fun p => (GetPodReq p resIDMap (List.replicate n 0)).getD [])
              staged prs,
          if stagedFailures (fun p => (GetPodReq p resIDMap (List.replicate n 0)).getD [])
              staged prs = [] then err
          else "Node does not have enough resource", host1) := by
  induction prs generalizing failed err host staged with
  | nil => exact ⟨host, by simp [ReservePods.checkPods, stagedFailures]⟩
  | cons e rest ih =>
    obtain ⟨p, nodeName⟩ := e
    obtain ⟨req, hreq, hlen, _⟩ := GetPodReq_ok resIDMap n hpos hreg p
    obtain ⟨hget, hslen⟩ := hinv (p, nodeName) (by simp)
    simp only at hget hslen
    have hhas : mapHas host nodeName = true := by
      rw [mapHas_eq_true_iff]; exact ⟨_, hget⟩
    cases hc : VectorCompare (staged nodeName) req
    · obtain ⟨host1, hres⟩ :=
        ih (failed ++ [p.Name]) "Node does not have enough resource" host staged
          (fun e he => hinv e (List.mem_cons_of_mem _ he))
      refine ⟨host1, ?_⟩
      simp only [ReservePods.checkPods, stagedFailures, hreq, hget, Option.getD_some,
        Option.some_bind, hc, Bool.false_eq_true, if_false, hres]
      simp
    · have hminus := VectorMinus_eq_zipWith (staged nodeName) req (by omega)
      have hinv1 : ∀ e ∈ rest,
          mapGet (mapSet host nodeName (List.zipWith (fun x y => x - y) (staged nodeName) req))
              e.2 =
            some ((fun m => if m = nodeName then
                List.zipWith (fun x y => x - y) (staged nodeName) req else staged m) e.2) ∧
          ((fun m => if m = nodeName then
                List.zipWith (fun x y => x - y) (staged nodeName) req else staged m) e.2).length
            = n := by
        intro e he
        by_cases hmn : e.2 = nodeName
        · rw [hmn]
          simp only [if_true]
          refine ⟨mapGet_mapSet_self _ _ _, ?_⟩
          simp [hslen, hlen]
        · simp only [hmn, if_false]
          rw [mapGet_mapSet_ne _ _ _ _ hmn]
          exact hinv e (List.mem_cons_of_mem _ he)
      obtain ⟨host1, hres⟩ := ih failed err
        (mapSet host nodeName (List.zipWith (fun x y => x - y) (staged nodeName) req))
        (fun m => if m = nodeName then
          List.zipWith (fun x y => x - y) (staged nodeName) req else staged m) hinv1
      refine ⟨host1, ?_⟩
      simp only [ReservePods.checkPods, stagedFailures, hreq, hget, Option.getD_some,
        Option.some_bind, hc, if_true, hminus, hhas, hres]

/-- One step of the last loop of `ReservePods` on a well-formed ledger. -/
theorem commit_cons (gr : GloalReserve) (hwf : WellFormed gr) (p : Pod) (nodeName : String)
    (rest : List (Pod × String)) (nr : NodeResInfo)
    (hn : mapGet gr.NodeCache nodeName = some nr) :
    ∃ req, GetPodReq p gr.ResTypeToID (List.replicate gr.ResTypeMaxKind 0) = some req ∧
      req.length = gr.ResTypeMaxKind ∧ (PodNonneg p → ∀ i, 0 ≤ vget req i) ∧
      ReservePods.commit ((p, nodeName) :: rest) gr =
        ReservePods.commit rest (reserved gr p nodeName nr req) ∧
      WellFormed (reserved gr p nodeName nr req) := by
  have hnr := WellFormed_node gr hwf nodeName nr hn
  obtain ⟨req, hreq, hlen, hnn, hadd, hwf1⟩ :=
    AddPodToCache_ok gr.ResTypeMaxKind hwf.1 gr.ResTypeToID hwf.2.1 nr hnr p
  refine ⟨req, hreq, hlen, hnn, ?_, ?_⟩
  · simp [ReservePods.commit, hn, hadd, reserved]
  · exact WellFormed_update gr hwf nodeName _ hwf1 _ (keys_mapSet_nodup _ _ _ hwf.2.2.2.1)

theorem mapHas_mapSet {V : Type} (m : GoMap V) (k k1 : String) (v : V) :
    mapHas (mapSet m k v) k1 = (decide (k1 = k) || mapHas m k1) := by
  by_cases h : k1 = k
  · subst h
    simp [mapHas, mapGet_mapSet_self]
  · simp [mapHas, mapGet_mapSet_ne _ _ _ _ h, h]

/-- The last loop of `ReservePods` returns on a well-formed ledger in which
every target node is cached, and yields a well-formed ledger with the same
registry and the same cached node names. -/
theorem commit_ok (prs : List (Pod × String)) (gr : GloalReserve) (hwf : WellFormed gr)
    (hcached : ∀ e ∈ prs, mapHas gr.NodeCache e.2 = true) :
    ∃ gr1, ReservePods.commit prs gr = some gr1 ∧ WellFormed gr1 ∧
      gr1.ResTypeToID = gr.ResTypeToID ∧ gr1.ResTypeMaxKind = gr.ResTypeMaxKind ∧
      gr1.NextResourceID = gr.NextResourceID ∧
      gr1.NodeLister = gr.NodeLister ∧ gr1.PodLister = gr.PodLister ∧
      (∀ m, mapHas gr1.NodeCache m = mapHas gr.NodeCache m) := by
  induction prs generalizing gr with
  | nil => exact ⟨gr, rfl, hwf, rfl, rfl, rfl, rfl, rfl, fun _ => rfl⟩
  | cons e rest ih =>
    obtain ⟨p, nodeName⟩ := e
    obtain ⟨nr, hn⟩ := (mapHas_eq_true_iff _ _).mp (hcached (p, nodeName) (by simp))
    obtain ⟨req, _, _, _, hstep, hwf1⟩ := commit_cons gr hwf p nodeName rest nr hn
    have hkeys : ∀ m, mapHas (reserved gr p nodeName nr req).NodeCache m = mapHas gr.NodeCache m := by
      intro m
      simp only [reserved, mapHas_mapSet]
      by_cases hm : m = nodeName
      · subst hm
        simp [hcached (p, m) (by simp)]
      · simp [hm]
    obtain ⟨gr1, hres, hwf2, h1, h2, h3, h4, h5, h6⟩ := ih (reserved gr p nodeName nr req) hwf1
      (fun e he => by rw [hkeys]; exact hcached e (List.mem_cons_of_mem _ he))
    refine ⟨gr1, by rw [hstep, hres], hwf2, h1, h2, h3, h4, h5, ?_⟩
    intro m
    rw [h6 m, hkeys m]

/-- The three outcomes of `ReservePods` on a bootstrapped ledger with lists of
equal length: a missing node, a failed admission, or the commit of every pair. -/
theorem ReservePods_cases (gr : GloalReserve) (pods : List Pod) (nodeNames : List String)
    (h : Bootstrapped gr) (hlen : pods.length = nodeNames.length) :
    (missingNames gr.NodeCache (List.zip pods nodeNames) ≠ [] ∧
      ReservePods gr pods nodeNames =
        some ({ FailedPods := missingNames gr.NodeCache (List.zip pods nodeNames),
                Error := "Node does not exist" }, gr)) ∨
    (missingNames gr.NodeCache (List.zip pods nodeNames) = [] ∧
      stagedFailures (encode gr) (availableAt gr) (List.zip pods nodeNames) ≠ [] ∧
      ReservePods gr pods nodeNames =
        some ({ FailedPods :=
                  stagedFailures (encode gr) (availableAt gr) (List.zip pods nodeNames),
                Error := "Node does not have enough resource" }, gr)) ∨
    (missingNames gr.NodeCache (List.zip pods nodeNames) = [] ∧
      stagedFailures (encode gr) (availableAt gr) (List.zip pods nodeNames) = [] ∧
      ∃ gr1, ReservePods.commit (List.zip pods nodeNames) gr = some gr1 ∧
        ReservePods gr pods nodeNames = some ({ FailedPods := [], Error := "" }, gr1)) := by
  obtain ⟨hboot, hwf⟩ := h
  have hlazy := lazyCollect_of_bootstrapped gr hboot
  have hpairs : ReservePods.pairs pods nodeNames = some (List.zip pods nodeNames) := by
    simp [ReservePods.pairs, hlen]
  have hE1 : ¬ "Node does not exist".length = 0 := by decide
  have hE2 : ¬ "Node does not have enough resource".length = 0 := by decide
  obtain ⟨host1, hres1, hinv1, hhas1, _⟩ :=
    checkNodes_spec gr.ResTypeMaxKind gr.NodeCache hwf.2.2.2.2 (List.zip pods nodeNames) [] "" []
      (fun m a hm => by simp [mapGet] at hm)
  by_cases hM : missingNames gr.NodeCache (List.zip pods nodeNames) = []
  · right
    have hstaged : ∀ e ∈ List.zip pods nodeNames,
        mapGet host1 e.2 = some (availableAt gr e.2) ∧
          (availableAt gr e.2).length = gr.ResTypeMaxKind := by
      intro e he
      have hc := (missingNames_eq_nil_iff _ _).mp hM e he
      obtain ⟨a, ha⟩ := (mapHas_eq_true_iff _ _).mp (hhas1 e he hc)
      have hav := hinv1 e.2 a ha
      obtain ⟨nr, hnr⟩ := (mapHas_eq_true_iff _ _).mp hc
      obtain ⟨a1, ha1, ha1len, _⟩ :=
        GetAvailable_ok _ nr (WellFormed_node gr hwf e.2 nr hnr)
      have heq : availableAt gr e.2 = a := by
        simp [availableAt, AvailableOf, hav]
      rw [heq]
      refine ⟨ha, ?_⟩
      rw [hnr] at hav
      simp only [Option.some_bind] at hav
      rw [ha1] at hav
      rw [← Option.some.inj hav]
      exact ha1len
    obtain ⟨host2, hres2⟩ :=
      checkPods_spec gr.ResTypeMaxKind hwf.1 gr.ResTypeToID hwf.2.1 (List.zip pods nodeNames)
        [] "" host1 (availableAt gr) hstaged
    have henc : (fun p => (GetPodReq p gr.ResTypeToID
        (List.replicate gr.ResTypeMaxKind 0)).getD []) = encode gr := rfl
    rw [henc] at hres2
    rw [hM] at hres1
    by_cases hF : stagedFailures (encode gr) (availableAt gr) (List.zip pods nodeNames) = []
    · right
      obtain ⟨gr1, hcommit, _⟩ := commit_ok (List.zip pods nodeNames) gr hwf
        ((missingNames_eq_nil_iff _ _).mp hM)
      refine ⟨hM, hF, gr1, hcommit, ?_⟩
      rw [hF] at hres2
      simp [ReservePods, hlazy, hpairs, hres1, hres2, hcommit]
    · left
      refine ⟨hM, hF, ?_⟩
      simp [ReservePods, hlazy, hpairs, hres1, hres2, hF, hE2]
  · left
    refine ⟨hM, ?_⟩
    simp [ReservePods, hlazy, hpairs, hres1, hM, hE1]

theorem exists_pair_of_mem (pods : List Pod) (nodeNames : List String)
    (hlen : pods.length = nodeNames.length) (n : String) (hn : n ∈ nodeNames) :
    ∃ p, (p, n) ∈ List.zip pods nodeNames := by
  induction pods generalizing nodeNames with
  | nil =>
    cases nodeNames with
    | nil => simp at hn
    | cons m ms => simp at hlen
  | cons p ps ih =>
    cases nodeNames with
    | nil => simp at hn
    | cons m ms =>
      rcases List.mem_cons.mp hn with heq | hmem
      · exact ⟨p, by simp [heq]⟩
      · obtain ⟨q, hq⟩ := ih ms (by simpa using hlen) hmem
        exact ⟨q, by simp [hq]⟩

/-- C1: on a bootstrapped ledger and lists of equal length `ReservePods`
returns, and when its `FailedPods` is non-empty the ledger is exactly what it
was: the node map and the reverse index are unchanged, and no pod of the batch
that was absent before the call is present afterward. -/
theorem ReservePods_all_or_nothing (gr : GloalReserve) (pods : List Pod)
    (nodeNames : List String) (h : Bootstrapped gr) (hlen : pods.length = nodeNames.length) :
    ∃ res gr1, ReservePods gr pods nodeNames = some (res, gr1) ∧
      (res.FailedPods ≠ [] →
        gr1 = gr ∧ gr1.NodeCache = gr.NodeCache ∧ gr1.PodToNode = gr.PodToNode ∧
        ∀ p ∈ pods,
          (mapGet gr.PodToNode p.UID = none → mapGet gr1.PodToNode p.UID = none) ∧
          ∀ m nr, mapGet gr.NodeCache m = some nr → mapGet nr.Pods p.UID = none →
            ∃ nr1, mapGet gr1.NodeCache m = some nr1 ∧ mapGet nr1.Pods p.UID = none) := by
  have hsame : ∀ p ∈ pods,
      (mapGet gr.PodToNode p.UID = none → mapGet gr.PodToNode p.UID = none) ∧
      ∀ m nr, mapGet gr.NodeCache m = some nr → mapGet nr.Pods p.UID = none →
        ∃ nr1, mapGet gr.NodeCache m = some nr1 ∧ mapGet nr1.Pods p.UID = none :=
    fun p _ => ⟨fun hp => hp, fun m nr hm hp => ⟨nr, hm, hp⟩⟩
  rcases ReservePods_cases gr pods nodeNames h hlen with
    ⟨_, hres⟩ | ⟨_, _, hres⟩ | ⟨_, _, gr1, _, hres⟩
  · exact ⟨_, _, hres, fun _ => ⟨rfl, rfl, rfl, hsame⟩⟩
  · exact ⟨_, _, hres, fun _ => ⟨rfl, rfl, rfl, hsame⟩⟩
  · exact ⟨_, _, hres, fun hne => absurd rfl hne⟩

theorem ReservePods_all_or_nothing_witness :
    (Bootstrapped testLedger ∧
      [testPod0, testPod1, testPod2].length = ["node0", "node0", "node0"].length) ∧
    (ReservePods testLedger [testPod0, testPod1, testPod2] ["node0", "node0", "node0"]).map
        (fun r => r.1.FailedPods) = some ["pod2"] ∧
    ∃ res gr1,
      ReservePods testLedger [testPod0, testPod1, testPod2] ["node0", "node0", "node0"] =
        some (res, gr1) ∧
      (res.FailedPods ≠ [] →
        gr1 = testLedger ∧ gr1.NodeCache = testLedger.NodeCache ∧
        gr1.PodToNode = testLedger.PodToNode ∧
        ∀ p ∈ [testPod0, testPod1, testPod2],
          (mapGet testLedger.PodToNode p.UID = none → mapGet gr1.PodToNode p.UID = none) ∧
          ∀ m nr, mapGet testLedger.NodeCache m = some nr → mapGet nr.Pods p.UID = none →
            ∃ nr1, mapGet gr1.NodeCache m = some nr1 ∧ mapGet nr1.Pods p.UID = none) :=
  ⟨⟨by decide, by decide⟩, by decide,
    ReservePods_all_or_nothing testLedger [testPod0, testPod1, testPod2]
      ["node0", "node0", "node0"] (by decide) (by decide)⟩

/-- C8: on a bootstrapped ledger, for lists of equal length whose target nodes
are all cached, `ReservePods` returns and its `FailedPods` is the list produced
by the reference admission: the names, in request order, of the pods whose
vector is not dominated by the staged availability of their node, the staging
starting from `GetAvailable` and being lowered by every admitted pod only. -/
theorem ReservePods_greedy (gr : GloalReserve) (pods : List Pod) (nodeNames : List String)
    (h : Bootstrapped gr) (hlen : pods.length = nodeNames.length)
    (hcached : ∀ n ∈ nodeNames, mapHas gr.NodeCache n = true) :
    ∃ res gr1, ReservePods gr pods nodeNames = some (res, gr1) ∧
      res.FailedPods =
        stagedFailures (encode gr) (availableAt gr) (List.zip pods nodeNames) := by
  have hM : missingNames gr.NodeCache (List.zip pods nodeNames) = [] := by
    rw [missingNames_eq_nil_iff]
    intro e he
    exact hcached e.2 (List.of_mem_zip he).2
  rcases ReservePods_cases gr pods nodeNames h hlen with
    ⟨hne, _⟩ | ⟨_, _, hres⟩ | ⟨_, hF, gr1, _, hres⟩
  · exact absurd hM hne
  · exact ⟨_, _, hres, rfl⟩
  · exact ⟨_, _, hres, hF.symm⟩

theorem ReservePods_greedy_witness :
    (Bootstrapped testLedger ∧
      [testPod0, testPod1, testPod2].length = ["node0", "node0", "node0"].length ∧
      ∀ n ∈ ["node0", "node0", "node0"], mapHas testLedger.NodeCache n = true) ∧
    stagedFailures (encode testLedger) (availableAt testLedger)
        (List.zip [testPod0, testPod1, testPod2] ["node0", "node0", "node0"]) = ["pod2"] ∧
    ∃ res gr1,
      ReservePods testLedger [testPod0, testPod1, testPod2] ["node0", "node0", "node0"] =
        some (res, gr1) ∧
      res.FailedPods =
        stagedFailures (encode testLedger) (availableAt testLedger)
          (List.zip [testPod0, testPod1, testPod2] ["node0", "node0", "node0"]) :=
  ⟨⟨by decide, by decide, by decide⟩, by decide,
    ReservePods_greedy testLedger [testPod0, testPod1, testPod2] ["node0", "node0", "node0"]
      (by decide) (by decide) (by decide)⟩

/-- C9: on a bootstrapped ledger and lists of equal length, when some target
node is not cached `ReservePods` returns, without touching the ledger, the
names in request order of exactly the pods whose target node is not cached,
with the non-empty error text "Node does not exist". -/
theorem ReservePods_missing_node (gr : GloalReserve) (pods : List Pod)
    (nodeNames : List String) (h : Bootstrapped gr) (hlen : pods.length = nodeNames.length)
    (hmiss : ∃ n ∈ nodeNames, mapHas gr.NodeCache n = false) :
    ReservePods gr pods nodeNames =
      some ({ FailedPods :=
                ((List.zip pods nodeNames).filter (fun e => !mapHas gr.NodeCache e.2)).map
                  (fun e => e.1.Name),
              Error := "Node does not exist" }, gr) ∧
    "Node does not exist" ≠ "" := by
  obtain ⟨n, hn, hnc⟩ := hmiss
  obtain ⟨p, hp⟩ := exists_pair_of_mem pods nodeNames hlen n hn
  have hM : missingNames gr.NodeCache (List.zip pods nodeNames) ≠ [] := by
    intro hnil
    have := (missingNames_eq_nil_iff _ _).mp hnil (p, n) hp
    rw [hnc] at this
    exact absurd this (by decide)
  refine ⟨?_, by decide⟩
  rcases ReservePods_cases gr pods nodeNames h hlen with
    ⟨_, hres⟩ | ⟨hnil, _, _⟩ | ⟨hnil, _, _⟩
  · exact hres
  · exact absurd hnil hM
  · exact absurd hnil hM

theorem ReservePods_missing_node_witness :
    (Bootstrapped testLedger ∧
      [testPod0, testPod1, testPod2, testPod3].length =
        ["node0", "node0", "node0", "node1"].length ∧
      ∃ n ∈ ["node0", "node0", "node0", "node1"], mapHas testLedger.NodeCache n = false) ∧
    ((List.zip [testPod0, testPod1, testPod2, testPod3]
          ["node0", "node0", "node0", "node1"]).filter
        (fun e => !mapHas testLedger.NodeCache e.2)).map (fun e => e.1.Name) = ["pod3"] ∧
    (ReservePods testLedger [testPod0, testPod1, testPod2, testPod3]
        ["node0", "node0", "node0", "node1"] =
      some ({ FailedPods :=
                ((List.zip [testPod0, testPod1, testPod2, testPod3]
                    ["node0", "node0", "node0", "node1"]).filter
                  (fun e => !mapHas testLedger.NodeCache e.2)).map (fun e => e.1.Name),
              Error := "Node does not exist" }, testLedger) ∧
      "Node does not exist" ≠ "") :=
  ⟨⟨by decide, by decide, by decide⟩, by decide,
    ReservePods_missing_node testLedger [testPod0, testPod1, testPod2, testPod3]
      ["node0", "node0", "node0", "node1"] (by decide) (by decide) (by decide)⟩

theorem reserved_PodToNode (gr : GloalReserve) (p : Pod) (nodeName : String)
    (nr : NodeResInfo) (req : resVector) (uid : UID) :
    mapGet (reserved gr p nodeName nr req).PodToNode uid =
      if uid = p.UID then some nodeName else mapGet gr.PodToNode uid := by
  by_cases h : uid = p.UID
  · subst h; simp [reserved, mapGet_mapSet_self]
  · simp [reserved, mapGet_mapSet_ne _ _ _ _ h, h]

theorem reserved_NodeCache (gr : GloalReserve) (p : Pod) (nodeName : String)
    (nr : NodeResInfo) (req : resVector) (m : String) :
    mapGet (reserved gr p nodeName nr req).NodeCache m =
      if m = nodeName then
        some { nr with Pods := mapSet nr.Pods p.UID (NewPodInfo.result p req) }
      else mapGet gr.NodeCache m := by
  by_cases h : m = nodeName
  · subst h; simp [reserved, mapGet_mapSet_self]
  · simp [reserved, mapGet_mapSet_ne _ _ _ _ h, h]

/-- What the last loop of `ReservePods` leaves alone: the entries of every UID
outside the batch; and it never removes an entry. -/
theorem commit_frame (prs : List (Pod × String)) (gr gr1 : GloalReserve) (hwf : WellFormed gr)
    (hcached : ∀ e ∈ prs, mapHas gr.NodeCache e.2 = true)
    (hc : ReservePods.commit prs gr = some gr1) :
    (∀ uid, uid ∉ prs.map (fun e => e.1.UID) →
      mapGet gr1.PodToNode uid = mapGet gr.PodToNode uid ∧
      ∀ m, (mapGet gr1.NodeCache m).map (fun nr => mapGet nr.Pods uid) =
        (mapGet gr.NodeCache m).map (fun nr => mapGet nr.Pods uid)) ∧
    (∀ m nr uid, mapGet gr.NodeCache m = some nr → mapHas nr.Pods uid = true →
      ∃ nr1, mapGet gr1.NodeCache m = some nr1 ∧ mapHas nr1.Pods uid = true) := by
  induction prs generalizing gr with
  | nil =>
    simp only [ReservePods.commit, Option.some.injEq] at hc
    subst hc
    exact ⟨fun uid _ => ⟨rfl, fun _ => rfl⟩, fun m nr uid hm hu => ⟨nr, hm, hu⟩⟩
  | cons e rest ih =>
    obtain ⟨p, nodeName⟩ := e
    obtain ⟨nr0, hn⟩ := (mapHas_eq_true_iff _ _).mp (hcached (p, nodeName) (by simp))
    obtain ⟨req, _, _, _, hstep, hwf1⟩ := commit_cons gr hwf p nodeName rest nr0 hn
    rw [hstep] at hc
    have hkeys : ∀ e ∈ rest, mapHas (reserved gr p nodeName nr0 req).NodeCache e.2 = true := by
      intro e he
      rw [mapHas_eq_true_iff, reserved_NodeCache]
      by_cases hm : e.2 = nodeName
      · exact ⟨_, by rw [if_pos hm]⟩
      · rw [if_neg hm]
        exact (mapHas_eq_true_iff _ _).mp (hcached e (List.mem_cons_of_mem _ he))
    obtain ⟨ih1, ih2⟩ := ih (reserved gr p nodeName nr0 req) hwf1 hkeys hc
    constructor
    · intro uid huid
      simp only [List.map_cons, List.mem_cons, not_or] at huid
      obtain ⟨hne, hrest⟩ := huid
      obtain ⟨h1, h2⟩ := ih1 uid hrest
      refine ⟨?_, ?_⟩
      · rw [h1, reserved_PodToNode, if_neg hne]
      · intro m
        rw [h2 m, reserved_NodeCache]
        by_cases hm : m = nodeName
        · rw [if_pos hm, hm, hn]
          simp [mapGet_mapSet_ne _ _ _ _ hne]
        · rw [if_neg hm]
    · intro m nr uid hm hu
      by_cases hmn : m = nodeName
      · subst hmn
        rw [hn] at hm
        obtain rfl := Option.some.inj hm
        apply ih2 m _ uid (by rw [reserved_NodeCache, if_pos rfl])
        simp only [mapHas_mapSet, hu, Bool.or_true]
      · exact ih2 m nr uid (by rw [reserved_NodeCache, if_neg hmn]; exact hm) hu

/-- What the last loop of `ReservePods` writes when the UIDs of the batch are
pairwise distinct: every pair has its entry on its node and in the reverse index. -/
theorem commit_entries (prs : List (Pod × String)) (gr gr1 : GloalReserve)
    (hwf : WellFormed gr) (hcached : ∀ e ∈ prs, mapHas gr.NodeCache e.2 = true)
    (hnd : (prs.map (fun e => e.1.UID)).Nodup)
    (hc : ReservePods.commit prs gr = some gr1) :
    ∀ e ∈ prs,
      (∃ nr1, mapGet gr1.NodeCache e.2 = some nr1 ∧ mapHas nr1.Pods e.1.UID = true) ∧
      mapGet gr1.PodToNode e.1.UID = some e.2 := by
  induction prs generalizing gr with
  | nil => intro e he; simp at he
  | cons e0 rest ih =>
    obtain ⟨p, nodeName⟩ := e0
    obtain ⟨nr0, hn⟩ := (mapHas_eq_true_iff _ _).mp (hcached (p, nodeName) (by simp))
    obtain ⟨req, _, _, _, hstep, hwf1⟩ := commit_cons gr hwf p nodeName rest nr0 hn
    rw [hstep] at hc
    have hkeys : ∀ e ∈ rest, mapHas (reserved gr p nodeName nr0 req).NodeCache e.2 = true := by
      intro e he
      rw [mapHas_eq_true_iff, reserved_NodeCache]
      by_cases hm : e.2 = nodeName
      · exact ⟨_, by rw [if_pos hm]⟩
      · rw [if_neg hm]
        exact (mapHas_eq_true_iff _ _).mp (hcached e (List.mem_cons_of_mem _ he))
    simp only [List.map_cons, List.nodup_cons] at hnd
    obtain ⟨hfr1, hfr2⟩ := commit_frame rest _ gr1 hwf1 hkeys hc
    intro e he
    rcases List.mem_cons.mp he with heq | hmem
    · rw [heq]
      refine ⟨?_, ?_⟩
      · apply hfr2 nodeName _ p.UID (by rw [reserved_NodeCache, if_pos rfl])
        simp [mapHas_mapSet]
      · rw [(hfr1 p.UID hnd.1).1, reserved_PodToNode, if_pos rfl]
    · exact ih _ hwf1 hkeys hnd.2 hc e hmem

/-- C10: on a bootstrapped ledger, for lists of equal length of pods with
pairwise distinct UIDs, `ReservePods` returns, and when its `Error` is empty its
`FailedPods` is empty, every pair has an entry under the pod's UID on its node
and is mapped to that node by the reverse index, and the entries of every UID
outside the batch are unchanged. -/
theorem ReservePods_commit_all (gr : GloalReserve) (pods : List Pod) (nodeNames : List String)
    (h : Bootstrapped gr) (hlen : pods.length = nodeNames.length)
    (hdistinct : (pods.map (fun p => p.UID)).Nodup) :
    ∃ res gr1, ReservePods gr pods nodeNames = some (res, gr1) ∧
      (res.Error = "" →
        res.FailedPods = [] ∧
        (∀ (i : Nat) (p : Pod) (n : String), pods[i]? = some p → nodeNames[i]? = some n →
          (∃ nr1, mapGet gr1.NodeCache n = some nr1 ∧ mapHas nr1.Pods p.UID = true) ∧
          mapGet gr1.PodToNode p.UID = some n) ∧
        (∀ uid, uid ∉ pods.map (fun p => p.UID) →
          mapGet gr1.PodToNode uid = mapGet gr.PodToNode uid ∧
          ∀ m, (mapGet gr1.NodeCache m).map (fun nr => mapGet nr.Pods uid) =
            (mapGet gr.NodeCache m).map (fun nr => mapGet nr.Pods uid))) := by
  rcases ReservePods_cases gr pods nodeNames h hlen with
    ⟨_, hres⟩ | ⟨_, _, hres⟩ | ⟨hM, _, gr1, hcommit, hres⟩
  · refine ⟨_, _, hres, fun he => ?_⟩
    have he1 : "Node does not exist" = "" := he
    exact absurd he1 (by decide)
  · refine ⟨_, _, hres, fun he => ?_⟩
    have he1 : "Node does not have enough resource" = "" := he
    exact absurd he1 (by decide)
  · have huids : (List.zip pods nodeNames).map (fun e => e.1.UID) = pods.map (fun p => p.UID) := by
      have h1 : (List.zip pods nodeNames).map (fun e => e.1.UID) =
          ((List.zip pods nodeNames).map Prod.fst).map (fun p => p.UID) := by
        rw [List.map_map]; rfl
      rw [h1, List.map_fst_zip _ _ (by omega)]
    have hcached := (missingNames_eq_nil_iff _ _).mp hM
    have hent := commit_entries _ gr gr1 h.2 hcached (by rw [huids]; exact hdistinct) hcommit
    have hfr := (commit_frame _ gr gr1 h.2 hcached hcommit).1
    rw [huids] at hfr
    refine ⟨_, _, hres, fun _ => ⟨rfl, ?_, hfr⟩⟩
    intro i p n hp hn
    have hz : (List.zip pods nodeNames)[i]? = some (p, n) :=
      List.getElem?_zip_eq_some.mpr ⟨hp, hn⟩
    exact hent (p, n) (List.getElem?_mem hz)

theorem ReservePods_commit_all_witness :
    (Bootstrapped testLedger ∧ [testPod0, testPod1].length = ["node0", "node0"].length ∧
      ([testPod0, testPod1].map (fun p => p.UID)).Nodup) ∧
    (ReservePods testLedger [testPod0, testPod1] ["node0", "node0"] =
        some ({ FailedPods := [], Error := "" }, testLedgerBatch) ∧
      AvailableOf testLedgerBatch "node0" = some [0, 3000, 8, 0, 0, 0]) ∧
    ∃ res gr1, ReservePods testLedger [testPod0, testPod1] ["node0", "node0"] = some (res, gr1) ∧
      (res.Error = "" →
        res.FailedPods = [] ∧
        (∀ (i : Nat) (p : Pod) (n : String),
          [testPod0, testPod1][i]? = some p → ["node0", "node0"][i]? = some n →
          (∃ nr1, mapGet gr1.NodeCache n = some nr1 ∧ mapHas nr1.Pods p.UID = true) ∧
          mapGet gr1.PodToNode p.UID = some n) ∧
        (∀ uid, uid ∉ [testPod0, testPod1].map (fun p => p.UID) →
          mapGet gr1.PodToNode uid = mapGet testLedger.PodToNode uid ∧
          ∀ m, (mapGet gr1.NodeCache m).map (fun nr => mapGet nr.Pods uid) =
            (mapGet testLedger.NodeCache m).map (fun nr => mapGet nr.Pods uid))) :=
  ⟨⟨by decide, by decide, by decide⟩, ⟨by decide, by decide⟩,
    ReservePods_commit_all testLedger [testPod0, testPod1] ["node0", "node0"]
      (by decide) (by decide) (by decide)⟩

/-! ## Reservation never overcommits a node -/

theorem all_nonneg_iff_vget (v : resVector) :
    (∀ x ∈ v, (0 : Int) ≤ x) ↔ ∀ j, 0 ≤ vget v j := by
  constructor
  · exact vget_nonneg_of_all v
  · intro h x hx
    obtain ⟨n, hn⟩ := List.mem_iff_getElem?.mp hx
    have := h n
    unfold vget at this
    rw [List.getD_eq_getElem?_getD, hn] at this
    simpa using this

/-- A node ledger is safe: nothing is consumed beyond the capacity and every
tracked pod vector is non-negative. -/
theorem nodeSafe_iff (n : Nat) (nr : NodeResInfo) (hwf : NodeWF n nr) :
    slotsNonneg (GetAvailable nr) ↔ ∀ i, usedAt nr.Pods i ≤ vget nr.Capa i := by
  obtain ⟨a, ha, _, hget⟩ := GetAvailable_ok n nr hwf
  rw [ha]
  show (∀ x ∈ a, (0 : Int) ≤ x) ↔ _
  rw [all_nonneg_iff_vget]
  constructor
  · intro h i
    have := h i
    rw [hget i] at this
    omega
  · intro h i
    rw [hget i]
    have := h i
    omega

theorem usedAt_add_le (nr : NodeResInfo) (hnd : (nr.Pods.map Prod.fst).Nodup) (pod : Pod)
    (req : resVector) (hreq : ∀ j, 0 ≤ vget req j)
    (hnn : ∀ pe ∈ nr.Pods, ∀ x ∈ pe.2.Resources, (0 : Int) ≤ x) (i : Nat) :
    usedAt (mapSet nr.Pods pod.UID (NewPodInfo.result pod req)) i ≤
      usedAt nr.Pods i + vget req i := by
  rw [usedAt_mapSet _ _ _ _ hnd]
  have h1 := oldContrib_nonneg nr.Pods pod.UID i
    (fun e he => (all_nonneg_iff_vget _).mp (hnn e he))
  have h2 : contrib (NewPodInfo.result pod req) i ≤ vget req i := by
    unfold contrib
    split
    · exact le_refl _
    · exact hreq i
  omega

theorem tracked_mapSet (nr : NodeResInfo) (pod : Pod) (req : resVector)
    (hreq : ∀ j, 0 ≤ vget req j)
    (hnn : ∀ pe ∈ nr.Pods, ∀ x ∈ pe.2.Resources, (0 : Int) ≤ x) :
    ∀ pe ∈ mapSet nr.Pods pod.UID (NewPodInfo.result pod req),
      ∀ x ∈ pe.2.Resources, (0 : Int) ≤ x := by
  intro pe hpe
  rcases mem_mapSet _ _ _ _ hpe with h1 | h1
  · rw [h1]
    exact (all_nonneg_iff_vget _).mpr hreq
  · exact hnn pe h1.1

/-- The invariant of the reservation calls. -/
theorem inv_reserved (gr : GloalReserve) (hb : Bootstrapped gr) (ha : AvailableNonneg gr)
    (ht : TrackedNonneg gr) (pod : Pod) (nodeName : String) (nr : NodeResInfo)
    (hn : mapGet gr.NodeCache nodeName = some nr) (req : resVector)
    (hlen : req.length = gr.ResTypeMaxKind) (hreq : ∀ j, 0 ≤ vget req j)
    (hfit : ∀ i, usedAt nr.Pods i + vget req i ≤ vget nr.Capa i) :
    Bootstrapped (reserved gr pod nodeName nr req) ∧
      AvailableNonneg (reserved gr pod nodeName nr req) ∧
      TrackedNonneg (reserved gr pod nodeName nr req) := by
  have hnr := WellFormed_node gr hb.2 nodeName nr hn
  have hmem := mapGet_mem _ _ _ hn
  have hwf1 := NodeWF_mapSet gr.ResTypeMaxKind nr pod.UID (NewPodInfo.result pod req) hnr hlen
  have hwf : WellFormed (reserved gr pod nodeName nr req) :=
    WellFormed_update gr hb.2 nodeName _ hwf1 _ (keys_mapSet_nodup _ _ _ hb.2.2.2.2.1)
  refine ⟨⟨hb.1, hwf⟩, ?_, ?_⟩
  · intro e he
    rcases mem_mapSet _ _ _ _ he with h1 | h1
    · rw [h1]
      rw [nodeSafe_iff _ _ hwf1]
      intro i
      have := usedAt_add_le nr hnr.2.2 pod req hreq (ht (nodeName, nr) hmem) i
      have := hfit i
      simp only at *
      omega
    · exact ha e h1.1
  · intro e he
    rcases mem_mapSet _ _ _ _ he with h1 | h1
    · rw [h1]
      exact tracked_mapSet nr pod req hreq (ht (nodeName, nr) hmem)
    · exact ht e h1.1

theorem inv_Reserve (gr : GloalReserve) (hb : Bootstrapped gr) (ha : AvailableNonneg gr)
    (ht : TrackedNonneg gr) (pod : Pod) (nodeName : String) (hpod : PodNonneg pod) :
    ∃ ret gr1, Reserve gr pod nodeName = some (ret, gr1) ∧
      Bootstrapped gr1 ∧ AvailableNonneg gr1 ∧ TrackedNonneg gr1 := by
  rcases Reserve_cases gr pod nodeName hb with
    ⟨_, hres⟩ | ⟨nr, a, req, hn, hnr, hav, halen, hreq, hlen, hnn, _, hcase⟩
  · exact ⟨_, _, hres, hb, ha, ht⟩
  · rcases hcase with ⟨_, hres⟩ | ⟨hc, hres⟩
    · exact ⟨_, _, hres, hb, ha, ht⟩
    · refine ⟨_, _, hres, ?_⟩
      obtain ⟨a1, ha1, _, hget⟩ := GetAvailable_ok _ nr hnr
      rw [hav] at ha1
      obtain rfl := Option.some.inj ha1
      have hcmp := (VectorCompare_eq_len a req (by omega)).mp hc
      apply inv_reserved gr hb ha ht pod nodeName nr hn req hlen (hnn hpod)
      intro i
      have h1 := hcmp i
      rw [hget i] at h1
      omega

theorem Unreserve_ok (gr : GloalReserve) (hwf : WellFormed gr) (pod : Pod) (nodeName : String) :
    (mapGet gr.NodeCache nodeName = none ∧
      Unreserve gr pod nodeName = some { gr with PodToNode := mapDel gr.PodToNode pod.UID }) ∨
    (∃ nr, mapGet gr.NodeCache nodeName = some nr ∧
      Unreserve gr pod nodeName =
        some { gr with
          NodeCache := mapSet gr.NodeCache nodeName { nr with Pods := mapDel nr.Pods pod.UID }
          PodToNode := mapDel gr.PodToNode pod.UID }) := by
  cases hn : mapGet gr.NodeCache nodeName with
  | none =>
    left
    refine ⟨rfl, ?_⟩
    simp [Unreserve, hn]
  | some nr =>
    right
    have hnr := WellFormed_node gr hwf nodeName nr hn
    obtain ⟨hdel, _⟩ := DeletePod_ok _ nr hnr pod
    refine ⟨nr, rfl, ?_⟩
    simp [Unreserve, hn, hdel]

theorem inv_Unreserve (gr : GloalReserve) (hb : Bootstrapped gr) (ha : AvailableNonneg gr)
    (ht : TrackedNonneg gr) (pod : Pod) (nodeName : String) :
    ∃ gr1, Unreserve gr pod nodeName = some gr1 ∧
      Bootstrapped gr1 ∧ AvailableNonneg gr1 ∧ TrackedNonneg gr1 := by
  obtain ⟨hboot, hpos, hreg, hnd, hpnd, hnodes⟩ := hb
  have hwf : WellFormed gr := ⟨hpos, hreg, hnd, hpnd, hnodes⟩
  rcases Unreserve_ok gr hwf pod nodeName with ⟨_, hres⟩ | ⟨nr, hn, hres⟩
  · exact ⟨_, hres, ⟨hboot, hpos, hreg, hnd, keys_mapDel_nodup _ _ hpnd, hnodes⟩, ha, ht⟩
  · have hnr := WellFormed_node gr hwf nodeName nr hn
    have hmem := mapGet_mem _ _ _ hn
    have hwf1 := NodeWF_mapDel gr.ResTypeMaxKind nr pod.UID hnr
    refine ⟨_, hres, ⟨hboot, ?_⟩, ?_, ?_⟩
    · exact WellFormed_update gr hwf nodeName _ hwf1 _ (keys_mapDel_nodup _ _ hpnd)
    · intro e he
      rcases mem_mapSet _ _ _ _ he with h1 | h1
      · rw [h1, nodeSafe_iff _ _ hwf1]
        intro i
        have hold := (nodeSafe_iff _ _ hnr).mp (ha (nodeName, nr) hmem) i
        have hc := oldContrib_nonneg nr.Pods pod.UID i
          (fun e he => (all_nonneg_iff_vget _).mp (ht (nodeName, nr) hmem e he))
        simp only
        rw [usedAt_mapDel _ _ _ hnr.2.2]
        omega
      · exact ha e h1.1
    · intro e he
      rcases mem_mapSet _ _ _ _ he with h1 | h1
      · rw [h1]
        intro pe hpe
        exact ht (nodeName, nr) hmem pe ((mem_mapDel _ _ _).mp hpe).1
      · exact ht e h1.1

theorem demand_cons (enc : Pod → resVector) (p : Pod) (m0 : String)
    (rest : List (Pod × String)) (m : String) (i : Nat) :
    demand enc ((p, m0) :: rest) m i =
      (if m0 = m then vget (enc p) i else 0) + demand enc rest m i := by
  unfold demand
  by_cases h : m0 = m
  · rw [List.filter_cons_of_pos (by simpa using h), if_pos h]
    simp
  · rw [List.filter_cons_of_neg (by simpa using h), if_neg h]
    simp

theorem demand_of_absent (enc : Pod → resVector) (prs : List (Pod × String)) (m : String)
    (i : Nat) (h : ∀ e ∈ prs, e.2 ≠ m) : demand enc prs m i = 0 := by
  induction prs with
  | nil => rfl
  | cons e rest ih =>
    obtain ⟨p, m0⟩ := e
    rw [demand_cons, if_neg (h (p, m0) (by simp)),
      ih (fun e he => h e (List.mem_cons_of_mem _ he))]
    rfl

/-- When the reference admission admits every pod, what the batch asks of a
target node fits in the staged availability of that node. -/
theorem greedy_bound (n : Nat) (enc : Pod → resVector) (prs : List (Pod × String))
    (staged : String → resVector)
    (hlen : ∀ e ∈ prs, (staged e.2).length = n ∧ (enc e.1).length = n)
    (hF : stagedFailures enc staged prs = []) :
    ∀ m, (∃ e ∈ prs, e.2 = m) → ∀ i, demand enc prs m i ≤ vget (staged m) i := by
  induction prs generalizing staged with
  | nil => intro m hm; obtain ⟨e, he, _⟩ := hm; simp at he
  | cons e0 rest ih =>
    obtain ⟨p, m0⟩ := e0
    obtain ⟨hs0, he0⟩ := hlen (p, m0) (by simp)
    simp only at hs0 he0
    cases hc : VectorCompare (staged m0) (enc p) with
    | false => simp [stagedFailures, hc] at hF
    | true =>
      simp only [stagedFailures, hc, if_true] at hF
      have hcmp := (VectorCompare_eq_len _ _ (by omega)).mp hc
      have hlen1 : ∀ e ∈ rest,
          ((fun m => if m = m0 then List.zipWith (fun x y => x - y) (staged m0) (enc p)
              else staged m) e.2).length = n ∧ (enc e.1).length = n := by
        intro e he
        refine ⟨?_, (hlen e (List.mem_cons_of_mem _ he)).2⟩
        by_cases hm : e.2 = m0
        · simp [hm, hs0, he0]
        · simp only [hm, if_false]
          exact (hlen e (List.mem_cons_of_mem _ he)).1
      have ih1 := ih _ hlen1 hF
      intro m hm i
      rw [demand_cons]
      by_cases hmm : m0 = m
      · subst hmm
        rw [if_pos rfl]
        by_cases hin : ∃ e ∈ rest, e.2 = m0
        · have := ih1 m0 hin i
          simp only [if_true] at this
          rw [vget_zipWith_sub _ _ (by omega)] at this
          omega
        · have hz : demand enc rest m0 i = 0 :=
            demand_of_absent enc rest m0 i (fun e he hme => hin ⟨e, he, hme⟩)
          rw [hz]
          have := hcmp i
          omega
      · rw [if_neg hmm]
        obtain ⟨e, he, hem⟩ := hm
        have hin : ∃ e ∈ rest, e.2 = m := by
          rcases List.mem_cons.mp he with heq | hmem
          · rw [heq] at hem; exact absurd hem hmm
          · exact ⟨e, hmem, hem⟩
        have := ih1 m hin i
        have hne : ¬ m = m0 := fun h => hmm h.symm
        simp only [hne, if_false] at this
        omega

/-- The last loop of `ReservePods` keeps the tracked vectors non-negative and
consumes on each node at most what the batch asks of it. -/
theorem commit_bound (prs : List (Pod × String)) (gr gr1 : GloalReserve)
    (hwf : WellFormed gr) (ht : TrackedNonneg gr)
    (hcached : ∀ e ∈ prs, mapHas gr.NodeCache e.2 = true)
    (hpods : ∀ e ∈ prs, PodNonneg e.1)
    (hc : ReservePods.commit prs gr = some gr1) :
    TrackedNonneg gr1 ∧
    ∀ m nr, mapGet gr.NodeCache m = some nr →
      ∃ nr1, mapGet gr1.NodeCache m = some nr1 ∧ nr1.Capa = nr.Capa ∧
        ∀ i, usedAt nr1.Pods i ≤ usedAt nr.Pods i + demand (encode gr) prs m i := by
  induction prs generalizing gr with
  | nil =>
    simp only [ReservePods.commit, Option.some.injEq] at hc
    subst hc
    exact ⟨ht, fun m nr hm => ⟨nr, hm, rfl, fun i => by simp [demand]⟩⟩
  | cons e0 rest ih =>
    obtain ⟨p, m0⟩ := e0
    obtain ⟨nr0, hn⟩ := (mapHas_eq_true_iff _ _).mp (hcached (p, m0) (by simp))
    obtain ⟨req, hreq, hlen, hnn, hstep, hwf1⟩ := commit_cons gr hwf p m0 rest nr0 hn
    rw [hstep] at hc
    have hnr0 := WellFormed_node gr hwf m0 nr0 hn
    have hmem0 := mapGet_mem _ _ _ hn
    have hreqnn := hnn (hpods (p, m0) (by simp))
    have henc : encode gr p = req := by simp [encode, hreq]
    have hkeys : ∀ e ∈ rest, mapHas (reserved gr p m0 nr0 req).NodeCache e.2 = true := by
      intro e he
      rw [mapHas_eq_true_iff, reserved_NodeCache]
      by_cases hm : e.2 = m0
      · exact ⟨_, by rw [if_pos hm]⟩
      · rw [if_neg hm]
        exact (mapHas_eq_true_iff _ _).mp (hcached e (List.mem_cons_of_mem _ he))
    have ht1 : TrackedNonneg (reserved gr p m0 nr0 req) := by
      intro e he
      rcases mem_mapSet _ _ _ _ he with h1 | h1
      · rw [h1]
        exact tracked_mapSet nr0 p req hreqnn (ht (m0, nr0) hmem0)
      · exact ht e h1.1
    obtain ⟨htr, hbound⟩ := ih (reserved gr p m0 nr0 req) hwf1 ht1 hkeys
      (fun e he => hpods e (List.mem_cons_of_mem _ he)) hc
    have hencode : encode (reserved gr p m0 nr0 req) = encode gr := rfl
    rw [hencode] at hbound
    refine ⟨htr, ?_⟩
    intro m nr hm
    by_cases hmm : m = m0
    · subst hmm
      rw [hn] at hm
      obtain rfl := Option.some.inj hm
      obtain ⟨nr1, hnr1, hcap, hle⟩ := hbound m _ (by rw [reserved_NodeCache, if_pos rfl])
      refine ⟨nr1, hnr1, hcap, ?_⟩
      intro i
      have h1 := hle i
      have h2 := usedAt_add_le nr0 hnr0.2.2 p req hreqnn (ht (m, nr0) hmem0) i
      rw [demand_cons, if_pos rfl, henc]
      simp only at h1
      omega
    · obtain ⟨nr1, hnr1, hcap, hle⟩ :=
        hbound m nr (by rw [reserved_NodeCache, if_neg hmm]; exact hm)
      refine ⟨nr1, hnr1, hcap, ?_⟩
      intro i
      have h1 := hle i
      have hne : ¬ m0 = m := fun h => hmm h.symm
      rw [demand_cons, if_neg hne]
      omega

theorem inv_ReservePods (gr : GloalReserve) (hb : Bootstrapped gr) (ha : AvailableNonneg gr)
    (ht : TrackedNonneg gr) (pods : List Pod) (nodeNames : List String)
    (hlen : pods.length = nodeNames.length) (hpods : ∀ p ∈ pods, PodNonneg p) :
    ∃ res gr1, ReservePods gr pods nodeNames = some (res, gr1) ∧
      Bootstrapped gr1 ∧ AvailableNonneg gr1 ∧ TrackedNonneg gr1 := by
  rcases ReservePods_cases gr pods nodeNames hb hlen with
    ⟨_, hres⟩ | ⟨_, _, hres⟩ | ⟨hM, hF, gr1, hcommit, hres⟩
  · exact ⟨_, _, hres, hb, ha, ht⟩
  · exact ⟨_, _, hres, hb, ha, ht⟩
  · have hcached := (missingNames_eq_nil_iff _ _).mp hM
    obtain ⟨gr2, hc2, hwf1, _, hmax, hnext, _, _, hkeys⟩ :=
      commit_ok (List.zip pods nodeNames) gr hb.2 hcached
    rw [hcommit] at hc2
    obtain rfl := Option.some.inj hc2
    obtain ⟨htr, hbound⟩ := commit_bound (List.zip pods nodeNames) gr gr1 hb.2 ht hcached
      (fun e he => hpods e.1 (List.of_mem_zip he).1) hcommit
    have hlens : ∀ e ∈ List.zip pods nodeNames,
        (availableAt gr e.2).length = gr.ResTypeMaxKind ∧
          (encode gr e.1).length = gr.ResTypeMaxKind := by
      intro e he
      obtain ⟨nr, hnr⟩ := (mapHas_eq_true_iff _ _).mp (hcached e he)
      obtain ⟨a, hav, halen, _⟩ := GetAvailable_ok _ nr (WellFormed_node gr hb.2 e.2 nr hnr)
      obtain ⟨req, hreq, hrlen, _⟩ :=
        GetPodReq_ok gr.ResTypeToID gr.ResTypeMaxKind hb.2.1 hb.2.2.1 e.1
      constructor
      · simp [availableAt, AvailableOf, hnr, hav, halen]
      · simp [encode, hreq, hrlen]
    have hgreedy := greedy_bound gr.ResTypeMaxKind (encode gr) (List.zip pods nodeNames)
      (availableAt gr) hlens hF
    refine ⟨_, _, hres, ⟨by rw [hnext]; exact hb.1, hwf1⟩, ?_, htr⟩
    intro e he
    obtain ⟨m, nr1⟩ := e
    have hget1 : mapGet gr1.NodeCache m = some nr1 :=
      mapGet_of_mem_nodup _ _ _ hwf1.2.2.1 he
    have hhas : mapHas gr.NodeCache m = true := by
      rw [← hkeys m, mapHas_eq_true_iff]; exact ⟨nr1, hget1⟩
    obtain ⟨nr, hnr⟩ := (mapHas_eq_true_iff _ _).mp hhas
    obtain ⟨nr2, hnr2, hcap, hle⟩ := hbound m nr hnr
    rw [hget1] at hnr2
    obtain rfl := Option.some.inj hnr2
    have hnwf := WellFormed_node gr hb.2 m nr hnr
    have hnwf1 : NodeWF gr.ResTypeMaxKind nr1 := by
      have := WellFormed_node gr1 hwf1 m nr1 hget1
      rwa [hmax] at this
    have hold := (nodeSafe_iff _ _ hnwf).mp (ha (m, nr) (mapGet_mem _ _ _ hnr))
    show slotsNonneg (GetAvailable nr1)
    rw [nodeSafe_iff _ _ hnwf1]
    intro i
    rw [hcap]
    have h1 := hle i
    have h2 := hold i
    by_cases hin : ∃ e ∈ List.zip pods nodeNames, e.2 = m
    · have h3 := hgreedy m hin i
      obtain ⟨a, hav, _, haget⟩ := GetAvailable_ok _ nr hnwf
      have h4 : availableAt gr m = a := by simp [availableAt, AvailableOf, hnr, hav]
      rw [h4, haget i] at h3
      omega
    · have h3 : demand (encode gr) (List.zip pods nodeNames) m i = 0 :=
        demand_of_absent _ _ m i (fun e he hme => hin ⟨e, he, hme⟩)
      omega

theorem inv_applyOp (gr : GloalReserve) (hb : Bootstrapped gr) (ha : AvailableNonneg gr)
    (ht : TrackedNonneg gr) (op : Op) (hv : op.valid) :
    ∃ gr1, applyOp gr op = some gr1 ∧
      Bootstrapped gr1 ∧ AvailableNonneg gr1 ∧ TrackedNonneg gr1 := by
  cases op with
  | reserve pod nodeName =>
    obtain ⟨ret, gr1, hres, h1⟩ := inv_Reserve gr hb ha ht pod nodeName hv
    exact ⟨gr1, by simp [applyOp, hres], h1⟩
  | reservePods pods nodeNames =>
    obtain ⟨res, gr1, hres, h1⟩ := inv_ReservePods gr hb ha ht pods nodeNames hv.1 hv.2
    exact ⟨gr1, by simp [applyOp, hres], h1⟩
  | unreserve pod nodeName =>
    obtain ⟨gr1, hres, h1⟩ := inv_Unreserve gr hb ha ht pod nodeName
    exact ⟨gr1, by simp [applyOp, hres], h1⟩

/-- When every encoding of a pod walks the request map in the order of
`podRequests`, so that the vector checked is the vector stored, and every
request is encoded as a non-negative number: starting from a bootstrapped
ledger in which no node is overcommitted and every tracked pod vector is
non-negative, every sequence of `Reserve`, `ReservePods` (lists of equal
length) and `Unreserve` calls runs to the end and leaves the availability of
every cached node non-negative in every slot, whether the calls succeed or fail
and also when a UID is reserved twice or appears twice in a batch. -/
theorem reservation_never_overcommits (ops : List Op) (gr : GloalReserve)
    (hb : Bootstrapped gr) (ha : AvailableNonneg gr) (ht : TrackedNonneg gr)
    (hv : ∀ op ∈ ops, op.valid) :
    ∃ gr1, runOps gr ops = some gr1 ∧
      Bootstrapped gr1 ∧ AvailableNonneg gr1 ∧ TrackedNonneg gr1 := by
  induction ops generalizing gr with
  | nil => exact ⟨gr, rfl, hb, ha, ht⟩
  | cons op ops ih =>
    obtain ⟨gr1, hres, hb1, ha1, ht1⟩ := inv_applyOp gr hb ha ht op (hv op (by simp))
    obtain ⟨gr2, hres2, h2⟩ := ih gr1 hb1 ha1 ht1 (fun o ho => hv o (List.mem_cons_of_mem _ ho))
    exact ⟨gr2, by simp [runOps, hres, hres2], h2⟩

theorem reservation_never_overcommits_witness :
    (Bootstrapped testLedger ∧ AvailableNonneg testLedger ∧ TrackedNonneg testLedger ∧
      ∀ op ∈ testOps, op.valid) ∧
    (runOps testLedger testOps).bind (fun gr => AvailableOf gr "node0") =
      some [1500, 4000, 9, 0, 0, 0] ∧
    ∃ gr1, runOps testLedger testOps = some gr1 ∧
      Bootstrapped gr1 ∧ AvailableNonneg gr1 ∧ TrackedNonneg gr1 :=
  ⟨⟨by decide, by decide, by decide, by decide⟩, by decide,
    reservation_never_overcommits testOps testLedger (by decide) (by decide) (by decide)
      (by decide)⟩

/-! ## Event handlers on the test fixtures -/

theorem test_AddNode :
    (InitGR [] [] false).bind (fun gr => gr.AddNode GetNode0) = InitGR [] [] false ∧
    ((InitGR [GetNode0, GetNode1] [] true).bind (fun gr => gr.AddNode GetNode1)).map
        (fun gr => (gr.NextResourceID, gr.NodeCache.length)) = some (4, 2) ∧
    ((InitGR [GetNode0, GetNode1] [] true).bind (fun gr => gr.AddNode GetNode2)).map
        (fun gr => (gr.NextResourceID, gr.NodeCache.length)) = some (5, 3) := by
  decide

theorem test_DeleteNode :
    ((InitGR [GetNode0, GetNode1, GetNode2] [GetPod "pod0" 500 500 "node2" PodPending]
        true).map (fun gr => gr.DeleteNode GetNode2)).map
      (fun gr => (gr.NextResourceID, gr.NodeCache.length, gr.PodToNode.length)) =
        some (5, 2, 0) := by
  decide

theorem test_UpdatePod :
    ((InitGR [GetNode0] [testPod0] true).bind (fun gr =>
        gr.UpdatePod none (GetPod "pod0" 1000 1000 "node0" PodRunning))).map
      (fun gr => gr.NodeCache.map (fun e => e.2.Pods.map (fun pe => (pe.1, pe.2.Status)))) =
        some [[("NS1-pod0", PodRunning)]] := by
  decide

/-! ## Unreservation -/

theorem mapDel_mapDel {V : Type} (m : GoMap V) (k : String) :
    mapDel (mapDel m k) k = mapDel m k := by
  unfold mapDel
  rw [List.filter_filter]
  simp

theorem mapHas_cons {V : Type} (k : String) (v : V) (rest : GoMap V) (k1 : String) :
    mapHas ((k, v) :: rest) k1 = (decide (k = k1) || mapHas rest k1) := by
  by_cases h : k = k1
  · simp [mapHas, mapGet, h]
  · simp [mapHas, mapGet, h]

theorem mapHas_mapDel {V : Type} (m : GoMap V) (k k1 : String) :
    mapHas (mapDel m k) k1 = (!decide (k1 = k) && mapHas m k1) := by
  by_cases h : k1 = k
  · subst h
    simp [mapHas, mapGet_mapDel_self]
  · simp [mapHas, mapGet_mapDel_ne _ _ _ h, h]

theorem mapSet_mapSet {V : Type} (m : GoMap V) (k : String) (v w : V) :
    mapSet (mapSet m k v) k w = mapSet m k w := by
  have hhas : mapHas (mapSet m k v) k = true := by
    rw [mapHas_eq_true_iff]; exact ⟨v, mapGet_mapSet_self _ _ _⟩
  unfold mapSet at hhas ⊢
  cases h : mapHas m k
  · rw [h] at hhas
    simp only [Bool.false_eq_true, if_false] at hhas ⊢
    rw [hhas]
    simp only [if_true, List.map_append, List.map_cons, List.map_nil]
    rw [map_replace_of_absent m k w ((mapGet_none_iff m k).mp ((mapHas_eq_false_iff m k).mp h))]
  · rw [h] at hhas
    simp only [if_true] at hhas ⊢
    rw [hhas]
    simp only [if_true, List.map_map]
    apply List.map_congr_left
    intro e _
    by_cases he : e.1 = k
    · simp [he]
    · simp [he]

theorem mapSet_of_get {V : Type} (m : GoMap V) (k : String) (v : V)
    (hnd : (m.map Prod.fst).Nodup) (h : mapGet m k = some v) : mapSet m k v = m := by
  have hhas : mapHas m k = true := (mapHas_eq_true_iff m k).mpr ⟨v, h⟩
  unfold mapSet
  rw [hhas]
  simp only [if_true]
  induction m with
  | nil => rfl
  | cons e rest ih =>
    obtain ⟨k2, v2⟩ := e
    simp only [List.map_cons, List.nodup_cons, List.mem_map, not_exists, not_and] at hnd
    by_cases h2 : k2 = k
    · subst h2
      simp only [mapGet, if_true, Option.some.injEq] at h
      subst h
      rw [List.map_cons, if_pos rfl,
        map_replace_of_absent rest k2 v2 (fun e he hk => hnd.1 e he hk)]
    · simp only [mapGet, if_neg h2] at h
      have hh : mapHas rest k = true := (mapHas_eq_true_iff rest k).mpr ⟨v, h⟩
      rw [List.map_cons, if_neg h2, ih hnd.2 h hh]

theorem mapDel_mapSet_of_absent {V : Type} (m : GoMap V) (k : String) (v : V)
    (h : mapGet m k = none) : mapDel (mapSet m k v) k = m := by
  have hhas : mapHas m k = false := (mapHas_eq_false_iff m k).mpr h
  unfold mapSet
  rw [hhas]
  simp only [Bool.false_eq_true, if_false]
  unfold mapDel
  rw [List.filter_append]
  have h1 := mapDel_of_absent m k h
  unfold mapDel at h1
  rw [h1]
  simp

theorem Shaped_node (gr : GloalReserve) (hs : Shaped gr) (nodeName : String)
    (nr : NodeResInfo) (hn : mapGet gr.NodeCache nodeName = some nr) : NodeShaped nr :=
  hs (nodeName, nr) (mapGet_mem _ _ _ hn)

/-- `Unreserve` on a ledger whose named node, if cached, has the shape of a
node ledger. -/
theorem Unreserve_shaped (gr : GloalReserve) (pod : Pod) (nodeName : String)
    (hnode : ∀ nr, mapGet gr.NodeCache nodeName = some nr → NodeShaped nr) :
    (mapGet gr.NodeCache nodeName = none ∧
      Unreserve gr pod nodeName = some { gr with PodToNode := mapDel gr.PodToNode pod.UID }) ∨
    (∃ nr, mapGet gr.NodeCache nodeName = some nr ∧ NodeShaped nr ∧
      Unreserve gr pod nodeName =
        some { gr with
          NodeCache := mapSet gr.NodeCache nodeName { nr with Pods := mapDel nr.Pods pod.UID }
          PodToNode := mapDel gr.PodToNode pod.UID }) := by
  cases hn : mapGet gr.NodeCache nodeName with
  | none =>
    left
    refine ⟨rfl, ?_⟩
    simp [Unreserve, hn]
  | some nr =>
    right
    have hnr := hnode nr hn
    obtain ⟨hdel, _⟩ := DeletePod_ok _ nr hnr pod
    refine ⟨nr, rfl, hnr, ?_⟩
    simp [Unreserve, hn, hdel]

/-- C12: `Unreserve` is idempotent on every ledger, the ledger of
`NewLocalReserve` before bootstrap included: when the node named in the call,
if it is cached, has the shape of a node ledger, `Unreserve` returns, and a
second `Unreserve` of the same pod and node returns too and leaves the ledger
exactly in the state reached after the first call. -/
theorem Unreserve_idempotent (gr : GloalReserve) (pod : Pod) (nodeName : String)
    (hnode : ∀ nr, mapGet gr.NodeCache nodeName = some nr → NodeShaped nr) :
    ∃ gr1, Unreserve gr pod nodeName = some gr1 ∧ Unreserve gr1 pod nodeName = some gr1 := by
  rcases Unreserve_shaped gr pod nodeName hnode with ⟨hn, hres⟩ | ⟨nr, hn, hnr, hres⟩
  · refine ⟨_, hres, ?_⟩
    simp [Unreserve, hn, mapDel_mapDel]
  · refine ⟨_, hres, ?_⟩
    have hwf1 := NodeWF_mapDel nr.Capa.length nr pod.UID hnr
    obtain ⟨hdel, _⟩ := DeletePod_ok _ _ hwf1 pod
    simp only [mapDel_mapDel] at hdel
    simp [Unreserve, mapGet_mapSet_self, hdel, mapDel_mapDel, mapSet_mapSet]

theorem Unreserve_idempotent_witness :
    Shaped testLedgerTwoPods ∧
    (∃ gr1, Unreserve testLedgerTwoPods testPod0 "node0" = some gr1 ∧
      Unreserve gr1 testPod0 "node0" = some gr1) ∧
    (∃ gr1, Unreserve (NewLocalReserve (some [GetNode0]) (some [])) testPod0 "node0" =
        some gr1 ∧
      Unreserve gr1 testPod0 "node0" = some gr1) :=
  ⟨by decide,
    Unreserve_idempotent testLedgerTwoPods testPod0 "node0" (Shaped_node testLedgerTwoPods (by decide) "node0"),
    Unreserve_idempotent (NewLocalReserve (some [GetNode0]) (some [])) testPod0 "node0"
      (fun nr h => by cases h)⟩

/-- C13: on every ledger, the ledger of `NewLocalReserve` before bootstrap
included, whose node named in the call, if cached, has the shape of a node
ledger, `Unreserve` returns; afterwards the reverse index has no entry for the
pod's UID and the node named in the call, if cached, has no entry for it; every
other reverse-index entry, every pod entry under another UID or on another
node, every node's capacity and the registry are unchanged. -/
theorem Unreserve_frame (gr : GloalReserve) (pod : Pod) (nodeName : String)
    (hnode : ∀ nr, mapGet gr.NodeCache nodeName = some nr → NodeShaped nr) :
    ∃ gr1, Unreserve gr pod nodeName = some gr1 ∧
      mapGet gr1.PodToNode pod.UID = none ∧
      (∀ nr, mapGet gr.NodeCache nodeName = some nr →
        ∃ nr1, mapGet gr1.NodeCache nodeName = some nr1 ∧ mapGet nr1.Pods pod.UID = none) ∧
      (∀ uid, uid ≠ pod.UID → mapGet gr1.PodToNode uid = mapGet gr.PodToNode uid) ∧
      (∀ m uid, m ≠ nodeName ∨ uid ≠ pod.UID →
        (mapGet gr1.NodeCache m).map (fun nr => mapGet nr.Pods uid) =
          (mapGet gr.NodeCache m).map (fun nr => mapGet nr.Pods uid)) ∧
      (∀ m, (mapGet gr1.NodeCache m).map (fun nr => nr.Capa) =
        (mapGet gr.NodeCache m).map (fun nr => nr.Capa)) ∧
      gr1.ResTypeToID = gr.ResTypeToID ∧ gr1.NextResourceID = gr.NextResourceID ∧
      gr1.ResTypeMaxKind = gr.ResTypeMaxKind := by
  rcases Unreserve_shaped gr pod nodeName hnode with ⟨hn, hres⟩ | ⟨nr, hn, _, hres⟩
  · refine ⟨_, hres, mapGet_mapDel_self _ _, ?_, ?_, ?_, ?_, rfl, rfl, rfl⟩
    · intro nr hnr
      rw [hn] at hnr
      exact absurd hnr (by simp)
    · intro uid hne
      exact mapGet_mapDel_ne _ _ _ hne
    · intro m uid _
      rfl
    · intro m
      rfl
  · refine ⟨_, hres, mapGet_mapDel_self _ _, ?_, ?_, ?_, ?_, rfl, rfl, rfl⟩
    · intro nr0 _
      exact ⟨_, mapGet_mapSet_self _ _ _, mapGet_mapDel_self _ _⟩
    · intro uid hne
      exact mapGet_mapDel_ne _ _ _ hne
    · intro m uid hor
      by_cases hm : m = nodeName
      · subst hm
        have hu : uid ≠ pod.UID := by
          rcases hor with h | h
          · exact absurd rfl h
          · exact h
        simp [mapGet_mapSet_self, hn, mapGet_mapDel_ne _ _ _ hu]
      · simp only
        rw [mapGet_mapSet_ne _ _ _ _ hm]
    · intro m
      by_cases hm : m = nodeName
      · subst hm
        simp [mapGet_mapSet_self, hn]
      · simp only
        rw [mapGet_mapSet_ne _ _ _ _ hm]

theorem Unreserve_frame_witness :
    (InitGR [GetNode0] [testPod0, testPodBig] true = some testLedgerTwoPods ∧
      (Unreserve testLedgerTwoPods testPod0 "node0").map
          (fun gr => (gr.PodToNode.length, gr.NodeCache.map (fun e => e.2.Pods.length))) =
        some (1, [1])) ∧
    (∃ gr1, Unreserve testLedgerTwoPods testPod0 "node0" = some gr1 ∧
      mapGet gr1.PodToNode testPod0.UID = none ∧
      (∀ nr, mapGet testLedgerTwoPods.NodeCache "node0" = some nr →
        ∃ nr1, mapGet gr1.NodeCache "node0" = some nr1 ∧
          mapGet nr1.Pods testPod0.UID = none) ∧
      (∀ uid, uid ≠ testPod0.UID →
        mapGet gr1.PodToNode uid = mapGet testLedgerTwoPods.PodToNode uid) ∧
      (∀ m uid, m ≠ "node0" ∨ uid ≠ testPod0.UID →
        (mapGet gr1.NodeCache m).map (fun nr => mapGet nr.Pods uid) =
          (mapGet testLedgerTwoPods.NodeCache m).map (fun nr => mapGet nr.Pods uid)) ∧
      (∀ m, (mapGet gr1.NodeCache m).map (fun nr => nr.Capa) =
        (mapGet testLedgerTwoPods.NodeCache m).map (fun nr => nr.Capa)) ∧
      gr1.ResTypeToID = testLedgerTwoPods.ResTypeToID ∧
      gr1.NextResourceID = testLedgerTwoPods.NextResourceID ∧
      gr1.ResTypeMaxKind = testLedgerTwoPods.ResTypeMaxKind) ∧
    (Unreserve (NewLocalReserve (some [GetNode0]) (some [])) testPod0 "node0" =
      some (NewLocalReserve (some [GetNode0]) (some []))) :=
  ⟨⟨by decide, by decide⟩,
    Unreserve_frame testLedgerTwoPods testPod0 "node0" (Shaped_node testLedgerTwoPods (by decide) "node0"),
    by decide⟩

/-- C14: on a bootstrapped ledger, for a cached node and a pod whose UID is in
neither the reverse index nor the pod set of the node, when `Reserve` returns
the empty string a following `Unreserve` of the same pod and node returns and
restores the whole ledger, hence the node map, the reverse index and the
availability of every node, to the state before the `Reserve`. -/
theorem Unreserve_undoes_Reserve (gr gr1 : GloalReserve) (pod : Pod) (nodeName : String)
    (nr : NodeResInfo) (h : Bootstrapped gr) (hn : mapGet gr.NodeCache nodeName = some nr)
    (hrev : mapGet gr.PodToNode pod.UID = none) (hpods : mapGet nr.Pods pod.UID = none)
    (hres : Reserve gr pod nodeName = some ("", gr1)) :
    Unreserve gr1 pod nodeName = some gr ∧
      ∀ n, (Unreserve gr1 pod nodeName).bind (fun gr2 => AvailableOf gr2 n) =
        AvailableOf gr n := by
  have hmain : Unreserve gr1 pod nodeName = some gr := by
    rcases Reserve_cases gr pod nodeName h with
      ⟨_, hres1⟩ | ⟨nr0, a, req, hn0, hnr, _, _, _, hlen, _, _, hcase⟩
    · rw [hres1] at hres
      have h1 : "NodeName does not exist" = "" := congrArg Prod.fst (Option.some.inj hres)
      exact absurd h1 (by decide)
    · rw [hn] at hn0
      obtain rfl := Option.some.inj hn0
      rcases hcase with ⟨_, hres1⟩ | ⟨_, hres1⟩
      · rw [hres1] at hres
        have h1 : "Resource is not enough." = "" := congrArg Prod.fst (Option.some.inj hres)
        exact absurd h1 (by decide)
      · rw [hres1] at hres
        have hgr1 := congrArg Prod.snd (Option.some.inj hres)
        simp only at hgr1
        subst hgr1
        have hwf1 := NodeWF_mapSet gr.ResTypeMaxKind nr pod.UID
          (NewPodInfo.result pod req) hnr hlen
        obtain ⟨hdel, _⟩ := DeletePod_ok _ _ hwf1 pod
        simp only [mapDel_mapSet_of_absent _ _ _ hpods] at hdel
        simp only [Unreserve, mapGet_mapSet_self, hdel, Option.map_some',
          mapDel_mapSet_of_absent _ _ _ hrev, mapSet_mapSet]
        rw [mapSet_of_get _ _ _ h.2.2.2.1 hn]
  refine ⟨hmain, fun n => ?_⟩
  rw [hmain]
  rfl

theorem Unreserve_undoes_Reserve_witness :
    (Bootstrapped testLedger ∧
      mapGet testLedger.NodeCache "node0" =
        some { Name := "node0", Capa := [2000, 5000, 10, 0, 0, 0], Pods := [] } ∧
      mapGet testLedger.PodToNode testPod0.UID = none ∧
      Reserve testLedger testPod0 "node0" = some ("", testLedgerPod0)) ∧
    Unreserve testLedgerPod0 testPod0 "node0" = some testLedger ∧
      ∀ n, (Unreserve testLedgerPod0 testPod0 "node0").bind (fun gr2 => AvailableOf gr2 n) =
        AvailableOf testLedger n :=
  ⟨⟨by decide, by decide, by decide, by decide⟩,
    Unreserve_undoes_Reserve testLedger testLedgerPod0 testPod0 "node0"
      { Name := "node0", Capa := [2000, 5000, 10, 0, 0, 0], Pods := [] }
      (by decide) (by decide) (by decide) (by decide) (by decide)⟩

/-! ## Node deletion -/

theorem dropPods_get (pods : GoMap PodResInfo) (podToNode : GoMap String) (uid : UID) :
    mapGet (GloalReserve.DeleteNode.dropPods pods podToNode) uid =
      if mapHas pods uid then none else mapGet podToNode uid := by
  induction pods generalizing podToNode with
  | nil => simp [GloalReserve.DeleteNode.dropPods, mapHas, mapGet]
  | cons e rest ih =>
    obtain ⟨k, v⟩ := e
    rw [GloalReserve.DeleteNode.dropPods, ih, mapHas_cons]
    by_cases hk : k = uid
    · subst hk
      simp [mapGet_mapDel_self]
    · have hne : uid ≠ k := fun h => hk h.symm
      simp [hk, mapGet_mapDel_ne _ _ _ hne]

theorem DeleteNode_cached (gr : GloalReserve) (node : Node) (nodeInfo : NodeResInfo)
    (h : mapGet gr.NodeCache node.Name = some nodeInfo) :
    gr.DeleteNode node =
      { gr with
        PodToNode := GloalReserve.DeleteNode.dropPods nodeInfo.Pods gr.PodToNode
        NodeCache := mapDel gr.NodeCache node.Name } := by
  simp [GloalReserve.DeleteNode, h]

theorem DeleteNode_uncached (gr : GloalReserve) (node : Node)
    (h : mapGet gr.NodeCache node.Name = none) : gr.DeleteNode node = gr := by
  simp [GloalReserve.DeleteNode, h]

/-- C15: after the node-delete event the node name is absent from the node map
and no UID of that node's pod set remains in the reverse index; every other
node ledger, every reverse-index entry of a UID outside that pod set and the
registry with its counters are unchanged; deleting a node that is not cached
changes nothing. -/
theorem DeleteNode_cascade (gr : GloalReserve) (node : Node) :
    mapGet (gr.DeleteNode node).NodeCache node.Name = none ∧
    (∀ nodeInfo, mapGet gr.NodeCache node.Name = some nodeInfo →
      (∀ uid, mapHas nodeInfo.Pods uid = true →
        mapGet (gr.DeleteNode node).PodToNode uid = none) ∧
      (∀ uid, mapHas nodeInfo.Pods uid = false →
        mapGet (gr.DeleteNode node).PodToNode uid = mapGet gr.PodToNode uid)) ∧
    (∀ m, m ≠ node.Name → mapGet (gr.DeleteNode node).NodeCache m = mapGet gr.NodeCache m) ∧
    (gr.DeleteNode node).ResTypeToID = gr.ResTypeToID ∧
    (gr.DeleteNode node).NextResourceID = gr.NextResourceID ∧
    (gr.DeleteNode node).ResTypeMaxKind = gr.ResTypeMaxKind ∧
    (mapGet gr.NodeCache node.Name = none → gr.DeleteNode node = gr) := by
  cases hn : mapGet gr.NodeCache node.Name with
  | none =>
    rw [DeleteNode_uncached gr node hn]
    refine ⟨hn, ?_, fun _ _ => rfl, rfl, rfl, rfl, fun _ => rfl⟩
    intro nodeInfo h
    exact absurd h (by simp)
  | some nodeInfo =>
    rw [DeleteNode_cached gr node nodeInfo hn]
    refine ⟨mapGet_mapDel_self _ _, ?_, fun m hm => mapGet_mapDel_ne _ _ _ hm, rfl, rfl, rfl,
      fun h => absurd h (by simp)⟩
    intro nodeInfo1 h
    obtain rfl := Option.some.inj h
    constructor
    · intro uid hu
      simp only
      rw [dropPods_get, hu]
      rfl
    · intro uid hu
      simp only
      rw [dropPods_get, hu]
      rfl

theorem DeleteNode_cascade_witness :
    (testLedgerTwoPods.DeleteNode GetNode0).PodToNode = [] ∧
    (testLedgerTwoPods.DeleteNode GetNode0).NodeCache = [] ∧
    (testLedgerTwoPods.DeleteNode GetNode1 = testLedgerTwoPods) ∧
    (mapGet (testLedgerTwoPods.DeleteNode GetNode0).NodeCache GetNode0.Name = none ∧
    (∀ nodeInfo, mapGet testLedgerTwoPods.NodeCache GetNode0.Name = some nodeInfo →
      (∀ uid, mapHas nodeInfo.Pods uid = true →
        mapGet (testLedgerTwoPods.DeleteNode GetNode0).PodToNode uid = none) ∧
      (∀ uid, mapHas nodeInfo.Pods uid = false →
        mapGet (testLedgerTwoPods.DeleteNode GetNode0).PodToNode uid =
          mapGet testLedgerTwoPods.PodToNode uid)) ∧
    (∀ m, m ≠ GetNode0.Name →
      mapGet (testLedgerTwoPods.DeleteNode GetNode0).NodeCache m =
        mapGet testLedgerTwoPods.NodeCache m) ∧
    (testLedgerTwoPods.DeleteNode GetNode0).ResTypeToID = testLedgerTwoPods.ResTypeToID ∧
    (testLedgerTwoPods.DeleteNode GetNode0).NextResourceID =
      testLedgerTwoPods.NextResourceID ∧
    (testLedgerTwoPods.DeleteNode GetNode0).ResTypeMaxKind =
      testLedgerTwoPods.ResTypeMaxKind ∧
    (mapGet testLedgerTwoPods.NodeCache GetNode0.Name = none →
      testLedgerTwoPods.DeleteNode GetNode0 = testLedgerTwoPods)) :=
  ⟨by decide, by decide, by decide, DeleteNode_cascade testLedgerTwoPods GetNode0⟩

/-! ## Quantities and the pod-count slot -/

theorem QuantityToInt_eq (name : ResourceName) (q : Quantity) :
    QuantityToInt name q = if name = ResourceCPU then q.MilliValue else q.Value := by
  unfold QuantityToInt
  by_cases h : name = ResourceCPU
  · subst h
    have : IsExtendedResourceName ResourceCPU = false := by decide
    simp [this]
  · cases IsExtendedResourceName name <;> simp [h]

theorem Value_NewQuantity (v : Int) (hlo : -9223372036854775808 ≤ v)
    (hhi : v ≤ 9223372036854775807) : (NewQuantity v).Value = v := by
  unfold Quantity.Value NewQuantity
  simp only
  rw [roundAway_mul v 1000000000 (by norm_num), wrapInt64_of_range v hlo hhi]

theorem MilliValue_NewQuantity (v : Int) (hlo : -9223372036854775808 ≤ v * 1000)
    (hhi : v * 1000 ≤ 9223372036854775807) : (NewQuantity v).MilliValue = v * 1000 := by
  unfold Quantity.MilliValue NewQuantity
  simp only
  have h1 : v * 1000000000 = (v * 1000) * 1000000 := by ring
  rw [h1, roundAway_mul (v * 1000) 1000000 (by norm_num), wrapInt64_of_range _ hlo hhi]

theorem MilliValue_NewMilliQuantity (v : Int) (hlo : -9223372036854775808 ≤ v)
    (hhi : v ≤ 9223372036854775807) : (NewMilliQuantity v).MilliValue = v := by
  unfold Quantity.MilliValue NewMilliQuantity
  simp only
  rw [roundAway_mul v 1000000 (by norm_num), wrapInt64_of_range v hlo hhi]

/-- The rounding of a non-negative numerator: the least whole number of units
of size `d` that is not below `x`. -/
theorem roundAway_ceil (x d : Int) (hx : 0 ≤ x) (hd : 0 < d) :
    x ≤ roundAway x d * d ∧ (roundAway x d - 1) * d < x := by
  unfold roundAway
  rw [if_pos hx]
  have h1 := Int.ediv_add_emod (x + (d - 1)) d
  have h2 := Int.emod_nonneg (x + (d - 1)) (by omega : d ≠ 0)
  have h3 := Int.emod_lt_of_pos (x + (d - 1)) hd
  have e1 : (x + (d - 1)) / d * d = d * ((x + (d - 1)) / d) := Int.mul_comm _ _
  have e2 : ((x + (d - 1)) / d - 1) * d = d * ((x + (d - 1)) / d) - d := by ring
  rw [e1, e2]
  constructor <;> omega

/-- C19 (counterexample). A cpu quantity of `2^63 - 1` units is encoded as
`-1000` and one of `10^16` units as `-8446744073709551616`, not as the quantity
in milli-units; a memory quantity of half a unit is encoded as `1` and a cpu
quantity of one nano-unit as one milli-unit. -/
theorem QuantityToInt_scaling_counterexample :
    QuantityToInt ResourceCPU (NewQuantity 9223372036854775807) = -1000 ∧
    QuantityToInt ResourceCPU (NewQuantity 10000000000000000) = -8446744073709551616 ∧
    QuantityToInt ResourceCPU (NewQuantity 10000000000000000) ≠ 10000000000000000 * 1000 ∧
    QuantityToInt ResourceMemory (NewMilliQuantity 500) = 1 ∧
    QuantityToInt ResourceCPU (NewNanoQuantity 1) = 1 := by
  refine ⟨by decide, by decide, by decide, by decide, by decide⟩

/-- C19 (amended). `QuantityToInt` of the cpu resource is `MilliValue` of the
quantity and of every other resource name, standard or extended, it is `Value`.
For a quantity of `v` whole units whose milli-value `v * 1000` fits an `int64`
the cpu encoding is `v * 1000`; for a quantity of `v` whole milli-units that
fits an `int64` it is `v`; for every other name a quantity of `v` whole units
that fits an `int64` is encoded as `v`.  A non-negative quantity whose
milli-value fits an `int64` is encoded, for cpu, as the least whole number of
milli-units that is not below it and, for every other name, as the least whole
number of units that is not below it ("1" gives 1000, "500m" gives 500, memory
"1000" gives 1000, a pod count of 10 gives 10). -/
theorem QuantityToInt_scaling (q : Quantity) (v : Int) :
    QuantityToInt ResourceCPU q = q.MilliValue ∧
    (∀ name, name ≠ ResourceCPU → QuantityToInt name q = q.Value) ∧
    (-9223372036854775808 ≤ v * 1000 → v * 1000 ≤ 9223372036854775807 →
      QuantityToInt ResourceCPU (NewQuantity v) = v * 1000) ∧
    (-9223372036854775808 ≤ v → v ≤ 9223372036854775807 →
      QuantityToInt ResourceCPU (NewMilliQuantity v) = v) ∧
    (-9223372036854775808 ≤ v → v ≤ 9223372036854775807 →
      ∀ name, name ≠ ResourceCPU → QuantityToInt name (NewQuantity v) = v) ∧
    (0 ≤ q.nano → q.nano ≤ 9223372036854775807000000 →
      q.nano ≤ QuantityToInt ResourceCPU q * 1000000 ∧
      (QuantityToInt ResourceCPU q - 1) * 1000000 < q.nano ∧
      ∀ name, name ≠ ResourceCPU →
        q.nano ≤ QuantityToInt name q * 1000000000 ∧
        (QuantityToInt name q - 1) * 1000000000 < q.nano) ∧
    QuantityToInt ResourceCPU (NewQuantity 1) = 1000 ∧
    QuantityToInt ResourceCPU (NewMilliQuantity 500) = 500 ∧
    QuantityToInt ResourceMemory (NewQuantity 1000) = 1000 ∧
    QuantityToInt ResourcePods (NewQuantity 10) = 10 := by
  refine ⟨?_, ?_, ?_, ?_, ?_, ?_, by decide, by decide, by decide, by decide⟩
  · rw [QuantityToInt_eq, if_pos rfl]
  · intro name hne
    rw [QuantityToInt_eq, if_neg hne]
  · intro hlo hhi
    rw [QuantityToInt_eq, if_pos rfl, MilliValue_NewQuantity v hlo hhi]
  · intro hlo hhi
    rw [QuantityToInt_eq, if_pos rfl, MilliValue_NewMilliQuantity v hlo hhi]
  · intro hlo hhi name hne
    rw [QuantityToInt_eq, if_neg hne, Value_NewQuantity v hlo hhi]
  · intro h0 hfit
    have c1 := roundAway_ceil q.nano 1000000 h0 (by norm_num)
    have c2 := roundAway_ceil q.nano 1000000000 h0 (by norm_num)
    have r1 : 0 ≤ roundAway q.nano 1000000 := roundAway_nonneg _ _ h0 (by norm_num)
    have r2 : 0 ≤ roundAway q.nano 1000000000 := roundAway_nonneg _ _ h0 (by norm_num)
    have hm : q.MilliValue = roundAway q.nano 1000000 := by
      unfold Quantity.MilliValue
      exact wrapInt64_of_range _ (by omega) (by omega)
    have hv : q.Value = roundAway q.nano 1000000000 := by
      unfold Quantity.Value
      exact wrapInt64_of_range _ (by omega) (by omega)
    refine ⟨?_, ?_, ?_⟩
    · rw [QuantityToInt_eq, if_pos rfl, hm]; exact c1.1
    · rw [QuantityToInt_eq, if_pos rfl, hm]; exact c1.2
    · intro name hne
      rw [QuantityToInt_eq, if_neg hne, hv]
      exact c2

theorem QuantityToInt_scaling_witness :
    "ExtendedResType0" ≠ ResourceCPU ∧
    (-9223372036854775808 : Int) ≤ 10 ∧ (10 : Int) ≤ 9223372036854775807 ∧
    QuantityToInt "ExtendedResType0" (NewQuantity 10) = (NewQuantity 10).Value ∧
    QuantityToInt "ExtendedResType0" (NewQuantity 10) = 10 ∧
    QuantityToInt ResourceCPU (NewQuantity 10) = 10 * 1000 ∧
    (NewNanoQuantity 1500001).nano ≤ QuantityToInt ResourceCPU (NewNanoQuantity 1500001) * 1000000 ∧
    QuantityToInt ResourceCPU (NewNanoQuantity 1500001) = 2 :=
  ⟨by decide, by decide, by decide,
    (QuantityToInt_scaling (NewQuantity 10) 10).2.1 "ExtendedResType0" (by decide),
    (QuantityToInt_scaling (NewQuantity 10) 10).2.2.2.2.1 (by decide) (by decide)
      "ExtendedResType0" (by decide),
    (QuantityToInt_scaling (NewQuantity 10) 10).2.2.1 (by decide) (by decide),
    ((QuantityToInt_scaling (NewNanoQuantity 1500001) 0).2.2.2.2.2.1 (by decide) (by decide)).1,
    by decide⟩

/-- The loop of `GetPodReq` returns when every index it writes is inside the
vector, and keeps the length of the vector. -/
theorem writeResources_of_range (resIDMap : GoMap Nat) (rl : ResourceList) (vec : resVector)
    (h : ∀ e ∈ rl, regIndex resIDMap e.1 < vec.length) :
    ∃ r, writeResources resIDMap rl vec = some r ∧ r.length = vec.length := by
  induction rl generalizing vec with
  | nil => exact ⟨vec, rfl, rfl⟩
  | cons e rl ih =>
    obtain ⟨resName, resValue⟩ := e
    have hidx : regIndex resIDMap resName < vec.length := h (resName, resValue) (by simp)
    obtain ⟨r, hr, hrlen⟩ :=
      ih (vec.set (regIndex resIDMap resName) (QuantityToInt resName resValue))
        (fun e he => by
          rw [List.length_set]
          exact h e (List.mem_cons_of_mem _ he))
    refine ⟨r, ?_, ?_⟩
    · simp [writeResources, vecSet_ok _ _ _ hidx, hr]
    · rw [hrlen, List.length_set]

/-- The loop of `GetPodReq` faults when some index it writes is outside the vector. -/
theorem writeResources_fault (resIDMap : GoMap Nat) (rl : ResourceList) (vec : resVector)
    (h : ∃ e ∈ rl, vec.length ≤ regIndex resIDMap e.1) :
    writeResources resIDMap rl vec = none := by
  induction rl generalizing vec with
  | nil =>
    obtain ⟨e, he, _⟩ := h
    cases he
  | cons e rl ih =>
    obtain ⟨resName, resValue⟩ := e
    unfold writeResources
    by_cases hidx : regIndex resIDMap resName < vec.length
    · rw [vecSet_ok _ _ _ hidx]
      simp only [Option.some_bind]
      apply ih
      obtain ⟨e, he, hle⟩ := h
      rcases List.mem_cons.mp he with h1 | h1
      · subst h1
        simp only at hle
        omega
      · exact ⟨e, h1, by rw [List.length_set]; exact hle⟩
    · unfold vecSet
      rw [if_neg hidx]
      rfl

/-- `GetPodReq` returns exactly when every index it writes for the pod is
inside the vector. -/
theorem GetPodReq_of_encodable (pod : Pod) (resIDMap : GoMap Nat) (vec : resVector)
    (h : Encodable resIDMap pod vec.length) :
    ∃ v, GetPodReq pod resIDMap vec = some v ∧ v.length = vec.length := by
  obtain ⟨r, hr, hrlen⟩ := writeResources_of_range resIDMap (podRequests pod) vec h.1
  have hidx : regIndex resIDMap ResourcePods < r.length := by rw [hrlen]; exact h.2
  refine ⟨r.set (regIndex resIDMap ResourcePods) 1, ?_, by rw [List.length_set, hrlen]⟩
  simp [GetPodReq, hr, vecSet_ok _ _ _ hidx]

theorem GetPodReq_fault (pod : Pod) (resIDMap : GoMap Nat) (vec : resVector)
    (h : ¬ Encodable resIDMap pod vec.length) : GetPodReq pod resIDMap vec = none := by
  unfold GetPodReq
  by_cases h1 : ∀ e ∈ podRequests pod, regIndex resIDMap e.1 < vec.length
  · obtain ⟨r, hr, hrlen⟩ := writeResources_of_range resIDMap (podRequests pod) vec h1
    have h2 : ¬ regIndex resIDMap ResourcePods < r.length := by
      rw [hrlen]
      intro h3
      exact h ⟨h1, h3⟩
    rw [hr]
    simp only [Option.some_bind]
    unfold vecSet
    rw [if_neg h2]
  · have h2 : ∃ e ∈ podRequests pod, vec.length ≤ regIndex resIDMap e.1 := by
      by_contra hc
      apply h1
      intro e he
      by_contra hlt
      exact hc ⟨e, he, by omega⟩
    rw [writeResources_fault resIDMap (podRequests pod) vec h2]
    rfl

/-- Whenever `GetPodReq` returns, the slot of the pod-count type holds 1. -/
theorem GetPodReq_slot (pod : Pod) (resIDMap : GoMap Nat) (vec v : resVector)
    (h : GetPodReq pod resIDMap vec = some v) :
    v[regIndex resIDMap ResourcePods]? = some 1 := by
  unfold GetPodReq at h
  cases hw : writeResources resIDMap (podRequests pod) vec with
  | none => rw [hw] at h; simp at h
  | some r =>
    rw [hw] at h
    simp only [Option.some_bind] at h
    unfold vecSet at h
    split at h
    · rename_i hlt
      rw [← Option.some.inj h]
      simp [List.getElem?_set_self, hlt]
    · simp at h

/-- C20: for every registry that maps the pod-count type to an index `k`
inside the vector, and every pod, whatever its containers request: `GetPodReq`
returns exactly when the index of every requested name is inside the vector
(it faults otherwise), and the vector it returns holds exactly 1 at index `k`;
so do the `Resources` of the entry built by `NewPodInfo`. -/
theorem GetPodReq_pod_slot (resIDMap : GoMap Nat) (k : Nat) (pod : Pod) (vec : resVector)
    (hk : mapGet resIDMap ResourcePods = some k) (hkn : k < vec.length) :
    ((∀ e ∈ podRequests pod, regIndex resIDMap e.1 < vec.length) →
      ∃ v, GetPodReq pod resIDMap vec = some v ∧ v.length = vec.length ∧ v[k]? = some 1) ∧
    ((∃ e ∈ podRequests pod, vec.length ≤ regIndex resIDMap e.1) →
      GetPodReq pod resIDMap vec = none) ∧
    (∀ v, GetPodReq pod resIDMap vec = some v → v[k]? = some 1) ∧
    ((∀ e ∈ podRequests pod, regIndex resIDMap e.1 < vec.length) →
      ∃ info, NewPodInfo pod resIDMap vec.length = some info ∧
        info.Resources[k]? = some 1) ∧
    (∀ info, NewPodInfo pod resIDMap vec.length = some info → info.Resources[k]? = some 1) := by
  have hidx : regIndex resIDMap ResourcePods = k := by simp [regIndex, hk]
  have hslot : ∀ (w v : resVector), GetPodReq pod resIDMap w = some v → v[k]? = some 1 := by
    intro w v hv
    have := GetPodReq_slot pod resIDMap w v hv
    rw [hidx] at this
    exact this
  refine ⟨?_, ?_, hslot vec, ?_, ?_⟩
  · intro hr
    obtain ⟨v, hv, hvlen⟩ := GetPodReq_of_encodable pod resIDMap vec ⟨hr, by rw [hidx]; exact hkn⟩
    exact ⟨v, hv, hvlen, hslot vec v hv⟩
  · intro hex
    apply GetPodReq_fault
    intro henc
    obtain ⟨e, he, hle⟩ := hex
    have := henc.1 e he
    omega
  · intro hr
    obtain ⟨v, hv, _⟩ := GetPodReq_of_encodable pod resIDMap (List.replicate vec.length 0)
      ⟨by simpa using hr, by rw [hidx]; simpa using hkn⟩
    refine ⟨NewPodInfo.result pod v, ?_, hslot _ v hv⟩
    simp [NewPodInfo, hv]
  · intro info hinfo
    unfold NewPodInfo at hinfo
    simp only [Option.map_eq_some'] at hinfo
    obtain ⟨v, hv, heq⟩ := hinfo
    rw [← heq]
    exact hslot _ v hv

theorem GetPodReq_pod_slot_witness :
    (mapGet GetResIDMap ResourcePods = some 2 ∧ 2 < (List.replicate 8 (0 : Int)).length) ∧
    GetPodReq (testPodWith "pod5" [(ResourcePods, NewQuantity 4), (ResourceCPU, NewQuantity 1)])
        GetResIDMap (List.replicate 8 0) = some [1000, 0, 1, 0, 0, 0, 0, 0] ∧
    (∀ v,
      GetPodReq
          (testPodWith "pod5" [(ResourcePods, NewQuantity 4), (ResourceCPU, NewQuantity 1)])
          GetResIDMap (List.replicate 8 0) = some v → v[2]? = some 1) ∧
    (mapGet [(ResourcePods, 0), ("example.com/foo", 9)] ResourcePods = some 0 ∧
      GetPodReq (testPodWith "pod6" [(ResourceCPU, NewQuantity 1)])
        [(ResourcePods, 0), ("example.com/foo", 9)] [0, 0, 0] = some [1, 0, 0] ∧
      GetPodReq (testPodWith "pod7" [("example.com/foo", NewQuantity 1)])
        [(ResourcePods, 0), ("example.com/foo", 9)] [0, 0, 0] = none) ∧
    ∃ v,
      GetPodReq (testPodWith "pod6" [(ResourceCPU, NewQuantity 1)])
        [(ResourcePods, 0), ("example.com/foo", 9)] [0, 0, 0] = some v ∧
      v.length = [(0 : Int), 0, 0].length ∧ v[0]? = some 1 :=
  ⟨⟨by decide, by decide⟩, by decide,
    (GetPodReq_pod_slot GetResIDMap 2
      (testPodWith "pod5" [(ResourcePods, NewQuantity 4), (ResourceCPU, NewQuantity 1)])
      (List.replicate 8 0) (by decide) (by decide)).2.2.1,
    ⟨by decide, by decide, by decide⟩,
    (GetPodReq_pod_slot [(ResourcePods, 0), ("example.com/foo", 9)] 0
      (testPodWith "pod6" [(ResourceCPU, NewQuantity 1)]) [0, 0, 0] (by decide) (by decide)).1
      (by decide)⟩

/-! ## Resource names that are not registered -/

theorem testLedgerFull_reachable :
    runEvents testLedger
        [Event.addNode (testNodeExt "nodeA" "ExtendedResType0" 10),
         Event.addNode (testNodeExt "nodeB" "ExtendedResType1" 10),
         Event.addNode (testNodeExt "nodeC" "ExtendedResType2" 10),
         Event.deleteNode (testNodeExt "nodeA" "ExtendedResType0" 10),
         Event.deleteNode (testNodeExt "nodeB" "ExtendedResType1" 10),
         Event.deleteNode (testNodeExt "nodeC" "ExtendedResType2" 10)] =
      some testLedgerFull ∧
    Bootstrapped testLedgerFull ∧
    testLedgerFull.NextResourceID = testLedgerFull.ResTypeMaxKind := by
  decide

/-- C17 (the code at the failing input): on a bootstrapped ledger whose registry
is full, the node-add event for an uncached node whose only allocatable
resource is an unregistered type leaves the registry and the counters as they
were, but writes the quantity of the dropped type into slot 0, the slot of the
cpu type, although the node has no cpu; when the node also has cpu, slot 0
holds the dropped quantity or the cpu quantity depending on the order in which
the names are visited. -/
theorem AddNode_full_registry_writes_slot_zero :
    mapGet testLedgerFull.ResTypeToID "ExtendedResType9" = none ∧
    mapGet testLedgerFull.ResTypeToID ResourceCPU = some 0 ∧
    mapGet testLedgerFull.NodeCache "node9" = none ∧
    (testLedgerFull.AddNode (testNodeExt "node9" "ExtendedResType9" 7)).map
        (fun gr => (gr.ResTypeToID, gr.NextResourceID, gr.ResTypeMaxKind)) =
      some (testLedgerFull.ResTypeToID, 6, 6) ∧
    (testLedgerFull.AddNode (testNodeExt "node9" "ExtendedResType9" 7)).bind
        (fun gr => (mapGet gr.NodeCache "node9").map (fun nr => nr.Capa)) =
      some [7, 0, 0, 0, 0, 0] ∧
    (testLedgerFull.AddNode
        { Name := "node9"
          Allocatable := [(ResourceCPU, NewQuantity 2), ("ExtendedResType9", NewQuantity 7)] }).bind
        (fun gr => (mapGet gr.NodeCache "node9").map (fun nr => nr.Capa)) =
      some [7, 0, 0, 0, 0, 0] ∧
    (testLedgerFull.AddNode
        { Name := "node9"
          Allocatable := [("ExtendedResType9", NewQuantity 7), (ResourceCPU, NewQuantity 2)] }).bind
        (fun gr => (mapGet gr.NodeCache "node9").map (fun nr => nr.Capa)) =
      some [2000, 0, 0, 0, 0, 0] := by
  decide

/-- C18 (the code at the failing input): with a registry that contains the
pod-count type, a pod that requests cpu "1" and 5 units of an unregistered
resource name is encoded with 5 in slot 0, the slot of cpu, when the
unregistered name is visited after cpu, and with 1000 when it is visited
before: the value of the cpu slot is not the pod's cpu request and depends on
the order of the visit. -/
theorem GetPodReq_unregistered_name :
    mapGet testLedger.ResTypeToID ResourcePods = some 2 ∧
    mapGet testLedger.ResTypeToID "example.com/foo" = none ∧
    QuantityToInt ResourceCPU (NewQuantity 1) = 1000 ∧
    GetPodReq (testPodWith "podA" [(ResourceCPU, NewQuantity 1), ("example.com/foo", NewQuantity 5)])
        testLedger.ResTypeToID (List.replicate 6 0) = some [5, 0, 1, 0, 0, 0] ∧
    GetPodReq (testPodWith "podA" [("example.com/foo", NewQuantity 5), (ResourceCPU, NewQuantity 1)])
        testLedger.ResTypeToID (List.replicate 6 0) = some [1000, 0, 1, 0, 0, 0] ∧
    GetPodReq (testPodWith "podA" [("example.com/foo", NewQuantity 5)])
        testLedger.ResTypeToID (List.replicate 6 0) = some [5, 0, 1, 0, 0, 0] := by
  decide

/-! ## The registry only grows -/

theorem mapGet_mapSet_of_absent {V : Type} (m : GoMap V) (k k1 : String) (v w : V)
    (hk : mapHas m k = false) (h : mapGet m k1 = some w) :
    mapGet (mapSet m k v) k1 = some w := by
  have hne : k1 ≠ k := by
    intro heq
    subst heq
    rw [mapHas_eq_false_iff] at hk
    rw [hk] at h
    exact absurd h (by simp)
  rw [mapGet_mapSet_ne _ _ _ _ hne]
  exact h

theorem collect_registerTypes_keeps (rl : ResourceList) (st : GoMap Nat × Nat)
    (name : ResourceName) (i : Nat) (h : mapGet st.1 name = some i) :
    mapGet (CollectFromLister.registerTypes rl st).1 name = some i := by
  induction rl generalizing st with
  | nil => exact h
  | cons e rest ih =>
    obtain ⟨resName, q⟩ := e
    unfold CollectFromLister.registerTypes
    cases hh : mapHas st.1 resName
    · simp only [Bool.false_eq_true, if_false]
      exact ih _ (mapGet_mapSet_of_absent _ _ _ _ _ hh h)
    · simp only [if_true]
      exact ih _ h

theorem collectTypes_keeps (nodes : List Node) (st : GoMap Nat × Nat)
    (name : ResourceName) (i : Nat) (h : mapGet st.1 name = some i) :
    mapGet (CollectFromLister.collectTypes nodes st).1 name = some i := by
  induction nodes generalizing st with
  | nil => exact h
  | cons node rest ih =>
    unfold CollectFromLister.collectTypes
    exact ih _ (collect_registerTypes_keeps _ _ _ _ h)

theorem addNode_registerTypes_keeps (maxKind : Nat) (rl : ResourceList) (st : GoMap Nat × Nat)
    (name : ResourceName) (i : Nat) (h : mapGet st.1 name = some i) :
    mapGet (GloalReserve.AddNode.registerTypes maxKind rl st).1 name = some i := by
  induction rl generalizing st with
  | nil => exact h
  | cons e rest ih =>
    obtain ⟨resName, q⟩ := e
    unfold GloalReserve.AddNode.registerTypes
    cases hh : mapHas st.1 resName
    · simp only [Bool.false_eq_true, if_false]
      by_cases hfull : st.2 ≥ maxKind
      · rw [if_pos hfull]
        exact ih _ h
      · rw [if_neg hfull]
        exact ih _ (mapGet_mapSet_of_absent _ _ _ _ _ hh h)
    · simp only [if_true]
      exact ih _ h

theorem collectPods_registry (pods : List Pod) (gr gr1 : GloalReserve)
    (h : CollectFromLister.collectPods pods gr = some gr1) :
    gr1.ResTypeToID = gr.ResTypeToID := by
  induction pods generalizing gr with
  | nil =>
    simp only [CollectFromLister.collectPods, Option.some.injEq] at h
    rw [← h]
  | cons pod rest ih =>
    unfold CollectFromLister.collectPods at h
    split at h
    · split at h
      · cases hadd : AddPodToCache _ pod gr.ResTypeToID with
        | none => rw [hadd] at h; simp at h
        | some nr =>
          rw [hadd] at h
          simp only [Option.some_bind] at h
          have := ih _ h
          exact this
      · exact ih _ h
    · exact ih _ h

theorem CollectFromLister_keeps (gr gr1 : GloalReserve) (b : Bool)
    (h : CollectFromLister gr = some (b, gr1)) (name : ResourceName) (i : Nat)
    (hreg : mapGet gr.ResTypeToID name = some i) : mapGet gr1.ResTypeToID name = some i := by
  unfold CollectFromLister at h
  cases hnl : gr.NodeLister with
  | none =>
    rw [hnl] at h
    simp only [Option.some.injEq, Prod.mk.injEq] at h
    rw [← h.2]
    exact hreg
  | some nodes =>
    rw [hnl] at h
    simp only at h
    have hkeep := collectTypes_keeps nodes (gr.ResTypeToID, gr.NextResourceID) name i hreg
    cases hcn : CollectFromLister.collectNodes
        (CollectFromLister.collectTypes nodes (gr.ResTypeToID, gr.NextResourceID)).1
        ((CollectFromLister.collectTypes nodes (gr.ResTypeToID, gr.NextResourceID)).2 +
          ResourceTypeBuffer) nodes gr.NodeCache with
    | none => rw [hcn] at h; simp at h
    | some cache =>
      rw [hcn] at h
      simp only [Option.some_bind] at h
      cases hpl : gr.PodLister with
      | none =>
        rw [hpl] at h
        simp only [Option.some.injEq, Prod.mk.injEq] at h
        rw [← h.2]
        exact hkeep
      | some pods =>
        rw [hpl] at h
        simp only [Option.map_eq_some'] at h
        obtain ⟨gr2, hgr2, heq⟩ := h
        have := collectPods_registry pods _ gr2 hgr2
        simp only [Prod.mk.injEq] at heq
        rw [← heq.2, this]
        exact hkeep

theorem lazyCollect_keeps (gr gr0 : GloalReserve) (h : lazyCollect gr = some gr0)
    (name : ResourceName) (i : Nat) (hreg : mapGet gr.ResTypeToID name = some i) :
    mapGet gr0.ResTypeToID name = some i := by
  unfold lazyCollect at h
  split at h
  · simp only [Option.map_eq_some'] at h
    obtain ⟨r, hr, heq⟩ := h
    obtain ⟨b, gr1⟩ := r
    simp only at heq
    subst heq
    exact CollectFromLister_keeps gr gr1 b hr name i hreg
  · rw [← Option.some.inj h]
    exact hreg

theorem Reserve_registry (gr gr1 : GloalReserve) (pod : Pod) (nodeName : String) (ret : String)
    (h : Reserve gr pod nodeName = some (ret, gr1)) :
    ∃ gr0, lazyCollect gr = some gr0 ∧ gr1.ResTypeToID = gr0.ResTypeToID := by
  unfold Reserve at h
  cases hl : lazyCollect gr with
  | none => rw [hl] at h; simp at h
  | some gr0 =>
    refine ⟨gr0, rfl, ?_⟩
    rw [hl] at h
    simp only [Option.some_bind] at h
    split at h
    · rename_i nodeInfo _
      cases hc : CheckPod nodeInfo pod gr0.ResTypeToID with
      | none => rw [hc] at h; simp at h
      | some b =>
        rw [hc] at h
        simp only [Option.some_bind] at h
        split at h
        · simp only [Option.map_eq_some'] at h
          obtain ⟨nr1, _, heq⟩ := h
          simp only [Prod.mk.injEq] at heq
          rw [← heq.2]
        · simp only [Option.some.injEq, Prod.mk.injEq] at h
          rw [← h.2]
    · simp only [Option.some.injEq, Prod.mk.injEq] at h
      rw [← h.2]

theorem commit_registry (prs : List (Pod × String)) (gr gr1 : GloalReserve)
    (h : ReservePods.commit prs gr = some gr1) : gr1.ResTypeToID = gr.ResTypeToID := by
  induction prs generalizing gr with
  | nil =>
    simp only [ReservePods.commit, Option.some.injEq] at h
    rw [← h]
  | cons e rest ih =>
    obtain ⟨p, nodeName⟩ := e
    unfold ReservePods.commit at h
    split at h
    · simp at h
    · rename_i nodeInfo _
      cases hadd : AddPodToCache nodeInfo p gr.ResTypeToID with
      | none => rw [hadd] at h; simp at h
      | some nr =>
        rw [hadd] at h
        simp only [Option.some_bind] at h
        have := ih _ h
        exact this

theorem ReservePods_registry (gr gr1 : GloalReserve) (pods : List Pod)
    (nodeNames : List String) (res : PodReserveResult)
    (h : ReservePods gr pods nodeNames = some (res, gr1)) :
    ∃ gr0, lazyCollect gr = some gr0 ∧ gr1.ResTypeToID = gr0.ResTypeToID := by
  unfold ReservePods at h
  cases hl : lazyCollect gr with
  | none => rw [hl] at h; simp at h
  | some gr0 =>
    refine ⟨gr0, rfl, ?_⟩
    rw [hl] at h
    simp only [Option.some_bind] at h
    cases hp : ReservePods.pairs pods nodeNames with
    | none => rw [hp] at h; simp at h
    | some prs =>
      rw [hp] at h
      simp only [Option.some_bind] at h
      cases h1 : ReservePods.checkNodes gr0.NodeCache prs [] "" [] with
      | none => rw [h1] at h; simp at h
      | some r1 =>
        rw [h1] at h
        simp only [Option.some_bind] at h
        split at h
        · simp only [Option.some.injEq, Prod.mk.injEq] at h
          rw [← h.2]
        · cases h2 : ReservePods.checkPods gr0.ResTypeToID gr0.ResTypeMaxKind prs r1.1 r1.2.1
              r1.2.2 with
          | none => rw [h2] at h; simp at h
          | some r2 =>
            rw [h2] at h
            simp only [Option.some_bind] at h
            split at h
            · simp only [Option.some.injEq, Prod.mk.injEq] at h
              rw [← h.2]
            · simp only [Option.map_eq_some'] at h
              obtain ⟨gr2, hgr2, heq⟩ := h
              simp only [Prod.mk.injEq] at heq
              rw [← heq.2]
              exact commit_registry prs gr0 gr2 hgr2

theorem Unreserve_registry (gr gr1 : GloalReserve) (pod : Pod) (nodeName : String)
    (h : Unreserve gr pod nodeName = some gr1) : gr1.ResTypeToID = gr.ResTypeToID := by
  unfold Unreserve at h
  simp only at h
  split at h
  · simp only [Option.map_eq_some'] at h
    obtain ⟨nr1, _, heq⟩ := h
    rw [← heq]
  · rw [← Option.some.inj h]

theorem UnreservePods_registry (pods : List Pod) (nodeNames : List String)
    (gr gr1 : GloalReserve) (h : UnreservePods gr pods nodeNames = some gr1) :
    gr1.ResTypeToID = gr.ResTypeToID := by
  induction pods generalizing gr nodeNames with
  | nil =>
    simp only [UnreservePods, Option.some.injEq] at h
    rw [← h]
  | cons pod rest ih =>
    cases nodeNames with
    | nil => simp [UnreservePods] at h
    | cons nodeName ns =>
      simp only [UnreservePods] at h
      cases hu : Unreserve gr pod nodeName with
      | none => rw [hu] at h; simp at h
      | some gr2 =>
        rw [hu] at h
        simp only [Option.some_bind] at h
        rw [ih ns gr2 h, Unreserve_registry gr gr2 pod nodeName hu]

theorem AddNode_keeps (gr gr1 : GloalReserve) (node : Node) (h : gr.AddNode node = some gr1)
    (name : ResourceName) (i : Nat) (hreg : mapGet gr.ResTypeToID name = some i) :
    mapGet gr1.ResTypeToID name = some i := by
  unfold GloalReserve.AddNode at h
  split at h
  · rw [← Option.some.inj h]; exact hreg
  · split at h
    · rw [← Option.some.inj h]; exact hreg
    · simp only [Option.map_eq_some'] at h
      obtain ⟨nr, _, heq⟩ := h
      rw [← heq]
      exact addNode_registerTypes_keeps _ _ (gr.ResTypeToID, gr.NextResourceID) name i hreg

theorem AddPod_registry (gr gr1 : GloalReserve) (pod : Pod) (h : gr.AddPod pod = some gr1) :
    gr1.ResTypeToID = gr.ResTypeToID := by
  unfold GloalReserve.AddPod at h
  split at h
  · rw [← Option.some.inj h]
  · split at h
    · split at h
      · rw [← Option.some.inj h]
      · split at h
        · rw [← Option.some.inj h]
        · simp only [Option.map_eq_some'] at h
          obtain ⟨nr, _, heq⟩ := h
          rw [← heq]
    · rw [← Option.some.inj h]

theorem locate_registry (gr : GloalReserve) (newPod : Pod) (r : Bool × GloalReserve)
    (h : GloalReserve.UpdatePod.locate gr newPod = some r) :
    r.2.ResTypeToID = gr.ResTypeToID := by
  unfold GloalReserve.UpdatePod.locate at h
  split at h
  · rw [← Option.some.inj h]
  · split at h
    · split at h
      · simp at h
      · rw [← Option.some.inj h]
    · rw [← Option.some.inj h]

theorem UpdatePod_registry (gr gr1 : GloalReserve) (oldPod : Option Pod) (newPod : Pod)
    (h : gr.UpdatePod oldPod newPod = some gr1) : gr1.ResTypeToID = gr.ResTypeToID := by
  unfold GloalReserve.UpdatePod at h
  split at h
  · cases hl : GloalReserve.UpdatePod.locate gr newPod with
    | none => rw [hl] at h; simp at h
    | some r =>
      rw [hl] at h
      simp only [Option.some_bind] at h
      have hr := locate_registry gr newPod r hl
      split at h
      · split at h
        · simp only [Option.map_eq_some'] at h
          obtain ⟨nr, _, heq⟩ := h
          rw [← heq]
          exact hr
        · simp only [Option.map_eq_some'] at h
          obtain ⟨nr, _, heq⟩ := h
          rw [← heq]
          exact hr
      · rw [← Option.some.inj h]
        exact hr
  · rw [← Option.some.inj h]

theorem DeletePod_registry (gr gr1 : GloalReserve) (pod : Pod)
    (h : gr.DeletePod pod = some gr1) : gr1.ResTypeToID = gr.ResTypeToID := by
  unfold GloalReserve.DeletePod at h
  simp only at h
  split at h
  · split at h
    · simp only [Option.map_eq_some'] at h
      obtain ⟨nr, _, heq⟩ := h
      rw [← heq]
    · rw [← Option.some.inj h]
  · rw [← Option.some.inj h]

theorem DeleteNode_registry (gr : GloalReserve) (node : Node) :
    (gr.DeleteNode node).ResTypeToID = gr.ResTypeToID := by
  unfold GloalReserve.DeleteNode
  split <;> rfl

/-- C16: whenever an operation of the ledger (bootstrap, also repeated, a node
or pod event, `Reserve`, `ReservePods`, `Unreserve`, `UnreservePods`) completes,
every resource name that the registry mapped to an index before the operation
is mapped to the same index after it. -/
theorem registry_permanent (gr gr1 : GloalReserve) (ev : Event)
    (h : applyEvent gr ev = some gr1) (name : ResourceName) (i : Nat)
    (hreg : mapGet gr.ResTypeToID name = some i) : mapGet gr1.ResTypeToID name = some i := by
  cases ev with
  | collect =>
    simp only [applyEvent, Option.map_eq_some'] at h
    obtain ⟨r, hr, heq⟩ := h
    obtain ⟨b, gr2⟩ := r
    simp only at heq
    subst heq
    exact CollectFromLister_keeps gr gr2 b hr name i hreg
  | addNode node => exact AddNode_keeps gr gr1 node h name i hreg
  | updateNode oldNode newNode =>
    simp only [applyEvent, GloalReserve.UpdateNode, Option.some.injEq] at h
    rw [← h]; exact hreg
  | deleteNode node =>
    simp only [applyEvent, Option.some.injEq] at h
    rw [← h, DeleteNode_registry]; exact hreg
  | addPod pod => rw [AddPod_registry gr gr1 pod h]; exact hreg
  | updatePod oldPod newPod => rw [UpdatePod_registry gr gr1 oldPod newPod h]; exact hreg
  | deletePod pod => rw [DeletePod_registry gr gr1 pod h]; exact hreg
  | reserve pod nodeName =>
    simp only [applyEvent, Option.map_eq_some'] at h
    obtain ⟨r, hr, heq⟩ := h
    obtain ⟨ret, gr2⟩ := r
    simp only at heq
    subst heq
    obtain ⟨gr0, hl, he⟩ := Reserve_registry gr gr2 pod nodeName ret hr
    rw [he]
    exact lazyCollect_keeps gr gr0 hl name i hreg
  | reservePods pods nodeNames =>
    simp only [applyEvent, Option.map_eq_some'] at h
    obtain ⟨r, hr, heq⟩ := h
    obtain ⟨res, gr2⟩ := r
    simp only at heq
    subst heq
    obtain ⟨gr0, hl, he⟩ := ReservePods_registry gr gr2 pods nodeNames res hr
    rw [he]
    exact lazyCollect_keeps gr gr0 hl name i hreg
  | unreserve pod nodeName =>
    rw [Unreserve_registry gr gr1 pod nodeName h]; exact hreg
  | unreservePods pods nodeNames =>
    rw [UnreservePods_registry pods nodeNames gr gr1 h]; exact hreg

theorem registry_permanent_witness :
    (applyEvent testLedger (Event.addNode GetNode1) = some testLedgerTwoNodes ∧
      mapGet testLedger.ResTypeToID ResourcePods = some 2) ∧
    mapGet testLedgerTwoNodes.ResTypeToID "ExtendedResType0" = some 3 ∧
    mapGet testLedgerTwoNodes.ResTypeToID ResourcePods = some 2 :=
  ⟨⟨by decide, by decide⟩, by decide,
    registry_permanent testLedger testLedgerTwoNodes (Event.addNode GetNode1) (by decide)
      ResourcePods 2 (by decide)⟩

/-! ## Lock-step of the reverse index and the pod sets -/

theorem podOn_of_get (gr : GloalReserve) (p : UID) (n : String) (nr : NodeResInfo)
    (h : mapGet gr.NodeCache n = some nr) : podOn gr p n = mapHas nr.Pods p := by
  simp [podOn, h]

theorem podOn_of_none (gr : GloalReserve) (p : UID) (n : String)
    (h : mapGet gr.NodeCache n = none) : podOn gr p n = false := by
  simp [podOn, h]

theorem podOn_cached (gr : GloalReserve) (p : UID) (n : String) (h : podOn gr p n = true) :
    ∃ nr, mapGet gr.NodeCache n = some nr ∧ mapHas nr.Pods p = true := by
  unfold podOn at h
  cases hn : mapGet gr.NodeCache n with
  | none => rw [hn] at h; simp at h
  | some nr => rw [hn] at h; exact ⟨nr, rfl, h⟩

/-- The pod sets after the ledger of `n0` was replaced. -/
theorem podOn_update (gr : GloalReserve) (n0 : String) (nr1 : NodeResInfo)
    (p2n : GoMap String) (p : UID) (n : String) :
    podOn { gr with NodeCache := mapSet gr.NodeCache n0 nr1, PodToNode := p2n } p n =
      if n = n0 then mapHas nr1.Pods p else podOn gr p n := by
  by_cases h : n = n0
  · subst h
    simp [podOn, mapGet_mapSet_self]
  · simp [podOn, mapGet_mapSet_ne _ _ _ _ h, h]

theorem LockStep_of_check (gr : GloalReserve) (h : LockStepCheck gr) : LockStep gr := by
  intro p n
  constructor
  · intro hp
    exact h.1 (p, n) (mapGet_mem _ _ _ hp)
  · intro hon
    obtain ⟨nr, hnr, hhas⟩ := podOn_cached gr p n hon
    obtain ⟨info, hinfo⟩ := (mapHas_eq_true_iff _ _).mp hhas
    exact h.2 (n, nr) (mapGet_mem _ _ _ hnr) (p, info) (mapGet_mem _ _ _ hinfo)

theorem LockStep_unique (gr : GloalReserve) (hls : LockStep gr) (p : UID) (n m : String)
    (hn : podOn gr p n = true) (hm : podOn gr p m = true) : n = m := by
  have h1 := (hls p n).mpr hn
  have h2 := (hls p m).mpr hm
  rw [h1] at h2
  exact Option.some.inj h2

theorem LockStep_reserved (gr : GloalReserve) (hls : LockStep gr) (pod : Pod) (n0 : String)
    (nr : NodeResInfo) (req : resVector) (hn : mapGet gr.NodeCache n0 = some nr)
    (hrec : recordedOnly gr pod.UID n0) : LockStep (reserved gr pod n0 nr req) := by
  intro p n
  rw [reserved_PodToNode]
  unfold reserved
  rw [podOn_update]
  by_cases hp : p = pod.UID
  · subst hp
    rw [if_pos rfl]
    by_cases hnn : n = n0
    · subst hnn
      simp [mapHas_mapSet]
    · rw [if_neg hnn]
      constructor
      · intro h
        exact absurd (Option.some.inj h).symm hnn
      · intro h
        have h1 := (hls pod.UID n).mpr h
        rcases hrec with h2 | h2
        · rw [h2] at h1; exact absurd h1 (by simp)
        · rw [h2] at h1; exact absurd (Option.some.inj h1).symm hnn
  · rw [if_neg hp]
    by_cases hnn : n = n0
    · subst hnn
      rw [if_pos rfl]
      simp only [mapHas_mapSet, hp, decide_False, Bool.false_or]
      rw [← podOn_of_get gr p n nr hn]
      exact hls p n
    · rw [if_neg hnn]
      exact hls p n

theorem LockStep_unreserved (gr : GloalReserve) (hls : LockStep gr) (uid : UID) (n0 : String)
    (nr : NodeResInfo) (hn : mapGet gr.NodeCache n0 = some nr)
    (hrec : recordedOnly gr uid n0) :
    LockStep { gr with
      NodeCache := mapSet gr.NodeCache n0 { nr with Pods := mapDel nr.Pods uid }
      PodToNode := mapDel gr.PodToNode uid } := by
  intro p n
  rw [podOn_update]
  simp only
  by_cases hp : p = uid
  · subst hp
    rw [mapGet_mapDel_self]
    constructor
    · intro h; exact absurd h (by simp)
    · intro h
      by_cases hnn : n = n0
      · rw [if_pos hnn, mapHas_mapDel] at h
        simp at h
      · rw [if_neg hnn] at h
        have h1 := (hls p n).mpr h
        rcases hrec with h2 | h2
        · rw [h2] at h1; exact absurd h1 (by simp)
        · rw [h2] at h1; exact absurd (Option.some.inj h1).symm hnn
  · rw [mapGet_mapDel_ne _ _ _ hp]
    by_cases hnn : n = n0
    · subst hnn
      rw [if_pos rfl, mapHas_mapDel]
      simp only [hp, decide_False, Bool.not_false, Bool.true_and]
      rw [← podOn_of_get gr p n nr hn]
      exact hls p n
    · rw [if_neg hnn]
      exact hls p n

theorem LockStep_unrecorded (gr : GloalReserve) (hls : LockStep gr) (uid : UID)
    (hrec : mapGet gr.PodToNode uid = none ∨
      ∃ n0, mapGet gr.PodToNode uid = some n0 ∧ mapGet gr.NodeCache n0 = none) :
    LockStep { gr with PodToNode := mapDel gr.PodToNode uid } := by
  intro p n
  have hpod : podOn { gr with PodToNode := mapDel gr.PodToNode uid } p n = podOn gr p n := rfl
  rw [hpod]
  simp only
  by_cases hp : p = uid
  · subst hp
    rw [mapGet_mapDel_self]
    constructor
    · intro h; exact absurd h (by simp)
    · intro h
      have h1 := (hls p n).mpr h
      rcases hrec with h2 | ⟨n0, h2, h3⟩
      · rw [h2] at h1; exact absurd h1 (by simp)
      · rw [h2] at h1
        obtain rfl := Option.some.inj h1
        rw [podOn_of_none gr p n0 h3] at h
        exact absurd h (by simp)
  · rw [mapGet_mapDel_ne _ _ _ hp]
    exact hls p n

theorem podOn_of_cache (gr gr1 : GloalReserve) (n0 : String) (nr1 : NodeResInfo)
    (h : gr1.NodeCache = mapSet gr.NodeCache n0 nr1) (p : UID) (n : String) :
    podOn gr1 p n = if n = n0 then mapHas nr1.Pods p else podOn gr p n := by
  by_cases hn : n = n0
  · subst hn
    simp [podOn, h, mapGet_mapSet_self]
  · simp [podOn, h, mapGet_mapSet_ne _ _ _ _ hn, hn]

theorem Bootstrapped_reserved (gr : GloalReserve) (hb : Bootstrapped gr) (pod : Pod)
    (n0 : String) (nr : NodeResInfo) (req : resVector)
    (hn : mapGet gr.NodeCache n0 = some nr) (hlen : req.length = gr.ResTypeMaxKind) :
    Bootstrapped (reserved gr pod n0 nr req) := by
  have hnr := WellFormed_node gr hb.2 n0 nr hn
  have hwf1 := NodeWF_mapSet gr.ResTypeMaxKind nr pod.UID (NewPodInfo.result pod req) hnr hlen
  exact ⟨hb.1, WellFormed_update gr hb.2 n0 _ hwf1 _ (keys_mapSet_nodup _ _ _ hb.2.2.2.2.1)⟩

theorem step_Reserve (gr : GloalReserve) (hb : Bootstrapped gr) (hls : LockStep gr)
    (pod : Pod) (nodeName : String) (hrec : recordedOnly gr pod.UID nodeName) :
    ∃ ret gr1, Reserve gr pod nodeName = some (ret, gr1) ∧ Bootstrapped gr1 ∧ LockStep gr1 := by
  rcases Reserve_cases gr pod nodeName hb with
    ⟨_, hres⟩ | ⟨nr, a, req, hn, _, _, _, _, hlen, _, _, hcase⟩
  · exact ⟨_, _, hres, hb, hls⟩
  · rcases hcase with ⟨_, hres⟩ | ⟨_, hres⟩
    · exact ⟨_, _, hres, hb, hls⟩
    · exact ⟨_, _, hres, Bootstrapped_reserved gr hb pod nodeName nr req hn hlen,
        LockStep_reserved gr hls pod nodeName nr req hn hrec⟩

theorem step_Unreserve (gr : GloalReserve) (hb : Bootstrapped gr) (hls : LockStep gr)
    (pod : Pod) (nodeName : String) (hrec : recordedOnly gr pod.UID nodeName) :
    ∃ gr1, Unreserve gr pod nodeName = some gr1 ∧ Bootstrapped gr1 ∧ LockStep gr1 ∧
      ∀ uid m, recordedOnly gr uid m → recordedOnly gr1 uid m := by
  obtain ⟨hboot, hpos, hreg, hnd, hpnd, hnodes⟩ := hb
  have hwf : WellFormed gr := ⟨hpos, hreg, hnd, hpnd, hnodes⟩
  have hkeep : ∀ (c : GoMap NodeResInfo) (uid : UID) (m : String), recordedOnly gr uid m →
      recordedOnly { gr with NodeCache := c, PodToNode := mapDel gr.PodToNode pod.UID }
        uid m := by
    intro c uid m hr
    unfold recordedOnly at hr ⊢
    simp only
    by_cases hu : uid = pod.UID
    · subst hu
      left
      exact mapGet_mapDel_self _ _
    · rw [mapGet_mapDel_ne _ _ _ hu]
      exact hr
  rcases Unreserve_ok gr hwf pod nodeName with ⟨hn, hres⟩ | ⟨nr, hn, hres⟩
  · refine ⟨_, hres, ⟨hboot, hpos, hreg, hnd, keys_mapDel_nodup _ _ hpnd, hnodes⟩, ?_,
      hkeep gr.NodeCache⟩
    apply LockStep_unrecorded gr hls
    rcases hrec with h | h
    · exact Or.inl h
    · exact Or.inr ⟨nodeName, h, hn⟩
  · have hnr := WellFormed_node gr hwf nodeName nr hn
    have hwf1 := NodeWF_mapDel gr.ResTypeMaxKind nr pod.UID hnr
    exact ⟨_, hres,
      ⟨hboot, WellFormed_update gr hwf nodeName _ hwf1 _ (keys_mapDel_nodup _ _ hpnd)⟩,
      LockStep_unreserved gr hls pod.UID nodeName nr hn hrec, hkeep _⟩

theorem dropPods_nodup (pods : GoMap PodResInfo) (podToNode : GoMap String)
    (h : (podToNode.map Prod.fst).Nodup) :
    ((GloalReserve.DeleteNode.dropPods pods podToNode).map Prod.fst).Nodup := by
  induction pods generalizing podToNode with
  | nil => exact h
  | cons e rest ih =>
    obtain ⟨k, v⟩ := e
    rw [GloalReserve.DeleteNode.dropPods]
    exact ih _ (keys_mapDel_nodup _ _ h)

theorem step_DeleteNode (gr : GloalReserve) (hb : Bootstrapped gr) (hls : LockStep gr)
    (node : Node) : Bootstrapped (gr.DeleteNode node) ∧ LockStep (gr.DeleteNode node) := by
  cases hn : mapGet gr.NodeCache node.Name with
  | none =>
    rw [DeleteNode_uncached gr node hn]
    exact ⟨hb, hls⟩
  | some nodeInfo =>
    rw [DeleteNode_cached gr node nodeInfo hn]
    obtain ⟨hboot, hpos, hreg, hnd, hpnd, hnodes⟩ := hb
    refine ⟨⟨hboot, hpos, hreg, keys_mapDel_nodup _ _ hnd, dropPods_nodup _ _ hpnd, ?_⟩, ?_⟩
    · intro e he
      exact hnodes e ((mem_mapDel _ _ _).mp he).1
    · intro p n
      simp only
      rw [dropPods_get]
      have hpod : podOn { gr with
          PodToNode := GloalReserve.DeleteNode.dropPods nodeInfo.Pods gr.PodToNode
          NodeCache := mapDel gr.NodeCache node.Name } p n =
          if n = node.Name then false else podOn gr p n := by
        by_cases hnn : n = node.Name
        · subst hnn
          simp [podOn, mapGet_mapDel_self]
        · simp [podOn, mapGet_mapDel_ne _ _ _ hnn, hnn]
      rw [hpod]
      have hon : podOn gr p node.Name = mapHas nodeInfo.Pods p := podOn_of_get gr p _ _ hn
      cases hh : mapHas nodeInfo.Pods p
      · simp only [Bool.false_eq_true, if_false]
        by_cases hnn : n = node.Name
        · subst hnn
          rw [if_pos rfl]
          rw [hls p node.Name, hon, hh]
        · rw [if_neg hnn]
          exact hls p n
      · simp only [if_true]
        constructor
        · intro h; exact absurd h (by simp)
        · intro h
          by_cases hnn : n = node.Name
          · rw [if_pos hnn] at h
            exact absurd h (by simp)
          · rw [if_neg hnn] at h
            rw [← hon] at hh
            exact absurd (LockStep_unique gr hls p n node.Name h hh) hnn

theorem addNode_registerTypes_inv (maxKind : Nat) (rl : ResourceList) (st : GoMap Nat × Nat)
    (h : ∀ e ∈ st.1, e.2 < maxKind) :
    (∀ e ∈ (GloalReserve.AddNode.registerTypes maxKind rl st).1, e.2 < maxKind) ∧
      st.2 ≤ (GloalReserve.AddNode.registerTypes maxKind rl st).2 := by
  induction rl generalizing st with
  | nil => exact ⟨h, le_refl _⟩
  | cons e rest ih =>
    obtain ⟨resName, q⟩ := e
    unfold GloalReserve.AddNode.registerTypes
    cases hh : mapHas st.1 resName
    · simp only [Bool.false_eq_true, if_false]
      by_cases hfull : st.2 ≥ maxKind
      · rw [if_pos hfull]
        exact ih st h
      · rw [if_neg hfull]
        have h1 : ∀ e ∈ (mapSet st.1 resName st.2, st.2 + 1).1, e.2 < maxKind := by
          intro e he
          rcases mem_mapSet _ _ _ _ he with h2 | h2
          · rw [h2]; simp only; omega
          · exact h e h2.1
        obtain ⟨h3, h4⟩ := ih _ h1
        exact ⟨h3, by simp only at h4; omega⟩
    · simp only [if_true]
      exact ih st h

theorem NewNodeResInfo_ok (node : Node) (resIDMap : GoMap Nat) (n : Nat) (hpos : 0 < n)
    (hreg : ∀ e ∈ resIDMap, e.2 < n) :
    ∃ nr, NewNodeResInfo node resIDMap n = some nr ∧ NodeWF n nr ∧ nr.Pods = [] := by
  obtain ⟨r, hr, hlen, _⟩ :=
    writeResources_ok resIDMap n hpos hreg node.Allocatable (List.replicate n 0) (by simp)
  refine ⟨{ Name := node.Name, Capa := r, Pods := [] }, ?_, ⟨hlen, ?_, ?_⟩, rfl⟩
  · simp [NewNodeResInfo, hr]
  · intro e he; simp at he
  · simp

theorem step_AddNode (gr : GloalReserve) (hb : Bootstrapped gr) (hls : LockStep gr)
    (node : Node) : ∃ gr1, gr.AddNode node = some gr1 ∧ Bootstrapped gr1 ∧ LockStep gr1 := by
  obtain ⟨hboot, hpos, hreg, hnd, hpnd, hnodes⟩ := hb
  have hb : Bootstrapped gr := ⟨hboot, hpos, hreg, hnd, hpnd, hnodes⟩
  cases hh : mapHas gr.NodeCache node.Name
  · obtain ⟨hreg1, hnext⟩ := addNode_registerTypes_inv gr.ResTypeMaxKind node.Allocatable
      (gr.ResTypeToID, gr.NextResourceID) hreg
    obtain ⟨nr, hnr, hnwf, hempty⟩ := NewNodeResInfo_ok node _ gr.ResTypeMaxKind hpos hreg1
    have hres : gr.AddNode node = some
        { gr with
          ResTypeToID := (GloalReserve.AddNode.registerTypes gr.ResTypeMaxKind node.Allocatable
            (gr.ResTypeToID, gr.NextResourceID)).1
          NextResourceID := (GloalReserve.AddNode.registerTypes gr.ResTypeMaxKind
            node.Allocatable (gr.ResTypeToID, gr.NextResourceID)).2
          NodeCache := mapSet gr.NodeCache node.Name nr } := by
      simp [GloalReserve.AddNode, hboot, hh, hnr]
    refine ⟨_, hres, ⟨?_, hpos, hreg1, keys_mapSet_nodup _ _ _ hnd, hpnd, ?_⟩, ?_⟩
    · simp only at hnext ⊢
      omega
    · intro e he
      rcases mem_mapSet _ _ _ _ he with h1 | h1
      · rw [h1]; exact hnwf
      · exact hnodes e h1.1
    · intro p n
      rw [podOn_of_cache gr _ node.Name nr rfl]
      simp only
      by_cases hn : n = node.Name
      · subst hn
        rw [if_pos rfl, hempty]
        rw [hls p node.Name, podOn_of_none gr p _ ((mapHas_eq_false_iff _ _).mp hh)]
        simp [mapHas, mapGet]
      · rw [if_neg hn]
        exact hls p n
  · exact ⟨gr, by simp [GloalReserve.AddNode, hboot, hh], hb, hls⟩

theorem step_AddPod (gr : GloalReserve) (hb : Bootstrapped gr) (pod : Pod)
    (ha : (Event.addPod pod).admissible gr) : gr.AddPod pod = some gr := by
  unfold Event.admissible at ha
  unfold GloalReserve.AddPod
  rw [if_neg hb.1]
  by_cases hlen : pod.NodeName.length > 0
  · rw [if_pos hlen]
    rcases ha with h | h | h
    · omega
    · rw [(mapHas_eq_false_iff _ _).mp h]
    · obtain ⟨nr, hnr, hhas⟩ := podOn_cached gr _ _ h
      rw [hnr]
      simp only [hhas, if_true]
  · rw [if_neg hlen]

theorem UpdatePod_ok (n : Nat) (nr : NodeResInfo) (hwf : NodeWF n nr) (pod : Pod)
    (podInfo : PodResInfo) (hp : mapGet nr.Pods pod.UID = some podInfo) :
    UpdatePod nr pod =
        some { nr with Pods := mapSet nr.Pods pod.UID { podInfo with Status := pod.Phase } } ∧
      NodeWF n { nr with Pods := mapSet nr.Pods pod.UID { podInfo with Status := pod.Phase } } := by
  have hwf1 : NodeWF n
      { nr with Pods := mapSet nr.Pods pod.UID { podInfo with Status := pod.Phase } } :=
    NodeWF_mapSet n nr pod.UID _ hwf (hwf.2.1 (pod.UID, podInfo) (mapGet_mem _ _ _ hp))
  obtain ⟨a, ha, _, _⟩ := GetAvailable_ok n _ hwf1
  refine ⟨?_, hwf1⟩
  simp [UpdatePod, hp, ha]

theorem step_UpdatePod (gr : GloalReserve) (hb : Bootstrapped gr) (hls : LockStep gr)
    (oldPod : Option Pod) (newPod : Pod) (ha : (Event.updatePod oldPod newPod).admissible gr) :
    ∃ gr1, gr.UpdatePod oldPod newPod = some gr1 ∧ Bootstrapped gr1 ∧ LockStep gr1 := by
  unfold Event.admissible at ha
  by_cases hlen : newPod.NodeName.length > 0
  · rcases ha with h | h | ⟨h1, h2⟩
    · omega
    · -- in place
      obtain ⟨nr, hnr, hhas⟩ := podOn_cached gr _ _ ((hls _ _).mp h)
      obtain ⟨podInfo, hinfo⟩ := (mapHas_eq_true_iff _ _).mp hhas
      have hnwf := WellFormed_node gr hb.2 _ nr hnr
      obtain ⟨hupd, hwf1⟩ := UpdatePod_ok _ nr hnwf newPod podInfo hinfo
      have hres : gr.UpdatePod oldPod newPod = some
          { gr with
            NodeCache := mapSet gr.NodeCache newPod.NodeName
              ({ nr with
                 Pods := mapSet nr.Pods newPod.UID
                   ({ podInfo with Status := newPod.Phase }) }) } := by
        simp [GloalReserve.UpdatePod, hlen, GloalReserve.UpdatePod.locate, h, hnr, hupd]
      refine ⟨_, hres, ⟨hb.1, WellFormed_update gr hb.2 _ _ hwf1 _ hb.2.2.2.2.1⟩, ?_⟩
      · intro p n
        rw [podOn_of_cache gr _ newPod.NodeName _ rfl]
        simp only
        by_cases hn : n = newPod.NodeName
        · subst hn
          rw [if_pos rfl, mapHas_mapSet]
          by_cases hp : p = newPod.UID
          · subst hp
            simp [h]
          · simp only [hp, decide_False, Bool.false_or]
            rw [← podOn_of_get gr p _ nr hnr]
            exact hls p _
        · rw [if_neg hn]
          exact hls p n
    · -- first sighting on a cached node
      obtain ⟨nr, hnr⟩ := (mapHas_eq_true_iff _ _).mp h2
      have hnwf := WellFormed_node gr hb.2 _ nr hnr
      obtain ⟨req, _, hrlen, _, hadd, _⟩ :=
        AddPodToCache_ok gr.ResTypeMaxKind hb.2.1 gr.ResTypeToID hb.2.2.1 nr hnwf newPod
      refine ⟨reserved gr newPod newPod.NodeName nr req, ?_,
        Bootstrapped_reserved gr hb newPod _ nr req hnr hrlen,
        LockStep_reserved gr hls newPod _ nr req hnr (Or.inl h1)⟩
      simp [GloalReserve.UpdatePod, hlen, GloalReserve.UpdatePod.locate, h1, hnr, hadd, reserved]
  · exact ⟨gr, by simp [GloalReserve.UpdatePod, hlen], hb, hls⟩

theorem DeletePod_eq_Unreserve (gr : GloalReserve) (pod : Pod)
    (hlen : pod.NodeName.length > 0) : gr.DeletePod pod = Unreserve gr pod pod.NodeName := by
  unfold GloalReserve.DeletePod Unreserve
  simp only [hlen, if_true]

theorem step_DeletePod (gr : GloalReserve) (hb : Bootstrapped gr) (hls : LockStep gr)
    (pod : Pod) (ha : (Event.deletePod pod).admissible gr) :
    ∃ gr1, gr.DeletePod pod = some gr1 ∧ Bootstrapped gr1 ∧ LockStep gr1 := by
  unfold Event.admissible at ha
  by_cases hlen : pod.NodeName.length > 0
  · rw [DeletePod_eq_Unreserve gr pod hlen]
    have hrec : recordedOnly gr pod.UID pod.NodeName := by
      rcases ha with h | ⟨_, h⟩
      · exact Or.inl h
      · exact Or.inr h
    obtain ⟨gr1, h1, h2, h3, _⟩ := step_Unreserve gr hb hls pod pod.NodeName hrec
    exact ⟨gr1, h1, h2, h3⟩
  · have hnone : mapGet gr.PodToNode pod.UID = none := by
      rcases ha with h | ⟨h, _⟩
      · exact h
      · exact absurd h hlen
    obtain ⟨hboot, hpos, hreg, hnd, hpnd, hnodes⟩ := hb
    have hres : gr.DeletePod pod = some { gr with PodToNode := mapDel gr.PodToNode pod.UID } := by
      simp [GloalReserve.DeletePod, hlen]
    exact ⟨_, hres, ⟨hboot, hpos, hreg, hnd, keys_mapDel_nodup _ _ hpnd, hnodes⟩,
      LockStep_unrecorded gr hls pod.UID (Or.inl hnone)⟩

theorem commit_lockstep (prs : List (Pod × String)) (gr gr1 : GloalReserve)
    (hwf : WellFormed gr) (hls : LockStep gr)
    (hcached : ∀ e ∈ prs, mapHas gr.NodeCache e.2 = true)
    (hrec : ∀ e ∈ prs, recordedOnly gr e.1.UID e.2)
    (hsame : ∀ e1 ∈ prs, ∀ e2 ∈ prs, e1.1.UID = e2.1.UID → e1.2 = e2.2)
    (hc : ReservePods.commit prs gr = some gr1) : LockStep gr1 := by
  induction prs generalizing gr with
  | nil =>
    simp only [ReservePods.commit, Option.some.injEq] at hc
    rw [← hc]
    exact hls
  | cons e0 rest ih =>
    obtain ⟨p, n0⟩ := e0
    obtain ⟨nr0, hn⟩ := (mapHas_eq_true_iff _ _).mp (hcached (p, n0) (by simp))
    obtain ⟨req, _, _, _, hstep, hwf1⟩ := commit_cons gr hwf p n0 rest nr0 hn
    rw [hstep] at hc
    have hkeys : ∀ e ∈ rest, mapHas (reserved gr p n0 nr0 req).NodeCache e.2 = true := by
      intro e he
      rw [mapHas_eq_true_iff, reserved_NodeCache]
      by_cases hm : e.2 = n0
      · exact ⟨_, by rw [if_pos hm]⟩
      · rw [if_neg hm]
        exact (mapHas_eq_true_iff _ _).mp (hcached e (List.mem_cons_of_mem _ he))
    have hls1 := LockStep_reserved gr hls p n0 nr0 req hn (hrec (p, n0) (by simp))
    have hrec1 : ∀ e ∈ rest, recordedOnly (reserved gr p n0 nr0 req) e.1.UID e.2 := by
      intro e he
      unfold recordedOnly
      rw [reserved_PodToNode]
      by_cases hu : e.1.UID = p.UID
      · rw [if_pos hu]
        right
        have := hsame e (List.mem_cons_of_mem _ he) (p, n0) (by simp) hu
        simp only at this
        rw [this]
      · rw [if_neg hu]
        exact hrec e (List.mem_cons_of_mem _ he)
    exact ih _ hwf1 hls1 hkeys hrec1
      (fun e1 h1 e2 h2 => hsame e1 (List.mem_cons_of_mem _ h1) e2 (List.mem_cons_of_mem _ h2)) hc

theorem step_ReservePods (gr : GloalReserve) (hb : Bootstrapped gr) (hls : LockStep gr)
    (pods : List Pod) (nodeNames : List String)
    (ha : (Event.reservePods pods nodeNames).admissible gr) :
    ∃ res gr1, ReservePods gr pods nodeNames = some (res, gr1) ∧
      Bootstrapped gr1 ∧ LockStep gr1 := by
  obtain ⟨hlen, hrec, hsame⟩ := ha
  rcases ReservePods_cases gr pods nodeNames hb hlen with
    ⟨_, hres⟩ | ⟨_, _, hres⟩ | ⟨hM, _, gr1, hcommit, hres⟩
  · exact ⟨_, _, hres, hb, hls⟩
  · exact ⟨_, _, hres, hb, hls⟩
  · have hcached := (missingNames_eq_nil_iff _ _).mp hM
    obtain ⟨gr2, hc2, hwf1, _, _, hnext, _, _, _⟩ :=
      commit_ok (List.zip pods nodeNames) gr hb.2 hcached
    rw [hcommit] at hc2
    obtain rfl := Option.some.inj hc2
    exact ⟨_, _, hres, ⟨by rw [hnext]; exact hb.1, hwf1⟩,
      commit_lockstep _ gr gr1 hb.2 hls hcached hrec hsame hcommit⟩

theorem step_UnreservePods (pods : List Pod) (nodeNames : List String) (gr : GloalReserve)
    (hb : Bootstrapped gr) (hls : LockStep gr) (hlen : pods.length = nodeNames.length)
    (hrec : ∀ e ∈ List.zip pods nodeNames, recordedOnly gr e.1.UID e.2) :
    ∃ gr1, UnreservePods gr pods nodeNames = some gr1 ∧ Bootstrapped gr1 ∧ LockStep gr1 := by
  induction pods generalizing gr nodeNames with
  | nil => exact ⟨gr, by simp [UnreservePods], hb, hls⟩
  | cons pod rest ih =>
    cases nodeNames with
    | nil => simp at hlen
    | cons nodeName ns =>
      obtain ⟨gr1, h1, hb1, hls1, hkeep⟩ :=
        step_Unreserve gr hb hls pod nodeName (hrec (pod, nodeName) (by simp))
      obtain ⟨gr2, h2, hb2, hls2⟩ := ih ns gr1 hb1 hls1 (by simpa using hlen)
        (fun e he => hkeep _ _ (hrec e (by simp [he])))
      exact ⟨gr2, by simp [UnreservePods, h1, h2], hb2, hls2⟩

/-- One admissible operation on a bootstrapped ledger in lock-step completes
and yields a bootstrapped ledger in lock-step. -/
theorem step_ok (gr : GloalReserve) (hb : Bootstrapped gr) (hls : LockStep gr) (ev : Event)
    (ha : ev.admissible gr) :
    ∃ gr1, applyEvent gr ev = some gr1 ∧ Bootstrapped gr1 ∧ LockStep gr1 := by
  cases ev with
  | collect => exact absurd ha (by simp [Event.admissible])
  | addNode node => exact step_AddNode gr hb hls node
  | updateNode oldNode newNode => exact ⟨gr, rfl, hb, hls⟩
  | deleteNode node =>
    exact ⟨_, rfl, (step_DeleteNode gr hb hls node).1, (step_DeleteNode gr hb hls node).2⟩
  | addPod pod => exact ⟨gr, step_AddPod gr hb pod ha, hb, hls⟩
  | updatePod oldPod newPod => exact step_UpdatePod gr hb hls oldPod newPod ha
  | deletePod pod => exact step_DeletePod gr hb hls pod ha
  | reserve pod nodeName =>
    obtain ⟨ret, gr1, h1, h2, h3⟩ := step_Reserve gr hb hls pod nodeName ha
    exact ⟨gr1, by simp [applyEvent, h1], h2, h3⟩
  | reservePods pods nodeNames =>
    obtain ⟨res, gr1, h1, h2, h3⟩ := step_ReservePods gr hb hls pods nodeNames ha
    exact ⟨gr1, by simp [applyEvent, h1], h2, h3⟩
  | unreserve pod nodeName =>
    obtain ⟨gr1, h1, h2, h3, _⟩ := step_Unreserve gr hb hls pod nodeName ha
    exact ⟨gr1, h1, h2, h3⟩
  | unreservePods pods nodeNames =>
    exact step_UnreservePods pods nodeNames gr hb hls ha.1 ha.2

theorem run_ok (evs : List Event) (gr : GloalReserve) (hb : Bootstrapped gr)
    (hls : LockStep gr) (ha : admissibleRun gr evs) :
    ∃ gr1, runEvents gr evs = some gr1 ∧ Bootstrapped gr1 ∧ LockStep gr1 := by
  induction evs generalizing gr with
  | nil => exact ⟨gr, rfl, hb, hls⟩
  | cons ev evs ih =>
    unfold admissibleRun at ha
    obtain ⟨gr1, h1, hb1, hls1⟩ := step_ok gr hb hls ev ha.1
    have ha2 := ha.2
    rw [h1] at ha2
    obtain ⟨gr2, h2, hb2, hls2⟩ := ih gr1 hb1 hls1 ha2
    exact ⟨gr2, by simp [runEvents, h1, h2], hb2, hls2⟩

/-! ## Bootstrap establishes a well-formed ledger in lock-step -/

theorem collect_registerTypes_inv (rl : ResourceList) (st : GoMap Nat × Nat)
    (h : ∀ e ∈ st.1, e.2 < st.2) :
    (∀ e ∈ (CollectFromLister.registerTypes rl st).1,
        e.2 < (CollectFromLister.registerTypes rl st).2) ∧
      st.2 ≤ (CollectFromLister.registerTypes rl st).2 ∧
      (rl ≠ [] → 0 < (CollectFromLister.registerTypes rl st).2) := by
  induction rl generalizing st with
  | nil => exact ⟨h, le_refl _, fun hne => absurd rfl hne⟩
  | cons e rest ih =>
    obtain ⟨resName, q⟩ := e
    unfold CollectFromLister.registerTypes
    cases hh : mapHas st.1 resName
    · simp only [Bool.false_eq_true, if_false]
      have h1 : ∀ e ∈ (mapSet st.1 resName st.2, st.2 + 1).1,
          e.2 < (mapSet st.1 resName st.2, st.2 + 1).2 := by
        intro e he
        rcases mem_mapSet _ _ _ _ he with h2 | h2
        · rw [h2]; simp only; omega
        · have := h e h2.1
          simp only
          omega
      obtain ⟨h3, h4, _⟩ := ih _ h1
      simp only at h4
      exact ⟨h3, by omega, fun _ => by omega⟩
    · simp only [if_true]
      obtain ⟨h3, h4, _⟩ := ih st h
      refine ⟨h3, h4, fun _ => ?_⟩
      obtain ⟨v, hv⟩ := (mapHas_eq_true_iff _ _).mp hh
      have := h (resName, v) (mapGet_mem _ _ _ hv)
      simp only at this
      omega

theorem collectTypes_inv (nodes : List Node) (st : GoMap Nat × Nat)
    (h : ∀ e ∈ st.1, e.2 < st.2) :
    (∀ e ∈ (CollectFromLister.collectTypes nodes st).1,
        e.2 < (CollectFromLister.collectTypes nodes st).2) ∧
      st.2 ≤ (CollectFromLister.collectTypes nodes st).2 ∧
      ((∃ node ∈ nodes, node.Allocatable ≠ []) →
        0 < (CollectFromLister.collectTypes nodes st).2) := by
  induction nodes generalizing st with
  | nil =>
    refine ⟨h, le_refl _, ?_⟩
    rintro ⟨node, hn, _⟩
    simp at hn
  | cons node rest ih =>
    unfold CollectFromLister.collectTypes
    obtain ⟨h1, h2, h3⟩ := collect_registerTypes_inv node.Allocatable st h
    obtain ⟨h4, h5, h6⟩ := ih _ h1
    refine ⟨h4, by omega, ?_⟩
    rintro ⟨nd, hnd, hne⟩
    rcases List.mem_cons.mp hnd with heq | hmem
    · subst heq
      have := h3 hne
      omega
    · exact h6 ⟨nd, hmem, hne⟩

theorem collectNodes_ok (resIDMap : GoMap Nat) (n : Nat) (hpos : 0 < n)
    (hreg : ∀ e ∈ resIDMap, e.2 < n) (nodes : List Node) (cache : GoMap NodeResInfo)
    (hnd : (cache.map Prod.fst).Nodup) (hc : ∀ e ∈ cache, NodeWF n e.2 ∧ e.2.Pods = []) :
    ∃ cache1, CollectFromLister.collectNodes resIDMap n nodes cache = some cache1 ∧
      (cache1.map Prod.fst).Nodup ∧ ∀ e ∈ cache1, NodeWF n e.2 ∧ e.2.Pods = [] := by
  induction nodes generalizing cache with
  | nil => exact ⟨cache, rfl, hnd, hc⟩
  | cons node rest ih =>
    obtain ⟨nr, hnr, hnwf, hempty⟩ := NewNodeResInfo_ok node resIDMap n hpos hreg
    obtain ⟨cache1, h1, h2, h3⟩ := ih (mapSet cache node.Name nr)
      (keys_mapSet_nodup _ _ _ hnd) (fun e he => by
        rcases mem_mapSet _ _ _ _ he with h4 | h4
        · rw [h4]; exact ⟨hnwf, hempty⟩
        · exact hc e h4.1)
    exact ⟨cache1, by simp [CollectFromLister.collectNodes, hnr, h1], h2, h3⟩

theorem collectPods_ok (pods : List Pod) (gr : GloalReserve) (hb : Bootstrapped gr)
    (hls : LockStep gr) (hnd : (pods.map (fun p => p.UID)).Nodup)
    (hfresh : ∀ p ∈ pods, mapGet gr.PodToNode p.UID = none) :
    ∃ gr1, CollectFromLister.collectPods pods gr = some gr1 ∧ Bootstrapped gr1 ∧
      LockStep gr1 := by
  induction pods generalizing gr with
  | nil => exact ⟨gr, rfl, hb, hls⟩
  | cons pod rest ih =>
    simp only [List.map_cons, List.nodup_cons, List.mem_map, not_exists, not_and] at hnd
    have hrest : ∀ p ∈ rest, mapGet gr.PodToNode p.UID = none :=
      fun p hp => hfresh p (List.mem_cons_of_mem _ hp)
    by_cases hlen : pod.NodeName.length > 0
    · cases hn : mapGet gr.NodeCache pod.NodeName with
      | none =>
        obtain ⟨gr1, h1, h2⟩ := ih gr hb hls hnd.2 hrest
        exact ⟨gr1, by simp [CollectFromLister.collectPods, hlen, hn, h1], h2⟩
      | some nr =>
        have hnwf := WellFormed_node gr hb.2 _ nr hn
        obtain ⟨req, _, hrlen, _, hadd, _⟩ :=
          AddPodToCache_ok gr.ResTypeMaxKind hb.2.1 gr.ResTypeToID hb.2.2.1 nr hnwf pod
        have hfresh1 : ∀ p ∈ rest,
            mapGet (reserved gr pod pod.NodeName nr req).PodToNode p.UID = none := by
          intro p hp
          rw [reserved_PodToNode]
          have hne : ¬ p.UID = pod.UID := fun h => hnd.1 p hp h
          rw [if_neg hne]
          exact hrest p hp
        obtain ⟨gr1, h1, h2⟩ := ih (reserved gr pod pod.NodeName nr req)
          (Bootstrapped_reserved gr hb pod _ nr req hn hrlen)
          (LockStep_reserved gr hls pod _ nr req hn (Or.inl (hfresh pod (by simp))))
          hnd.2 hfresh1
        refine ⟨gr1, ?_, h2⟩
        rw [← h1]
        simp [CollectFromLister.collectPods, hlen, hn, hadd, reserved]
    · obtain ⟨gr1, h1, h2⟩ := ih gr hb hls hnd.2 hrest
      exact ⟨gr1, by simp [CollectFromLister.collectPods, hlen, h1], h2⟩

/-- Bootstrap of the empty ledger from a snapshot with pairwise distinct pod
UIDs and at least one allocatable resource yields a bootstrapped ledger in
lock-step. -/
theorem bootstrap_ok (nodes : List Node) (pods : List Pod)
    (hnd : (pods.map (fun p => p.UID)).Nodup)
    (hres : ∃ node ∈ nodes, node.Allocatable ≠ []) :
    ∃ gr0, InitGR nodes pods true = some gr0 ∧ Bootstrapped gr0 ∧ LockStep gr0 := by
  obtain ⟨hreg, _, hnext⟩ := collectTypes_inv nodes ([], 0) (fun e he => by simp at he)
  have hnext0 := hnext hres
  have hreg1 : ∀ e ∈ (CollectFromLister.collectTypes nodes ([], 0)).1,
      e.2 < (CollectFromLister.collectTypes nodes ([], 0)).2 + ResourceTypeBuffer := by
    intro e he
    have := hreg e he
    omega
  obtain ⟨cache, hcache, hcnd, hcwf⟩ := collectNodes_ok
    (CollectFromLister.collectTypes nodes ([], 0)).1
    ((CollectFromLister.collectTypes nodes ([], 0)).2 + ResourceTypeBuffer)
    (by unfold ResourceTypeBuffer; omega) hreg1 nodes [] (by simp) (fun e he => by simp at he)
  have hb1 : Bootstrapped
      { ResTypeToID := (CollectFromLister.collectTypes nodes ([], 0)).1
        ResTypeMaxKind := (CollectFromLister.collectTypes nodes ([], 0)).2 + ResourceTypeBuffer
        NextResourceID := (CollectFromLister.collectTypes nodes ([], 0)).2
        NodeCache := cache
        PodToNode := []
        NodeLister := some nodes
        PodLister := some pods } := by
    refine ⟨by simp only; omega, by unfold ResourceTypeBuffer; simp only; omega, hreg1, hcnd,
      by simp, fun e he => (hcwf e he).1⟩
  have hls1 : LockStep
      { ResTypeToID := (CollectFromLister.collectTypes nodes ([], 0)).1
        ResTypeMaxKind := (CollectFromLister.collectTypes nodes ([], 0)).2 + ResourceTypeBuffer
        NextResourceID := (CollectFromLister.collectTypes nodes ([], 0)).2
        NodeCache := cache
        PodToNode := []
        NodeLister := some nodes
        PodLister := some pods } := by
    intro p n
    simp only [mapGet]
    constructor
    · intro h; exact absurd h (by simp)
    · intro h
      obtain ⟨nr, hnr, hhas⟩ := podOn_cached _ p n h
      simp only at hnr
      rw [(hcwf (n, nr) (mapGet_mem _ _ _ hnr)).2] at hhas
      simp [mapHas, mapGet] at hhas
  obtain ⟨gr0, h0, hb0, hls0⟩ := collectPods_ok pods _ hb1 hls1 hnd (fun p _ => rfl)
  refine ⟨gr0, ?_, hb0, hls0⟩
  simp [InitGR, CollectFromLister, hcache, h0]

/-- C11 (as stated, refuted): lock-step is not an invariant of all reachable
states.  After bootstrap from `node0`, a pod-update event for an unrecorded pod
assigned to the uncached `node1` records the pod in the reverse index although
no node tracks it; a pod-add event inserts the pod entry on `node0` without
recording it in the reverse index; and `Unreserve` naming another node removes
the reverse-index entry of a pod that stays tracked on `node0`. -/
theorem lockstep_counterexample :
    (¬ ∀ (nodes : List Node) (pods : List Pod) (evs : List Event) (gr0 gr1 : GloalReserve),
        InitGR nodes pods true = some gr0 → runEvents gr0 evs = some gr1 → LockStep gr1) ∧
    ((runEvents testLedger [Event.updatePod none testPod3]).map
        (fun gr => (mapGet gr.PodToNode "NS1-pod3", podOn gr "NS1-pod3" "node1")) =
      some (some "node1", false)) ∧
    ((runEvents testLedger [Event.addPod testPod0]).map
        (fun gr => (mapGet gr.PodToNode "NS1-pod0", podOn gr "NS1-pod0" "node0")) =
      some (none, true)) ∧
    ((runEvents testLedger
          [Event.reserve testPod0 "node0", Event.unreserve testPod0 "node1"]).map
        (fun gr => (mapGet gr.PodToNode "NS1-pod0", podOn gr "NS1-pod0" "node0")) =
      some (none, true)) := by
  refine ⟨?_, by decide, by decide, by decide⟩
  intro hall
  have h := hall [GetNode0] [] [Event.updatePod none testPod3] testLedger
    { testLedger with PodToNode := [("NS1-pod3", "node1")] } (by decide) (by decide)
    "NS1-pod3" "node1"
  have h1 := h.mp (by decide)
  revert h1
  decide

/-- C11 (amended): bootstrap of the empty ledger from a snapshot whose pods have
pairwise distinct UIDs and whose nodes advertise at least one resource yields a
ledger in lock-step, and every sequence of admissible operations from there
(node add, update and delete events; pod-update events in place or as first
sighting on a cached node; pod-delete events for the recorded node; pod-add
events that find nothing to insert; `Reserve`, `ReservePods`, `Unreserve` and
`UnreservePods` that name the node on which the pod is recorded, if any) runs to
the end and leaves the ledger in lock-step: a UID is mapped to a node name by
the reverse index if and only if that node is cached and tracks the UID. -/
theorem lockstep_invariant (nodes : List Node) (pods : List Pod) (evs : List Event)
    (hnd : (pods.map (fun p => p.UID)).Nodup)
    (hres : ∃ node ∈ nodes, node.Allocatable ≠ []) :
    ∃ gr0, InitGR nodes pods true = some gr0 ∧ LockStep gr0 ∧
      (admissibleRun gr0 evs → ∃ gr1, runEvents gr0 evs = some gr1 ∧ LockStep gr1) := by
  obtain ⟨gr0, h0, hb0, hls0⟩ := bootstrap_ok nodes pods hnd hres
  refine ⟨gr0, h0, hls0, fun ha => ?_⟩
  obtain ⟨gr1, h1, _, hls1⟩ := run_ok evs gr0 hb0 hls0 ha
  exact ⟨gr1, h1, hls1⟩

theorem lockstep_invariant_witness :
    (([testPod0].map (fun p => p.UID)).Nodup ∧
      ∃ node ∈ [GetNode0, GetNode1], node.Allocatable ≠ []) ∧
    ((InitGR [GetNode0, GetNode1] [testPod0] true).map
        (fun gr0 => decide (admissibleRun gr0 testEvents)) = some true ∧
      ((InitGR [GetNode0, GetNode1] [testPod0] true).bind
          (fun gr0 => runEvents gr0 testEvents)).map
        (fun gr => (gr.PodToNode, gr.NodeCache.map (fun e => (e.1, e.2.Pods.map Prod.fst)))) =
        some ([], [("node0", []), ("node2", [])])) ∧
    ∃ gr0, InitGR [GetNode0, GetNode1] [testPod0] true = some gr0 ∧ LockStep gr0 ∧
      (admissibleRun gr0 testEvents →
        ∃ gr1, runEvents gr0 testEvents = some gr1 ∧ LockStep gr1) :=
  ⟨⟨by decide, by decide⟩, ⟨by decide, by decide⟩,
    lockstep_invariant [GetNode0, GetNode1] [testPod0] testEvents (by decide) (by decide)⟩

/-! ## The comparison of vectors -/

theorem scan_eq (a b : resVector) (pre : resVector) (hle : pre.length + b.length ≤ (pre ++ a).length) :
    VectorCompare.scan (pre ++ a) pre.length b =
      some ((List.zip a b).all (fun e => !(decide (e.2 > e.1)))) := by
  induction b generalizing a pre with
  | nil => simp [VectorCompare.scan]
  | cons v rest ih =>
    cases a with
    | nil => simp at hle
    | cons x a1 =>
      unfold VectorCompare.scan
      have hget : (pre ++ x :: a1)[pre.length]? = some x := by
        rw [List.getElem?_append_right (Nat.le_refl _)]; simp
      rw [hget]
      simp only
      by_cases hv : v > x
      · simp [hv]
      · rw [if_neg hv]
        have h1 := ih a1 (pre ++ [x]) (by simp at hle ⊢; omega)
        simp only [List.append_assoc, List.singleton_append, List.length_append,
          List.length_singleton] at h1
        rw [h1]
        simp [hv]

theorem VectorCompare_checked (a b : resVector) :
    VectorCompare.checked a b = some (VectorCompare a b) := by
  unfold VectorCompare.checked VectorCompare
  by_cases hlt : a.length < b.length
  · simp [hlt]
  · rw [if_neg hlt, if_neg hlt]
    have := scan_eq a b [] (by simp; omega)
    simpa using this

/-- C27: `VectorCompare`, with every read `a[i]` checked against the length of
`a`, returns without a fault; its result is true exactly when `a` is at least as
long as `b` and `a[i] >= b[i]` at every index `i` of `b`; two vectors `a` and
`a1` that agree on the indices of `b` give the same result, so the slots of `a`
beyond the length of `b` have no influence. -/
theorem VectorCompare_domination (a b : resVector) :
    VectorCompare.checked a b = some (VectorCompare a b) ∧
    (VectorCompare a b = true ↔
      b.length ≤ a.length ∧ ∀ i, i < b.length → vget b i ≤ vget a i) ∧
    (∀ a1 : resVector, b.length ≤ a.length → b.length ≤ a1.length →
      a1.take b.length = a.take b.length → VectorCompare a1 b = VectorCompare a b) := by
  refine ⟨VectorCompare_checked a b, VectorCompare_iff a b, ?_⟩
  intro a1 hle hle1 htake
  have hv : ∀ i, i < b.length → vget a1 i = vget a i := by
    intro i hi
    have h1 : (a1.take b.length)[i]? = a1[i]? := by rw [List.getElem?_take, if_pos hi]
    have h2 : (a.take b.length)[i]? = a[i]? := by rw [List.getElem?_take, if_pos hi]
    rw [htake, h2] at h1
    simp only [vget, List.getD_eq_getElem?_getD, h1]
  rw [Bool.eq_iff_iff, VectorCompare_iff, VectorCompare_iff]
  constructor
  · rintro ⟨_, h⟩
    exact ⟨hle, fun i hi => by rw [← hv i hi]; exact h i hi⟩
  · rintro ⟨_, h⟩
    exact ⟨hle1, fun i hi => by rw [hv i hi]; exact h i hi⟩

theorem VectorCompare_domination_witness :
    VectorCompare.checked [1000, 4000, 9, 0] [1000, 1000, 1] = some true ∧
    VectorCompare.checked [1000, 4000, 9, 0] [2000, 1000, 1] = some false ∧
    VectorCompare.checked [1000, 4000] [1000, 1000, 1] = some false ∧
    (VectorCompare.checked [1000, 4000, 9, 0] [1000, 1000, 1] =
        some (VectorCompare [1000, 4000, 9, 0] [1000, 1000, 1]) ∧
      (VectorCompare [1000, 4000, 9, 0] [1000, 1000, 1] = true ↔
        [1000, 1000, (1 : Int)].length ≤ [1000, 4000, 9, (0 : Int)].length ∧
          ∀ i, i < [1000, 1000, (1 : Int)].length →
            vget [1000, 1000, 1] i ≤ vget [1000, 4000, 9, 0] i) ∧
      (∀ a1 : resVector, [1000, 1000, (1 : Int)].length ≤ [1000, 4000, 9, (0 : Int)].length →
        [1000, 1000, (1 : Int)].length ≤ a1.length →
        a1.take [1000, 1000, (1 : Int)].length =
          [1000, 4000, 9, (0 : Int)].take [1000, 1000, (1 : Int)].length →
        VectorCompare a1 [1000, 1000, 1] = VectorCompare [1000, 4000, 9, 0] [1000, 1000, 1])) :=
  ⟨by decide, by decide, by decide, VectorCompare_domination [1000, 4000, 9, 0] [1000, 1000, 1]⟩

/-! ## The node-add and pod-add events -/

/-- C28: the node-add event leaves the whole ledger (registry, counters, node
map, reverse index) unchanged when bootstrap has not run or when a node of that
name is already cached; the cached node then keeps its ledger, whatever the
allocatable resources of the incoming node are. -/
theorem AddNode_ignored (gr : GloalReserve) (node : Node)
    (h : gr.NextResourceID = 0 ∨ mapHas gr.NodeCache node.Name = true) :
    gr.AddNode node = some gr ∧
      ∀ gr1, gr.AddNode node = some gr1 →
        gr1.ResTypeToID = gr.ResTypeToID ∧ gr1.NextResourceID = gr.NextResourceID ∧
        gr1.NodeCache = gr.NodeCache ∧ gr1.PodToNode = gr.PodToNode ∧
        mapGet gr1.NodeCache node.Name = mapGet gr.NodeCache node.Name := by
  have hres : gr.AddNode node = some gr := by
    unfold GloalReserve.AddNode
    by_cases h0 : gr.NextResourceID = 0
    · rw [if_pos h0]
    · rw [if_neg h0]
      rcases h with h | h
      · exact absurd h h0
      · rw [if_pos h]
  refine ⟨hres, fun gr1 h1 => ?_⟩
  rw [hres] at h1
  rw [← Option.some.inj h1]
  exact ⟨rfl, rfl, rfl, rfl, rfl⟩

theorem AddNode_ignored_witness :
    (testLedger.NextResourceID = 0 ∨ mapHas testLedger.NodeCache "node0" = true) ∧
    mapGet testLedger.NodeCache "node0" =
      some { Name := "node0", Capa := [2000, 5000, 10, 0, 0, 0], Pods := [] } ∧
    (testLedger.AddNode { Name := "node0", Allocatable := [(ResourceCPU, NewQuantity 64)] } =
        some testLedger ∧
      ∀ gr1,
        testLedger.AddNode { Name := "node0", Allocatable := [(ResourceCPU, NewQuantity 64)] } =
          some gr1 →
        gr1.ResTypeToID = testLedger.ResTypeToID ∧
        gr1.NextResourceID = testLedger.NextResourceID ∧
        gr1.NodeCache = testLedger.NodeCache ∧ gr1.PodToNode = testLedger.PodToNode ∧
        mapGet gr1.NodeCache "node0" = mapGet testLedger.NodeCache "node0") :=
  ⟨by decide, by decide,
    AddNode_ignored testLedger { Name := "node0", Allocatable := [(ResourceCPU, NewQuantity 64)] }
      (by decide)⟩

theorem mapSet_of_absent {V : Type} (m : GoMap V) (k : String) (v : V)
    (h : mapGet m k = none) : mapSet m k v = m ++ [(k, v)] := by
  unfold mapSet
  have : mapHas m k = false := (mapHas_eq_false_iff m k).mpr h
  rw [this]
  simp

theorem capa_mapSet (cache : GoMap NodeResInfo) (n : String) (nr nr1 : NodeResInfo)
    (h : mapGet cache n = some nr) (hc : nr1.Capa = nr.Capa) (m : String) :
    (mapGet (mapSet cache n nr1) m).map (fun nr => nr.Capa) =
      (mapGet cache m).map (fun nr => nr.Capa) := by
  by_cases hm : m = n
  · subst hm
    rw [mapGet_mapSet_self, h]
    simp [hc]
  · rw [mapGet_mapSet_ne _ _ _ _ hm]

theorem AddPodToCache_capa (nr nr1 : NodeResInfo) (pod : Pod) (resIDMap : GoMap Nat)
    (h : AddPodToCache nr pod resIDMap = some nr1) : nr1.Capa = nr.Capa := by
  unfold AddPodToCache at h
  cases hi : NewPodInfo pod resIDMap nr.Capa.length with
  | none => rw [hi] at h; simp at h
  | some info =>
    rw [hi] at h
    simp only [Option.some_bind, Option.map_eq_some'] at h
    obtain ⟨_, _, heq⟩ := h
    rw [← heq]

theorem UpdatePod_capa (nr nr1 : NodeResInfo) (pod : Pod)
    (h : UpdatePod nr pod = some nr1) : nr1.Capa = nr.Capa := by
  unfold UpdatePod at h
  simp only [Option.map_eq_some'] at h
  obtain ⟨_, _, heq⟩ := h
  rw [← heq]
  split <;> rfl

theorem DeletePod_capa (nr nr1 : NodeResInfo) (pod : Pod)
    (h : DeletePod nr pod = some nr1) : nr1.Capa = nr.Capa := by
  unfold DeletePod at h
  simp only [Option.map_eq_some'] at h
  obtain ⟨_, _, heq⟩ := h
  rw [← heq]
  split <;> rfl

theorem Reserve_capa (gr gr1 : GloalReserve) (pod : Pod) (nodeName : String) (ret : String)
    (h : Reserve gr pod nodeName = some (ret, gr1)) :
    ∃ gr0, lazyCollect gr = some gr0 ∧ ∀ m, capaOf gr1 m = capaOf gr0 m := by
  unfold Reserve at h
  cases hl : lazyCollect gr with
  | none => rw [hl] at h; simp at h
  | some gr0 =>
    refine ⟨gr0, rfl, ?_⟩
    rw [hl] at h
    simp only [Option.some_bind] at h
    cases hn : mapGet gr0.NodeCache nodeName with
    | none =>
      rw [hn] at h
      simp only [Option.some.injEq, Prod.mk.injEq] at h
      rw [← h.2]; intro m; rfl
    | some nodeInfo =>
      rw [hn] at h
      simp only at h
      cases hc : CheckPod nodeInfo pod gr0.ResTypeToID with
      | none => rw [hc] at h; simp at h
      | some b =>
        rw [hc] at h
        simp only [Option.some_bind] at h
        split at h
        · simp only [Option.map_eq_some'] at h
          obtain ⟨nr1, hadd, heq⟩ := h
          simp only [Prod.mk.injEq] at heq
          rw [← heq.2]
          intro m
          exact capa_mapSet _ _ _ _ hn (AddPodToCache_capa _ _ _ _ hadd) m
        · simp only [Option.some.injEq, Prod.mk.injEq] at h
          rw [← h.2]; intro m; rfl

theorem commit_capa (prs : List (Pod × String)) (gr gr1 : GloalReserve)
    (h : ReservePods.commit prs gr = some gr1) : ∀ m, capaOf gr1 m = capaOf gr m := by
  induction prs generalizing gr with
  | nil =>
    simp only [ReservePods.commit, Option.some.injEq] at h
    rw [← h]; intro m; rfl
  | cons e rest ih =>
    obtain ⟨p, nodeName⟩ := e
    unfold ReservePods.commit at h
    cases hn : mapGet gr.NodeCache nodeName with
    | none => rw [hn] at h; simp at h
    | some nodeInfo =>
      rw [hn] at h
      simp only at h
      cases hadd : AddPodToCache nodeInfo p gr.ResTypeToID with
      | none => rw [hadd] at h; simp at h
      | some nr =>
        rw [hadd] at h
        simp only [Option.some_bind] at h
        have h1 := ih _ h
        intro m
        rw [h1 m]
        exact capa_mapSet _ _ _ _ hn (AddPodToCache_capa _ _ _ _ hadd) m

theorem ReservePods_capa (gr gr1 : GloalReserve) (pods : List Pod)
    (nodeNames : List String) (res : PodReserveResult)
    (h : ReservePods gr pods nodeNames = some (res, gr1)) :
    ∃ gr0, lazyCollect gr = some gr0 ∧ ∀ m, capaOf gr1 m = capaOf gr0 m := by
  unfold ReservePods at h
  cases hl : lazyCollect gr with
  | none => rw [hl] at h; simp at h
  | some gr0 =>
    refine ⟨gr0, rfl, ?_⟩
    rw [hl] at h
    simp only [Option.some_bind] at h
    cases hp : ReservePods.pairs pods nodeNames with
    | none => rw [hp] at h; simp at h
    | some prs =>
      rw [hp] at h
      simp only [Option.some_bind] at h
      cases h1 : ReservePods.checkNodes gr0.NodeCache prs [] "" [] with
      | none => rw [h1] at h; simp at h
      | some r1 =>
        rw [h1] at h
        simp only [Option.some_bind] at h
        split at h
        · simp only [Option.some.injEq, Prod.mk.injEq] at h
          rw [← h.2]; intro m; rfl
        · cases h2 : ReservePods.checkPods gr0.ResTypeToID gr0.ResTypeMaxKind prs r1.1 r1.2.1
              r1.2.2 with
          | none => rw [h2] at h; simp at h
          | some r2 =>
            rw [h2] at h
            simp only [Option.some_bind] at h
            split at h
            · simp only [Option.some.injEq, Prod.mk.injEq] at h
              rw [← h.2]; intro m; rfl
            · simp only [Option.map_eq_some'] at h
              obtain ⟨gr2, hgr2, heq⟩ := h
              simp only [Prod.mk.injEq] at heq
              rw [← heq.2]
              exact commit_capa prs gr0 gr2 hgr2

theorem Unreserve_capa (gr gr1 : GloalReserve) (pod : Pod) (nodeName : String)
    (h : Unreserve gr pod nodeName = some gr1) : ∀ m, capaOf gr1 m = capaOf gr m := by
  unfold Unreserve at h
  simp only at h
  cases hn : mapGet gr.NodeCache nodeName with
  | none =>
    rw [hn] at h
    rw [← Option.some.inj h]; intro m; rfl
  | some nodeInfo =>
    rw [hn] at h
    simp only [Option.map_eq_some'] at h
    obtain ⟨nr1, hdel, heq⟩ := h
    rw [← heq]
    intro m
    exact capa_mapSet _ _ _ _ hn (DeletePod_capa _ _ _ hdel) m

theorem UnreservePods_capa (pods : List Pod) (nodeNames : List String)
    (gr gr1 : GloalReserve) (h : UnreservePods gr pods nodeNames = some gr1) :
    ∀ m, capaOf gr1 m = capaOf gr m := by
  induction pods generalizing gr nodeNames with
  | nil =>
    simp only [UnreservePods, Option.some.injEq] at h
    rw [← h]; intro m; rfl
  | cons pod rest ih =>
    cases nodeNames with
    | nil => simp [UnreservePods] at h
    | cons nodeName ns =>
      simp only [UnreservePods] at h
      cases hu : Unreserve gr pod nodeName with
      | none => rw [hu] at h; simp at h
      | some gr2 =>
        rw [hu] at h
        simp only [Option.some_bind] at h
        intro m
        rw [ih ns gr2 h m, Unreserve_capa gr gr2 pod nodeName hu m]

theorem AddNode_capa (gr gr1 : GloalReserve) (node : Node) (h : gr.AddNode node = some gr1)
    (m : String) (hm : mapHas gr.NodeCache m = true) : capaOf gr1 m = capaOf gr m := by
  unfold GloalReserve.AddNode at h
  split at h
  · rw [← Option.some.inj h]
  · split at h
    · rw [← Option.some.inj h]
    · rename_i _ hnot
      simp only [Option.map_eq_some'] at h
      obtain ⟨nr, _, heq⟩ := h
      rw [← heq]
      have hne : m ≠ node.Name := by
        intro he
        rw [he] at hm
        exact hnot hm
      unfold capaOf
      simp only
      rw [mapGet_mapSet_ne _ _ _ _ hne]

theorem AddPod_capa (gr gr1 : GloalReserve) (pod : Pod) (h : gr.AddPod pod = some gr1) :
    ∀ m, capaOf gr1 m = capaOf gr m := by
  unfold GloalReserve.AddPod at h
  split at h
  · rw [← Option.some.inj h]; intro m; rfl
  · split at h
    · cases hn : mapGet gr.NodeCache pod.NodeName with
      | none =>
        rw [hn] at h
        rw [← Option.some.inj h]; intro m; rfl
      | some nodeInfo =>
        rw [hn] at h
        simp only at h
        split at h
        · rw [← Option.some.inj h]; intro m; rfl
        · simp only [Option.map_eq_some'] at h
          obtain ⟨nr, hadd, heq⟩ := h
          rw [← heq]
          intro m
          exact capa_mapSet _ _ _ _ hn (AddPodToCache_capa _ _ _ _ hadd) m
    · rw [← Option.some.inj h]; intro m; rfl

theorem locate_capa (gr : GloalReserve) (newPod : Pod) (r : Bool × GloalReserve)
    (h : GloalReserve.UpdatePod.locate gr newPod = some r) :
    ∀ m, capaOf r.2 m = capaOf gr m := by
  unfold GloalReserve.UpdatePod.locate at h
  split at h
  · rw [← Option.some.inj h]; intro m; rfl
  · split at h
    · rename_i oldHostName _ _
      cases hn : mapGet gr.NodeCache oldHostName with
      | none => rw [hn] at h; simp at h
      | some oldNode =>
        rw [hn] at h
        simp only at h
        rw [← Option.some.inj h]
        intro m
        exact capa_mapSet _ _ oldNode { oldNode with Pods := mapDel oldNode.Pods newPod.UID }
          hn rfl m
    · rw [← Option.some.inj h]; intro m; rfl

theorem UpdatePod_event_capa (gr gr1 : GloalReserve) (oldPod : Option Pod) (newPod : Pod)
    (h : gr.UpdatePod oldPod newPod = some gr1) : ∀ m, capaOf gr1 m = capaOf gr m := by
  unfold GloalReserve.UpdatePod at h
  split at h
  · cases hl : GloalReserve.UpdatePod.locate gr newPod with
    | none => rw [hl] at h; simp at h
    | some r =>
      rw [hl] at h
      simp only [Option.some_bind] at h
      have hr := locate_capa gr newPod r hl
      cases hn : mapGet r.2.NodeCache newPod.NodeName with
      | none =>
        rw [hn] at h
        rw [← Option.some.inj h]
        exact hr
      | some nodeCache =>
        rw [hn] at h
        simp only at h
        split at h
        · simp only [Option.map_eq_some'] at h
          obtain ⟨nr, hadd, heq⟩ := h
          rw [← heq]
          intro m
          rw [← hr m]
          exact capa_mapSet _ _ _ _ hn (AddPodToCache_capa _ _ _ _ hadd) m
        · simp only [Option.map_eq_some'] at h
          obtain ⟨nr, hupd, heq⟩ := h
          rw [← heq]
          intro m
          rw [← hr m]
          exact capa_mapSet _ _ _ _ hn (UpdatePod_capa _ _ _ hupd) m
  · rw [← Option.some.inj h]; intro m; rfl

theorem DeletePod_event_capa (gr gr1 : GloalReserve) (pod : Pod)
    (h : gr.DeletePod pod = some gr1) : ∀ m, capaOf gr1 m = capaOf gr m := by
  unfold GloalReserve.DeletePod at h
  simp only at h
  split at h
  · cases hn : mapGet gr.NodeCache pod.NodeName with
    | none =>
      rw [hn] at h
      rw [← Option.some.inj h]; intro m; rfl
    | some nodecache =>
      rw [hn] at h
      simp only [Option.map_eq_some'] at h
      obtain ⟨nr, hdel, heq⟩ := h
      rw [← heq]
      intro m
      exact capa_mapSet _ _ _ _ hn (DeletePod_capa _ _ _ hdel) m
  · rw [← Option.some.inj h]; intro m; rfl

theorem DeleteNode_capa (gr : GloalReserve) (node : Node) (m : String)
    (hm : mapHas (gr.DeleteNode node).NodeCache m = true) :
    capaOf (gr.DeleteNode node) m = capaOf gr m := by
  unfold GloalReserve.DeleteNode at hm ⊢
  cases hn : mapGet gr.NodeCache node.Name with
  | none => rfl
  | some nodeInfo =>
    rw [hn] at hm
    simp only at hm ⊢
    have hne : m ≠ node.Name := by
      intro he
      rw [he] at hm
      unfold mapHas at hm
      rw [mapGet_mapDel_self] at hm
      simp at hm
    unfold capaOf
    simp only
    rw [mapGet_mapDel_ne _ _ _ hne]

/-- C24: on a bootstrapped ledger, whenever a node event, a pod event,
`Reserve`, `ReservePods` (whatever it returns), `Unreserve` or `UnreservePods`
completes, every node that is cached before and after the operation has the
capacity vector it had before; the node-update event returns the ledger it
was given, whatever the old and the new node object are. -/
theorem capacity_fixed (gr gr1 : GloalReserve) (ev : Event) (hb : Bootstrapped gr)
    (hev : ev ≠ Event.collect) (h : applyEvent gr ev = some gr1) :
    (∀ n nr nr1, mapGet gr.NodeCache n = some nr → mapGet gr1.NodeCache n = some nr1 →
      nr1.Capa = nr.Capa) ∧
    ∀ oldNode newNode, gr.UpdateNode oldNode newNode = gr := by
  refine ⟨?_, fun _ _ => rfl⟩
  intro n nr nr1 h0 h1
  have hkey : capaOf gr1 n = capaOf gr n → nr1.Capa = nr.Capa := by
    intro hc
    unfold capaOf at hc
    rw [h0, h1] at hc
    exact Option.some.inj hc
  have hhas0 : mapHas gr.NodeCache n = true := by unfold mapHas; rw [h0]; rfl
  have hhas1 : mapHas gr1.NodeCache n = true := by unfold mapHas; rw [h1]; rfl
  apply hkey
  cases ev with
  | collect => exact absurd rfl hev
  | addNode node => exact AddNode_capa gr gr1 node h n hhas0
  | updateNode oldNode newNode =>
    simp only [applyEvent, GloalReserve.UpdateNode, Option.some.injEq] at h
    rw [← h]
  | deleteNode node =>
    simp only [applyEvent, Option.some.injEq] at h
    rw [← h] at hhas1 ⊢
    exact DeleteNode_capa gr node n hhas1
  | addPod pod => exact AddPod_capa gr gr1 pod h n
  | updatePod oldPod newPod => exact UpdatePod_event_capa gr gr1 oldPod newPod h n
  | deletePod pod => exact DeletePod_event_capa gr gr1 pod h n
  | reserve pod nodeName =>
    simp only [applyEvent, Option.map_eq_some'] at h
    obtain ⟨r, hr, heq⟩ := h
    obtain ⟨ret, gr2⟩ := r
    simp only at heq
    subst heq
    obtain ⟨gr0, hl, he⟩ := Reserve_capa gr gr2 pod nodeName ret hr
    rw [lazyCollect_of_bootstrapped gr hb.1] at hl
    rw [he n, ← Option.some.inj hl]
  | reservePods pods nodeNames =>
    simp only [applyEvent, Option.map_eq_some'] at h
    obtain ⟨r, hr, heq⟩ := h
    obtain ⟨res, gr2⟩ := r
    simp only at heq
    subst heq
    obtain ⟨gr0, hl, he⟩ := ReservePods_capa gr gr2 pods nodeNames res hr
    rw [lazyCollect_of_bootstrapped gr hb.1] at hl
    rw [he n, ← Option.some.inj hl]
  | unreserve pod nodeName => exact Unreserve_capa gr gr1 pod nodeName h n
  | unreservePods pods nodeNames => exact UnreservePods_capa pods nodeNames gr gr1 h n

theorem capacity_fixed_witness :
    (Bootstrapped testLedger ∧
      applyEvent testLedger (Event.reserve testPod0 "node0") = some testLedgerPod0) ∧
    capaOf testLedgerPod0 "node0" = some [2000, 5000, 10, 0, 0, 0] ∧
    ((∀ n nr nr1, mapGet testLedger.NodeCache n = some nr →
        mapGet testLedgerPod0.NodeCache n = some nr1 → nr1.Capa = nr.Capa) ∧
      ∀ oldNode newNode, testLedger.UpdateNode oldNode newNode = testLedger) :=
  ⟨⟨by decide, by decide⟩, by decide,
    capacity_fixed testLedger testLedgerPod0 (Event.reserve testPod0 "node0") (by decide)
      (fun h => Event.noConfusion h) (by decide)⟩

/-! ## The batch of size one submitted by the remote client -/

/-- When both calls encode the pod by the walk of `podRequests`: on a
bootstrapped ledger `Reserve(pod, nodeName)` and the batch of size one
`ReservePods([pod], [nodeName])`, which is what the remote client submits, both
return and leave the ledger in the same final state; the batch returns an empty
`Error` exactly when `Reserve` returns the empty string, and then no failed
pod, otherwise the pod's name as the only failed pod. -/
theorem ReservePods_single_eq_Reserve (gr : GloalReserve) (pod : Pod) (nodeName : String)
    (hb : Bootstrapped gr) :
    ∃ ret res gr1, Reserve gr pod nodeName = some (ret, gr1) ∧
      ReservePods gr [pod] [nodeName] = some (res, gr1) ∧
      (res.Error = "" ↔ ret = "") ∧
      (ret = "" → res.FailedPods = []) ∧ (ret ≠ "" → res.FailedPods = [pod.Name]) := by
  have hl := lazyCollect_of_bootstrapped gr hb.1
  have hpairs : ReservePods.pairs [pod] [nodeName] = some [(pod, nodeName)] := by
    simp [ReservePods.pairs]
  have e0 : ¬ ("".length > 0) := by decide
  have e1 : "Node does not exist".length > 0 := by decide
  have e2 : "Node does not have enough resource".length > 0 := by decide
  rcases Reserve_cases gr pod nodeName hb with ⟨hn, hres⟩ | ⟨nr, a, req, hn, hnwf, ha, halen, hreq,
      hreqlen, _, _, hcase⟩
  · refine ⟨_, { FailedPods := [pod.Name], Error := "Node does not exist" }, gr, hres, ?_,
      ?_, ?_, fun _ => rfl⟩
    · unfold ReservePods
      rw [hl]
      simp only [Option.some_bind, hpairs, ReservePods.checkNodes, hn, List.nil_append]
      rw [if_pos e1]
    · constructor
      · intro h
        have h1 : "Node does not exist" = "" := h
        exact absurd h1 (by decide)
      · intro h
        have h1 : "NodeName does not exist" = "" := h
        exact absurd h1 (by decide)
    · intro h
      have h1 : "NodeName does not exist" = "" := h
      exact absurd h1 (by decide)
  · have hcn : ReservePods.checkNodes gr.NodeCache [(pod, nodeName)] [] "" [] =
        some ([], "", [(nodeName, a)]) := by
      simp [ReservePods.checkNodes, hn, mapHas, mapGet, ha, mapSet]
    have hget : mapGet ([(nodeName, a)] : GoMap resVector) nodeName = some a := by
      simp [mapGet]
    rcases hcase with ⟨hcmp, hres⟩ | ⟨hcmp, hres⟩
    · refine ⟨_, { FailedPods := [pod.Name], Error := "Node does not have enough resource" },
        gr, hres, ?_, ?_, ?_, fun _ => rfl⟩
      · unfold ReservePods
        rw [hl]
        simp only [Option.some_bind, hpairs, hcn]
        rw [if_neg e0]
        simp only [ReservePods.checkPods, hreq, Option.some_bind, hget, Option.getD_some, hcmp,
          Bool.false_eq_true, if_false, List.nil_append]
        rw [if_pos e2]
      · constructor
        · intro h
          have h1 : "Node does not have enough resource" = "" := h
          exact absurd h1 (by decide)
        · intro h
          have h1 : "Resource is not enough." = "" := h
          exact absurd h1 (by decide)
      · intro h
        have h1 : "Resource is not enough." = "" := h
        exact absurd h1 (by decide)
    · refine ⟨_, { FailedPods := [], Error := "" }, _, hres, ?_, ⟨fun _ => rfl, fun _ => rfl⟩,
        fun _ => rfl, fun h => absurd rfl h⟩
      obtain ⟨a1, ha1, _, _⟩ := VectorMinus_ok a req (by omega)
      obtain ⟨req1, hreq1, _, _, hadd, _⟩ :=
        AddPodToCache_ok gr.ResTypeMaxKind hb.2.1 gr.ResTypeToID hb.2.2.1 nr hnwf pod
      rw [hreq] at hreq1
      have hreq2 : req1 = req := (Option.some.inj hreq1).symm
      subst hreq2
      unfold ReservePods
      rw [hl]
      simp only [Option.some_bind, hpairs, hcn]
      rw [if_neg e0]
      simp only [ReservePods.checkPods, hreq, Option.some_bind, hget, Option.getD_some, hcmp,
        if_true, ha1]
      rw [if_neg e0]
      simp only [ReservePods.commit, hn, hadd, Option.some_bind, Option.map_some']

theorem ReservePods_single_eq_Reserve_witness :
    Bootstrapped testLedger ∧
    Reserve testLedger testPod0 "node0" = some ("", testLedgerPod0) ∧
    ReservePods testLedger [testPod0] ["node0"] =
      some ({ FailedPods := [], Error := "" }, testLedgerPod0) ∧
    Reserve testLedgerPod0 testPodBig "node0" = some ("Resource is not enough.", testLedgerPod0) ∧
    ReservePods testLedgerPod0 [testPodBig] ["node0"] =
      some ({ FailedPods := ["pod1"], Error := "Node does not have enough resource" },
        testLedgerPod0) ∧
    ∃ ret res gr1, Reserve testLedger testPod0 "node0" = some (ret, gr1) ∧
      ReservePods testLedger [testPod0] ["node0"] = some (res, gr1) ∧
      (res.Error = "" ↔ ret = "") ∧
      (ret = "" → res.FailedPods = []) ∧ (ret ≠ "" → res.FailedPods = [testPod0.Name]) :=
  ⟨by decide, by decide, by decide, by decide, by decide,
    ReservePods_single_eq_Reserve testLedger testPod0 "node0" (by decide)⟩

/-! ## Bootstrap: the registry and the node ledgers -/

theorem mapHas_iff_mem_keys {V : Type} (m : GoMap V) (k : String) :
    mapHas m k = true ↔ k ∈ m.map Prod.fst := by
  induction m with
  | nil => simp [mapHas, mapGet]
  | cons e rest ih =>
    obtain ⟨k1, v1⟩ := e
    by_cases hk : k1 = k
    · simp [mapHas, mapGet, hk]
    · have : mapHas ((k1, v1) :: rest) k = mapHas rest k := by
        simp [mapHas, mapGet, hk]
      rw [this, ih]
      simp only [List.map_cons, List.mem_cons]
      constructor
      · intro h; exact Or.inr h
      · rintro (h | h)
        · exact absurd h.symm hk
        · exact h

theorem RegistryDense_inj (reg : GoMap Nat) (next : Nat) (h : RegistryDense reg next)
    (a b : ResourceName) (i : Nat) (ha : mapGet reg a = some i) (hb : mapGet reg b = some i) :
    a = b ∧ i < next := by
  have hma := mapGet_mem _ _ _ ha
  have hmb := mapGet_mem _ _ _ hb
  have hnd : (reg.map Prod.snd).Nodup := by rw [h.2]; exact List.nodup_range next
  have heq := List.inj_on_of_nodup_map hnd hma hmb rfl
  have hi : i ∈ reg.map Prod.snd := List.mem_map.mpr ⟨(a, i), hma, rfl⟩
  rw [h.2] at hi
  exact ⟨(Prod.mk.inj heq).1, List.mem_range.mp hi⟩

theorem RegistryDense_lt (reg : GoMap Nat) (next : Nat) (h : RegistryDense reg next) :
    ∀ e ∈ reg, e.2 < next := by
  intro e he
  have hi : e.2 ∈ reg.map Prod.snd := List.mem_map.mpr ⟨e, he, rfl⟩
  rw [h.2] at hi
  exact List.mem_range.mp hi

theorem RegistryDense_length (reg : GoMap Nat) (next : Nat) (h : RegistryDense reg next) :
    reg.length = next := by
  have := congrArg List.length h.2
  simpa using this

theorem RegistryDense_add (reg : GoMap Nat) (next : Nat) (h : RegistryDense reg next)
    (name : ResourceName) (hn : mapHas reg name = false) :
    RegistryDense (mapSet reg name next) (next + 1) := by
  have hg : mapGet reg name = none := (mapHas_eq_false_iff _ _).mp hn
  rw [mapSet_of_absent _ _ _ hg]
  constructor
  · rw [List.map_append, List.nodup_append]
    refine ⟨h.1, by simp, ?_⟩
    intro k hk1 hk2
    simp only [List.map_cons, List.map_nil, List.mem_singleton] at hk2
    subst hk2
    have := (mapHas_iff_mem_keys reg k).mpr hk1
    rw [hn] at this
    exact absurd this (by simp)
  · rw [List.map_append, h.2, List.range_succ]
    simp

theorem collect_registerTypes_dense (rl : ResourceList) (st : GoMap Nat × Nat)
    (h : RegistryDense st.1 st.2) :
    RegistryDense (CollectFromLister.registerTypes rl st).1
        (CollectFromLister.registerTypes rl st).2 ∧
      ∀ name, mapHas (CollectFromLister.registerTypes rl st).1 name = true ↔
        (mapHas st.1 name = true ∨ name ∈ rl.map Prod.fst) := by
  induction rl generalizing st with
  | nil => exact ⟨h, fun name => by simp [CollectFromLister.registerTypes]⟩
  | cons e rest ih =>
    obtain ⟨resName, q⟩ := e
    unfold CollectFromLister.registerTypes
    cases hh : mapHas st.1 resName
    · simp only [Bool.false_eq_true, if_false]
      obtain ⟨h1, h2⟩ := ih (mapSet st.1 resName st.2, st.2 + 1)
        (RegistryDense_add _ _ h _ hh)
      refine ⟨h1, fun name => ?_⟩
      rw [h2 name]
      simp only [mapHas_mapSet, Bool.or_eq_true, decide_eq_true_eq, List.map_cons,
        List.mem_cons]
      tauto
    · simp only [if_true]
      obtain ⟨h1, h2⟩ := ih st h
      refine ⟨h1, fun name => ?_⟩
      rw [h2 name]
      simp only [List.map_cons, List.mem_cons]
      constructor
      · rintro (h3 | h3)
        · exact Or.inl h3
        · exact Or.inr (Or.inr h3)
      · rintro (h3 | h3 | h3)
        · exact Or.inl h3
        · subst h3; exact Or.inl hh
        · exact Or.inr h3

theorem collectTypes_dense (nodes : List Node) (st : GoMap Nat × Nat)
    (h : RegistryDense st.1 st.2) :
    RegistryDense (CollectFromLister.collectTypes nodes st).1
        (CollectFromLister.collectTypes nodes st).2 ∧
      ∀ name, mapHas (CollectFromLister.collectTypes nodes st).1 name = true ↔
        (mapHas st.1 name = true ∨
          name ∈ nodes.flatMap (fun node => node.Allocatable.map Prod.fst)) := by
  induction nodes generalizing st with
  | nil => exact ⟨h, fun name => by simp [CollectFromLister.collectTypes]⟩
  | cons node rest ih =>
    unfold CollectFromLister.collectTypes
    obtain ⟨h1, h2⟩ := collect_registerTypes_dense node.Allocatable st h
    obtain ⟨h3, h4⟩ := ih _ h1
    refine ⟨h3, fun name => ?_⟩
    rw [h4 name, h2 name]
    simp only [List.flatMap_cons, List.mem_append]
    tauto

theorem getElem?_of_vget (v : resVector) (i : Nat) (x : Int) (hi : i < v.length)
    (h : vget v i = x) : v[i]? = some x := by
  unfold vget at h
  rw [List.getD_eq_getElem?_getD] at h
  rw [List.getElem?_eq_getElem hi] at h ⊢
  simpa using h

/-- The loop that fills a vector from a resource list writes every quantity to
the slot of its name and leaves the other slots as they were, when the names of
the list are distinct, registered inside the vector and no two of them share a
slot. -/
theorem writeResources_spec (resIDMap : GoMap Nat)
    (hinj : ∀ a b i, mapGet resIDMap a = some i → mapGet resIDMap b = some i → a = b)
    (rl : ResourceList) (vec : resVector) (hnd : (rl.map Prod.fst).Nodup)
    (hreg : ∀ e ∈ rl, ∃ i, mapGet resIDMap e.1 = some i ∧ i < vec.length) :
    ∃ r, writeResources resIDMap rl vec = some r ∧ r.length = vec.length ∧
      (∀ e ∈ rl, ∀ i, mapGet resIDMap e.1 = some i → vget r i = QuantityToInt e.1 e.2) ∧
      (∀ i, (∀ e ∈ rl, mapGet resIDMap e.1 ≠ some i) → vget r i = vget vec i) := by
  induction rl generalizing vec with
  | nil => exact ⟨vec, rfl, rfl, fun e he => by simp at he, fun i _ => rfl⟩
  | cons e rest ih =>
    obtain ⟨resName, resValue⟩ := e
    simp only [List.map_cons, List.nodup_cons] at hnd
    obtain ⟨i0, hi0, hlt⟩ := hreg (resName, resValue) (by simp)
    have hidx : regIndex resIDMap resName = i0 := by simp [regIndex, hi0]
    have hlen1 : (vec.set i0 (QuantityToInt resName resValue)).length = vec.length := by simp
    obtain ⟨r, hr, hrlen, hhit, hmiss⟩ := ih (vec.set i0 (QuantityToInt resName resValue)) hnd.2
      (fun e he => by
        obtain ⟨i, h1, h2⟩ := hreg e (List.mem_cons_of_mem _ he)
        exact ⟨i, h1, by rw [hlen1]; exact h2⟩)
    refine ⟨r, ?_, by rw [hrlen, hlen1], ?_, ?_⟩
    · simp only [writeResources, hidx, vecSet_ok _ _ _ hlt, Option.some_bind]
      exact hr
    · intro e he i hi
      rcases List.mem_cons.mp he with heq | hmem
      · subst heq
        simp only at hi ⊢
        rw [hi0] at hi
        have hii : i0 = i := Option.some.inj hi
        subst hii
        have hno : ∀ e ∈ rest, mapGet resIDMap e.1 ≠ some i0 := by
          intro e1 he1 h1
          have := hinj e1.1 resName i0 h1 hi0
          exact hnd.1 (this ▸ List.mem_map.mpr ⟨e1, he1, rfl⟩)
        rw [hmiss i0 hno, vget_set _ _ _ _ hlt, if_pos rfl]
      · exact hhit e hmem i hi
    · intro i hi
      have hne : i ≠ i0 := by
        intro he
        subst he
        exact hi (resName, resValue) (by simp) hi0
      rw [hmiss i (fun e he => hi e (List.mem_cons_of_mem _ he)),
        vget_set _ _ _ _ hlt, if_neg hne]

theorem keys_mapSet_of_has {V : Type} (m : GoMap V) (k : String) (v : V)
    (h : mapHas m k = true) : (mapSet m k v).map Prod.fst = m.map Prod.fst := by
  unfold mapSet
  rw [h]
  simp only [if_true]
  exact keys_map_replace m k v

theorem collectNodes_spec (resIDMap : GoMap Nat) (n : Nat) (hpos : 0 < n)
    (hreg : ∀ e ∈ resIDMap, e.2 < n) (nodes : List Node) (cache : GoMap NodeResInfo)
    (hnd : (cache.map Prod.fst).Nodup) :
    ∃ cache1, CollectFromLister.collectNodes resIDMap n nodes cache = some cache1 ∧
      (cache1.map Prod.fst).Nodup ∧
      (∀ name, mapHas cache1 name = true ↔
        (mapHas cache name = true ∨ ∃ node ∈ nodes, node.Name = name)) ∧
      (∀ pre node post, nodes = pre ++ node :: post → (∀ x ∈ post, x.Name ≠ node.Name) →
        mapGet cache1 node.Name = NewNodeResInfo node resIDMap n) ∧
      (∀ name, (∀ node ∈ nodes, node.Name ≠ name) → mapGet cache1 name = mapGet cache name) := by
  induction nodes generalizing cache with
  | nil =>
    refine ⟨cache, rfl, hnd, fun name => by simp, ?_, fun _ _ => rfl⟩
    intro pre node post h
    simp at h
  | cons x rest ih =>
    obtain ⟨nr, hnr, _, _⟩ := NewNodeResInfo_ok x resIDMap n hpos hreg
    obtain ⟨cache1, h1, h2, h3, h4, h5⟩ := ih (mapSet cache x.Name nr)
      (keys_mapSet_nodup _ _ _ hnd)
    refine ⟨cache1, by simp [CollectFromLister.collectNodes, hnr, h1], h2, ?_, ?_, ?_⟩
    · intro name
      rw [h3 name, mapHas_mapSet]
      simp only [Bool.or_eq_true, decide_eq_true_eq, List.mem_cons, exists_eq_or_imp]
      constructor
      · rintro ((h | h) | h)
        · exact Or.inr (Or.inl h.symm)
        · exact Or.inl h
        · exact Or.inr (Or.inr h)
      · rintro (h | h | h)
        · exact Or.inl (Or.inr h)
        · exact Or.inl (Or.inl h.symm)
        · exact Or.inr h
    · intro pre node post hsplit hlast
      cases pre with
      | nil =>
        simp only [List.nil_append, List.cons.injEq] at hsplit
        obtain ⟨hx, hr⟩ := hsplit
        subst hx
        subst hr
        rw [h5 x.Name (fun nd hndm => hlast nd hndm), mapGet_mapSet_self, hnr]
      | cons y pre1 =>
        simp only [List.cons_append, List.cons.injEq] at hsplit
        exact h4 pre1 node post hsplit.2 hlast
    · intro name hname
      rw [h5 name (fun nd hndm => hname nd (List.mem_cons_of_mem _ hndm))]
      exact mapGet_mapSet_ne _ _ _ _ (hname x (by simp)).symm

theorem collectPods_frame (pods : List Pod) (gr : GloalReserve) (hwf : WellFormed gr) :
    ∃ gr1, CollectFromLister.collectPods pods gr = some gr1 ∧ WellFormed gr1 ∧
      gr1.ResTypeToID = gr.ResTypeToID ∧ gr1.NextResourceID = gr.NextResourceID ∧
      gr1.ResTypeMaxKind = gr.ResTypeMaxKind ∧ gr1.NodeLister = gr.NodeLister ∧
      gr1.PodLister = gr.PodLister ∧
      gr1.NodeCache.map Prod.fst = gr.NodeCache.map Prod.fst ∧
      ∀ m, capaOf gr1 m = capaOf gr m := by
  induction pods generalizing gr with
  | nil => exact ⟨gr, rfl, hwf, rfl, rfl, rfl, rfl, rfl, rfl, fun _ => rfl⟩
  | cons pod rest ih =>
    by_cases hlen : pod.NodeName.length > 0
    · cases hn : mapGet gr.NodeCache pod.NodeName with
      | none =>
        obtain ⟨gr1, h1, h2⟩ := ih gr hwf
        exact ⟨gr1, by simp [CollectFromLister.collectPods, hlen, hn, h1], h2⟩
      | some nr =>
        have hnwf := WellFormed_node gr hwf _ nr hn
        obtain ⟨req, _, hrlen, _, hadd, hnwf1⟩ :=
          AddPodToCache_ok gr.ResTypeMaxKind hwf.1 gr.ResTypeToID hwf.2.1 nr hnwf pod
        have hwf1 := WellFormed_update gr hwf pod.NodeName _ hnwf1
          (mapSet gr.PodToNode pod.UID pod.NodeName) (keys_mapSet_nodup _ _ _ hwf.2.2.2.1)
        obtain ⟨gr1, h1, h2, h3, h4, h5, h6, h7, h8, h9⟩ := ih _ hwf1
        refine ⟨gr1, ?_, h2, h3, h4, h5, h6, h7, ?_, ?_⟩
        · rw [← h1]
          simp [CollectFromLister.collectPods, hlen, hn, hadd]
        · rw [h8]
          exact keys_mapSet_of_has _ _ _ (by unfold mapHas; rw [hn]; rfl)
        · intro m
          rw [h9 m]
          exact capa_mapSet _ _ nr
            { nr with Pods := mapSet nr.Pods pod.UID (NewPodInfo.result pod req) } hn rfl m
    · obtain ⟨gr1, h1, h2⟩ := ih gr hwf
      exact ⟨gr1, by simp [CollectFromLister.collectPods, hlen, h1], h2⟩

/-- C21: for a snapshot in which the allocatable names of each node are
distinct (they are the keys of a map), bootstrap of the empty ledger returns a
ledger whose registry maps the distinct allocatable names of the listed nodes
one-to-one onto `0 .. NextResourceID-1`, with `NextResourceID` the number of
those names and `ResTypeMaxKind = NextResourceID + 3`, and whose node map has
one ledger per listed node name and no other; the ledger of a listed node (the
last one listed under its name) has a capacity vector of length
`ResTypeMaxKind` that holds each allocatable quantity, through `QuantityToInt`,
at the slot of its name and 0 in every other slot. -/
theorem bootstrap_registry_and_nodes (nodes : List Node) (pods : List Pod)
    (hmaps : ∀ node ∈ nodes, (node.Allocatable.map Prod.fst).Nodup) :
    ∃ gr, InitGR nodes pods true = some gr ∧
      RegistryDense gr.ResTypeToID gr.NextResourceID ∧
      (∀ name, mapHas gr.ResTypeToID name = true ↔ name ∈ allocatableNames nodes) ∧
      gr.NextResourceID = (allocatableNames nodes).length ∧
      gr.ResTypeMaxKind = gr.NextResourceID + 3 ∧
      (gr.NodeCache.map Prod.fst).Nodup ∧
      (∀ name, mapHas gr.NodeCache name = true ↔ ∃ node ∈ nodes, node.Name = name) ∧
      (∀ pre node post, nodes = pre ++ node :: post → (∀ x ∈ post, x.Name ≠ node.Name) →
        ∃ nr, mapGet gr.NodeCache node.Name = some nr ∧
          nr.Capa.length = gr.ResTypeMaxKind ∧
          (∀ e ∈ node.Allocatable, ∃ i, mapGet gr.ResTypeToID e.1 = some i ∧
            nr.Capa[i]? = some (QuantityToInt e.1 e.2)) ∧
          (∀ i, i < gr.ResTypeMaxKind →
            (∀ e ∈ node.Allocatable, mapGet gr.ResTypeToID e.1 ≠ some i) →
            nr.Capa[i]? = some 0)) := by
  have hd0 : RegistryDense (([] : GoMap Nat), 0).1 (([] : GoMap Nat), 0).2 := by
    constructor <;> simp
  obtain ⟨hdense, hmem⟩ := collectTypes_dense nodes ([], 0) hd0
  have hlt := RegistryDense_lt _ _ hdense
  have hreg1 : ∀ e ∈ (CollectFromLister.collectTypes nodes ([], 0)).1,
      e.2 < (CollectFromLister.collectTypes nodes ([], 0)).2 + ResourceTypeBuffer := by
    intro e he
    have := hlt e he
    omega
  have hpos : 0 < (CollectFromLister.collectTypes nodes ([], 0)).2 + ResourceTypeBuffer := by
    unfold ResourceTypeBuffer; omega
  obtain ⟨cache, hcache, hcnd, hchas, hclast, _⟩ := collectNodes_spec
    (CollectFromLister.collectTypes nodes ([], 0)).1
    ((CollectFromLister.collectTypes nodes ([], 0)).2 + ResourceTypeBuffer)
    hpos hreg1 nodes [] (by simp)
  obtain ⟨cache1, hc1, _, hcwf⟩ := collectNodes_ok
    (CollectFromLister.collectTypes nodes ([], 0)).1
    ((CollectFromLister.collectTypes nodes ([], 0)).2 + ResourceTypeBuffer)
    hpos hreg1 nodes [] (by simp) (fun e he => by simp at he)
  rw [hcache] at hc1
  have hc2 : cache = cache1 := Option.some.inj hc1
  subst hc2
  have hwf1 : WellFormed
      { ResTypeToID := (CollectFromLister.collectTypes nodes ([], 0)).1
        ResTypeMaxKind := (CollectFromLister.collectTypes nodes ([], 0)).2 + ResourceTypeBuffer
        NextResourceID := (CollectFromLister.collectTypes nodes ([], 0)).2
        NodeCache := cache
        PodToNode := []
        NodeLister := some nodes
        PodLister := some pods } :=
    ⟨hpos, hreg1, hcnd, by simp, fun e he => (hcwf e he).1⟩
  obtain ⟨gr, hgr, _, hfreg, hfnext, hfmax, _, _, hfkeys, hfcapa⟩ := collectPods_frame pods _ hwf1
  simp only at hfreg hfnext hfmax hfkeys
  have hall : ∀ name, mapHas (CollectFromLister.collectTypes nodes ([], 0)).1 name = true ↔
      name ∈ allocatableNames nodes := by
    intro name
    rw [hmem name]
    unfold allocatableNames
    rw [List.mem_dedup]
    simp [mapHas, mapGet]
  refine ⟨gr, by simp [InitGR, CollectFromLister, hcache, hgr], ?_, ?_, ?_, ?_, ?_, ?_, ?_⟩
  · rw [hfreg, hfnext]; exact hdense
  · rw [hfreg]; exact hall
  · rw [hfnext, ← RegistryDense_length _ _ hdense]
    have hperm : ((CollectFromLister.collectTypes nodes ([], 0)).1.map Prod.fst).Perm
        (allocatableNames nodes) := by
      refine (List.perm_ext_iff_of_nodup hdense.1
        (by unfold allocatableNames; exact List.nodup_dedup _)).mpr (fun name => ?_)
      rw [← mapHas_iff_mem_keys]
      exact hall name
    rw [← hperm.length_eq, List.length_map]
  · rw [hfmax, hfnext]; rfl
  · rw [hfkeys]; exact hcnd
  · intro name
    rw [mapHas_iff_mem_keys, hfkeys, ← mapHas_iff_mem_keys, hchas name]
    simp [mapHas, mapGet]
  · intro pre node post hsplit hlast
    have hnode : node ∈ nodes := by rw [hsplit]; simp
    have hfresh := hclast pre node post hsplit hlast
    have hregd : ∀ e ∈ node.Allocatable,
        ∃ i, mapGet (CollectFromLister.collectTypes nodes ([], 0)).1 e.1 = some i ∧
          i < (List.replicate ((CollectFromLister.collectTypes nodes ([], 0)).2 +
            ResourceTypeBuffer) (0 : Int)).length := by
      intro e he
      have hin : mapHas (CollectFromLister.collectTypes nodes ([], 0)).1 e.1 = true := by
        rw [hmem e.1]
        refine Or.inr (List.mem_flatMap.mpr ⟨node, hnode, List.mem_map.mpr ⟨e, he, rfl⟩⟩)
      obtain ⟨i, hi⟩ := (mapHas_eq_true_iff _ _).mp hin
      refine ⟨i, hi, ?_⟩
      have := hlt (e.1, i) (mapGet_mem _ _ _ hi)
      simp only [List.length_replicate]
      simp only at this
      omega
    obtain ⟨r, hr, hrlen, hhit, hmiss⟩ := writeResources_spec
      (CollectFromLister.collectTypes nodes ([], 0)).1
      (fun a b i ha hb => (RegistryDense_inj _ _ hdense a b i ha hb).1)
      node.Allocatable
      (List.replicate ((CollectFromLister.collectTypes nodes ([], 0)).2 + ResourceTypeBuffer) 0)
      (hmaps node hnode) hregd
    simp only [List.length_replicate] at hrlen
    have hcapa := hfcapa node.Name
    unfold capaOf at hcapa
    simp only at hcapa
    rw [hfresh] at hcapa
    unfold NewNodeResInfo at hcapa
    rw [hr] at hcapa
    simp only [Option.map_some'] at hcapa
    cases hg : mapGet gr.NodeCache node.Name with
    | none => rw [hg] at hcapa; simp at hcapa
    | some nr =>
      rw [hg] at hcapa
      simp only [Option.map_some', Option.some.injEq] at hcapa
      refine ⟨nr, rfl, by rw [hcapa, hrlen, hfmax], ?_, ?_⟩
      · intro e he
        obtain ⟨i, hi, hilt⟩ := hregd e he
        simp only [List.length_replicate] at hilt
        refine ⟨i, by rw [hfreg]; exact hi, ?_⟩
        rw [hcapa]
        exact getElem?_of_vget r i _ (by rw [hrlen]; exact hilt) (hhit e he i hi)
      · intro i hi hno
        rw [hcapa]
        rw [hfmax] at hi
        refine getElem?_of_vget r i _ (by rw [hrlen]; exact hi) ?_
        rw [hmiss i (fun e he => by rw [← hfreg]; exact hno e he), vget_replicate]

theorem bootstrap_registry_and_nodes_witness :
    (∀ node ∈ [GetNode0, GetNode1], (node.Allocatable.map Prod.fst).Nodup) ∧
    (InitGR [GetNode0, GetNode1] [] true).map
        (fun gr => (gr.ResTypeToID, gr.NextResourceID, gr.ResTypeMaxKind)) =
      some ([(ResourceCPU, 0), (ResourceMemory, 1), (ResourcePods, 2), ("ExtendedResType0", 3)],
        4, 7) ∧
    (InitGR [GetNode0, GetNode1] [] true).map
        (fun gr => gr.NodeCache.map (fun e => (e.1, e.2.Capa))) =
      some [("node0", [2000, 5000, 10, 0, 0, 0, 0]), ("node1", [2000, 5000, 10, 10, 0, 0, 0])] ∧
    ∃ gr, InitGR [GetNode0, GetNode1] [] true = some gr ∧
      RegistryDense gr.ResTypeToID gr.NextResourceID ∧
      (∀ name, mapHas gr.ResTypeToID name = true ↔
        name ∈ allocatableNames [GetNode0, GetNode1]) ∧
      gr.NextResourceID = (allocatableNames [GetNode0, GetNode1]).length ∧
      gr.ResTypeMaxKind = gr.NextResourceID + 3 ∧
      (gr.NodeCache.map Prod.fst).Nodup ∧
      (∀ name, mapHas gr.NodeCache name = true ↔
        ∃ node ∈ [GetNode0, GetNode1], node.Name = name) ∧
      (∀ pre node post, [GetNode0, GetNode1] = pre ++ node :: post →
        (∀ x ∈ post, x.Name ≠ node.Name) →
        ∃ nr, mapGet gr.NodeCache node.Name = some nr ∧
          nr.Capa.length = gr.ResTypeMaxKind ∧
          (∀ e ∈ node.Allocatable, ∃ i, mapGet gr.ResTypeToID e.1 = some i ∧
            nr.Capa[i]? = some (QuantityToInt e.1 e.2)) ∧
          (∀ i, i < gr.ResTypeMaxKind →
            (∀ e ∈ node.Allocatable, mapGet gr.ResTypeToID e.1 ≠ some i) →
            nr.Capa[i]? = some 0)) :=
  ⟨by decide, by decide, by decide,
    bootstrap_registry_and_nodes [GetNode0, GetNode1] [] (by decide)⟩

/-! ## Bootstrap: the pods -/

/-- One step of the pod loop of bootstrap on a well-formed ledger: a pod with an
assigned, cached node is added as by `reserved`. -/
theorem collectPods_cons (gr : GloalReserve) (hwf : WellFormed gr) (pod : Pod)
    (rest : List Pod) :
    (pod.NodeName.length > 0 ∧
      ∃ nr req, mapGet gr.NodeCache pod.NodeName = some nr ∧
        GetPodReq pod gr.ResTypeToID (List.replicate gr.ResTypeMaxKind 0) = some req ∧
        WellFormed (reserved gr pod pod.NodeName nr req) ∧
        CollectFromLister.collectPods (pod :: rest) gr =
          CollectFromLister.collectPods rest (reserved gr pod pod.NodeName nr req)) ∨
    ((pod.NodeName.length = 0 ∨ mapHas gr.NodeCache pod.NodeName = false) ∧
      CollectFromLister.collectPods (pod :: rest) gr =
        CollectFromLister.collectPods rest gr) := by
  by_cases hlen : pod.NodeName.length > 0
  · cases hn : mapGet gr.NodeCache pod.NodeName with
    | none =>
      refine Or.inr ⟨Or.inr ((mapHas_eq_false_iff _ _).mpr hn), ?_⟩
      simp [CollectFromLister.collectPods, hlen, hn]
    | some nr =>
      have hnwf := WellFormed_node gr hwf _ nr hn
      obtain ⟨req, hreq, _, _, hadd, hnwf1⟩ :=
        AddPodToCache_ok gr.ResTypeMaxKind hwf.1 gr.ResTypeToID hwf.2.1 nr hnwf pod
      have hwf1 := WellFormed_update gr hwf pod.NodeName _ hnwf1
        (mapSet gr.PodToNode pod.UID pod.NodeName) (keys_mapSet_nodup _ _ _ hwf.2.2.2.1)
      refine Or.inl ⟨hlen, nr, req, rfl, hreq, hwf1, ?_⟩
      simp [CollectFromLister.collectPods, hlen, hn, hadd, reserved]
  · refine Or.inr ⟨Or.inl (by omega), ?_⟩
    simp [CollectFromLister.collectPods, hlen]

theorem mapHas_reserved (gr : GloalReserve) (pod : Pod) (nodeName : String)
    (nr : NodeResInfo) (req : resVector) (hn : mapGet gr.NodeCache nodeName = some nr)
    (m : String) :
    mapHas (reserved gr pod nodeName nr req).NodeCache m = mapHas gr.NodeCache m := by
  unfold mapHas
  rw [reserved_NodeCache]
  by_cases hm : m = nodeName
  · subst hm; rw [if_pos rfl, hn]; rfl
  · rw [if_neg hm]

/-- The pod loop of bootstrap leaves alone every UID that no listed pod with
an assigned, cached node carries. -/
theorem collectPods_untouched (pods : List Pod) (gr gr1 : GloalReserve) (hwf : WellFormed gr)
    (h : CollectFromLister.collectPods pods gr = some gr1) (uid : UID)
    (hu : ∀ pod ∈ pods, pod.UID = uid →
      pod.NodeName.length = 0 ∨ mapHas gr.NodeCache pod.NodeName = false) :
    mapGet gr1.PodToNode uid = mapGet gr.PodToNode uid ∧
      ∀ m, (mapGet gr1.NodeCache m).map (fun nr => mapGet nr.Pods uid) =
        (mapGet gr.NodeCache m).map (fun nr => mapGet nr.Pods uid) := by
  induction pods generalizing gr with
  | nil =>
    simp only [CollectFromLister.collectPods, Option.some.injEq] at h
    rw [← h]
    exact ⟨rfl, fun _ => rfl⟩
  | cons pod rest ih =>
    rcases collectPods_cons gr hwf pod rest with ⟨hlen, nr, req, hn, _, hwf1, hstep⟩ | ⟨_, hstep⟩
    · rw [hstep] at h
      have hne : uid ≠ pod.UID := by
        intro he
        rcases hu pod (by simp) he.symm with h1 | h1
        · omega
        · unfold mapHas at h1
          rw [hn] at h1
          simp at h1
      obtain ⟨h1, h2⟩ := ih _ hwf1 h (fun p hp hpu => by
        rw [mapHas_reserved gr pod _ nr req hn]
        exact hu p (List.mem_cons_of_mem _ hp) hpu)
      refine ⟨by rw [h1, reserved_PodToNode, if_neg hne], fun m => ?_⟩
      rw [h2 m, reserved_NodeCache]
      by_cases hm : m = pod.NodeName
      · subst hm
        rw [if_pos rfl, hn]
        simp only [Option.map_some', Option.some.injEq]
        exact mapGet_mapSet_ne _ _ _ _ hne
      · rw [if_neg hm]
    · rw [hstep] at h
      exact ih gr hwf h (fun p hp hpu => hu p (List.mem_cons_of_mem _ hp) hpu)

/-- The pod loop of bootstrap, for pods with pairwise distinct UIDs: every pod
with an assigned, cached node ends with its entry on that node and its record
in the reverse index. -/
theorem collectPods_loaded (pods : List Pod) (gr gr1 : GloalReserve) (hwf : WellFormed gr)
    (hnd : (pods.map (fun p => p.UID)).Nodup)
    (h : CollectFromLister.collectPods pods gr = some gr1) :
    ∀ pod ∈ pods, pod.NodeName.length > 0 → mapHas gr.NodeCache pod.NodeName = true →
      ∃ nr req, mapGet gr1.NodeCache pod.NodeName = some nr ∧
        GetPodReq pod gr.ResTypeToID (List.replicate gr.ResTypeMaxKind 0) = some req ∧
        mapGet nr.Pods pod.UID = some (NewPodInfo.result pod req) ∧
        mapGet gr1.PodToNode pod.UID = some pod.NodeName := by
  induction pods generalizing gr with
  | nil => intro pod hp; simp at hp
  | cons p rest ih =>
    simp only [List.map_cons, List.nodup_cons, List.mem_map, not_exists, not_and] at hnd
    intro pod hpod hlen hhas
    rcases collectPods_cons gr hwf p rest with ⟨_, nr, req, hn, hreq, hwf1, hstep⟩ | ⟨hskip, hstep⟩
    · rw [hstep] at h
      rcases List.mem_cons.mp hpod with heq | hmem
      · subst heq
        obtain ⟨h1, h2⟩ := collectPods_untouched rest _ gr1 hwf1 h pod.UID
          (fun q hq hqu => absurd hqu (hnd.1 q hq))
        have h3 := h2 pod.NodeName
        rw [reserved_NodeCache, if_pos rfl] at h3
        simp only [Option.map_some', mapGet_mapSet_self] at h3
        cases hg : mapGet gr1.NodeCache pod.NodeName with
        | none => rw [hg] at h3; simp at h3
        | some nr1 =>
          rw [hg] at h3
          simp only [Option.map_some', Option.some.injEq] at h3
          refine ⟨nr1, req, rfl, hreq, h3, ?_⟩
          rw [h1, reserved_PodToNode, if_pos rfl]
      · have := ih _ hwf1 hnd.2 h pod hmem hlen (by
          rw [mapHas_reserved gr p _ nr req hn]; exact hhas)
        exact this
    · rw [hstep] at h
      rcases List.mem_cons.mp hpod with heq | hmem
      · subst heq
        rcases hskip with h1 | h1
        · omega
        · rw [hhas] at h1; simp at h1
      · exact ih gr hwf hnd.2 h pod hmem hlen hhas

/-- C22: for a snapshot whose pods have pairwise distinct UIDs, bootstrap of
the empty ledger returns a ledger in which every listed pod with a non-empty
assigned node that names a listed node has, under its UID, the entry built from
it in the pod set of that node and is mapped to that node in the reverse index,
whatever the capacity of the node is; every listed pod with an empty assigned
node, or assigned to a node that is not listed, and every UID that no listed pod
carries, is in no pod set and not in the reverse index. -/
theorem bootstrap_loads_assigned_pods (nodes : List Node) (pods : List Pod)
    (hnd : (pods.map (fun p => p.UID)).Nodup) :
    ∃ gr, InitGR nodes pods true = some gr ∧
      (∀ pod ∈ pods, pod.NodeName.length > 0 → (∃ node ∈ nodes, node.Name = pod.NodeName) →
        ∃ nr req, mapGet gr.NodeCache pod.NodeName = some nr ∧
          GetPodReq pod gr.ResTypeToID (List.replicate gr.ResTypeMaxKind 0) = some req ∧
          mapGet nr.Pods pod.UID = some (NewPodInfo.result pod req) ∧
          mapGet gr.PodToNode pod.UID = some pod.NodeName) ∧
      (∀ pod ∈ pods,
        (pod.NodeName.length = 0 ∨ ¬ ∃ node ∈ nodes, node.Name = pod.NodeName) →
        mapGet gr.PodToNode pod.UID = none ∧ ∀ n, podOn gr pod.UID n = false) ∧
      (∀ uid, (∀ pod ∈ pods, pod.UID ≠ uid) →
        mapGet gr.PodToNode uid = none ∧ ∀ n, podOn gr uid n = false) := by
  have hd0 : RegistryDense (([] : GoMap Nat), 0).1 (([] : GoMap Nat), 0).2 := by
    constructor <;> simp
  obtain ⟨hdense, _⟩ := collectTypes_dense nodes ([], 0) hd0
  have hlt := RegistryDense_lt _ _ hdense
  have hreg1 : ∀ e ∈ (CollectFromLister.collectTypes nodes ([], 0)).1,
      e.2 < (CollectFromLister.collectTypes nodes ([], 0)).2 + ResourceTypeBuffer := by
    intro e he
    have := hlt e he
    omega
  have hpos : 0 < (CollectFromLister.collectTypes nodes ([], 0)).2 + ResourceTypeBuffer := by
    unfold ResourceTypeBuffer; omega
  obtain ⟨cache, hcache, hcnd, hchas, _, _⟩ := collectNodes_spec
    (CollectFromLister.collectTypes nodes ([], 0)).1
    ((CollectFromLister.collectTypes nodes ([], 0)).2 + ResourceTypeBuffer)
    hpos hreg1 nodes [] (by simp)
  obtain ⟨cache1, hc1, _, hcwf⟩ := collectNodes_ok
    (CollectFromLister.collectTypes nodes ([], 0)).1
    ((CollectFromLister.collectTypes nodes ([], 0)).2 + ResourceTypeBuffer)
    hpos hreg1 nodes [] (by simp) (fun e he => by simp at he)
  rw [hcache] at hc1
  have hc2 : cache = cache1 := Option.some.inj hc1
  subst hc2
  have hwf1 : WellFormed
      { ResTypeToID := (CollectFromLister.collectTypes nodes ([], 0)).1
        ResTypeMaxKind := (CollectFromLister.collectTypes nodes ([], 0)).2 + ResourceTypeBuffer
        NextResourceID := (CollectFromLister.collectTypes nodes ([], 0)).2
        NodeCache := cache
        PodToNode := []
        NodeLister := some nodes
        PodLister := some pods } :=
    ⟨hpos, hreg1, hcnd, by simp, fun e he => (hcwf e he).1⟩
  obtain ⟨gr, hgr, _, hfreg, _, hfmax, _, _, _, _⟩ := collectPods_frame pods _ hwf1
  simp only at hfreg hfmax
  have hlisted : ∀ name, mapHas cache name = true ↔ ∃ node ∈ nodes, node.Name = name := by
    intro name
    rw [hchas name]
    simp [mapHas, mapGet]
  have hnone : ∀ uid,
      (∀ pod ∈ pods, pod.UID = uid →
        pod.NodeName.length = 0 ∨ mapHas cache pod.NodeName = false) →
      mapGet gr.PodToNode uid = none ∧ ∀ n, podOn gr uid n = false := by
    intro uid hu
    obtain ⟨h1, h2⟩ := collectPods_untouched pods _ gr hwf1 hgr uid hu
    refine ⟨by rw [h1]; rfl, fun n => ?_⟩
    have h3 := h2 n
    simp only at h3
    unfold podOn
    cases hg : mapGet gr.NodeCache n with
    | none => rfl
    | some nr =>
      rw [hg] at h3
      cases hc : mapGet cache n with
      | none => rw [hc] at h3; simp at h3
      | some nr0 =>
        rw [hc] at h3
        simp only [Option.map_some', Option.some.injEq] at h3
        rw [(hcwf (n, nr0) (mapGet_mem _ _ _ hc)).2] at h3
        simp only
        rw [mapHas_eq_false_iff, h3]
        rfl
  refine ⟨gr, by simp [InitGR, CollectFromLister, hcache, hgr], ?_, ?_, ?_⟩
  · intro pod hpod hlen hnode
    have := collectPods_loaded pods _ gr hwf1 hnd hgr pod hpod hlen ((hlisted _).mpr hnode)
    simp only at this
    rw [hfreg, hfmax]
    exact this
  · intro pod hpod hcase
    apply hnone pod.UID
    intro q hq hqu
    have hqp : q = pod := by
      have hinj := List.inj_on_of_nodup_map hnd hq hpod
      exact hinj hqu
    subst hqp
    rcases hcase with h1 | h1
    · exact Or.inl h1
    · refine Or.inr ?_
      cases hh : mapHas cache q.NodeName
      · rfl
      · exact absurd ((hlisted _).mp hh) h1
  · intro uid hu
    exact hnone uid (fun q hq hqu => absurd hqu (hu q hq))

theorem bootstrap_loads_assigned_pods_witness :
    ([testPod0, testPodBig, testPod3, GetPod "pod4" 100 100 "" PodPending].map
      (fun p => p.UID)).Nodup ∧
    (InitGR [GetNode0] [testPod0, testPodBig, testPod3, GetPod "pod4" 100 100 "" PodPending]
        true).map (fun gr => (gr.PodToNode, gr.NodeCache.map (fun e => e.2.Pods.map Prod.fst))) =
      some ([("NS1-pod0", "node0"), ("NS1-pod1", "node0")], [["NS1-pod0", "NS1-pod1"]]) ∧
    (InitGR [GetNode0] [testPod0, testPodBig, testPod3, GetPod "pod4" 100 100 "" PodPending]
        true).bind (fun gr => AvailableOf gr "node0") = some [-1000, 3000, 8, 0, 0, 0] ∧
    ∃ gr, InitGR [GetNode0]
        [testPod0, testPodBig, testPod3, GetPod "pod4" 100 100 "" PodPending] true = some gr ∧
      (∀ pod ∈ [testPod0, testPodBig, testPod3, GetPod "pod4" 100 100 "" PodPending],
        pod.NodeName.length > 0 → (∃ node ∈ [GetNode0], node.Name = pod.NodeName) →
        ∃ nr req, mapGet gr.NodeCache pod.NodeName = some nr ∧
          GetPodReq pod gr.ResTypeToID (List.replicate gr.ResTypeMaxKind 0) = some req ∧
          mapGet nr.Pods pod.UID = some (NewPodInfo.result pod req) ∧
          mapGet gr.PodToNode pod.UID = some pod.NodeName) ∧
      (∀ pod ∈ [testPod0, testPodBig, testPod3, GetPod "pod4" 100 100 "" PodPending],
        (pod.NodeName.length = 0 ∨ ¬ ∃ node ∈ [GetNode0], node.Name = pod.NodeName) →
        mapGet gr.PodToNode pod.UID = none ∧ ∀ n, podOn gr pod.UID n = false) ∧
      (∀ uid,
        (∀ pod ∈ [testPod0, testPodBig, testPod3, GetPod "pod4" 100 100 "" PodPending],
          pod.UID ≠ uid) →
        mapGet gr.PodToNode uid = none ∧ ∀ n, podOn gr uid n = false) :=
  ⟨by decide, by decide, by decide,
    bootstrap_loads_assigned_pods [GetNode0]
      [testPod0, testPodBig, testPod3, GetPod "pod4" 100 100 "" PodPending] (by decide)⟩

/-! ## The node-add event for a new node -/

theorem addNode_registerTypes_dense (maxKind : Nat) (rl : ResourceList) (st : GoMap Nat × Nat)
    (h : RegistryDense st.1 st.2) :
    RegistryDense (GloalReserve.AddNode.registerTypes maxKind rl st).1
      (GloalReserve.AddNode.registerTypes maxKind rl st).2 := by
  induction rl generalizing st with
  | nil => exact h
  | cons e rest ih =>
    obtain ⟨resName, q⟩ := e
    unfold GloalReserve.AddNode.registerTypes
    cases hh : mapHas st.1 resName
    · simp only [Bool.false_eq_true, if_false]
      by_cases hfull : st.2 ≥ maxKind
      · rw [if_pos hfull]; exact ih st h
      · rw [if_neg hfull]
        exact ih _ (RegistryDense_add _ _ h _ hh)
    · simp only [if_true]
      exact ih st h

theorem addNode_registerTypes_spec (maxKind : Nat) (rl : ResourceList) (st : GoMap Nat × Nat)
    (hnd : (rl.map Prod.fst).Nodup)
    (hroom : st.2 + (newNames st.1 rl).length ≤ maxKind) :
    GloalReserve.AddNode.registerTypes maxKind rl st =
      (st.1 ++ List.zip (newNames st.1 rl) (List.range' st.2 (newNames st.1 rl).length),
        st.2 + (newNames st.1 rl).length) := by
  induction rl generalizing st with
  | nil => simp [GloalReserve.AddNode.registerTypes, newNames]
  | cons e rest ih =>
    obtain ⟨resName, q⟩ := e
    simp only [List.map_cons, List.nodup_cons] at hnd
    unfold GloalReserve.AddNode.registerTypes
    cases hh : mapHas st.1 resName
    · have hnew : newNames st.1 ((resName, q) :: rest) = resName :: newNames st.1 rest := by
        simp [newNames, List.filter_cons, hh]
      rw [hnew] at hroom ⊢
      simp only [List.length_cons] at hroom ⊢
      have hfull : ¬ st.2 ≥ maxKind := by omega
      simp only [Bool.false_eq_true, if_false]
      rw [if_neg hfull]
      have hg : mapGet st.1 resName = none := (mapHas_eq_false_iff _ _).mp hh
      have hsame : newNames (mapSet st.1 resName st.2, st.2 + 1).1 rest = newNames st.1 rest := by
        unfold newNames
        apply List.filter_congr
        intro name hname
        have hne : name ≠ resName := fun he => hnd.1 (he ▸ hname)
        simp only [mapHas_mapSet, hne, decide_False, Bool.false_or]
      rw [ih (mapSet st.1 resName st.2, st.2 + 1) hnd.2 (by rw [hsame]; simp only; omega)]
      rw [hsame]
      simp only [mapSet_of_absent _ _ _ hg, List.append_assoc, List.singleton_append,
        List.range'_succ, List.zip_cons_cons, Prod.mk.injEq, true_and]
      omega
    · have hnew : newNames st.1 ((resName, q) :: rest) = newNames st.1 rest := by
        simp [newNames, List.filter_cons, hh]
      rw [hnew] at hroom ⊢
      simp only [if_true]
      exact ih st hnd.2 hroom

/-- C29: on a bootstrapped ledger whose registry maps its names one-to-one onto
`0 .. NextResourceID-1`, the node-add event for an uncached node with `k`
allocatable names absent from the registry, where `NextResourceID + k` does not
exceed `ResTypeMaxKind`, returns; afterwards the registry is the old one
extended by the `k` new names at the indices `NextResourceID ..
NextResourceID+k-1`, so that every allocatable name of the node is registered;
`NextResourceID` has grown by `k` and `ResTypeMaxKind` is unchanged; the node map
has gained one ledger for the node, with an empty pod set and a capacity vector
of length `ResTypeMaxKind` that holds each allocatable quantity at the slot of
its name and 0 elsewhere; the other node ledgers and the reverse index are
unchanged. -/
theorem AddNode_new_node (gr : GloalReserve) (node : Node) (hb : Bootstrapped gr)
    (hdense : RegistryDense gr.ResTypeToID gr.NextResourceID)
    (hmap : (node.Allocatable.map Prod.fst).Nodup)
    (hnew : mapHas gr.NodeCache node.Name = false)
    (hroom : gr.NextResourceID + (newNames gr.ResTypeToID node.Allocatable).length ≤
      gr.ResTypeMaxKind) :
    ∃ gr1 nr, gr.AddNode node = some gr1 ∧
      gr1.ResTypeToID = gr.ResTypeToID ++
        List.zip (newNames gr.ResTypeToID node.Allocatable)
          (List.range' gr.NextResourceID (newNames gr.ResTypeToID node.Allocatable).length) ∧
      RegistryDense gr1.ResTypeToID gr1.NextResourceID ∧
      (∀ name ∈ node.Allocatable.map Prod.fst, mapHas gr1.ResTypeToID name = true) ∧
      gr1.NextResourceID =
        gr.NextResourceID + (newNames gr.ResTypeToID node.Allocatable).length ∧
      gr1.ResTypeMaxKind = gr.ResTypeMaxKind ∧
      gr1.NodeCache = gr.NodeCache ++ [(node.Name, nr)] ∧
      nr.Name = node.Name ∧ nr.Pods = [] ∧ nr.Capa.length = gr.ResTypeMaxKind ∧
      (∀ e ∈ node.Allocatable, ∃ i, mapGet gr1.ResTypeToID e.1 = some i ∧
        nr.Capa[i]? = some (QuantityToInt e.1 e.2)) ∧
      (∀ i, i < gr.ResTypeMaxKind →
        (∀ e ∈ node.Allocatable, mapGet gr1.ResTypeToID e.1 ≠ some i) →
        nr.Capa[i]? = some 0) ∧
      (∀ m, m ≠ node.Name → mapGet gr1.NodeCache m = mapGet gr.NodeCache m) ∧
      gr1.PodToNode = gr.PodToNode := by
  have hspec := addNode_registerTypes_spec gr.ResTypeMaxKind node.Allocatable
    (gr.ResTypeToID, gr.NextResourceID) hmap hroom
  have hd1 := addNode_registerTypes_dense gr.ResTypeMaxKind node.Allocatable
    (gr.ResTypeToID, gr.NextResourceID) hdense
  simp only at hspec
  rw [hspec] at hd1
  simp only at hd1
  have hkeys : ∀ name ∈ node.Allocatable.map Prod.fst,
      mapHas (gr.ResTypeToID ++
        List.zip (newNames gr.ResTypeToID node.Allocatable)
          (List.range' gr.NextResourceID
            (newNames gr.ResTypeToID node.Allocatable).length)) name = true := by
    intro name hname
    rw [mapHas_iff_mem_keys, List.map_append, List.mem_append,
      List.map_fst_zip _ _ (by simp)]
    cases hh : mapHas gr.ResTypeToID name
    · refine Or.inr ?_
      unfold newNames
      rw [List.mem_filter]
      exact ⟨hname, by simp [hh]⟩
    · exact Or.inl ((mapHas_iff_mem_keys _ _).mp hh)
  have hregd : ∀ e ∈ node.Allocatable,
      ∃ i, mapGet (gr.ResTypeToID ++
        List.zip (newNames gr.ResTypeToID node.Allocatable)
          (List.range' gr.NextResourceID
            (newNames gr.ResTypeToID node.Allocatable).length)) e.1 = some i ∧
        i < (List.replicate gr.ResTypeMaxKind (0 : Int)).length := by
    intro e he
    obtain ⟨i, hi⟩ := (mapHas_eq_true_iff _ _).mp
      (hkeys e.1 (List.mem_map.mpr ⟨e, he, rfl⟩))
    refine ⟨i, hi, ?_⟩
    have := RegistryDense_lt _ _ hd1 (e.1, i) (mapGet_mem _ _ _ hi)
    simp only [List.length_replicate]
    simp only at this
    omega
  obtain ⟨r, hr, hrlen, hhit, hmiss⟩ := writeResources_spec _
    (fun a b i ha hb => (RegistryDense_inj _ _ hd1 a b i ha hb).1)
    node.Allocatable (List.replicate gr.ResTypeMaxKind 0) hmap hregd
  simp only [List.length_replicate] at hrlen
  have hg : mapGet gr.NodeCache node.Name = none := (mapHas_eq_false_iff _ _).mp hnew
  have hres : gr.AddNode node = some
      { gr with
        ResTypeToID := gr.ResTypeToID ++
          List.zip (newNames gr.ResTypeToID node.Allocatable)
            (List.range' gr.NextResourceID (newNames gr.ResTypeToID node.Allocatable).length)
        NextResourceID :=
          gr.NextResourceID + (newNames gr.ResTypeToID node.Allocatable).length
        NodeCache := gr.NodeCache ++ [(node.Name, { Name := node.Name, Capa := r, Pods := [] })] } := by
    unfold GloalReserve.AddNode
    rw [if_neg hb.1, hnew]
    simp only [Bool.false_eq_true, if_false]
    rw [hspec]
    simp only
    unfold NewNodeResInfo
    rw [hr]
    simp only [Option.map_some', mapSet_of_absent _ _ _ hg]
  refine ⟨_, { Name := node.Name, Capa := r, Pods := [] }, hres, rfl, hd1, hkeys, rfl, rfl, rfl,
    rfl, rfl, hrlen, ?_, ?_, ?_, rfl⟩
  · intro e he
    obtain ⟨i, hi, hilt⟩ := hregd e he
    simp only [List.length_replicate] at hilt
    exact ⟨i, hi, getElem?_of_vget r i _ (by rw [hrlen]; exact hilt) (hhit e he i hi)⟩
  · intro i hi hno
    refine getElem?_of_vget r i _ (by rw [hrlen]; exact hi) ?_
    rw [hmiss i hno, vget_replicate]
  · intro m hm
    simp only
    rw [mapGet_append]
    cases hgm : mapGet gr.NodeCache m with
    | none => simp [mapGet, hm.symm]
    | some v => rfl

theorem AddNode_new_node_witness :
    (Bootstrapped testLedgerTwoNodes ∧
      RegistryDense testLedgerTwoNodes.ResTypeToID testLedgerTwoNodes.NextResourceID ∧
      newNames testLedgerTwoNodes.ResTypeToID GetNode2.Allocatable = ["ExtendedResType1"]) ∧
    (testLedgerTwoNodes.AddNode GetNode2).map
        (fun gr => (gr.ResTypeToID, gr.NextResourceID, gr.NodeCache.length)) =
      some ([(ResourceCPU, 0), (ResourceMemory, 1), (ResourcePods, 2), ("ExtendedResType0", 3),
        ("ExtendedResType1", 4)], 5, 3) ∧
    ∃ gr1 nr, testLedgerTwoNodes.AddNode GetNode2 = some gr1 ∧
      gr1.ResTypeToID = testLedgerTwoNodes.ResTypeToID ++
        List.zip (newNames testLedgerTwoNodes.ResTypeToID GetNode2.Allocatable)
          (List.range' testLedgerTwoNodes.NextResourceID
            (newNames testLedgerTwoNodes.ResTypeToID GetNode2.Allocatable).length) ∧
      RegistryDense gr1.ResTypeToID gr1.NextResourceID ∧
      (∀ name ∈ GetNode2.Allocatable.map Prod.fst, mapHas gr1.ResTypeToID name = true) ∧
      gr1.NextResourceID = testLedgerTwoNodes.NextResourceID +
        (newNames testLedgerTwoNodes.ResTypeToID GetNode2.Allocatable).length ∧
      gr1.ResTypeMaxKind = testLedgerTwoNodes.ResTypeMaxKind ∧
      gr1.NodeCache = testLedgerTwoNodes.NodeCache ++ [(GetNode2.Name, nr)] ∧
      nr.Name = GetNode2.Name ∧ nr.Pods = [] ∧
      nr.Capa.length = testLedgerTwoNodes.ResTypeMaxKind ∧
      (∀ e ∈ GetNode2.Allocatable, ∃ i, mapGet gr1.ResTypeToID e.1 = some i ∧
        nr.Capa[i]? = some (QuantityToInt e.1 e.2)) ∧
      (∀ i, i < testLedgerTwoNodes.ResTypeMaxKind →
        (∀ e ∈ GetNode2.Allocatable, mapGet gr1.ResTypeToID e.1 ≠ some i) →
        nr.Capa[i]? = some 0) ∧
      (∀ m, m ≠ GetNode2.Name →
        mapGet gr1.NodeCache m = mapGet testLedgerTwoNodes.NodeCache m) ∧
      gr1.PodToNode = testLedgerTwoNodes.PodToNode :=
  ⟨⟨by decide, by decide, by decide⟩, by decide,
    AddNode_new_node testLedgerTwoNodes GetNode2 (by decide) (by decide) (by decide)
      (by decide) (by decide)⟩

/-! ## Repeated bootstrap: a sequence of assignments applied twice -/

theorem mapSet_of_has {V : Type} (m : GoMap V) (k : String) (v : V) (h : mapHas m k = true) :
    mapSet m k v = m.map (fun e => if e.1 = k then (k, v) else e) := by
  unfold mapSet
  rw [h]
  rfl

theorem overwrite_fst {V : Type} (kvs : List (String × V)) (e : String × V) :
    (overwrite kvs e).1 = e.1 := by
  induction kvs generalizing e with
  | nil => rfl
  | cons kv rest ih =>
    simp only [overwrite, List.foldl_cons]
    have := ih (if e.1 = kv.1 then kv else e)
    simp only [overwrite] at this
    rw [this]
    by_cases h : e.1 = kv.1
    · rw [if_pos h]; exact h.symm
    · rw [if_neg h]

theorem overwrite_of_absent {V : Type} (kvs : List (String × V)) (e : String × V)
    (h : e.1 ∉ kvs.map Prod.fst) : overwrite kvs e = e := by
  induction kvs generalizing e with
  | nil => rfl
  | cons kv rest ih =>
    simp only [List.map_cons, List.mem_cons, not_or] at h
    simp only [overwrite, List.foldl_cons]
    rw [if_neg h.1]
    exact ih e h.2

theorem overwrite_congr {V : Type} (kvs : List (String × V)) (a b : String × V)
    (hab : a.1 = b.1) (h : a.1 ∈ kvs.map Prod.fst) : overwrite kvs a = overwrite kvs b := by
  induction kvs generalizing a b with
  | nil => simp at h
  | cons kv rest ih =>
    simp only [overwrite, List.foldl_cons]
    by_cases hk : a.1 = kv.1
    · have hk1 : b.1 = kv.1 := by rw [← hab]; exact hk
      rw [if_pos hk, if_pos hk1]
    · have hk1 : ¬ b.1 = kv.1 := by rw [← hab]; exact hk
      rw [if_neg hk, if_neg hk1]
      simp only [List.map_cons, List.mem_cons] at h
      rcases h with h | h
      · exact absurd h hk
      · exact ih a b hab h

theorem mapSetAll_has {V : Type} (kvs : List (String × V)) (m : GoMap V) (k : String) :
    mapHas (mapSetAll kvs m) k = true ↔ (mapHas m k = true ∨ k ∈ kvs.map Prod.fst) := by
  induction kvs generalizing m with
  | nil => simp [mapSetAll]
  | cons kv rest ih =>
    simp only [mapSetAll, List.foldl_cons]
    have := ih (mapSet m kv.1 kv.2)
    simp only [mapSetAll] at this
    rw [this, mapHas_mapSet]
    simp only [Bool.or_eq_true, decide_eq_true_eq, List.map_cons, List.mem_cons]
    tauto

theorem mapSetAll_keys {V : Type} (kvs : List (String × V)) (m : GoMap V)
    (h : ∀ k ∈ kvs.map Prod.fst, mapHas m k = true) :
    (mapSetAll kvs m).map Prod.fst = m.map Prod.fst := by
  induction kvs generalizing m with
  | nil => rfl
  | cons kv rest ih =>
    simp only [mapSetAll, List.foldl_cons]
    have hk : mapHas m kv.1 = true := h kv.1 (by simp)
    have := ih (mapSet m kv.1 kv.2) (fun k hkm => by
      rw [mapHas_mapSet, h k (List.mem_cons_of_mem _ hkm)]
      simp)
    simp only [mapSetAll] at this
    rw [this, keys_mapSet_of_has _ _ _ hk]

theorem mapSetAll_eq_map {V : Type} (kvs : List (String × V)) (m : GoMap V)
    (h : ∀ k ∈ kvs.map Prod.fst, mapHas m k = true) :
    mapSetAll kvs m = m.map (overwrite kvs) := by
  induction kvs generalizing m with
  | nil =>
    have : overwrite ([] : List (String × V)) = id := by
      funext e; rfl
    rw [this, List.map_id]
    rfl
  | cons kv rest ih =>
    simp only [mapSetAll, List.foldl_cons]
    have hk : mapHas m kv.1 = true := h kv.1 (by simp)
    have := ih (mapSet m kv.1 kv.2) (fun k hkm => by
      rw [mapHas_mapSet, h k (List.mem_cons_of_mem _ hkm)]
      simp)
    simp only [mapSetAll] at this
    rw [this, mapSet_of_has _ _ _ hk, List.map_map]
    apply List.map_congr_left
    intro e _
    simp only [Function.comp, overwrite, List.foldl_cons]

theorem mapSetAll_mem_of_absent {V : Type} (kvs : List (String × V)) (m : GoMap V)
    (e : String × V) (he : e ∈ mapSetAll kvs m) (h : e.1 ∉ kvs.map Prod.fst) : e ∈ m := by
  induction kvs generalizing m with
  | nil => exact he
  | cons kv rest ih =>
    simp only [List.map_cons, List.mem_cons, not_or] at h
    simp only [mapSetAll, List.foldl_cons] at he
    have h1 := ih (mapSet m kv.1 kv.2) he h.2
    rcases mem_mapSet _ _ _ _ h1 with h2 | h2
    · rw [h2] at h; exact absurd rfl h.1
    · exact h2.1

theorem overwrite_mapSetAll {V : Type} (kvs : List (String × V)) (m : GoMap V) :
    ∀ e ∈ mapSetAll kvs m, overwrite kvs e = e := by
  induction kvs generalizing m with
  | nil => intro e _; rfl
  | cons kv rest ih =>
    intro e he
    simp only [mapSetAll, List.foldl_cons] at he
    have hih := ih (mapSet m kv.1 kv.2) e (by simpa [mapSetAll] using he)
    simp only [overwrite, List.foldl_cons]
    by_cases hk : e.1 = kv.1
    · rw [if_pos hk]
      by_cases hin : kv.1 ∈ rest.map Prod.fst
      · have := overwrite_congr rest kv e hk.symm hin
        simp only [overwrite] at this hih
        rw [this]; exact hih
      · have h1 := mapSetAll_mem_of_absent rest (mapSet m kv.1 kv.2) e
          (by simpa [mapSetAll] using he) (by rw [hk]; exact hin)
        have h2 : e = kv := by
          rcases mem_mapSet _ _ _ _ h1 with h3 | h3
          · exact h3
          · exact absurd hk h3.2
        rw [h2]
        exact overwrite_of_absent rest kv hin
    · rw [if_neg hk]
      exact hih

/-- A sequence of assignments applied a second time changes nothing. -/
theorem mapSetAll_idem {V : Type} (kvs : List (String × V)) (m : GoMap V) :
    mapSetAll kvs (mapSetAll kvs m) = mapSetAll kvs m := by
  rw [mapSetAll_eq_map kvs (mapSetAll kvs m)
    (fun k hk => (mapSetAll_has kvs m k).mpr (Or.inr hk))]
  conv_rhs => rw [← List.map_id (mapSetAll kvs m)]
  apply List.map_congr_left
  intro e he
  rw [overwrite_mapSetAll kvs m e he]
  rfl

/-! ## Repeated bootstrap: when the loops return -/

theorem VectorMinus_some (a b r : resVector) (h : VectorMinus a b = some r) :
    b.length ≤ a.length ∧ r.length = a.length := by
  induction a generalizing b r with
  | nil =>
    cases b with
    | nil => simp [VectorMinus] at h; subst h; simp
    | cons v b1 => simp [VectorMinus] at h
  | cons x a1 ih =>
    cases b with
    | nil => simp [VectorMinus] at h; subst h; simp
    | cons v b1 =>
      simp only [VectorMinus, Option.map_eq_some'] at h
      obtain ⟨r1, hr1, heq⟩ := h
      obtain ⟨h1, h2⟩ := ih b1 r1 hr1
      subst heq
      simp only [List.length_cons]
      omega

theorem subtractPods_some (pods : GoMap PodResInfo) (a r : resVector)
    (h : subtractPods pods a = some r) : Fits a.length pods := by
  induction pods generalizing a with
  | nil => intro e he; simp at he
  | cons p rest ih =>
    obtain ⟨k, pod⟩ := p
    unfold subtractPods at h
    by_cases hc : counted pod = true
    · rw [if_pos hc] at h
      cases hv : VectorMinus a pod.Resources with
      | none => rw [hv] at h; simp at h
      | some a1 =>
        rw [hv] at h
        simp only [Option.some_bind] at h
        obtain ⟨h1, h2⟩ := VectorMinus_some _ _ _ hv
        have h3 := ih a1 h
        rw [h2] at h3
        intro e he hce
        rcases List.mem_cons.mp he with heq | hmem
        · rw [heq]; exact h1
        · exact h3 e hmem hce
    · rw [if_neg hc] at h
      have h3 := ih a h
      intro e he hce
      rcases List.mem_cons.mp he with heq | hmem
      · rw [heq] at hce; exact absurd hce hc
      · exact h3 e hmem hce

theorem GetAvailable_some_iff (nr : NodeResInfo) :
    (∃ a, GetAvailable nr = some a) ↔ Fits nr.Capa.length nr.Pods := by
  constructor
  · rintro ⟨a, ha⟩
    exact subtractPods_some _ _ _ ha
  · intro h
    obtain ⟨r, hr, _⟩ := subtractPods_ok nr.Pods nr.Capa h
    exact ⟨r, hr⟩

theorem writeResources_length (resIDMap : GoMap Nat) (rl : ResourceList) (vec r : resVector)
    (h : writeResources resIDMap rl vec = some r) : r.length = vec.length := by
  induction rl generalizing vec with
  | nil => simp [writeResources] at h; rw [← h]
  | cons e rest ih =>
    obtain ⟨resName, resValue⟩ := e
    unfold writeResources at h
    unfold vecSet at h
    split at h
    · simp only [Option.some_bind] at h
      rw [ih _ h]
      simp
    · simp at h

theorem GetPodReq_length (pod : Pod) (resIDMap : GoMap Nat) (vec req : resVector)
    (h : GetPodReq pod resIDMap vec = some req) : req.length = vec.length := by
  unfold GetPodReq at h
  cases hw : writeResources resIDMap (podRequests pod) vec with
  | none => rw [hw] at h; simp at h
  | some r =>
    rw [hw] at h
    simp only [Option.some_bind] at h
    unfold vecSet at h
    split at h
    · rw [← Option.some.inj h]
      simp only [List.length_set]
      exact writeResources_length _ _ _ _ hw
    · simp at h

theorem Fits_mapSet (n : Nat) (pods : GoMap PodResInfo) (k : String) (info : PodResInfo)
    (h : Fits n pods) (hlen : info.Resources.length ≤ n) : Fits n (mapSet pods k info) := by
  intro e he hc
  rcases mem_mapSet _ _ _ _ he with h1 | h1
  · rw [h1]; exact hlen
  · exact h e h1.1 hc

theorem AddPodToCache_some (nr nr1 : NodeResInfo) (pod : Pod) (resIDMap : GoMap Nat)
    (h : AddPodToCache nr pod resIDMap = some nr1) :
    ∃ req, GetPodReq pod resIDMap (List.replicate nr.Capa.length 0) = some req ∧
      nr1 = { nr with Pods := mapSet nr.Pods pod.UID (NewPodInfo.result pod req) } ∧
      Fits nr1.Capa.length nr1.Pods := by
  unfold AddPodToCache NewPodInfo at h
  cases hg : GetPodReq pod resIDMap (List.replicate nr.Capa.length 0) with
  | none => rw [hg] at h; simp at h
  | some req =>
    rw [hg] at h
    simp only [Option.map_some', Option.some_bind, Option.map_eq_some'] at h
    obtain ⟨a, ha, heq⟩ := h
    refine ⟨req, rfl, heq.symm, ?_⟩
    rw [← heq]
    exact (GetAvailable_some_iff _).mp ⟨a, ha⟩

theorem AddPodToCache_of (nr : NodeResInfo) (pod : Pod) (resIDMap : GoMap Nat) (req : resVector)
    (hreq : GetPodReq pod resIDMap (List.replicate nr.Capa.length 0) = some req)
    (hfit : Fits nr.Capa.length nr.Pods) :
    AddPodToCache nr pod resIDMap =
      some { nr with Pods := mapSet nr.Pods pod.UID (NewPodInfo.result pod req) } := by
  have hlen := GetPodReq_length _ _ _ _ hreq
  simp only [List.length_replicate] at hlen
  have hfit1 : Fits nr.Capa.length (mapSet nr.Pods pod.UID (NewPodInfo.result pod req)) :=
    Fits_mapSet _ _ _ _ hfit (by simp [NewPodInfo.result, hlen])
  obtain ⟨a, ha⟩ := (GetAvailable_some_iff
    { nr with Pods := mapSet nr.Pods pod.UID (NewPodInfo.result pod req) }).mpr hfit1
  unfold AddPodToCache NewPodInfo
  rw [hreq]
  simp only [Option.map_some', Option.some_bind, ha]

theorem mapSetAll_cons {V : Type} (kv : String × V) (kvs : List (String × V)) (m : GoMap V) :
    mapSetAll (kv :: kvs) m = mapSetAll kvs (mapSet m kv.1 kv.2) := rfl

theorem mapSetAll_nodup {V : Type} (kvs : List (String × V)) (m : GoMap V)
    (h : (m.map Prod.fst).Nodup) : ((mapSetAll kvs m).map Prod.fst).Nodup := by
  induction kvs generalizing m with
  | nil => exact h
  | cons kv rest ih =>
    rw [mapSetAll_cons]
    exact ih _ (keys_mapSet_nodup _ _ _ h)

theorem overwrite_mem {V : Type} (kvs : List (String × V)) (e : String × V)
    (h : e.1 ∈ kvs.map Prod.fst) : overwrite kvs e ∈ kvs := by
  induction kvs generalizing e with
  | nil => simp at h
  | cons kv rest ih =>
    simp only [overwrite, List.foldl_cons]
    by_cases hk : e.1 = kv.1
    · rw [if_pos hk]
      by_cases hin : kv.1 ∈ rest.map Prod.fst
      · exact List.mem_cons_of_mem _ (ih kv hin)
      · have := overwrite_of_absent rest kv hin
        simp only [overwrite] at this
        rw [this]
        exact List.mem_cons_self _ _
    · rw [if_neg hk]
      simp only [List.map_cons, List.mem_cons] at h
      rcases h with h | h
      · exact absurd h hk
      · exact List.mem_cons_of_mem _ (ih e h)

theorem loadPods_fst (resIDMap : GoMap Nat) (pods : List Pod) (e : String × NodeResInfo) :
    (loadPods resIDMap pods e).1 = e.1 := rfl

theorem loadPods_capa (resIDMap : GoMap Nat) (pods : List Pod) (e : String × NodeResInfo) :
    (loadPods resIDMap pods e).2.Capa = e.2.Capa := rfl

theorem loadPods_nil (resIDMap : GoMap Nat) (e : String × NodeResInfo) :
    loadPods resIDMap [] e = e := rfl

theorem podEntries_cons_hit (resIDMap : GoMap Nat) (len : Nat) (pod : Pod) (rest : List Pod)
    (hlen : pod.NodeName.length > 0) :
    podEntries resIDMap pod.NodeName len (pod :: rest) =
      (pod.UID, NewPodInfo.result pod
        ((GetPodReq pod resIDMap (List.replicate len 0)).getD [])) ::
        podEntries resIDMap pod.NodeName len rest := by
  simp [podEntries, List.filter_cons, hlen]

theorem podEntries_cons_miss (resIDMap : GoMap Nat) (n : String) (len : Nat) (pod : Pod)
    (rest : List Pod) (h : pod.NodeName.length = 0 ∨ pod.NodeName ≠ n) :
    podEntries resIDMap n len (pod :: rest) = podEntries resIDMap n len rest := by
  rcases h with h | h
  · simp [podEntries, List.filter_cons, h]
  · simp [podEntries, List.filter_cons, h]

theorem podRecords_cons_hit (cache : GoMap NodeResInfo) (pod : Pod) (rest : List Pod)
    (hlen : pod.NodeName.length > 0) (hhas : mapHas cache pod.NodeName = true) :
    podRecords cache (pod :: rest) = (pod.UID, pod.NodeName) :: podRecords cache rest := by
  simp [podRecords, List.filter_cons, hlen, hhas]

theorem podRecords_cons_miss (cache : GoMap NodeResInfo) (pod : Pod) (rest : List Pod)
    (h : pod.NodeName.length = 0 ∨ mapHas cache pod.NodeName = false) :
    podRecords cache (pod :: rest) = podRecords cache rest := by
  rcases h with h | h
  · simp [podRecords, List.filter_cons, h]
  · simp [podRecords, List.filter_cons, h]

theorem podRecords_congr (cache cache1 : GoMap NodeResInfo) (pods : List Pod)
    (h : ∀ n, mapHas cache1 n = mapHas cache n) : podRecords cache1 pods = podRecords cache pods := by
  unfold podRecords
  congr 1
  apply List.filter_congr
  intro pod _
  rw [h]

/-- The pod loop of bootstrap, when it returns, has applied `loadPods` to every
binding of the node map and the assignments `podRecords` to the reverse index. -/
theorem collectPods_eq (pods : List Pod) (g g1 : GloalReserve)
    (hnd : (g.NodeCache.map Prod.fst).Nodup)
    (h : CollectFromLister.collectPods pods g = some g1) :
    g1 = { g with
      NodeCache := g.NodeCache.map (loadPods g.ResTypeToID pods)
      PodToNode := mapSetAll (podRecords g.NodeCache pods) g.PodToNode } := by
  induction pods generalizing g with
  | nil =>
    simp only [CollectFromLister.collectPods, Option.some.injEq] at h
    rw [← h]
    have : loadPods g.ResTypeToID [] = id := by funext e; rfl
    rw [this, List.map_id]
    rfl
  | cons pod rest ih =>
    unfold CollectFromLister.collectPods at h
    by_cases hlen : pod.NodeName.length > 0
    · rw [if_pos hlen] at h
      cases hn : mapGet g.NodeCache pod.NodeName with
      | none =>
        rw [hn] at h
        simp only at h
        rw [ih g hnd h]
        have hmiss : mapHas g.NodeCache pod.NodeName = false := (mapHas_eq_false_iff _ _).mpr hn
        rw [podRecords_cons_miss _ _ _ (Or.inr hmiss)]
        congr 1
        apply List.map_congr_left
        intro e he
        have hne : pod.NodeName ≠ e.1 := by
          intro heq
          have := (mapGet_none_iff _ _).mp hn e he
          exact this heq.symm
        simp only [loadPods, podEntries_cons_miss _ _ _ _ _ (Or.inr hne)]
      | some nr0 =>
        rw [hn] at h
        simp only at h
        cases hadd : AddPodToCache nr0 pod g.ResTypeToID with
        | none => rw [hadd] at h; simp at h
        | some nr1 =>
          rw [hadd] at h
          simp only [Option.some_bind] at h
          obtain ⟨req, hreq, hnr1, _⟩ := AddPodToCache_some _ _ _ _ hadd
          have hhas : mapHas g.NodeCache pod.NodeName = true := by
            unfold mapHas; rw [hn]; rfl
          have h1 := ih _ (keys_mapSet_nodup _ _ _ hnd) h
          simp only at h1
          rw [h1]
          have hrec : podRecords (mapSet g.NodeCache pod.NodeName nr1) rest =
              podRecords g.NodeCache rest :=
            podRecords_congr _ _ _ (fun n => by
              rw [mapHas_mapSet]
              by_cases hnn : n = pod.NodeName
              · subst hnn; simp [hhas]
              · simp [hnn])
          rw [hrec, podRecords_cons_hit _ _ _ hlen hhas, mapSetAll_cons,
            mapSet_of_has _ _ _ hhas, List.map_map]
          congr 1
          apply List.map_congr_left
          intro e he
          simp only [Function.comp]
          by_cases hk : e.1 = pod.NodeName
          · rw [if_pos hk]
            have he2 : e.2 = nr0 := by
              have := mapGet_of_mem_nodup _ e.1 e.2 hnd he
              rw [hk, hn] at this
              exact (Option.some.inj this).symm
            simp only [loadPods]
            rw [hk, he2, podEntries_cons_hit _ _ _ _ hlen, mapSetAll_cons, hnr1]
            simp only [hreq, Option.getD_some]
          · rw [if_neg hk]
            simp only [loadPods, podEntries_cons_miss _ _ _ _ _ (Or.inr (Ne.symm hk))]
    · rw [if_neg hlen] at h
      rw [ih g hnd h]
      have hl0 : pod.NodeName.length = 0 := by omega
      rw [podRecords_cons_miss _ _ _ (Or.inl hl0)]
      congr 1
      apply List.map_congr_left
      intro e _
      simp only [loadPods, podEntries_cons_miss _ _ _ _ _ (Or.inl hl0)]

theorem capaOf_mapSet (gr : GloalReserve) (n : String) (nr nr1 : NodeResInfo)
    (p2n : GoMap String) (h : mapGet gr.NodeCache n = some nr) (hc : nr1.Capa = nr.Capa)
    (m : String) :
    capaOf { gr with NodeCache := mapSet gr.NodeCache n nr1, PodToNode := p2n } m =
      capaOf gr m :=
  capa_mapSet _ _ _ _ h hc m

/-- When the pod loop of bootstrap returns, the encoding of every pod with an
assigned, cached node returned. -/
theorem collectPods_getPodReq (pods : List Pod) (g g1 : GloalReserve)
    (h : CollectFromLister.collectPods pods g = some g1) :
    ∀ pod ∈ pods, pod.NodeName.length > 0 → ∀ c, capaOf g pod.NodeName = some c →
      ∃ req, GetPodReq pod g.ResTypeToID (List.replicate c.length 0) = some req := by
  induction pods generalizing g with
  | nil => intro pod hp; simp at hp
  | cons p rest ih =>
    intro pod hpod hlen c hc
    unfold CollectFromLister.collectPods at h
    by_cases hpl : p.NodeName.length > 0
    · rw [if_pos hpl] at h
      cases hn : mapGet g.NodeCache p.NodeName with
      | none =>
        rw [hn] at h
        simp only at h
        rcases List.mem_cons.mp hpod with heq | hmem
        · subst heq
          unfold capaOf at hc
          rw [hn] at hc
          simp at hc
        · exact ih g h pod hmem hlen c hc
      | some nr0 =>
        rw [hn] at h
        simp only at h
        cases hadd : AddPodToCache nr0 p g.ResTypeToID with
        | none => rw [hadd] at h; simp at h
        | some nr1 =>
          rw [hadd] at h
          simp only [Option.some_bind] at h
          obtain ⟨req, hreq, hnr1, _⟩ := AddPodToCache_some _ _ _ _ hadd
          rcases List.mem_cons.mp hpod with heq | hmem
          · subst heq
            unfold capaOf at hc
            rw [hn] at hc
            simp only [Option.map_some', Option.some.injEq] at hc
            rw [← hc]
            exact ⟨req, hreq⟩
          · have := ih _ h pod hmem hlen c (by
              rw [capaOf_mapSet g _ nr0 nr1 _ hn (by rw [hnr1])]
              exact hc)
            exact this
    · rw [if_neg hpl] at h
      rcases List.mem_cons.mp hpod with heq | hmem
      · subst heq; exact absurd hlen hpl
      · exact ih g h pod hmem hlen c hc

theorem collectPods_fits_keep (pods : List Pod) (g g1 : GloalReserve)
    (h : CollectFromLister.collectPods pods g = some g1) (n : String) (nr : NodeResInfo)
    (hn : mapGet g.NodeCache n = some nr) (hf : Fits nr.Capa.length nr.Pods) :
    ∃ nr1, mapGet g1.NodeCache n = some nr1 ∧ Fits nr1.Capa.length nr1.Pods := by
  induction pods generalizing g nr with
  | nil =>
    simp only [CollectFromLister.collectPods, Option.some.injEq] at h
    rw [← h]
    exact ⟨nr, hn, hf⟩
  | cons p rest ih =>
    unfold CollectFromLister.collectPods at h
    by_cases hpl : p.NodeName.length > 0
    · rw [if_pos hpl] at h
      cases hp : mapGet g.NodeCache p.NodeName with
      | none =>
        rw [hp] at h
        exact ih g h nr hn hf
      | some nr0 =>
        rw [hp] at h
        simp only at h
        cases hadd : AddPodToCache nr0 p g.ResTypeToID with
        | none => rw [hadd] at h; simp at h
        | some nr1 =>
          rw [hadd] at h
          simp only [Option.some_bind] at h
          obtain ⟨_, _, _, hfit1⟩ := AddPodToCache_some _ _ _ _ hadd
          by_cases hk : n = p.NodeName
          · subst hk
            exact ih _ h nr1 (by simp only; exact mapGet_mapSet_self _ _ _) hfit1
          · exact ih _ h nr (by simp only; rw [mapGet_mapSet_ne _ _ _ _ hk]; exact hn) hf
    · rw [if_neg hpl] at h
      exact ih g h nr hn hf

/-- When the pod loop of bootstrap returns, the pod set of every node that
received a pod can be summed up by `GetAvailable`. -/
theorem collectPods_fits (pods : List Pod) (g g1 : GloalReserve)
    (h : CollectFromLister.collectPods pods g = some g1) :
    ∀ pod ∈ pods, pod.NodeName.length > 0 → mapHas g.NodeCache pod.NodeName = true →
      ∃ nr1, mapGet g1.NodeCache pod.NodeName = some nr1 ∧ Fits nr1.Capa.length nr1.Pods := by
  induction pods generalizing g with
  | nil => intro pod hp; simp at hp
  | cons p rest ih =>
    intro pod hpod hlen hhas
    unfold CollectFromLister.collectPods at h
    by_cases hpl : p.NodeName.length > 0
    · rw [if_pos hpl] at h
      cases hp : mapGet g.NodeCache p.NodeName with
      | none =>
        rw [hp] at h
        simp only at h
        rcases List.mem_cons.mp hpod with heq | hmem
        · subst heq
          unfold mapHas at hhas
          rw [hp] at hhas
          simp at hhas
        · exact ih g h pod hmem hlen hhas
      | some nr0 =>
        rw [hp] at h
        simp only at h
        cases hadd : AddPodToCache nr0 p g.ResTypeToID with
        | none => rw [hadd] at h; simp at h
        | some nr1 =>
          rw [hadd] at h
          simp only [Option.some_bind] at h
          obtain ⟨_, _, _, hfit1⟩ := AddPodToCache_some _ _ _ _ hadd
          rcases List.mem_cons.mp hpod with heq | hmem
          · subst heq
            exact collectPods_fits_keep rest _ g1 h pod.NodeName nr1
              (by simp only; exact mapGet_mapSet_self _ _ _) hfit1
          · have := ih _ h pod hmem hlen (by
              simp only
              rw [mapHas_mapSet, hhas]
              simp)
            exact this
    · rw [if_neg hpl] at h
      rcases List.mem_cons.mp hpod with heq | hmem
      · subst heq; exact absurd hlen hpl
      · exact ih g h pod hmem hlen hhas

/-- The pod loop of bootstrap returns when the encoding of every pod with an
assigned, cached node returns and the pod set of that node can be summed up. -/
theorem collectPods_returns (pods : List Pod) (g : GloalReserve)
    (hok : ∀ pod ∈ pods, pod.NodeName.length > 0 → ∀ nr,
      mapGet g.NodeCache pod.NodeName = some nr →
      (∃ req, GetPodReq pod g.ResTypeToID (List.replicate nr.Capa.length 0) = some req) ∧
        Fits nr.Capa.length nr.Pods) :
    ∃ g1, CollectFromLister.collectPods pods g = some g1 := by
  induction pods generalizing g with
  | nil => exact ⟨g, rfl⟩
  | cons p rest ih =>
    unfold CollectFromLister.collectPods
    by_cases hpl : p.NodeName.length > 0
    · rw [if_pos hpl]
      cases hp : mapGet g.NodeCache p.NodeName with
      | none =>
        simp only
        exact ih g (fun pod hpod => hok pod (List.mem_cons_of_mem _ hpod))
      | some nr0 =>
        simp only
        obtain ⟨⟨req, hreq⟩, hfit⟩ := hok p (by simp) hpl nr0 hp
        have hadd := AddPodToCache_of nr0 p g.ResTypeToID req hreq hfit
        rw [hadd]
        simp only [Option.some_bind]
        have hlen := GetPodReq_length _ _ _ _ hreq
        simp only [List.length_replicate] at hlen
        apply ih
        intro pod hpod hlen1 nr hnr
        simp only at hnr ⊢
        by_cases hk : pod.NodeName = p.NodeName
        · rw [hk, mapGet_mapSet_self] at hnr
          have hnr1 := (Option.some.inj hnr).symm
          subst hnr1
          simp only
          obtain ⟨h1, _⟩ := hok pod (List.mem_cons_of_mem _ hpod) hlen1 nr0 (by rw [hk]; exact hp)
          exact ⟨h1, Fits_mapSet _ _ _ _ hfit (by simp [NewPodInfo.result, hlen])⟩
        · rw [mapGet_mapSet_ne _ _ _ _ hk] at hnr
          exact hok pod (List.mem_cons_of_mem _ hpod) hlen1 nr hnr
    · rw [if_neg hpl]
      exact ih g (fun pod hpod => hok pod (List.mem_cons_of_mem _ hpod))

/-- The node loop of bootstrap, when it returns, has applied the assignments
`nodeEntries`, and it returns whatever the node map is. -/
theorem collectNodes_eq (resIDMap : GoMap Nat) (n : Nat) (nodes : List Node)
    (cache cache1 : GoMap NodeResInfo)
    (h : CollectFromLister.collectNodes resIDMap n nodes cache = some cache1) :
    cache1 = mapSetAll (nodeEntries resIDMap n nodes) cache ∧
      ∀ c, CollectFromLister.collectNodes resIDMap n nodes c =
        some (mapSetAll (nodeEntries resIDMap n nodes) c) := by
  induction nodes generalizing cache with
  | nil =>
    simp only [CollectFromLister.collectNodes, Option.some.injEq] at h
    exact ⟨h.symm, fun c => rfl⟩
  | cons node rest ih =>
    unfold CollectFromLister.collectNodes at h
    cases hnr : NewNodeResInfo node resIDMap n with
    | none => rw [hnr] at h; simp at h
    | some nr =>
      rw [hnr] at h
      simp only [Option.some_bind] at h
      obtain ⟨h1, h2⟩ := ih _ h
      have hent : nodeEntries resIDMap n (node :: rest) =
          (node.Name, nr) :: nodeEntries resIDMap n rest := by
        simp [nodeEntries, List.filterMap_cons, hnr]
      rw [hent]
      refine ⟨h1, fun c => ?_⟩
      unfold CollectFromLister.collectNodes
      rw [hnr]
      simp only [Option.some_bind]
      exact h2 _

theorem nodeEntries_pods (resIDMap : GoMap Nat) (n : Nat) (nodes : List Node) :
    ∀ e ∈ nodeEntries resIDMap n nodes, e.2.Pods = [] := by
  intro e he
  unfold nodeEntries at he
  rw [List.mem_filterMap] at he
  obtain ⟨node, _, hnode⟩ := he
  unfold NewNodeResInfo at hnode
  simp only [Option.map_map, Option.map_eq_some'] at hnode
  obtain ⟨r, _, heq⟩ := hnode
  rw [← heq]
  rfl

theorem collect_registerTypes_mono (rl : ResourceList) (st : GoMap Nat × Nat) :
    st.2 ≤ (CollectFromLister.registerTypes rl st).2 ∧
      ((CollectFromLister.registerTypes rl st).2 = st.2 →
        CollectFromLister.registerTypes rl st = st) := by
  induction rl generalizing st with
  | nil => exact ⟨le_refl _, fun _ => rfl⟩
  | cons e rest ih =>
    obtain ⟨resName, q⟩ := e
    unfold CollectFromLister.registerTypes
    cases hh : mapHas st.1 resName
    · simp only [Bool.false_eq_true, if_false]
      obtain ⟨h1, _⟩ := ih (mapSet st.1 resName st.2, st.2 + 1)
      simp only at h1
      exact ⟨by omega, fun h => by omega⟩
    · simp only [if_true]
      exact ih st

theorem collectTypes_mono (nodes : List Node) (st : GoMap Nat × Nat) :
    st.2 ≤ (CollectFromLister.collectTypes nodes st).2 ∧
      ((CollectFromLister.collectTypes nodes st).2 = st.2 →
        CollectFromLister.collectTypes nodes st = st) := by
  induction nodes generalizing st with
  | nil => exact ⟨le_refl _, fun _ => rfl⟩
  | cons node rest ih =>
    unfold CollectFromLister.collectTypes
    obtain ⟨h1, h2⟩ := collect_registerTypes_mono node.Allocatable st
    obtain ⟨h3, h4⟩ := ih (CollectFromLister.registerTypes node.Allocatable st)
    refine ⟨by omega, fun h => ?_⟩
    have h5 : (CollectFromLister.registerTypes node.Allocatable st).2 = st.2 := by omega
    rw [h4 (by omega), h2 h5]

theorem keys_map_of_fst {V : Type} (m : GoMap V) (f : String × V → String × V)
    (hf : ∀ e, (f e).1 = e.1) : (m.map f).map Prod.fst = m.map Prod.fst := by
  rw [List.map_map]
  apply List.map_congr_left
  intro e _
  exact hf e

theorem mapHas_map_of_fst {V : Type} (m : GoMap V) (f : String × V → String × V)
    (hf : ∀ e, (f e).1 = e.1) (k : String) : mapHas (m.map f) k = mapHas m k := by
  rw [Bool.eq_iff_iff, mapHas_iff_mem_keys, mapHas_iff_mem_keys, keys_map_of_fst m f hf]

theorem collectNodes_again (resIDMap : GoMap Nat) (n : Nat) (nodes : List Node)
    (c0 c1 : GoMap NodeResInfo)
    (h : CollectFromLister.collectNodes resIDMap n nodes c0 = some c1) :
    CollectFromLister.collectNodes resIDMap n nodes c1 = some c1 := by
  obtain ⟨h1, h2⟩ := collectNodes_eq _ _ _ _ _ h
  rw [h2 c1, h1, mapSetAll_idem]

/-- The node loop and the pod loop of bootstrap, run a second time on their
own result with the same registry, give that result again. -/
theorem collect_again (g1 g2 : GloalReserve) (n : Nat) (nodes : List Node) (pods : List Pod)
    (c0 : GoMap NodeResInfo) (hnd : (c0.map Prod.fst).Nodup)
    (hc : CollectFromLister.collectNodes g1.ResTypeToID n nodes c0 = some g1.NodeCache)
    (hp : CollectFromLister.collectPods pods g1 = some g2) :
    ∃ c3, CollectFromLister.collectNodes g1.ResTypeToID n nodes g2.NodeCache = some c3 ∧
      CollectFromLister.collectPods pods { g2 with NodeCache := c3 } = some g2 := by
  obtain ⟨hc1, hcall⟩ := collectNodes_eq _ _ _ _ _ hc
  have hnd1 : (g1.NodeCache.map Prod.fst).Nodup := by
    rw [hc1]; exact mapSetAll_nodup _ _ hnd
  have hg2 := collectPods_eq pods g1 g2 hnd1 hp
  have hcache2 : g2.NodeCache = g1.NodeCache.map (loadPods g1.ResTypeToID pods) := by
    rw [hg2]
  have hreg2 : g2.ResTypeToID = g1.ResTypeToID := by rw [hg2]
  have hkeys2 : ∀ k, mapHas g2.NodeCache k = mapHas g1.NodeCache k := by
    intro k
    rw [hcache2]
    exact mapHas_map_of_fst _ (loadPods g1.ResTypeToID pods) (fun e => rfl) k
  have hpresent : ∀ k ∈ (nodeEntries g1.ResTypeToID n nodes).map Prod.fst,
      mapHas g2.NodeCache k = true := by
    intro k hk
    rw [hkeys2, hc1]
    exact (mapSetAll_has _ _ _).mpr (Or.inr hk)
  have hc3 : mapSetAll (nodeEntries g1.ResTypeToID n nodes) g2.NodeCache =
      g1.NodeCache.map (fun e =>
        overwrite (nodeEntries g1.ResTypeToID n nodes) (loadPods g1.ResTypeToID pods e)) := by
    rw [mapSetAll_eq_map _ _ hpresent, hcache2, List.map_map]
    rfl
  have hW : ∀ e ∈ g1.NodeCache,
      overwrite (nodeEntries g1.ResTypeToID n nodes) (loadPods g1.ResTypeToID pods e) =
        if e.1 ∈ (nodeEntries g1.ResTypeToID n nodes).map Prod.fst then e
        else loadPods g1.ResTypeToID pods e := by
    intro e he
    by_cases hin : e.1 ∈ (nodeEntries g1.ResTypeToID n nodes).map Prod.fst
    · rw [if_pos hin, overwrite_congr _ (loadPods g1.ResTypeToID pods e) e rfl hin]
      exact overwrite_mapSetAll _ c0 e (by rw [← hc1]; exact he)
    · rw [if_neg hin]
      exact overwrite_of_absent _ _ hin
  have hkeys3 : ∀ k, mapHas (mapSetAll (nodeEntries g1.ResTypeToID n nodes) g2.NodeCache) k =
      mapHas g1.NodeCache k := by
    intro k
    rw [hc3]
    exact mapHas_map_of_fst _ _ (fun e => by rw [overwrite_fst]; rfl) k
  have hnd3 : ((mapSetAll (nodeEntries g1.ResTypeToID n nodes) g2.NodeCache).map
      Prod.fst).Nodup := by
    rw [hc3, keys_map_of_fst _ _ (fun e => by rw [overwrite_fst]; rfl)]
    exact hnd1
  refine ⟨_, hcall g2.NodeCache, ?_⟩
  have hret : ∃ g4, CollectFromLister.collectPods pods
      { g2 with NodeCache := mapSetAll (nodeEntries g1.ResTypeToID n nodes) g2.NodeCache } =
        some g4 := by
    apply collectPods_returns
    intro pod hpod hlen nr3 hnr3
    simp only at hnr3 ⊢
    have hmem := mapGet_mem _ _ _ hnr3
    rw [hc3, List.mem_map] at hmem
    obtain ⟨e, he, heq⟩ := hmem
    rw [hW e he] at heq
    have hget1 : mapGet g1.NodeCache e.1 = some e.2 := mapGet_of_mem_nodup _ _ _ hnd1 he
    by_cases hin : e.1 ∈ (nodeEntries g1.ResTypeToID n nodes).map Prod.fst
    · rw [if_pos hin] at heq
      have hk : e.1 = pod.NodeName := congrArg Prod.fst heq
      have hv : e.2 = nr3 := congrArg Prod.snd heq
      subst hv
      have hek : e ∈ nodeEntries g1.ResTypeToID n nodes := by
        have h1 := overwrite_mem _ e hin
        rw [overwrite_mapSetAll _ c0 e (by rw [← hc1]; exact he)] at h1
        exact h1
      have hcap : capaOf g1 pod.NodeName = some e.2.Capa := by
        unfold capaOf; rw [← hk, hget1]; rfl
      obtain ⟨req, hreq⟩ := collectPods_getPodReq pods g1 g2 hp pod hpod hlen _ hcap
      refine ⟨⟨req, by rw [hreg2]; exact hreq⟩, ?_⟩
      rw [nodeEntries_pods _ _ _ e hek]
      intro x hx
      simp at hx
    · rw [if_neg hin] at heq
      have hk : e.1 = pod.NodeName := congrArg Prod.fst heq
      have hv : (loadPods g1.ResTypeToID pods e).2 = nr3 := congrArg Prod.snd heq
      have hcap : capaOf g1 pod.NodeName = some e.2.Capa := by
        unfold capaOf; rw [← hk, hget1]; rfl
      obtain ⟨req, hreq⟩ := collectPods_getPodReq pods g1 g2 hp pod hpod hlen _ hcap
      have hhas1 : mapHas g1.NodeCache pod.NodeName = true := by
        unfold mapHas; rw [← hk, hget1]; rfl
      obtain ⟨nr2, hnr2, hfit2⟩ := collectPods_fits pods g1 g2 hp pod hpod hlen hhas1
      have hget2 : mapGet g2.NodeCache pod.NodeName =
          some (loadPods g1.ResTypeToID pods e).2 := by
        rw [hcache2]
        apply mapGet_of_mem_nodup
        · rw [keys_map_of_fst _ (loadPods g1.ResTypeToID pods) (fun e => rfl)]; exact hnd1
        · rw [List.mem_map]
          refine ⟨e, he, ?_⟩
          rw [← hk]
          rfl
      rw [hnr2] at hget2
      have hnr : nr2 = nr3 := by rw [← hv]; exact Option.some.inj hget2
      subst hnr
      have hcapa : nr2.Capa = e.2.Capa := by rw [← hv]; rfl
      refine ⟨⟨req, by rw [hreg2, hcapa]; exact hreq⟩, hfit2⟩
  obtain ⟨g4, hg4⟩ := hret
  rw [hg4]
  have h4 := collectPods_eq pods _ g4 (by simp only; exact hnd3) hg4
  simp only at h4
  rw [h4]
  have hrec : podRecords (mapSetAll (nodeEntries g1.ResTypeToID n nodes) g2.NodeCache) pods =
      podRecords g1.NodeCache pods := podRecords_congr _ _ _ hkeys3
  have hp2n : g2.PodToNode = mapSetAll (podRecords g1.NodeCache pods) g1.PodToNode := by
    rw [hg2]
  have hcache4 : (mapSetAll (nodeEntries g1.ResTypeToID n nodes) g2.NodeCache).map
      (loadPods g2.ResTypeToID pods) = g2.NodeCache := by
    rw [hc3, hcache2, hreg2, List.map_map]
    apply List.map_congr_left
    intro e he
    simp only [Function.comp]
    rw [hW e he]
    by_cases hin : e.1 ∈ (nodeEntries g1.ResTypeToID n nodes).map Prod.fst
    · rw [if_pos hin]
    · rw [if_neg hin]
      simp only [loadPods]
      rw [mapSetAll_idem]
  rw [hrec, hcache4]
  have hp2n4 : mapSetAll (podRecords g1.NodeCache pods) g2.PodToNode = g2.PodToNode := by
    rw [hp2n, mapSetAll_idem]
  rw [hp2n4]

/-- Bootstrap that leaves `NextResourceID` at 0, run a second time on its own
result, gives that result again. -/
theorem CollectFromLister_again (gr gr2 : GloalReserve) (b : Bool)
    (h0 : gr.NextResourceID = 0) (hnd : (gr.NodeCache.map Prod.fst).Nodup)
    (h : CollectFromLister gr = some (b, gr2)) (h2 : gr2.NextResourceID = 0) :
    CollectFromLister gr2 = some (b, gr2) := by
  unfold CollectFromLister at h
  cases hnl : gr.NodeLister with
  | none =>
    rw [hnl] at h
    simp only [Option.some.injEq, Prod.mk.injEq] at h
    rw [← h.2, ← h.1]
    unfold CollectFromLister
    rw [hnl]
  | some nodes =>
    rw [hnl] at h
    simp only at h
    cases hcn : CollectFromLister.collectNodes
        (CollectFromLister.collectTypes nodes (gr.ResTypeToID, gr.NextResourceID)).1
        ((CollectFromLister.collectTypes nodes (gr.ResTypeToID, gr.NextResourceID)).2 +
          ResourceTypeBuffer) nodes gr.NodeCache with
    | none => rw [hcn] at h; simp at h
    | some c1 =>
      rw [hcn] at h
      simp only [Option.some_bind] at h
      cases hpl : gr.PodLister with
      | none =>
        rw [hpl] at h
        simp only [Option.some.injEq, Prod.mk.injEq] at h
        obtain ⟨hb, hg⟩ := h
        have hnext : (CollectFromLister.collectTypes nodes
            (gr.ResTypeToID, gr.NextResourceID)).2 = 0 := by
          rw [← hg] at h2; exact h2
        have hfix := (collectTypes_mono nodes (gr.ResTypeToID, gr.NextResourceID)).2
          (by rw [hnext]; exact h0.symm)
        rw [hfix] at hcn hg
        simp only at hcn hg
        have hagain := collectNodes_again _ _ _ _ _ hcn
        rw [← hg, ← hb]
        unfold CollectFromLister
        simp only [hnl, hpl, hfix, hagain, Option.some_bind]
      | some pods =>
        rw [hpl] at h
        simp only [Option.map_eq_some', Prod.mk.injEq] at h
        obtain ⟨g, hg, hb, hgg⟩ := h
        subst hgg
        have hcnd : (c1.map Prod.fst).Nodup := by
          rw [(collectNodes_eq _ _ _ _ _ hcn).1]
          exact mapSetAll_nodup _ _ hnd
        have hg2 := collectPods_eq pods _ g (by simp only; exact hcnd) hg
        simp only at hg2
        have hnext : (CollectFromLister.collectTypes nodes
            (gr.ResTypeToID, gr.NextResourceID)).2 = 0 := by
          rw [hg2] at h2; exact h2
        have hfix := (collectTypes_mono nodes (gr.ResTypeToID, gr.NextResourceID)).2
          (by rw [hnext]; exact h0.symm)
        rw [hfix] at hcn hg hg2
        simp only at hcn hg hg2
        obtain ⟨c3, hc3, hp3⟩ := collect_again _ g (gr.NextResourceID + ResourceTypeBuffer)
          nodes pods gr.NodeCache hnd (by simp only; exact hcn) hg
        simp only at hc3
        have hreg : g.ResTypeToID = gr.ResTypeToID := by rw [hg2]
        have hnx : g.NextResourceID = gr.NextResourceID := by rw [hg2]
        have hmk : g.ResTypeMaxKind = gr.NextResourceID + ResourceTypeBuffer := by rw [hg2]
        have hnl2 : g.NodeLister = some nodes := by rw [hg2]
        have hpl2 : g.PodLister = some pods := by rw [hg2]
        rw [hreg, hmk, hnx, hnl2, hpl2] at hp3
        rw [← hb]
        unfold CollectFromLister
        simp only [hnl2, hpl2, hreg, hnx, hfix, hc3, Option.some_bind, hp3, Option.map_some']

theorem lazyCollect_again (gr gr2 : GloalReserve) (h0 : gr.NextResourceID = 0)
    (hnd : (gr.NodeCache.map Prod.fst).Nodup) (h : lazyCollect gr = some gr2) :
    lazyCollect gr2 = some gr2 := by
  unfold lazyCollect at h
  rw [if_pos h0] at h
  simp only [Option.map_eq_some'] at h
  obtain ⟨r, hr, heq⟩ := h
  obtain ⟨b, g⟩ := r
  simp only at heq
  subst heq
  unfold lazyCollect
  by_cases h2 : g.NextResourceID = 0
  · rw [if_pos h2, CollectFromLister_again gr g b h0 hnd hr h2]
    rfl
  · rw [if_neg h2]

/-! ## Lazy bootstrap -/

theorem commit_listers (prs : List (Pod × String)) (gr : GloalReserve)
    (nl : Option (List Node)) (pl : Option (List Pod)) :
    ReservePods.commit prs { gr with NodeLister := nl, PodLister := pl } =
      (ReservePods.commit prs gr).map (fun g => { g with NodeLister := nl, PodLister := pl }) := by
  induction prs generalizing gr with
  | nil => rfl
  | cons e rest ih =>
    obtain ⟨p, nodeName⟩ := e
    unfold ReservePods.commit
    simp only
    cases hn : mapGet gr.NodeCache nodeName with
    | none => rfl
    | some nodeInfo =>
      simp only
      cases hadd : AddPodToCache nodeInfo p gr.ResTypeToID with
      | none => rfl
      | some nr1 =>
        simp only [Option.some_bind]
        exact ih
          { gr with
            NodeCache := mapSet gr.NodeCache nodeName nr1
            PodToNode := mapSet gr.PodToNode p.UID nodeName }

theorem Reserve_listers (gr : GloalReserve) (pod : Pod) (nodeName : String)
    (h : gr.NextResourceID ≠ 0) (nl : Option (List Node)) (pl : Option (List Pod)) :
    Reserve { gr with NodeLister := nl, PodLister := pl } pod nodeName =
      (Reserve gr pod nodeName).map
        (fun r => (r.1, { r.2 with NodeLister := nl, PodLister := pl })) := by
  unfold Reserve
  rw [lazyCollect_of_bootstrapped gr h,
    lazyCollect_of_bootstrapped { gr with NodeLister := nl, PodLister := pl } h]
  simp only [Option.some_bind]
  cases hn : mapGet gr.NodeCache nodeName with
  | none => rfl
  | some nodeInfo =>
    simp only
    cases hc : CheckPod nodeInfo pod gr.ResTypeToID with
    | none => rfl
    | some b =>
      simp only [Option.some_bind]
      cases b with
      | false => rfl
      | true =>
        simp only [if_true]
        cases hadd : AddPodToCache nodeInfo pod gr.ResTypeToID with
        | none => rfl
        | some nr1 => rfl

theorem ReservePods_listers (gr : GloalReserve) (pods : List Pod) (nodeNames : List String)
    (h : gr.NextResourceID ≠ 0) (nl : Option (List Node)) (pl : Option (List Pod)) :
    ReservePods { gr with NodeLister := nl, PodLister := pl } pods nodeNames =
      (ReservePods gr pods nodeNames).map
        (fun r => (r.1, { r.2 with NodeLister := nl, PodLister := pl })) := by
  unfold ReservePods
  rw [lazyCollect_of_bootstrapped gr h,
    lazyCollect_of_bootstrapped { gr with NodeLister := nl, PodLister := pl } h]
  simp only [Option.some_bind]
  cases hp : ReservePods.pairs pods nodeNames with
  | none => rfl
  | some prs =>
    simp only [Option.some_bind]
    cases h1 : ReservePods.checkNodes gr.NodeCache prs [] "" [] with
    | none => rfl
    | some r1 =>
      simp only [Option.some_bind]
      by_cases he1 : r1.2.1.length > 0
      · rw [if_pos he1, if_pos he1]; rfl
      · rw [if_neg he1, if_neg he1]
        cases h2 : ReservePods.checkPods gr.ResTypeToID gr.ResTypeMaxKind prs r1.1 r1.2.1
            r1.2.2 with
        | none => rfl
        | some r2 =>
          simp only [Option.some_bind]
          by_cases he2 : r2.2.1.length > 0
          · rw [if_pos he2, if_pos he2]; rfl
          · rw [if_neg he2, if_neg he2, commit_listers]
            cases ReservePods.commit prs gr <;> rfl

/-- C23: on a ledger with `NextResourceID = 0` (whose node map binds each name
once), `Reserve` gives the result, text and final ledger, of `CollectFromLister`
followed by `Reserve` on the ledger it leaves, and `ReservePods` gives the
result of `CollectFromLister` followed by `ReservePods`, whatever the listers
return; on a ledger with `NextResourceID` other than 0 the result of either
call is the same whatever the listers hold, and the listers are left as they
were. -/
theorem lazy_bootstrap (gr : GloalReserve) (pod : Pod) (nodeName : String) (pods : List Pod)
    (nodeNames : List String) (hnd : (gr.NodeCache.map Prod.fst).Nodup) :
    (gr.NextResourceID = 0 →
      Reserve gr pod nodeName =
        (CollectFromLister gr).bind (fun r => Reserve r.2 pod nodeName) ∧
      ReservePods gr pods nodeNames =
        (CollectFromLister gr).bind (fun r => ReservePods r.2 pods nodeNames)) ∧
    (gr.NextResourceID ≠ 0 → ∀ nl pl,
      Reserve { gr with NodeLister := nl, PodLister := pl } pod nodeName =
        (Reserve gr pod nodeName).map
          (fun r => (r.1, { r.2 with NodeLister := nl, PodLister := pl })) ∧
      ReservePods { gr with NodeLister := nl, PodLister := pl } pods nodeNames =
        (ReservePods gr pods nodeNames).map
          (fun r => (r.1, { r.2 with NodeLister := nl, PodLister := pl }))) := by
  refine ⟨fun h0 => ?_, fun h nl pl =>
    ⟨Reserve_listers gr pod nodeName h nl pl, ReservePods_listers gr pods nodeNames h nl pl⟩⟩
  have hl : lazyCollect gr = (CollectFromLister gr).map Prod.snd := by
    unfold lazyCollect; rw [if_pos h0]
  cases hc : CollectFromLister gr with
  | none =>
    constructor
    · unfold Reserve; rw [hl, hc]; rfl
    · unfold ReservePods; rw [hl, hc]; rfl
  | some r =>
    have hl1 : lazyCollect gr = some r.2 := by rw [hl, hc]; rfl
    have hl2 := lazyCollect_again gr r.2 h0 hnd hl1
    constructor
    · simp only [Option.some_bind]
      unfold Reserve
      rw [hl1, hl2]
    · simp only [Option.some_bind]
      unfold ReservePods
      rw [hl1, hl2]

theorem lazy_bootstrap_witness :
    (testLedgerEmpty.NodeCache.map Prod.fst).Nodup ∧
    CollectFromLister testLedgerEmpty = some (false, testLedger) ∧
    Reserve testLedgerEmpty testPod0 "node0" = some ("", testLedgerPod0) ∧
    Reserve testLedger testPod0 "node0" = some ("", testLedgerPod0) ∧
    (CollectFromLister testLedgerBare).map (fun r => r.2.NextResourceID) = some 0 ∧
    (Reserve testLedgerBare testPod0 "node1").map Prod.fst = some "NodeName does not exist" ∧
    (testLedgerEmpty.NextResourceID = 0 →
      Reserve testLedgerEmpty testPod0 "node0" =
        (CollectFromLister testLedgerEmpty).bind (fun r => Reserve r.2 testPod0 "node0") ∧
      ReservePods testLedgerEmpty [testPod0, testPod1] ["node0", "node0"] =
        (CollectFromLister testLedgerEmpty).bind
          (fun r => ReservePods r.2 [testPod0, testPod1] ["node0", "node0"])) ∧
    (testLedgerEmpty.NextResourceID ≠ 0 → ∀ nl pl,
      Reserve { testLedgerEmpty with NodeLister := nl, PodLister := pl } testPod0 "node0" =
        (Reserve testLedgerEmpty testPod0 "node0").map
          (fun r => (r.1, { r.2 with NodeLister := nl, PodLister := pl })) ∧
      ReservePods { testLedgerEmpty with NodeLister := nl, PodLister := pl }
          [testPod0, testPod1] ["node0", "node0"] =
        (ReservePods testLedgerEmpty [testPod0, testPod1] ["node0", "node0"]).map
          (fun r => (r.1, { r.2 with NodeLister := nl, PodLister := pl }))) :=
  ⟨by decide, by decide, by decide, by decide, by decide, by decide,
    lazy_bootstrap testLedgerEmpty testPod0 "node0" [testPod0, testPod1] ["node0", "node0"]
      (by decide)⟩

/-! ## The lock of the ledger -/

theorem guardedFrom_touches (ts : List Touch) (rest : List Access) :
    guardedFrom true (ts.map Access.touch ++ rest) = guardedFrom true rest := by
  induction ts with
  | nil => rfl
  | cons t ts ih => simp [guardedFrom, ih]

theorem guardedFrom_locked (ts : List Touch) (rest : List Access) :
    guardedFrom false (locked ts ++ rest) = guardedFrom false rest := by
  have e : locked ts ++ rest =
      Access.lock :: (ts.map Access.touch ++ (Access.unlock :: rest)) := by
    simp [locked]
  rw [e]
  simp only [guardedFrom, Bool.not_false, Bool.true_and]
  rw [guardedFrom_touches]
  simp [guardedFrom]

theorem guarded_locked (ts : List Touch) : guarded (locked ts) = true := by
  have := guardedFrom_locked ts []
  simp only [List.append_nil] at this
  unfold guarded
  rw [this]
  rfl

theorem guarded_touch_first (t : Touch) (rest : List Access) :
    guarded (Access.touch t :: rest) = false := rfl

theorem guarded_UnreservePods (pods : List Pod) (nodeNames : List String) (gr : GloalReserve) :
    guarded (UnreservePods.trace gr pods nodeNames) = true := by
  induction pods generalizing gr nodeNames with
  | nil => rfl
  | cons pod rest ih =>
    cases nodeNames with
    | nil => rfl
    | cons nodeName ns =>
      unfold UnreservePods.trace guarded Unreserve.trace
      rw [guardedFrom_locked]
      cases Unreserve gr pod nodeName with
      | none => rfl
      | some gr1 => exact ih ns gr1

/-- Two operations that make every access under the lock cannot interleave: in
every run, every access to a field is made by the holder of the lock. -/
theorem guarded_exclusive (sched : List Bool) (t1 t2 : List Access) (holder : Option Bool)
    (run : List (Bool × Access))
    (h1 : guardedFrom (decide (holder = some false)) t1 = true)
    (h2 : guardedFrom (decide (holder = some true)) t2 = true)
    (h : interleave sched t1 t2 holder = some run) : exclusive holder run = true := by
  induction sched generalizing t1 t2 holder run with
  | nil =>
    simp only [interleave, Option.some.injEq] at h
    rw [← h]; rfl
  | cons th sched ih =>
    cases th with
    | false =>
      cases t1 with
      | nil => simp [interleave] at h
      | cons a t1 =>
        simp only [interleave, Option.bind_eq_some, Option.map_eq_some'] at h
        obtain ⟨holder1, hstep, run1, hrun, heq⟩ := h
        subst heq
        cases a with
        | lock =>
          cases holder with
          | some x => simp [stepHolder] at hstep
          | none =>
            simp only [stepHolder, Option.some.injEq] at hstep
            subst hstep
            simp only [guardedFrom, Bool.and_eq_true] at h1
            simp only [exclusive]
            exact ih t1 t2 (some false) run1 (by simpa using h1.2) (by simpa using h2) hrun
        | unlock =>
          simp only [stepHolder] at hstep
          split at hstep
          · rename_i hh
            simp only [Option.some.injEq] at hstep
            subst hstep
            subst hh
            simp only [guardedFrom, Bool.and_eq_true] at h1
            simp only [exclusive]
            exact ih t1 t2 none run1 (by simpa using h1.2) (by simpa using h2) hrun
          · simp at hstep
        | touch t =>
          simp only [stepHolder, Option.some.injEq] at hstep
          subst hstep
          simp only [guardedFrom, Bool.and_eq_true, decide_eq_true_eq] at h1
          simp only [exclusive, Bool.and_eq_true, decide_eq_true_eq]
          exact ⟨h1.1, ih t1 t2 holder run1 h1.2 h2 hrun⟩
    | true =>
      cases t2 with
      | nil => cases t1 <;> simp [interleave] at h
      | cons a t2 =>
        have h' : (stepHolder true a holder).bind (fun holder1 =>
            (interleave sched t1 t2 holder1).map (fun run => (true, a) :: run)) = some run := by
          cases t1 <;> simpa [interleave] using h
        simp only [Option.bind_eq_some, Option.map_eq_some'] at h'
        obtain ⟨holder1, hstep, run1, hrun, heq⟩ := h'
        subst heq
        cases a with
        | lock =>
          cases holder with
          | some x => simp [stepHolder] at hstep
          | none =>
            simp only [stepHolder, Option.some.injEq] at hstep
            subst hstep
            simp only [guardedFrom, Bool.and_eq_true] at h2
            simp only [exclusive]
            exact ih t1 t2 (some true) run1 (by simpa using h1) (by simpa using h2.2) hrun
        | unlock =>
          simp only [stepHolder] at hstep
          split at hstep
          · rename_i hh
            simp only [Option.some.injEq] at hstep
            subst hstep
            subst hh
            simp only [guardedFrom, Bool.and_eq_true] at h2
            simp only [exclusive]
            exact ih t1 t2 none run1 (by simpa using h1) (by simpa using h2.2) hrun
          · simp at hstep
        | touch t =>
          simp only [stepHolder, Option.some.injEq] at hstep
          subst hstep
          simp only [guardedFrom, Bool.and_eq_true, decide_eq_true_eq] at h2
          simp only [exclusive, Bool.and_eq_true, decide_eq_true_eq]
          exact ⟨h2.1, ih t1 t2 holder run1 h1 h2.2 hrun⟩

/-- C26 (the code at the failing input): `Reserve`, `Unreserve`, `ReservePods`,
`UnreservePods` and the handlers `DeleteNode` and `UpdatePod` make every access
to the ledger under the lock, for every ledger and argument; the handlers
`AddNode` and `AddPod` read `NextResourceID`, and `AddNode` the node map, before
they take the lock, and the handler `DeletePod` deletes from the reverse index
before it takes the lock, for every ledger and argument.  On the ledger that
tracks `pod0` on `node0`, the pod-delete event of `pod0` run side by side with
`Reserve(pod1, node0)` can write the reverse index after the check of `Reserve`
and before its commit, while `Reserve` holds the lock. -/
theorem DeletePod_writes_without_lock :
    (∀ gr pod nodeName, guarded (Reserve.trace gr pod nodeName) = true) ∧
    (∀ gr pod nodeName, guarded (Unreserve.trace gr pod nodeName) = true) ∧
    (∀ gr pods nodeNames, guarded (ReservePods.trace gr pods nodeNames) = true) ∧
    (∀ gr pods nodeNames, guarded (UnreservePods.trace gr pods nodeNames) = true) ∧
    (∀ gr node, guarded (GloalReserve.DeleteNode.trace gr node) = true) ∧
    (∀ gr newPod, guarded (GloalReserve.UpdatePod.trace gr newPod) = true) ∧
    (∀ gr node, guarded (GloalReserve.AddNode.trace gr node) = false) ∧
    (∀ gr pod, guarded (GloalReserve.AddPod.trace gr pod) = false) ∧
    (∀ gr pod, guarded (GloalReserve.DeletePod.trace gr pod) = false) ∧
    GloalReserve.DeletePod.trace testLedgerPod0 testPod0 =
      [Access.touch (Touch.write Field.PodToNode), Access.lock,
       Access.touch (Touch.read Field.NodeCache), Access.touch (Touch.read Field.NodeCache),
       Access.touch (Touch.write Field.NodeCache), Access.touch (Touch.read Field.NodeCache),
       Access.unlock] ∧
    Reserve.trace testLedgerPod0 testPod1 "node0" =
      [Access.lock, Access.touch (Touch.read Field.NextResourceID),
       Access.touch (Touch.read Field.NodeCache), Access.touch (Touch.read Field.ResTypeToID),
       Access.touch (Touch.read Field.NodeCache), Access.touch (Touch.read Field.ResTypeToID),
       Access.touch (Touch.write Field.NodeCache), Access.touch (Touch.read Field.NodeCache),
       Access.touch (Touch.write Field.PodToNode), Access.unlock] ∧
    (interleave
        (List.replicate 5 false ++ [true] ++ List.replicate 5 false ++ List.replicate 6 true)
        (Reserve.trace testLedgerPod0 testPod1 "node0")
        (GloalReserve.DeletePod.trace testLedgerPod0 testPod0) none).map
      (fun run => (run.length, run[5]?, exclusive none run)) =
      some (17, some (true, Access.touch (Touch.write Field.PodToNode)), false) := by
  refine ⟨fun _ _ _ => guarded_locked _, fun _ _ _ => guarded_locked _,
    fun _ _ _ => guarded_locked _, fun gr pods nodeNames => guarded_UnreservePods pods nodeNames gr,
    fun _ _ => guarded_locked _, ?_, fun _ _ => rfl, fun _ _ => rfl, fun _ _ => rfl,
    by decide, by decide, by decide⟩
  intro gr newPod
  unfold GloalReserve.UpdatePod.trace
  split
  · exact guarded_locked _
  · rfl

/-! ## The pod-update and pod-delete events -/

/-- C33 (evaluation). The ledger that tracks `pod0` on `node0`, with `node0` and
`node1` cached, is reached from the test ledger by a node-add event and a
reservation and is in lock-step.  The pod-update event for `pod0` assigned to
`node1` removes the entry from `node0` and inserts a fresh entry on `node1`,
but the reverse index still maps the UID to `node0`: the two structures are no
longer in lock-step. -/
theorem UpdatePod_move_keeps_reverse_index :
    runEvents testLedger [Event.addNode GetNode1, Event.reserve testPod0 "node0"] =
      some testLedgerMove ∧
    LockStepCheck testLedgerMove ∧
    mapGet testLedgerMove.PodToNode testPod0Moved.UID = some "node0" ∧
    mapHas testLedgerMove.NodeCache "node0" = true ∧
    mapHas testLedgerMove.NodeCache testPod0Moved.NodeName = true ∧
    (testLedgerMove.UpdatePod (some testPod0) testPod0Moved).map
        (fun gr => (podEntryAt gr "node0" "NS1-pod0", podEntryAt gr "node1" "NS1-pod0",
          mapGet gr.PodToNode "NS1-pod0")) =
      some (none, some (NewPodInfo.result testPod0Moved [1000, 1000, 1, 0, 0, 0]),
        some "node0") ∧
    (testLedgerMove.UpdatePod (some testPod0) testPod0Moved).map
        (fun gr => decide (LockStepCheck gr)) = some false := by
  refine ⟨by decide, by decide, by decide, by decide, by decide, by decide, by decide⟩

/-- C34 (evaluation). With `node0` and `node1` cached and `pod3` reserved on
`node0`, the reverse index records `node0` for the pod and `node0` tracks it.
The pod-delete event for `pod3`, whose object names `node1`, deletes the
reverse-index entry without reading it and looks for the pod on `node1`: the
entry on `node0`, the recorded node, stays, with no reverse-index entry left to
find it, and keeps consuming the resources of `node0`.  When the object names
the recorded node (the only pod of `node0` in the test ledger), the entry is
removed. -/
theorem DeletePod_leaves_recorded_entry :
    (runEvents testLedgerTwoNodes [Event.reserve testPod3 "node0"]).map
        (fun gr => (mapGet gr.PodToNode "NS1-pod3", podOn gr "NS1-pod3" "node0",
          mapHas gr.NodeCache "node0", AvailableOf gr "node0")) =
      some (some "node0", true, true, some [1900, 4500, 9, 0, 0, 0]) ∧
    (runEvents testLedgerTwoNodes
          [Event.reserve testPod3 "node0", Event.deletePod testPod3]).map
        (fun gr => (mapGet gr.PodToNode "NS1-pod3", podOn gr "NS1-pod3" "node0",
          mapHas gr.NodeCache "node0", AvailableOf gr "node0")) =
      some (none, true, true, some [1900, 4500, 9, 0, 0, 0]) ∧
    testLedgerPod0.DeletePod testPod0 = some testLedger ∧
    ((InitGR [GetNode0] [testPod0] true).bind (fun gr => gr.DeletePod testPod0)).map
      (fun gr => (gr.NodeCache.map (fun e => e.2.Pods.length), gr.PodToNode,
        gr.NextResourceID)) = some ([0], [], 3) := by
  refine ⟨by decide, by decide, by decide, by decide⟩

/-- C35 (evaluation). From the empty ledger, bootstrap and the pod-update event
of `pod3`, assigned to the node `node1` that is not cached, run to the end and
leave `node1` recorded for the pod in the reverse index.  The next pod-update
event of the same pod, now assigned to `node0`, reads the ledger of `node1`
through the missing map entry and faults: the run has no result. -/
theorem UpdatePod_uncached_recorded_node_faults :
    runEvents testLedgerEmpty [Event.collect, Event.updatePod none testPod3] =
      some { testLedger with PodToNode := [("NS1-pod3", "node1")] } ∧
    mapGet testLedger.NodeCache "node1" = none ∧
    GloalReserve.UpdatePod.locate { testLedger with PodToNode := [("NS1-pod3", "node1")] }
      testPod3Moved = none ∧
    GloalReserve.UpdatePod { testLedger with PodToNode := [("NS1-pod3", "node1")] }
      (some testPod3) testPod3Moved = none ∧
    runEvents testLedgerEmpty
      [Event.collect, Event.updatePod none testPod3,
       Event.updatePod (some testPod3) testPod3Moved] = none := by
  refine ⟨by decide, by decide, by decide, by decide, by decide⟩

/-! ## The error text and the failed list of `ReservePods` -/

theorem string_length_zero (s : String) (h : ¬ s.length > 0) : s = "" := by
  cases s with
  | mk d =>
    have h0 : d.length = 0 := by
      have : (String.mk d).length = d.length := rfl
      omega
    have : d = [] := List.length_eq_zero.mp h0
    subst this
    rfl

theorem string_length_pos (s : String) (h : s.length > 0) : s ≠ "" := by
  intro he
  subst he
  exact absurd h (by decide)

theorem checkNodes_agree (cache : GoMap NodeResInfo) (prs : List (Pod × String)) :
    ∀ (failed : List String) (err : String) (host : GoMap resVector)
      (r : List String × String × GoMap resVector),
      (err = "" ↔ failed = []) →
      ReservePods.checkNodes cache prs failed err host = some r →
      (r.2.1 = "" ↔ r.1 = []) := by
  induction prs with
  | nil =>
    intro failed err host r hinv h
    unfold ReservePods.checkNodes at h
    cases h
    exact hinv
  | cons e rest ih =>
    obtain ⟨p, nodeName⟩ := e
    intro failed err host r hinv h
    unfold ReservePods.checkNodes at h
    cases hn : mapGet cache nodeName with
    | none =>
      rw [hn] at h
      simp only at h
      refine ih _ _ _ r ?_ h
      constructor
      · intro h1
        have h2 : "Node does not exist" = "" := h1
        exact absurd h2 (by decide)
      · intro h1
        simp at h1
    | some nodeInfo =>
      rw [hn] at h
      simp only at h
      by_cases hh : mapHas host nodeName = true
      · rw [if_pos hh] at h
        exact ih _ _ _ r hinv h
      · rw [if_neg hh] at h
        cases ha : GetAvailable nodeInfo with
        | none => rw [ha] at h; cases h
        | some avail =>
          rw [ha] at h
          exact ih _ _ _ r hinv h

theorem checkPods_agree (resIDMap : GoMap Nat) (maxKind : Nat) (prs : List (Pod × String)) :
    ∀ (failed : List String) (err : String) (host : GoMap resVector)
      (r : List String × String × GoMap resVector),
      (err = "" ↔ failed = []) →
      ReservePods.checkPods resIDMap maxKind prs failed err host = some r →
      (r.2.1 = "" ↔ r.1 = []) := by
  induction prs with
  | nil =>
    intro failed err host r hinv h
    unfold ReservePods.checkPods at h
    cases h
    exact hinv
  | cons e rest ih =>
    obtain ⟨p, nodeName⟩ := e
    intro failed err host r hinv h
    unfold ReservePods.checkPods at h
    cases hq : GetPodReq p resIDMap (List.replicate maxKind 0) with
    | none => rw [hq] at h; cases h
    | some podReq =>
      rw [hq] at h
      simp only [Option.some_bind] at h
      by_cases hc : VectorCompare ((mapGet host nodeName).getD []) podReq = true
      · rw [if_pos hc] at h
        cases hm : VectorMinus ((mapGet host nodeName).getD []) podReq with
        | none => rw [hm] at h; cases h
        | some avail1 =>
          rw [hm] at h
          exact ih _ _ _ r hinv h
      · rw [if_neg hc] at h
        refine ih _ _ _ r ?_ h
        constructor
        · intro h1
          have h2 : "Node does not have enough resource" = "" := h1
          exact absurd h2 (by decide)
        · intro h1
          simp at h1

/-- Whenever `ReservePods` returns, on any ledger and for any two lists, the
error text is empty exactly when the failed list is empty. -/
theorem ReservePods_agree (gr : GloalReserve) (pods : List Pod) (nodeNames : List String)
    (r : PodReserveResult × GloalReserve) (h : ReservePods gr pods nodeNames = some r) :
    r.1.Error = "" ↔ r.1.FailedPods = [] := by
  unfold ReservePods at h
  cases hl : lazyCollect gr with
  | none => rw [hl] at h; cases h
  | some g =>
    rw [hl] at h
    simp only [Option.some_bind] at h
    cases hp : ReservePods.pairs pods nodeNames with
    | none => rw [hp] at h; cases h
    | some prs =>
      rw [hp] at h
      simp only [Option.some_bind] at h
      cases h1 : ReservePods.checkNodes g.NodeCache prs [] "" [] with
      | none => rw [h1] at h; cases h
      | some r1 =>
        rw [h1] at h
        simp only [Option.some_bind] at h
        have a1 := checkNodes_agree g.NodeCache prs [] "" [] r1 (by simp) h1
        by_cases hlen : r1.2.1.length > 0
        · rw [if_pos hlen] at h
          cases h
          exact a1
        · rw [if_neg hlen] at h
          cases h2 : ReservePods.checkPods g.ResTypeToID g.ResTypeMaxKind prs r1.1 r1.2.1
              r1.2.2 with
          | none => rw [h2] at h; cases h
          | some r2 =>
            rw [h2] at h
            simp only [Option.some_bind] at h
            have a2 := checkPods_agree g.ResTypeToID g.ResTypeMaxKind prs r1.1 r1.2.1 r1.2.2
              r2 a1 h2
            by_cases hlen2 : r2.2.1.length > 0
            · rw [if_pos hlen2] at h
              cases h
              exact a2
            · rw [if_neg hlen2] at h
              have he := string_length_zero _ hlen2
              cases hc : ReservePods.commit prs g with
              | none => rw [hc] at h; cases h
              | some g1 =>
                rw [hc] at h
                cases h
                show "" = "" ↔ r2.1 = []
                rw [he] at a2
                exact a2

theorem commit_recorded (prs : List (Pod × String)) :
    ∀ (gr gr1 : GloalReserve), ReservePods.commit prs gr = some gr1 →
      (∀ uid, mapHas gr.PodToNode uid = true → mapHas gr1.PodToNode uid = true) ∧
      (∀ e ∈ prs, mapHas gr1.PodToNode e.1.UID = true) := by
  induction prs with
  | nil =>
    intro gr gr1 h
    unfold ReservePods.commit at h
    cases h
    exact ⟨fun _ h => h, fun e he => absurd he (List.not_mem_nil _)⟩
  | cons e rest ih =>
    obtain ⟨p, nodeName⟩ := e
    intro gr gr1 h
    unfold ReservePods.commit at h
    cases hn : mapGet gr.NodeCache nodeName with
    | none => rw [hn] at h; cases h
    | some nodeInfo =>
      rw [hn] at h
      simp only at h
      cases ha : AddPodToCache nodeInfo p gr.ResTypeToID with
      | none => rw [ha] at h; cases h
      | some nodeInfo1 =>
        rw [ha] at h
        simp only [Option.some_bind] at h
        obtain ⟨ih1, ih2⟩ := ih _ gr1 h
        have hset : ∀ uid, (mapHas gr.PodToNode uid = true ∨ uid = p.UID) →
            mapHas gr1.PodToNode uid = true := by
          intro uid hu
          apply ih1
          show mapHas (mapSet gr.PodToNode p.UID nodeName) uid = true
          rw [mapHas_mapSet]
          rcases hu with hu | hu
          · rw [hu]; simp
          · simp [hu]
        refine ⟨fun uid hu => hset uid (Or.inl hu), ?_⟩
        intro e he
        rcases List.mem_cons.mp he with he | he
        · subst he
          exact hset _ (Or.inr rfl)
        · exact ih2 e he


theorem commit_tracks (prs : List (Pod × String)) :
    ∀ (gr gr1 : GloalReserve), WellFormed gr →
      (∀ e ∈ prs, mapHas gr.NodeCache e.2 = true) →
      ReservePods.commit prs gr = some gr1 →
      ∀ e ∈ prs, podOn gr1 e.1.UID e.2 = true := by
  induction prs with
  | nil =>
    intro gr gr1 _ _ _ e he
    exact absurd he (List.not_mem_nil _)
  | cons e0 rest ih =>
    obtain ⟨p, nodeName⟩ := e0
    intro gr gr1 hwf hcached h e he
    have h0 := h
    unfold ReservePods.commit at h
    cases hn : mapGet gr.NodeCache nodeName with
    | none => rw [hn] at h; simp only at h; cases h
    | some nodeInfo =>
      rw [hn] at h
      simp only at h
      have hnwf := WellFormed_node gr hwf _ nodeInfo hn
      obtain ⟨req, -, -, -, hadd, hwf1⟩ :=
        AddPodToCache_ok gr.ResTypeMaxKind hwf.1 gr.ResTypeToID hwf.2.1 nodeInfo hnwf p
      rw [hadd] at h
      simp only [Option.some_bind] at h
      have hwfg : WellFormed { gr with
          NodeCache := mapSet gr.NodeCache nodeName
            { nodeInfo with Pods := mapSet nodeInfo.Pods p.UID (NewPodInfo.result p req) }
          PodToNode := mapSet gr.PodToNode p.UID nodeName } :=
        WellFormed_update gr hwf nodeName _ hwf1 _ (keys_mapSet_nodup _ _ _ hwf.2.2.2.1)
      have hcached1 : ∀ e ∈ rest, mapHas (mapSet gr.NodeCache nodeName
          { nodeInfo with Pods := mapSet nodeInfo.Pods p.UID (NewPodInfo.result p req) })
          e.2 = true := by
        intro e he
        rw [mapHas_mapSet, hcached e (List.mem_cons_of_mem _ he)]
        simp
      rcases List.mem_cons.mp he with he | he
      · subst he
        obtain ⟨nr1, hg1, hh1⟩ := (commit_frame rest _ gr1 hwfg hcached1 h).2 nodeName
          { nodeInfo with Pods := mapSet nodeInfo.Pods p.UID (NewPodInfo.result p req) } p.UID
          (mapGet_mapSet_self _ _ _)
          (by
            show mapHas (mapSet nodeInfo.Pods p.UID _) p.UID = true
            rw [mapHas_mapSet]; simp)
        unfold podOn
        rw [hg1]
        exact hh1
      · exact ih _ gr1 hwfg hcached1 h e he

/-- C36 (counterexample). On the empty ledger whose lister returns `node0`, a
batch that fails because `node1` is not cached still leaves the ledger
bootstrapped, and the empty batch does the same; on the ledger that tracks
`pod0` on `node0`, the batch that reserves `pod0` on `node0` again has an
empty error and leaves the ledger as it was. -/
theorem ReservePods_mutation_counterexample :
    ReservePods testLedgerEmpty [testPod3] ["node1"] =
      some ({ FailedPods := ["pod3"], Error := "Node does not exist" }, testLedger) ∧
    ReservePods testLedgerEmpty [] [] = some ({ FailedPods := [], Error := "" }, testLedger) ∧
    testLedger ≠ testLedgerEmpty ∧
    ReservePods testLedgerPod0 [testPod0] ["node0"] =
      some ({ FailedPods := [], Error := "" }, testLedgerPod0) := by
  refine ⟨by decide, by decide, by decide, by decide⟩

/-- C36 (amended). Whenever `ReservePods` returns, on any ledger and for any
two lists, its `Error` is empty exactly when its `FailedPods` is empty.  On a
bootstrapped ledger and for lists of equal length it returns; with a non-empty
`Error`, or with an empty batch, the ledger is the one before the call, so a
changed ledger means an empty `Error` and a non-empty batch; with an empty
`Error` the ledger is the one built by committing every pair, every pod of the
batch is tracked on its node and recorded in the reverse index, and the ledger
differs from the one before the call whenever some pod of the batch was not
recorded in the reverse index. -/
theorem ReservePods_error_agrees (gr : GloalReserve) (pods : List Pod)
    (nodeNames : List String) :
    (∀ r, ReservePods gr pods nodeNames = some r → (r.1.Error = "" ↔ r.1.FailedPods = [])) ∧
    (Bootstrapped gr → pods.length = nodeNames.length →
      ∃ res gr1, ReservePods gr pods nodeNames = some (res, gr1) ∧
        (res.Error = "" ↔ res.FailedPods = []) ∧
        (res.Error ≠ "" → gr1 = gr) ∧
        (pods = [] → gr1 = gr ∧ res.Error = "") ∧
        (gr1 ≠ gr → res.Error = "" ∧ pods ≠ []) ∧
        (res.Error = "" →
          ReservePods.commit (List.zip pods nodeNames) gr = some gr1 ∧
          ∀ e ∈ List.zip pods nodeNames,
            podOn gr1 e.1.UID e.2 = true ∧ mapHas gr1.PodToNode e.1.UID = true) ∧
        (res.Error = "" →
          (∃ e ∈ List.zip pods nodeNames, mapHas gr.PodToNode e.1.UID = false) →
          gr1 ≠ gr)) := by
  refine ⟨fun r h => ReservePods_agree gr pods nodeNames r h, fun hb hlen => ?_⟩
  rcases ReservePods_cases gr pods nodeNames hb hlen with
    ⟨hM1, hres⟩ | ⟨_, hS1, hres⟩ | ⟨hM, _, gr1, hcommit, hres⟩
  · have hne : ("Node does not exist" : String) ≠ "" := by decide
    refine ⟨_, _, hres, ReservePods_agree gr pods nodeNames _ hres, fun _ => rfl, ?_,
      fun h => absurd rfl h, fun he => absurd he hne, fun he => absurd he hne⟩
    intro hp
    subst hp
    exact absurd (by simp [missingNames]) hM1
  · have hne : ("Node does not have enough resource" : String) ≠ "" := by decide
    refine ⟨_, _, hres, ReservePods_agree gr pods nodeNames _ hres, fun _ => rfl, ?_,
      fun h => absurd rfl h, fun he => absurd he hne, fun he => absurd he hne⟩
    intro hp
    subst hp
    exact absurd (by simp [stagedFailures]) hS1
  · have hcached := (missingNames_eq_nil_iff _ _).mp hM
    have htr := commit_tracks _ gr gr1 hb.2 hcached hcommit
    have hrec := commit_recorded _ gr gr1 hcommit
    refine ⟨_, _, hres, ReservePods_agree gr pods nodeNames _ hres,
      fun h => absurd rfl h, ?_, ?_, fun _ => ⟨hcommit, fun e he => ⟨htr e he, hrec.2 e he⟩⟩,
      ?_⟩
    · intro hp
      subst hp
      refine ⟨?_, rfl⟩
      have hc : ReservePods.commit (List.zip [] nodeNames) gr = some gr := by
        simp [ReservePods.commit]
      rw [hc] at hcommit
      cases hcommit
      rfl
    · intro hne
      refine ⟨rfl, ?_⟩
      intro hp
      subst hp
      have hc : ReservePods.commit (List.zip [] nodeNames) gr = some gr := by
        simp [ReservePods.commit]
      rw [hc] at hcommit
      cases hcommit
      exact hne rfl
    · intro _ hex heq
      obtain ⟨e, he, hfalse⟩ := hex
      have := hrec.2 e he
      rw [heq, hfalse] at this
      cases this

theorem ReservePods_error_agrees_witness :
    Bootstrapped testLedger ∧ [testPod0, testPod1].length = ["node0", "node0"].length ∧
    (∃ res gr1, ReservePods testLedger [testPod0, testPod1] ["node0", "node0"] =
        some (res, gr1) ∧
      (res.Error = "" ↔ res.FailedPods = []) ∧
      (res.Error ≠ "" → gr1 = testLedger) ∧
      (gr1 ≠ testLedger → res.Error = "" ∧ [testPod0, testPod1] ≠ [])) ∧
    ReservePods testLedger [testPod0, testPod1] ["node0", "node0"] =
      some ({ FailedPods := [], Error := "" }, testLedgerBatch) ∧
    ReservePods testLedger [testPod0, testPod3] ["node0", "node1"] =
      some ({ FailedPods := ["pod3"], Error := "Node does not exist" }, testLedger) ∧
    ReservePods testLedger [testPod0, testPodBig] ["node0", "node0"] =
      some ({ FailedPods := ["pod1"], Error := "Node does not have enough resource" },
        testLedger) :=
  ⟨by decide, by decide,
    ((ReservePods_error_agrees testLedger [testPod0, testPod1] ["node0", "node0"]).2
      (by decide) (by decide)).imp
      (fun _ h => h.imp (fun _ h1 => ⟨h1.1, h1.2.1, h1.2.2.1, h1.2.2.2.2.1⟩)),
    by decide, by decide, by decide⟩

/-! ## Well-formedness of the registry and of the vectors is an invariant -/

theorem Kept_refl (gr : GloalReserve) : Kept gr gr :=
  ⟨rfl, rfl, rfl, rfl, rfl, fun h => h, fun h => h, fun _ h => h, fun h => h, fun h => h⟩

theorem Kept_trans (g1 g2 g3 : GloalReserve) (h12 : Kept g1 g2) (h23 : Kept g2 g3) :
    Kept g1 g3 := by
  obtain ⟨a1, a2, a3, a4, a5, a6, a7, a8, a9, a10⟩ := h12
  obtain ⟨b1, b2, b3, b4, b5, b6, b7, b8, b9, b10⟩ := h23
  exact ⟨b1.trans a1, b2.trans a2, b3.trans a3, b4.trans a4, b5.trans a5,
    fun h => b6 (a6 h), fun h => b7 (a7 h), fun n h => b8 n (a8 n h), fun h => b9 (a9 h),
    fun h => b10 (a10 h)⟩

/-- Replacing the ledger of a cached node by one that is well formed for every
length for which the old one is, and the reverse index by one with one binding
per key, keeps the shape. -/
theorem Kept_node (gr : GloalReserve) (k : String) (nr nr1 : NodeResInfo)
    (p2n : GoMap String) (hn : mapGet gr.NodeCache k = some nr)
    (h1 : ∀ n, NodeWF n nr → NodeWF n nr1)
    (hp : (gr.PodToNode.map Prod.fst).Nodup → (p2n.map Prod.fst).Nodup) :
    Kept gr { gr with NodeCache := mapSet gr.NodeCache k nr1, PodToNode := p2n } := by
  refine ⟨rfl, rfl, rfl, rfl, rfl, fun h => keys_mapSet_nodup _ _ _ h, hp, ?_, ?_, ?_⟩
  · intro n hall e he
    rcases mem_mapSet _ _ _ _ he with h2 | h2
    · rw [h2]
      exact h1 n (hall (k, nr) (mapGet_mem _ _ _ hn))
    · exact hall e h2.1
  · intro hnil
    rw [hnil] at hn
    cases hn
  · intro hall e he
    rcases mem_mapSet _ _ _ _ he with h2 | h2
    · rw [h2]
      have h3 := h1 nr.Capa.length (hall (k, nr) (mapGet_mem _ _ _ hn))
      show NodeWF nr1.Capa.length nr1
      rw [h3.1]
      exact h3
    · exact hall e h2.1

theorem Kept_index (gr : GloalReserve) (p2n : GoMap String)
    (hp : (gr.PodToNode.map Prod.fst).Nodup → (p2n.map Prod.fst).Nodup) :
    Kept gr { gr with PodToNode := p2n } :=
  ⟨rfl, rfl, rfl, rfl, rfl, fun h => h, hp, fun _ h => h, fun h => h, fun h => h⟩

theorem AddPodToCache_wf (nr nr1 : NodeResInfo) (pod : Pod) (resIDMap : GoMap Nat)
    (h : AddPodToCache nr pod resIDMap = some nr1) : ∀ n, NodeWF n nr → NodeWF n nr1 := by
  intro n hwf
  obtain ⟨req, hreq, heq, -⟩ := AddPodToCache_some nr nr1 pod resIDMap h
  rw [heq]
  refine NodeWF_mapSet n nr pod.UID _ hwf ?_
  have := GetPodReq_length pod resIDMap _ req hreq
  rw [List.length_replicate] at this
  show req.length = n
  rw [this]
  exact hwf.1

theorem UpdatePod_wf (nr nr1 : NodeResInfo) (pod : Pod)
    (h : UpdatePod nr pod = some nr1) : ∀ n, NodeWF n nr → NodeWF n nr1 := by
  intro n hwf
  unfold UpdatePod at h
  simp only [Option.map_eq_some'] at h
  obtain ⟨_, _, heq⟩ := h
  rw [← heq]
  cases hp : mapGet nr.Pods pod.UID with
  | none => exact hwf
  | some podInfo =>
    simp only
    exact NodeWF_mapSet n nr pod.UID _ hwf (hwf.2.1 (pod.UID, podInfo) (mapGet_mem _ _ _ hp))

theorem DeletePod_wf (nr nr1 : NodeResInfo) (pod : Pod)
    (h : DeletePod nr pod = some nr1) : ∀ n, NodeWF n nr → NodeWF n nr1 := by
  intro n hwf
  unfold DeletePod at h
  simp only [Option.map_eq_some'] at h
  obtain ⟨_, _, heq⟩ := h
  rw [← heq]
  split
  · exact NodeWF_mapDel n nr pod.UID hwf
  · exact hwf

theorem Reserve_kept (gr gr1 : GloalReserve) (pod : Pod) (nodeName : String) (ret : String)
    (h : Reserve gr pod nodeName = some (ret, gr1)) :
    ∃ gr0, lazyCollect gr = some gr0 ∧ Kept gr0 gr1 := by
  unfold Reserve at h
  cases hl : lazyCollect gr with
  | none => rw [hl] at h; simp at h
  | some gr0 =>
    refine ⟨gr0, rfl, ?_⟩
    rw [hl] at h
    simp only [Option.some_bind] at h
    cases hn : mapGet gr0.NodeCache nodeName with
    | none =>
      rw [hn] at h
      simp only [Option.some.injEq, Prod.mk.injEq] at h
      rw [← h.2]; exact Kept_refl _
    | some nodeInfo =>
      rw [hn] at h
      simp only at h
      cases hc : CheckPod nodeInfo pod gr0.ResTypeToID with
      | none => rw [hc] at h; simp at h
      | some b =>
        rw [hc] at h
        simp only [Option.some_bind] at h
        split at h
        · simp only [Option.map_eq_some'] at h
          obtain ⟨nr1, hadd, heq⟩ := h
          simp only [Prod.mk.injEq] at heq
          rw [← heq.2]
          exact Kept_node gr0 nodeName nodeInfo nr1 _ hn (AddPodToCache_wf _ _ _ _ hadd)
            (fun hp => keys_mapSet_nodup _ _ _ hp)
        · simp only [Option.some.injEq, Prod.mk.injEq] at h
          rw [← h.2]; exact Kept_refl _

theorem commit_kept (prs : List (Pod × String)) (gr gr1 : GloalReserve)
    (h : ReservePods.commit prs gr = some gr1) : Kept gr gr1 := by
  induction prs generalizing gr with
  | nil =>
    simp only [ReservePods.commit, Option.some.injEq] at h
    rw [← h]; exact Kept_refl _
  | cons e rest ih =>
    obtain ⟨p, nodeName⟩ := e
    unfold ReservePods.commit at h
    cases hn : mapGet gr.NodeCache nodeName with
    | none => rw [hn] at h; simp at h
    | some nodeInfo =>
      rw [hn] at h
      simp only at h
      cases hadd : AddPodToCache nodeInfo p gr.ResTypeToID with
      | none => rw [hadd] at h; simp at h
      | some nr =>
        rw [hadd] at h
        simp only [Option.some_bind] at h
        exact Kept_trans _ _ _
          (Kept_node gr nodeName nodeInfo nr _ hn (AddPodToCache_wf _ _ _ _ hadd)
            (fun hp => keys_mapSet_nodup _ _ _ hp))
          (ih _ h)

theorem ReservePods_kept (gr gr1 : GloalReserve) (pods : List Pod)
    (nodeNames : List String) (res : PodReserveResult)
    (h : ReservePods gr pods nodeNames = some (res, gr1)) :
    ∃ gr0, lazyCollect gr = some gr0 ∧ Kept gr0 gr1 := by
  unfold ReservePods at h
  cases hl : lazyCollect gr with
  | none => rw [hl] at h; simp at h
  | some gr0 =>
    refine ⟨gr0, rfl, ?_⟩
    rw [hl] at h
    simp only [Option.some_bind] at h
    cases hp : ReservePods.pairs pods nodeNames with
    | none => rw [hp] at h; simp at h
    | some prs =>
      rw [hp] at h
      simp only [Option.some_bind] at h
      cases h1 : ReservePods.checkNodes gr0.NodeCache prs [] "" [] with
      | none => rw [h1] at h; simp at h
      | some r1 =>
        rw [h1] at h
        simp only [Option.some_bind] at h
        split at h
        · simp only [Option.some.injEq, Prod.mk.injEq] at h
          rw [← h.2]; exact Kept_refl _
        · cases h2 : ReservePods.checkPods gr0.ResTypeToID gr0.ResTypeMaxKind prs r1.1 r1.2.1
              r1.2.2 with
          | none => rw [h2] at h; simp at h
          | some r2 =>
            rw [h2] at h
            simp only [Option.some_bind] at h
            split at h
            · simp only [Option.some.injEq, Prod.mk.injEq] at h
              rw [← h.2]; exact Kept_refl _
            · simp only [Option.map_eq_some'] at h
              obtain ⟨gr2, hgr2, heq⟩ := h
              simp only [Prod.mk.injEq] at heq
              rw [← heq.2]
              exact commit_kept prs gr0 gr2 hgr2

theorem Unreserve_kept (gr gr1 : GloalReserve) (pod : Pod) (nodeName : String)
    (h : Unreserve gr pod nodeName = some gr1) : Kept gr gr1 := by
  unfold Unreserve at h
  simp only at h
  cases hn : mapGet gr.NodeCache nodeName with
  | none =>
    rw [hn] at h
    rw [← Option.some.inj h]
    exact Kept_index gr _ (fun hp => keys_mapDel_nodup _ _ hp)
  | some nodeInfo =>
    rw [hn] at h
    simp only [Option.map_eq_some'] at h
    obtain ⟨nr1, hdel, heq⟩ := h
    rw [← heq]
    exact Kept_node gr nodeName nodeInfo nr1 _ hn (DeletePod_wf _ _ _ hdel)
      (fun hp => keys_mapDel_nodup _ _ hp)

theorem UnreservePods_kept (pods : List Pod) (nodeNames : List String)
    (gr gr1 : GloalReserve) (h : UnreservePods gr pods nodeNames = some gr1) :
    Kept gr gr1 := by
  induction pods generalizing gr nodeNames with
  | nil =>
    simp only [UnreservePods, Option.some.injEq] at h
    rw [← h]; exact Kept_refl _
  | cons pod rest ih =>
    cases nodeNames with
    | nil => simp [UnreservePods] at h
    | cons nodeName ns =>
      simp only [UnreservePods] at h
      cases hu : Unreserve gr pod nodeName with
      | none => rw [hu] at h; simp at h
      | some gr2 =>
        rw [hu] at h
        simp only [Option.some_bind] at h
        exact Kept_trans _ _ _ (Unreserve_kept gr gr2 pod nodeName hu) (ih ns gr2 h)

theorem AddPod_kept (gr gr1 : GloalReserve) (pod : Pod) (h : gr.AddPod pod = some gr1) :
    Kept gr gr1 := by
  unfold GloalReserve.AddPod at h
  split at h
  · rw [← Option.some.inj h]; exact Kept_refl _
  · split at h
    · cases hn : mapGet gr.NodeCache pod.NodeName with
      | none =>
        rw [hn] at h
        rw [← Option.some.inj h]; exact Kept_refl _
      | some nodeInfo =>
        rw [hn] at h
        simp only at h
        split at h
        · rw [← Option.some.inj h]; exact Kept_refl _
        · simp only [Option.map_eq_some'] at h
          obtain ⟨nr, hadd, heq⟩ := h
          rw [← heq]
          exact Kept_node gr pod.NodeName nodeInfo nr gr.PodToNode hn
            (AddPodToCache_wf _ _ _ _ hadd) (fun hp => hp)
    · rw [← Option.some.inj h]; exact Kept_refl _

theorem locate_kept (gr : GloalReserve) (newPod : Pod) (r : Bool × GloalReserve)
    (h : GloalReserve.UpdatePod.locate gr newPod = some r) : Kept gr r.2 := by
  unfold GloalReserve.UpdatePod.locate at h
  split at h
  · rw [← Option.some.inj h]
    exact Kept_index gr _ (fun hp => keys_mapSet_nodup _ _ _ hp)
  · split at h
    · rename_i oldHostName _ _
      cases hn : mapGet gr.NodeCache oldHostName with
      | none => rw [hn] at h; simp at h
      | some oldNode =>
        rw [hn] at h
        simp only at h
        rw [← Option.some.inj h]
        exact Kept_node gr oldHostName oldNode
          { oldNode with Pods := mapDel oldNode.Pods newPod.UID } gr.PodToNode hn
          (fun n hwf => NodeWF_mapDel n oldNode newPod.UID hwf) (fun hp => hp)
    · rw [← Option.some.inj h]; exact Kept_refl _

theorem UpdatePod_event_kept (gr gr1 : GloalReserve) (oldPod : Option Pod) (newPod : Pod)
    (h : gr.UpdatePod oldPod newPod = some gr1) : Kept gr gr1 := by
  unfold GloalReserve.UpdatePod at h
  split at h
  · cases hl : GloalReserve.UpdatePod.locate gr newPod with
    | none => rw [hl] at h; simp at h
    | some r =>
      rw [hl] at h
      simp only [Option.some_bind] at h
      have hr := locate_kept gr newPod r hl
      cases hn : mapGet r.2.NodeCache newPod.NodeName with
      | none =>
        rw [hn] at h
        rw [← Option.some.inj h]
        exact hr
      | some nodeCache =>
        rw [hn] at h
        simp only at h
        split at h
        · simp only [Option.map_eq_some'] at h
          obtain ⟨nr, hadd, heq⟩ := h
          rw [← heq]
          exact Kept_trans _ _ _ hr
            (Kept_node r.2 newPod.NodeName nodeCache nr r.2.PodToNode hn
              (AddPodToCache_wf _ _ _ _ hadd) (fun hp => hp))
        · simp only [Option.map_eq_some'] at h
          obtain ⟨nr, hupd, heq⟩ := h
          rw [← heq]
          exact Kept_trans _ _ _ hr
            (Kept_node r.2 newPod.NodeName nodeCache nr r.2.PodToNode hn
              (UpdatePod_wf _ _ _ hupd) (fun hp => hp))
  · rw [← Option.some.inj h]; exact Kept_refl _

theorem DeletePod_event_kept (gr gr1 : GloalReserve) (pod : Pod)
    (h : gr.DeletePod pod = some gr1) : Kept gr gr1 := by
  by_cases hlen : pod.NodeName.length > 0
  · rw [DeletePod_eq_Unreserve gr pod hlen] at h
    exact Unreserve_kept gr gr1 pod pod.NodeName h
  · unfold GloalReserve.DeletePod at h
    simp only [if_neg hlen] at h
    rw [← Option.some.inj h]
    exact Kept_index gr _ (fun hp => keys_mapDel_nodup _ _ hp)

theorem DeleteNode_kept (gr : GloalReserve) (node : Node) : Kept gr (gr.DeleteNode node) := by
  cases hn : mapGet gr.NodeCache node.Name with
  | none =>
    rw [DeleteNode_uncached gr node hn]
    exact Kept_refl _
  | some nodeInfo =>
    rw [DeleteNode_cached gr node nodeInfo hn]
    refine ⟨rfl, rfl, rfl, rfl, rfl, fun h => keys_mapDel_nodup _ _ h,
      fun h => dropPods_nodup _ _ h, ?_, ?_, ?_⟩
    · intro n hall e he
      exact hall e ((mem_mapDel _ _ _).mp he).1
    · intro hnil
      rw [hnil] at hn
      cases hn
    · intro hall e he
      exact hall e ((mem_mapDel _ _ _).mp he).1

theorem Sound_kept (gr gr1 : GloalReserve) (hs : Sound gr) (hk : Kept gr gr1) : Sound gr1 := by
  obtain ⟨s1, s2, s3, s4, s5, s6⟩ := hs
  obtain ⟨k1, k2, k3, k4, k5, k6, k7, k8, k9, _⟩ := hk
  refine ⟨?_, ?_, k6 s3, k7 s4, ?_, ?_⟩
  · rw [k1, k2]; exact s1
  · rw [k2, k3]; exact s2
  · rw [k3]; exact k8 _ s5
  · intro h0
    rw [k2] at h0
    rw [k3, k4]
    rcases s6 h0 with ⟨h1, h2⟩ | h1
    · exact Or.inl ⟨h1, k9 h2⟩
    · exact Or.inr h1

theorem addNode_registerTypes_le (maxKind : Nat) (rl : ResourceList) (st : GoMap Nat × Nat)
    (h : st.2 ≤ maxKind) : (GloalReserve.AddNode.registerTypes maxKind rl st).2 ≤ maxKind := by
  induction rl generalizing st with
  | nil => exact h
  | cons e rest ih =>
    obtain ⟨resName, q⟩ := e
    unfold GloalReserve.AddNode.registerTypes
    cases hh : mapHas st.1 resName
    · simp only [Bool.false_eq_true, if_false]
      by_cases hfull : st.2 ≥ maxKind
      · rw [if_pos hfull]
        exact ih st h
      · rw [if_neg hfull]
        exact ih _ (by simp only; omega)
    · simp only [if_true]
      exact ih st h

theorem collectNodes_wf (resIDMap : GoMap Nat) (n : Nat) (hpos : 0 < n)
    (hreg : ∀ e ∈ resIDMap, e.2 < n) (nodes : List Node) (cache : GoMap NodeResInfo)
    (hnd : (cache.map Prod.fst).Nodup) (hc : ∀ e ∈ cache, NodeWF n e.2) :
    ∃ cache1, CollectFromLister.collectNodes resIDMap n nodes cache = some cache1 ∧
      (cache1.map Prod.fst).Nodup ∧ ∀ e ∈ cache1, NodeWF n e.2 := by
  induction nodes generalizing cache with
  | nil => exact ⟨cache, rfl, hnd, hc⟩
  | cons node rest ih =>
    obtain ⟨nr, hnr, hnwf, _⟩ := NewNodeResInfo_ok node resIDMap n hpos hreg
    obtain ⟨cache1, h1, h2, h3⟩ := ih (mapSet cache node.Name nr)
      (keys_mapSet_nodup _ _ _ hnd) (fun e he => by
        rcases mem_mapSet _ _ _ _ he with h4 | h4
        · rw [h4]; exact hnwf
        · exact hc e h4.1)
    exact ⟨cache1, by simp [CollectFromLister.collectNodes, hnr, h1], h2, h3⟩

theorem collectPods_kept (pods : List Pod) (gr gr1 : GloalReserve)
    (h : CollectFromLister.collectPods pods gr = some gr1) : Kept gr gr1 := by
  induction pods generalizing gr with
  | nil =>
    simp only [CollectFromLister.collectPods, Option.some.injEq] at h
    rw [← h]; exact Kept_refl _
  | cons pod rest ih =>
    unfold CollectFromLister.collectPods at h
    split at h
    · cases hn : mapGet gr.NodeCache pod.NodeName with
      | none =>
        rw [hn] at h
        exact ih gr h
      | some podsOnHost =>
        rw [hn] at h
        simp only at h
        cases hadd : AddPodToCache podsOnHost pod gr.ResTypeToID with
        | none => rw [hadd] at h; simp at h
        | some nr =>
          rw [hadd] at h
          simp only [Option.some_bind] at h
          exact Kept_trans _ _ _
            (Kept_node gr pod.NodeName podsOnHost nr _ hn (AddPodToCache_wf _ _ _ _ hadd)
              (fun hp => keys_mapSet_nodup _ _ _ hp))
            (ih _ h)
    · exact ih gr h

/-- A sound ledger with a positive vector length is well formed. -/
theorem Sound_wf (gr : GloalReserve) (hs : Sound gr) (hpos : 0 < gr.ResTypeMaxKind) :
    WellFormed gr := by
  obtain ⟨s1, s2, s3, s4, s5, _⟩ := hs
  refine ⟨hpos, ?_, s3, s4, s5⟩
  intro e he
  have := RegistryDense_lt _ _ s1 e he
  omega

/-- A sound ledger whose vector length is zero caches no node. -/
theorem Sound_empty (gr : GloalReserve) (hs : Sound gr) (h0 : gr.ResTypeMaxKind = 0) :
    gr.NodeCache = [] := by
  obtain ⟨_, s2, _, _, _, s6⟩ := hs
  rcases s6 (by omega) with h1 | h1
  · exact h1.2
  · have := h1.1
    rw [h0] at this
    exact absurd this (by decide)

theorem Sound_new (nodeLister : Option (List Node)) (podLister : Option (List Pod)) :
    Sound (NewLocalReserve nodeLister podLister) := by
  refine ⟨⟨List.nodup_nil, rfl⟩, le_refl _, List.nodup_nil, List.nodup_nil, ?_, ?_⟩
  · intro e he
    cases he
  · intro _
    exact Or.inl ⟨rfl, rfl⟩

/-- Bootstrap of a sound ledger without registered resource type returns a
sound ledger. -/
theorem Sound_collect (gr : GloalReserve) (hs : Sound gr) (h0 : gr.NextResourceID = 0) :
    ∃ b g, CollectFromLister gr = some (b, g) ∧ Sound g := by
  have hs0 := hs
  obtain ⟨s1, s2, s3, s4, s5, s6⟩ := hs
  have hreg : gr.ResTypeToID = [] := by
    have h1 := s1.2
    rw [h0] at h1
    simpa using h1
  cases hnl : gr.NodeLister with
  | none =>
    refine ⟨true, gr, ?_, hs0⟩
    unfold CollectFromLister
    rw [hnl]
  | some nodes =>
    obtain ⟨st, hst⟩ : ∃ st, CollectFromLister.collectTypes nodes
        (gr.ResTypeToID, gr.NextResourceID) = st := ⟨_, rfl⟩
    have hd : RegistryDense st.1 st.2 := by
      rw [← hst]
      exact (collectTypes_dense nodes (gr.ResTypeToID, gr.NextResourceID) s1).1
    have hlt := RegistryDense_lt st.1 st.2 hd
    have hpos : 0 < st.2 + ResourceTypeBuffer := by unfold ResourceTypeBuffer; omega
    have hreg1 : ∀ e ∈ st.1, e.2 < st.2 + ResourceTypeBuffer := by
      intro e he
      have := hlt e he
      omega
    have hst0 : CollectFromLister.collectTypes nodes ([], 0) = st := by
      rw [← hst, hreg, h0]
    have hold : ∀ e ∈ gr.NodeCache, NodeWF (st.2 + ResourceTypeBuffer) e.2 := by
      rcases s6 h0 with ⟨_, hnil⟩ | ⟨hmk, hfix⟩
      · rw [hnil]
        intro e he
        cases he
      · have h2 := hfix nodes hnl
        rw [hst0] at h2
        rw [h2]
        simp only [Nat.zero_add]
        rw [← hmk]
        exact s5
    obtain ⟨cache1, hc1, hnd1, hwf1⟩ :=
      collectNodes_wf st.1 _ hpos hreg1 nodes gr.NodeCache s3 hold
    have hs1 : Sound { gr with
        ResTypeToID := st.1
        NextResourceID := st.2
        ResTypeMaxKind := st.2 + ResourceTypeBuffer
        NodeCache := cache1 } := by
      refine ⟨hd, Nat.le_add_right _ _, hnd1, s4, hwf1, ?_⟩
      intro hz
      refine Or.inr ⟨?_, ?_⟩
      · show st.2 + ResourceTypeBuffer = ResourceTypeBuffer
        have hz1 : st.2 = 0 := hz
        rw [hz1, Nat.zero_add]
      · intro nodes1 hn1
        have hn2 : gr.NodeLister = some nodes1 := hn1
        rw [hnl] at hn2
        cases hn2
        have hz1 : st.2 = 0 := hz
        have hm := (collectTypes_mono nodes ([], 0)).2
        exact hm (by rw [hst0]; exact hz1)
    cases hpl : gr.PodLister with
    | none =>
      refine ⟨true, _, ?_, hs1⟩
      unfold CollectFromLister
      rw [hnl]
      simp only [hst, hc1, Option.some_bind, hpl]
    | some pods =>
      obtain ⟨g2, hg2, -⟩ := collectPods_frame pods _ (Sound_wf _ hs1 hpos)
      refine ⟨false, g2, ?_, Sound_kept _ _ hs1 (collectPods_kept pods _ g2 hg2)⟩
      have hg3 := hg2
      rw [hnl, hpl] at hg3
      unfold CollectFromLister
      rw [hnl]
      simp only [hst, hc1, Option.some_bind, hpl, hg3, Option.map_some']

/-- The lazy bootstrap of a sound ledger returns a sound ledger on which the
lazy bootstrap changes nothing. -/
theorem Sound_lazy (gr : GloalReserve) (hs : Sound gr) :
    ∃ g, lazyCollect gr = some g ∧ Sound g ∧ lazyCollect g = some g := by
  by_cases h0 : gr.NextResourceID = 0
  · obtain ⟨b, g, hc, hg⟩ := Sound_collect gr hs h0
    have hl : lazyCollect gr = some g := by
      unfold lazyCollect
      rw [if_pos h0, hc]
      rfl
    exact ⟨g, hl, hg, lazyCollect_again gr g h0 hs.2.2.1 hl⟩
  · have hl := lazyCollect_of_bootstrapped gr h0
    exact ⟨gr, hl, hs, hl⟩

theorem Sound_AddNode (gr gr1 : GloalReserve) (node : Node) (hs : Sound gr)
    (h : gr.AddNode node = some gr1) : Sound gr1 := by
  have hs0 := hs
  obtain ⟨s1, s2, s3, s4, s5, s6⟩ := hs
  unfold GloalReserve.AddNode at h
  split at h
  · rw [← Option.some.inj h]; exact hs0
  · rename_i hnext
    split at h
    · rw [← Option.some.inj h]; exact hs0
    · simp only [Option.map_eq_some'] at h
      obtain ⟨nr, hnr, heq⟩ := h
      rw [← heq]
      have hpos : 0 < gr.ResTypeMaxKind := by omega
      have hreg : ∀ e ∈ gr.ResTypeToID, e.2 < gr.ResTypeMaxKind := by
        intro e he
        have := RegistryDense_lt _ _ s1 e he
        omega
      have hinv := addNode_registerTypes_inv gr.ResTypeMaxKind node.Allocatable
        (gr.ResTypeToID, gr.NextResourceID) hreg
      obtain ⟨nr2, hnr2, hwf2, _⟩ := NewNodeResInfo_ok node
        (GloalReserve.AddNode.registerTypes gr.ResTypeMaxKind node.Allocatable
          (gr.ResTypeToID, gr.NextResourceID)).1 gr.ResTypeMaxKind hpos hinv.1
      rw [hnr2] at hnr
      cases hnr
      refine ⟨addNode_registerTypes_dense _ _ _ s1,
        addNode_registerTypes_le _ _ _ s2, keys_mapSet_nodup _ _ _ s3, s4, ?_, ?_⟩
      · intro e he
        rcases mem_mapSet _ _ _ _ he with h2 | h2
        · rw [h2]; exact hwf2
        · exact s5 e h2.1
      · intro hz
        have hz1 : (GloalReserve.AddNode.registerTypes gr.ResTypeMaxKind node.Allocatable
          (gr.ResTypeToID, gr.NextResourceID)).2 = 0 := hz
        have := hinv.2
        simp only at this
        omega

/-- The node-add event returns on every sound ledger. -/
theorem AddNode_total (gr : GloalReserve) (node : Node) (hs : Sound gr) :
    ∃ gr1, gr.AddNode node = some gr1 := by
  obtain ⟨s1, s2, s3, s4, s5, s6⟩ := hs
  unfold GloalReserve.AddNode
  by_cases hnext : gr.NextResourceID = 0
  · rw [if_pos hnext]; exact ⟨_, rfl⟩
  · rw [if_neg hnext]
    by_cases hc : mapHas gr.NodeCache node.Name = true
    · rw [if_pos hc]; exact ⟨_, rfl⟩
    · rw [if_neg hc]
      have hpos : 0 < gr.ResTypeMaxKind := by omega
      have hreg : ∀ e ∈ gr.ResTypeToID, e.2 < gr.ResTypeMaxKind := by
        intro e he
        have := RegistryDense_lt _ _ s1 e he
        omega
      have hinv := addNode_registerTypes_inv gr.ResTypeMaxKind node.Allocatable
        (gr.ResTypeToID, gr.NextResourceID) hreg
      obtain ⟨nr2, hnr2, -⟩ := NewNodeResInfo_ok node
        (GloalReserve.AddNode.registerTypes gr.ResTypeMaxKind node.Allocatable
          (gr.ResTypeToID, gr.NextResourceID)).1 gr.ResTypeMaxKind hpos hinv.1
      simp only [hnr2, Option.map_some']
      exact ⟨_, rfl⟩

theorem Sound_step (gr gr1 : GloalReserve) (ev : Event) (hs : Sound gr)
    (hp : ev.permitted gr) (h : applyEvent gr ev = some gr1) : Sound gr1 := by
  cases ev with
  | collect =>
    have h0 : gr.NextResourceID = 0 := hp
    obtain ⟨b, g, hc, hg⟩ := Sound_collect gr hs h0
    simp only [applyEvent, hc, Option.map_some', Option.some.injEq] at h
    rw [← h]; exact hg
  | addNode node => exact Sound_AddNode gr gr1 node hs h
  | updateNode oldNode newNode =>
    simp only [applyEvent, GloalReserve.UpdateNode, Option.some.injEq] at h
    rw [← h]; exact hs
  | deleteNode node =>
    simp only [applyEvent, Option.some.injEq] at h
    rw [← h]; exact Sound_kept _ _ hs (DeleteNode_kept gr node)
  | addPod pod => exact Sound_kept _ _ hs (AddPod_kept gr gr1 pod h)
  | updatePod oldPod newPod =>
    exact Sound_kept _ _ hs (UpdatePod_event_kept gr gr1 oldPod newPod h)
  | deletePod pod => exact Sound_kept _ _ hs (DeletePod_event_kept gr gr1 pod h)
  | reserve pod nodeName =>
    simp only [applyEvent, Option.map_eq_some'] at h
    obtain ⟨r, hr, heq⟩ := h
    obtain ⟨g0, hl, hk⟩ := Reserve_kept gr r.2 pod nodeName r.1 hr
    obtain ⟨g, hl1, hg, _⟩ := Sound_lazy gr hs
    rw [hl] at hl1
    cases hl1
    rw [← heq]
    exact Sound_kept _ _ hg hk
  | reservePods pods nodeNames =>
    simp only [applyEvent, Option.map_eq_some'] at h
    obtain ⟨r, hr, heq⟩ := h
    obtain ⟨g0, hl, hk⟩ := ReservePods_kept gr r.2 pods nodeNames r.1 hr
    obtain ⟨g, hl1, hg, _⟩ := Sound_lazy gr hs
    rw [hl] at hl1
    cases hl1
    rw [← heq]
    exact Sound_kept _ _ hg hk
  | unreserve pod nodeName => exact Sound_kept _ _ hs (Unreserve_kept gr gr1 pod nodeName h)
  | unreservePods pods nodeNames =>
    exact Sound_kept _ _ hs (UnreservePods_kept pods nodeNames gr gr1 h)

theorem Sound_run (evs : List Event) (gr gr1 : GloalReserve) (hs : Sound gr)
    (hp : permittedRun gr evs) (h : runEvents gr evs = some gr1) : Sound gr1 := by
  induction evs generalizing gr with
  | nil =>
    simp only [runEvents, Option.some.injEq] at h
    rw [← h]; exact hs
  | cons ev rest ih =>
    unfold runEvents at h
    unfold permittedRun at hp
    cases ha : applyEvent gr ev with
    | none => rw [ha] at h; simp at h
    | some g =>
      rw [ha] at h hp
      simp only [Option.some_bind] at h
      exact ih g (Sound_step gr g ev hs hp.1 ha) hp.2 h

/-- The single reservation returns on every sound ledger. -/
theorem Reserve_total (gr : GloalReserve) (hs : Sound gr) (pod : Pod) (nodeName : String) :
    ∃ r, Reserve gr pod nodeName = some r := by
  obtain ⟨g, hl, hg, _⟩ := Sound_lazy gr hs
  unfold Reserve
  rw [hl]
  simp only [Option.some_bind]
  cases hn : mapGet g.NodeCache nodeName with
  | none => exact ⟨_, rfl⟩
  | some nr =>
    simp only
    have hpos : 0 < g.ResTypeMaxKind := by
      by_contra hz
      have := Sound_empty g hg (by omega)
      rw [this] at hn
      cases hn
    have hwf := Sound_wf g hg hpos
    have hnwf := WellFormed_node g hwf _ nr hn
    obtain ⟨a, req, _, _, _, _, hc⟩ :=
      CheckPod_ok g.ResTypeMaxKind hpos g.ResTypeToID hwf.2.1 nr hnwf pod
    obtain ⟨req2, _, _, _, hadd, _⟩ :=
      AddPodToCache_ok g.ResTypeMaxKind hpos g.ResTypeToID hwf.2.1 nr hnwf pod
    rw [hc]
    simp only [Option.some_bind, hadd, Option.map_some']
    split <;> exact ⟨_, rfl⟩

/-- The batch reservation returns on every sound ledger when there is a node
name for every pod. -/
theorem ReservePods_total (gr : GloalReserve) (hs : Sound gr) (pods : List Pod)
    (nodeNames : List String) (hlen : pods.length = nodeNames.length) :
    ∃ r, ReservePods gr pods nodeNames = some r := by
  obtain ⟨g, hl, hg, _⟩ := Sound_lazy gr hs
  have hpairs : ReservePods.pairs pods nodeNames = some (List.zip pods nodeNames) := by
    simp [ReservePods.pairs, hlen]
  have hE1 : 0 < "Node does not exist".length := by decide
  have hE2 : 0 < "Node does not have enough resource".length := by decide
  obtain ⟨host1, hres1, hinv1, hhas1, _⟩ :=
    checkNodes_spec g.ResTypeMaxKind g.NodeCache hg.2.2.2.2.1 (List.zip pods nodeNames) [] "" []
      (fun m a hm => by simp [mapGet] at hm)
  apply Option.isSome_iff_exists.mp
  by_cases hM : missingNames g.NodeCache (List.zip pods nodeNames) = []
  · rw [hM] at hres1
    by_cases hnil : List.zip pods nodeNames = []
    · rw [hnil] at hres1
      simp [ReservePods, hl, hpairs, hnil, hres1, ReservePods.checkPods, ReservePods.commit]
    · have hcached := (missingNames_eq_nil_iff _ _).mp hM
      have hpos : 0 < g.ResTypeMaxKind := by
        by_contra hz
        have hc := Sound_empty g hg (by omega)
        obtain ⟨e, he⟩ := List.exists_mem_of_ne_nil _ hnil
        have := hcached e he
        rw [hc] at this
        simp [mapHas, mapGet] at this
      have hwf := Sound_wf g hg hpos
      have hstaged : ∀ e ∈ List.zip pods nodeNames,
          mapGet host1 e.2 = some (availableAt g e.2) ∧
            (availableAt g e.2).length = g.ResTypeMaxKind := by
        intro e he
        have hc := hcached e he
        obtain ⟨a, ha⟩ := (mapHas_eq_true_iff _ _).mp (hhas1 e he hc)
        have hav := hinv1 e.2 a ha
        obtain ⟨nr, hnr⟩ := (mapHas_eq_true_iff _ _).mp hc
        obtain ⟨a1, ha1, ha1len, _⟩ :=
          GetAvailable_ok _ nr (WellFormed_node g hwf e.2 nr hnr)
        have heq : availableAt g e.2 = a := by
          simp [availableAt, AvailableOf, hav]
        rw [heq]
        refine ⟨ha, ?_⟩
        rw [hnr] at hav
        simp only [Option.some_bind] at hav
        rw [ha1] at hav
        rw [← Option.some.inj hav]
        exact ha1len
      obtain ⟨host2, hres2⟩ :=
        checkPods_spec g.ResTypeMaxKind hwf.1 g.ResTypeToID hwf.2.1 (List.zip pods nodeNames)
          [] "" host1 (availableAt g) hstaged
      have henc : (fun p => (GetPodReq p g.ResTypeToID
          (List.replicate g.ResTypeMaxKind 0)).getD []) = encode g := rfl
      rw [henc] at hres2
      by_cases hF : stagedFailures (encode g) (availableAt g) (List.zip pods nodeNames) = []
      · obtain ⟨gr1, hcommit, _⟩ := commit_ok (List.zip pods nodeNames) g hwf hcached
        rw [hF] at hres2
        simp [ReservePods, hl, hpairs, hres1, hres2, hcommit]
      · simp [ReservePods, hl, hpairs, hres1, hres2, hF, hE2]
  · simp [ReservePods, hl, hpairs, hres1, hM, hE1]

/-- On a sound ledger, for every cached node and every pod, the reads and
writes of a reservation check stay inside the vectors: `GetAvailable` and the
encoding of the pod return vectors of length `ResTypeMaxKind`, and the
comparison and the subtraction of the two return. -/
theorem Sound_vectors (gr : GloalReserve) (hs : Sound gr) (e : String × NodeResInfo)
    (he : e ∈ gr.NodeCache) (pod : Pod) :
    ∃ a req d, GetAvailable e.2 = some a ∧
      GetPodReq pod gr.ResTypeToID (List.replicate gr.ResTypeMaxKind 0) = some req ∧
      a.length = gr.ResTypeMaxKind ∧ req.length = gr.ResTypeMaxKind ∧
      VectorCompare.checked a req = some (VectorCompare a req) ∧
      VectorMinus a req = some d := by
  have hpos : 0 < gr.ResTypeMaxKind := by
    by_contra hz
    have := Sound_empty gr hs (by omega)
    rw [this] at he
    cases he
  have hwf := Sound_wf gr hs hpos
  obtain ⟨a, req, ha, halen, hreq, hreqlen, _⟩ :=
    CheckPod_ok gr.ResTypeMaxKind hpos gr.ResTypeToID hwf.2.1 e.2 (hs.2.2.2.2.1 e he) pod
  obtain ⟨d, hd, _⟩ := VectorMinus_ok a req (by omega)
  exact ⟨a, req, d, ha, hreq, halen, hreqlen, VectorCompare_checked a req, hd⟩

/-- When the listers return the same content at every bootstrap of the run,
well-formedness of the registry and of the vectors is an invariant: in every
ledger reached from the ledger of `NewLocalReserve` by a run of bootstrap
(explicit only while no resource type is registered, else lazy), node and pod
events, `Reserve`, `ReservePods`, `Unreserve` and `UnreservePods`, the registry
maps distinct names one-to-one onto `0 .. NextResourceID-1`, `NextResourceID`
is at most `ResTypeMaxKind`, and the capacity of every cached node and the
vector of every tracked pod have length `ResTypeMaxKind`; consequently, for
every pod, whatever names it requests, `Reserve` returns, `ReservePods` returns
for lists of equal length, the node-add event returns, and for every cached
node `GetAvailable`, the encoding of the pod, `VectorCompare` and `VectorMinus`
return. -/
theorem wellformedness_invariant (nodeLister : Option (List Node))
    (podLister : Option (List Pod)) (evs : List Event) (gr : GloalReserve)
    (hp : permittedRun (NewLocalReserve nodeLister podLister) evs)
    (hr : runEvents (NewLocalReserve nodeLister podLister) evs = some gr) :
    RegistryDense gr.ResTypeToID gr.NextResourceID ∧
    gr.NextResourceID ≤ gr.ResTypeMaxKind ∧
    (∀ e ∈ gr.NodeCache, e.2.Capa.length = gr.ResTypeMaxKind ∧
      ∀ pe ∈ e.2.Pods, pe.2.Resources.length = gr.ResTypeMaxKind) ∧
    (∀ pod nodeName, ∃ r, Reserve gr pod nodeName = some r) ∧
    (∀ pods nodeNames, pods.length = nodeNames.length →
      ∃ r, ReservePods gr pods nodeNames = some r) ∧
    (∀ node, ∃ gr1, gr.AddNode node = some gr1) ∧
    (∀ e ∈ gr.NodeCache, ∀ pod, ∃ a req d, GetAvailable e.2 = some a ∧
      GetPodReq pod gr.ResTypeToID (List.replicate gr.ResTypeMaxKind 0) = some req ∧
      a.length = gr.ResTypeMaxKind ∧ req.length = gr.ResTypeMaxKind ∧
      VectorCompare.checked a req = some (VectorCompare a req) ∧
      VectorMinus a req = some d) := by
  have hs := Sound_run evs _ gr (Sound_new nodeLister podLister) hp hr
  refine ⟨hs.1, hs.2.1, fun e he => ⟨(hs.2.2.2.2.1 e he).1, (hs.2.2.2.2.1 e he).2.1⟩,
    fun pod nodeName => Reserve_total gr hs pod nodeName,
    fun pods nodeNames hlen => ReservePods_total gr hs pods nodeNames hlen,
    fun node => AddNode_total gr node hs,
    fun e he pod => Sound_vectors gr hs e he pod⟩


theorem wellformedness_invariant_witness :
    permittedRun (NewLocalReserve (some [GetNode0]) (some [testPod0])) testRun ∧
    runEvents (NewLocalReserve (some [GetNode0]) (some [testPod0])) testRun =
      some testLedgerRun ∧
    RegistryDense testLedgerRun.ResTypeToID testLedgerRun.NextResourceID ∧
    testLedgerRun.NextResourceID ≤ testLedgerRun.ResTypeMaxKind ∧
    (∀ e ∈ testLedgerRun.NodeCache, e.2.Capa.length = testLedgerRun.ResTypeMaxKind ∧
      ∀ pe ∈ e.2.Pods, pe.2.Resources.length = testLedgerRun.ResTypeMaxKind) ∧
    (∃ r, Reserve testLedgerRun testPodExt "node1" = some r) ∧
    (∃ r, ReservePods testLedgerRun [testPodExt, testPod0] ["node1", "node1"] = some r) ∧
    (runEvents (NewLocalReserve (some [GetNode0]) (some [testPod0]))
        [Event.reserve testPodExt "node0"]).map
      (fun gr => (gr.ResTypeToID, gr.NextResourceID, gr.ResTypeMaxKind,
        podEntryAt gr "node0" "NS1-pod9")) =
      some ([(ResourceCPU, 0), (ResourceMemory, 1), (ResourcePods, 2)], 3, 6,
        some (NewPodInfo.result testPodExt [1, 0, 1, 0, 0, 0])) :=
  ⟨by decide, by decide,
    (wellformedness_invariant (some [GetNode0]) (some [testPod0]) testRun testLedgerRun
      (by decide) (by decide)).1,
    (wellformedness_invariant (some [GetNode0]) (some [testPod0]) testRun testLedgerRun
      (by decide) (by decide)).2.1,
    (wellformedness_invariant (some [GetNode0]) (some [testPod0]) testRun testLedgerRun
      (by decide) (by decide)).2.2.1,
    (wellformedness_invariant (some [GetNode0]) (some [testPod0]) testRun testLedgerRun
      (by decide) (by decide)).2.2.2.1 testPodExt "node1",
    (wellformedness_invariant (some [GetNode0]) (some [testPod0]) testRun testLedgerRun
      (by decide) (by decide)).2.2.2.2.1 [testPodExt, testPod0] ["node1", "node1"] rfl,
    by decide⟩

/-! ## The shape of the node ledgers is kept by every operation -/

theorem NewNodeResInfo_shaped (node : Node) (resIDMap : GoMap Nat) (n : Nat)
    (nr : NodeResInfo) (h : NewNodeResInfo node resIDMap n = some nr) : NodeShaped nr := by
  unfold NewNodeResInfo at h
  simp only [Option.map_eq_some'] at h
  obtain ⟨r, _, heq⟩ := h
  rw [← heq]
  refine ⟨rfl, ?_, List.nodup_nil⟩
  intro e he
  cases he

theorem collectNodes_shaped (resIDMap : GoMap Nat) (n : Nat) (nodes : List Node)
    (cache cache1 : GoMap NodeResInfo) (hc : ∀ e ∈ cache, NodeShaped e.2)
    (h : CollectFromLister.collectNodes resIDMap n nodes cache = some cache1) :
    ∀ e ∈ cache1, NodeShaped e.2 := by
  induction nodes generalizing cache with
  | nil =>
    simp only [CollectFromLister.collectNodes, Option.some.injEq] at h
    rw [← h]; exact hc
  | cons node rest ih =>
    unfold CollectFromLister.collectNodes at h
    cases hnr : NewNodeResInfo node resIDMap n with
    | none => rw [hnr] at h; simp at h
    | some nr =>
      rw [hnr] at h
      simp only [Option.some_bind] at h
      refine ih _ ?_ h
      intro e he
      rcases mem_mapSet _ _ _ _ he with h1 | h1
      · rw [h1]; exact NewNodeResInfo_shaped node resIDMap n nr hnr
      · exact hc e h1.1

/-- Bootstrap keeps the shape of the node ledgers, on every ledger and whatever
the listers return. -/
theorem Shaped_collect (gr g : GloalReserve) (b : Bool) (hs : Shaped gr)
    (h : CollectFromLister gr = some (b, g)) : Shaped g := by
  unfold CollectFromLister at h
  cases hnl : gr.NodeLister with
  | none =>
    rw [hnl] at h
    simp only [Option.some.injEq, Prod.mk.injEq] at h
    rw [← h.2]; exact hs
  | some nodes =>
    rw [hnl] at h
    simp only at h
    cases hc : CollectFromLister.collectNodes
        (CollectFromLister.collectTypes nodes (gr.ResTypeToID, gr.NextResourceID)).1
        ((CollectFromLister.collectTypes nodes (gr.ResTypeToID, gr.NextResourceID)).2 +
          ResourceTypeBuffer) nodes gr.NodeCache with
    | none => rw [hc] at h; simp at h
    | some cache1 =>
      rw [hc] at h
      simp only [Option.some_bind] at h
      have hs1 := collectNodes_shaped _ _ nodes gr.NodeCache cache1 hs hc
      cases hpl : gr.PodLister with
      | none =>
        rw [hpl] at h
        simp only [Option.some.injEq, Prod.mk.injEq] at h
        rw [← h.2]; exact hs1
      | some pods =>
        rw [hpl] at h
        simp only [Option.map_eq_some'] at h
        obtain ⟨g2, hg2, heq⟩ := h
        simp only [Prod.mk.injEq] at heq
        rw [← heq.2]
        exact (collectPods_kept pods _ g2 hg2).2.2.2.2.2.2.2.2.2 hs1

theorem Shaped_lazy (gr g : GloalReserve) (hs : Shaped gr) (h : lazyCollect gr = some g) :
    Shaped g := by
  unfold lazyCollect at h
  split at h
  · simp only [Option.map_eq_some'] at h
    obtain ⟨r, hr, heq⟩ := h
    rw [← heq]
    exact Shaped_collect gr r.2 r.1 hs hr
  · rw [← Option.some.inj h]; exact hs

theorem Shaped_AddNode (gr gr1 : GloalReserve) (node : Node) (hs : Shaped gr)
    (h : gr.AddNode node = some gr1) : Shaped gr1 := by
  unfold GloalReserve.AddNode at h
  split at h
  · rw [← Option.some.inj h]; exact hs
  · split at h
    · rw [← Option.some.inj h]; exact hs
    · simp only [Option.map_eq_some'] at h
      obtain ⟨nr, hnr, heq⟩ := h
      rw [← heq]
      intro e he
      rcases mem_mapSet _ _ _ _ he with h1 | h1
      · rw [h1]; exact NewNodeResInfo_shaped _ _ _ nr hnr
      · exact hs e h1.1

/-- Every operation that returns keeps the shape of the node ledgers. -/
theorem Shaped_step (gr gr1 : GloalReserve) (ev : Event) (hs : Shaped gr)
    (h : applyEvent gr ev = some gr1) : Shaped gr1 := by
  cases ev with
  | collect =>
    simp only [applyEvent, Option.map_eq_some'] at h
    obtain ⟨r, hr, heq⟩ := h
    rw [← heq]
    exact Shaped_collect gr r.2 r.1 hs hr
  | addNode node => exact Shaped_AddNode gr gr1 node hs h
  | updateNode oldNode newNode =>
    simp only [applyEvent, GloalReserve.UpdateNode, Option.some.injEq] at h
    rw [← h]; exact hs
  | deleteNode node =>
    simp only [applyEvent, Option.some.injEq] at h
    rw [← h]; exact (DeleteNode_kept gr node).2.2.2.2.2.2.2.2.2 hs
  | addPod pod => exact (AddPod_kept gr gr1 pod h).2.2.2.2.2.2.2.2.2 hs
  | updatePod oldPod newPod =>
    exact (UpdatePod_event_kept gr gr1 oldPod newPod h).2.2.2.2.2.2.2.2.2 hs
  | deletePod pod => exact (DeletePod_event_kept gr gr1 pod h).2.2.2.2.2.2.2.2.2 hs
  | reserve pod nodeName =>
    simp only [applyEvent, Option.map_eq_some'] at h
    obtain ⟨r, hr, heq⟩ := h
    obtain ⟨g0, hl, hk⟩ := Reserve_kept gr r.2 pod nodeName r.1 hr
    rw [← heq]
    exact hk.2.2.2.2.2.2.2.2.2 (Shaped_lazy gr g0 hs hl)
  | reservePods pods nodeNames =>
    simp only [applyEvent, Option.map_eq_some'] at h
    obtain ⟨r, hr, heq⟩ := h
    obtain ⟨g0, hl, hk⟩ := ReservePods_kept gr r.2 pods nodeNames r.1 hr
    rw [← heq]
    exact hk.2.2.2.2.2.2.2.2.2 (Shaped_lazy gr g0 hs hl)
  | unreserve pod nodeName =>
    exact (Unreserve_kept gr gr1 pod nodeName h).2.2.2.2.2.2.2.2.2 hs
  | unreservePods pods nodeNames =>
    exact (UnreservePods_kept pods nodeNames gr gr1 h).2.2.2.2.2.2.2.2.2 hs

/-- In every ledger reached from the ledger of `NewLocalReserve` by a run of
operations, whatever the listers return at each of them, every cached node
ledger has the shape `NodeShaped`. -/
theorem Shaped_live (steps : List ((Option (List Node) × Option (List Pod)) × Event))
    (gr gr1 : GloalReserve) (hs : Shaped gr) (h : runLive gr steps = some gr1) :
    Shaped gr1 := by
  induction steps generalizing gr with
  | nil =>
    simp only [runLive, Option.some.injEq] at h
    rw [← h]; exact hs
  | cons st rest ih =>
    obtain ⟨l, ev⟩ := st
    unfold runLive at h
    cases ha : applyEvent (relist gr l.1 l.2) ev with
    | none => rw [ha] at h; simp at h
    | some g =>
      rw [ha] at h
      simp only [Option.some_bind] at h
      exact ih g (Shaped_step (relist gr l.1 l.2) g ev hs ha) h

theorem Shaped_new (nodeLister : Option (List Node)) (podLister : Option (List Pod)) :
    Shaped (NewLocalReserve nodeLister podLister) := by
  intro e he
  cases he

/-- C37 (evaluation). The first reservation bootstraps the empty ledger from a
lister that returns a node without allocatable resources: no resource type is
registered, `NextResourceID` stays 0, `ResTypeMaxKind` is 3 and the node is
cached with vectors of length 3.  The second reservation finds `NextResourceID`
at 0 and bootstraps again, now from a lister that returns `node1` with four
resource types: `ResTypeMaxKind` becomes 7 while the first node keeps its
vectors of length 3.  A reservation on that node of a pod that requests the
fourth type then writes index 3 of a vector of length 3 and faults. -/
theorem rebootstrap_mixes_vector_lengths :
    (runLive (NewLocalReserve (some [testNodeBare]) (some [])) (testRunLive.take 1)).map
        (fun gr => (gr.NextResourceID, gr.ResTypeMaxKind, capaOf gr "nodeA")) =
      some (0, 3, some [0, 0, 0]) ∧
    runLive (NewLocalReserve (some [testNodeBare]) (some [])) testRunLive =
      some testLedgerLive ∧
    testLedgerLive.ResTypeMaxKind = 7 ∧
    (capaOf testLedgerLive "nodeA").map List.length = some 3 ∧
    mapGet testLedgerLive.ResTypeToID "ExtendedResType0" = some 3 ∧
    Reserve testLedgerLive testPodType0 "nodeA" = none ∧
    runLive (NewLocalReserve (some [testNodeBare]) (some []))
      (testRunLive ++ [((some [GetNode1], some []), Event.reserve testPodType0 "nodeA")]) =
      none := by
  refine ⟨by decide, by decide, by decide, by decide, by decide, by decide, by decide⟩

/-! ## Walks in a given order: the fixed order as a special case -/

theorem GetPodReq_walk (pod : Pod) (resIDMap : GoMap Nat) (resVec : resVector) :
    GetPodReq.walk (podRequests pod) resIDMap resVec = GetPodReq pod resIDMap resVec := rfl

theorem CheckPod_walk (nr : NodeResInfo) (pod : Pod) (resIDMap : GoMap Nat) :
    CheckPod.walk nr (podRequests pod) resIDMap = CheckPod nr pod resIDMap := rfl

theorem AddPodToCache_walk (nr : NodeResInfo) (pod : Pod) (resIDMap : GoMap Nat) :
    AddPodToCache.walk nr pod (podRequests pod) resIDMap = AddPodToCache nr pod resIDMap := rfl

/-- With the walk of `podRequests` for the check and for the insertion,
`Reserve.walk` is `Reserve`. -/
theorem Reserve_walk (gr : GloalReserve) (pod : Pod) (nodeName : String) :
    Reserve.walk gr pod nodeName (podRequests pod) (podRequests pod) =
      Reserve gr pod nodeName := rfl

theorem checkPods_walk (resIDMap : GoMap Nat) (maxKind : Nat) (prs : List (Pod × String))
    (failed : List String) (err : String) (host : GoMap resVector) :
    ReservePods.checkPods.walk resIDMap maxKind
        (List.zip prs (prs.map (fun e => podRequests e.1))) failed err host =
      ReservePods.checkPods resIDMap maxKind prs failed err host := by
  induction prs generalizing failed err host with
  | nil => rfl
  | cons e rest ih =>
    obtain ⟨p, nodeName⟩ := e
    show ReservePods.checkPods.walk resIDMap maxKind
        (((p, nodeName), podRequests p) :: List.zip rest (rest.map (fun e => podRequests e.1)))
        failed err host = _
    rw [ReservePods.checkPods.walk, ReservePods.checkPods]
    simp only [GetPodReq_walk, ih]

theorem commit_walk (prs : List (Pod × String)) (gr : GloalReserve) :
    ReservePods.commit.walk (List.zip prs (prs.map (fun e => podRequests e.1))) gr =
      ReservePods.commit prs gr := by
  induction prs generalizing gr with
  | nil => rfl
  | cons e rest ih =>
    obtain ⟨p, nodeName⟩ := e
    show ReservePods.commit.walk
        (((p, nodeName), podRequests p) :: List.zip rest (rest.map (fun e => podRequests e.1)))
        gr = _
    rw [ReservePods.commit.walk, ReservePods.commit]
    simp only [AddPodToCache_walk, ih]

/-- With the walk of `podRequests` for every pod in both loops,
`ReservePods.walk` is `ReservePods`. -/
theorem ReservePods_walk (gr : GloalReserve) (pods : List Pod) (nodeNames : List String)
    (hlen : pods.length = nodeNames.length) :
    ReservePods.walk gr pods nodeNames (pods.map podRequests) (pods.map podRequests) =
      ReservePods gr pods nodeNames := by
  have hmap : (List.zip pods nodeNames).map (fun e => podRequests e.1) =
      pods.map podRequests := by
    have h1 : (List.zip pods nodeNames).map (fun e => podRequests e.1) =
        ((List.zip pods nodeNames).map Prod.fst).map podRequests := by
      rw [List.map_map]; rfl
    rw [h1, List.map_fst_zip _ _ (by omega)]
  have hpairs : ReservePods.pairs pods nodeNames = some (List.zip pods nodeNames) := by
    simp [ReservePods.pairs, hlen]
  unfold ReservePods.walk ReservePods
  rw [hpairs]
  simp only [Option.some_bind]
  rw [← hmap]
  simp only [checkPods_walk, commit_walk]


/-- C7 (evaluation). On the bootstrapped ledger that tracks `pod0` on `node0`,
with every Available slot and every tracked vector non-negative, a pod asks for
2 cpu and 5 units of a name that is not registered.  The walk of the check
visits cpu first and ends with 5 in slot 0, which fits the 1000 milli-cpu that
are available; the walk of the insertion visits cpu last and stores 2000:
`Reserve` returns the empty string and leaves `node0` with -1000 milli-cpu
available.  Apart from the walk order: a pod that asks for `2^63 - 1` cpu is
encoded with -1000 in the cpu slot and admitted, a pod of 3000 milli-cpu is then
admitted on a node of 2000, and after the first is unreserved `node0` has -1000
milli-cpu available. -/
theorem Reserve_overcommits :
    (Bootstrapped testLedgerPod0 ∧ AvailableNonneg testLedgerPod0 ∧
      TrackedNonneg testLedgerPod0 ∧ ∀ e ∈ podRequests testPodTwo, 0 ≤ e.2.nano) ∧
    AvailableOf testLedgerPod0 "node0" = some [1000, 4000, 9, 0, 0, 0] ∧
    List.Perm [("example.com/foo", NewQuantity 5), (ResourceCPU, NewQuantity 2)]
      (podRequests testPodTwo) ∧
    GetPodReq.walk (podRequests testPodTwo) testLedgerPod0.ResTypeToID (List.replicate 6 0) =
      some [5, 0, 1, 0, 0, 0] ∧
    GetPodReq.walk [("example.com/foo", NewQuantity 5), (ResourceCPU, NewQuantity 2)]
      testLedgerPod0.ResTypeToID (List.replicate 6 0) = some [2000, 0, 1, 0, 0, 0] ∧
    (Reserve.walk testLedgerPod0 testPodTwo "node0" (podRequests testPodTwo)
        [("example.com/foo", NewQuantity 5), (ResourceCPU, NewQuantity 2)]).map
      (fun r => (r.1, AvailableOf r.2 "node0", decide (AvailableNonneg r.2))) =
      some ("", some [-1000, 4000, 8, 0, 0, 0], false) ∧
    (Bootstrapped testLedger ∧ AvailableNonneg testLedger ∧ TrackedNonneg testLedger ∧
      ∀ e ∈ podRequests testPodHuge, 0 ≤ e.2.nano) ∧
    GetPodReq testPodHuge testLedger.ResTypeToID (List.replicate 6 0) =
      some [-1000, 0, 1, 0, 0, 0] ∧
    (runEvents testLedger
        [Event.reserve testPodHuge "node0",
         Event.reserve (GetPod "pod1" 3000 1000 "node0" PodPending) "node0",
         Event.unreserve testPodHuge "node0"]).map
      (fun gr => (AvailableOf gr "node0", decide (AvailableNonneg gr))) =
      some (some [-1000, 4000, 9, 0, 0, 0], false) := by
  refine ⟨⟨by decide, by decide, by decide, by decide⟩, by decide, ?_, by decide, by decide,
    by decide, ⟨by decide, by decide, by decide, by decide⟩, by decide, by decide⟩
  exact List.Perm.swap _ _ _

/-- C25 (evaluation). On the bootstrapped test ledger a pod asks for 1 cpu and
5000 units of a name that is not registered.  A walk that visits cpu last
encodes 1000 milli-cpu, a walk that visits it first ends with 5000 in the cpu
slot.  `Reserve` with the first walk admits the pod on `node0`, whose 2000
milli-cpu are free; the batch of size one with the second walk refuses it and
leaves the ledger as it was; and `Reserve` itself refuses it with the second
walk. -/
theorem providers_disagree :
    Bootstrapped testLedger ∧
    List.Perm [("example.com/foo", NewQuantity 5000), (ResourceCPU, NewQuantity 1)]
      (podRequests testPodFoo) ∧
    GetPodReq.walk (podRequests testPodFoo) testLedger.ResTypeToID (List.replicate 6 0) =
      some [5000, 0, 1, 0, 0, 0] ∧
    GetPodReq.walk [("example.com/foo", NewQuantity 5000), (ResourceCPU, NewQuantity 1)]
      testLedger.ResTypeToID (List.replicate 6 0) = some [1000, 0, 1, 0, 0, 0] ∧
    (Reserve.walk testLedger testPodFoo "node0"
        [("example.com/foo", NewQuantity 5000), (ResourceCPU, NewQuantity 1)]
        [("example.com/foo", NewQuantity 5000), (ResourceCPU, NewQuantity 1)]).map
      (fun r => (r.1, podOn r.2 "NS1-podB" "node0")) = some ("", true) ∧
    ReservePods.walk testLedger [testPodFoo] ["node0"] [podRequests testPodFoo]
        [podRequests testPodFoo] =
      some ({ FailedPods := ["podB"], Error := "Node does not have enough resource" },
        testLedger) ∧
    Reserve.walk testLedger testPodFoo "node0" (podRequests testPodFoo)
        (podRequests testPodFoo) = some ("Resource is not enough.", testLedger) := by
  refine ⟨by decide, ?_, by decide, by decide, by decide, by decide, by decide⟩
  exact List.Perm.swap _ _ _

/-- Every ledger reached from the ledger of `NewLocalReserve`, whatever the
listers return at each operation, has shaped node ledgers. -/
theorem Shaped_reachable (nodeLister : Option (List Node)) (podLister : Option (List Pod))
    (steps : List ((Option (List Node) × Option (List Pod)) × Event)) (gr : GloalReserve)
    (h : runLive (NewLocalReserve nodeLister podLister) steps = some gr) : Shaped gr :=
  Shaped_live steps _ gr (Shaped_new nodeLister podLister) h

/-- On a sound ledger every cached node is shaped and its vectors hold every
index that `GetPodReq` writes, for every pod. -/
theorem Sound_encodable (gr : GloalReserve) (hs : Sound gr) (pod : Pod) :
    ∀ e ∈ gr.NodeCache, NodeShaped e.2 ∧ Encodable gr.ResTypeToID pod e.2.Capa.length := by
  intro e he
  have hpos : 0 < gr.ResTypeMaxKind := by
    by_contra hz
    have := Sound_empty gr hs (by omega)
    rw [this] at he
    cases he
  have hwf := Sound_wf gr hs hpos
  have hn := hs.2.2.2.2.1 e he
  have hlen : e.2.Capa.length = gr.ResTypeMaxKind := hn.1
  refine ⟨?_, ?_, ?_⟩
  · show NodeWF e.2.Capa.length e.2
    rw [hlen]; exact hn
  · intro r _
    rw [hlen]
    exact regIndex_lt gr.ResTypeToID gr.ResTypeMaxKind hpos hwf.2.1 r.1
  · rw [hlen]
    exact regIndex_lt gr.ResTypeToID gr.ResTypeMaxKind hpos hwf.2.1 _

end reserve
